import Mathlib

/-!
# Repeat resolver of the de Bruijn assembler (`repeat_resolver.hpp`)

A shallow embedding of `debruijn_graph::RepeatResolver` and theorems about it.

* Identifiers (`VertexId`, `EdgeId`) are natural numbers; `0` plays the role of the
  null handle `EdgeId(NULL)`.
* `double` values are exact rationals, `int(x)` is truncation towards zero.
* `std::map` / `std::set` are key-sorted association lists, so that iteration
  visits the keys in increasing order as in the source.
* The graph class and the paired-info container live outside
  `repeat_resolver.hpp`; they are modelled from the specification and marked so.
* `VERIFY(0)` in `conj_wrap` for a non-conjugate graph is recorded in the sticky
  flag `verify_failed` of the resolver state.
-/

namespace debruijn_graph

abbrev VertexId := Nat
abbrev EdgeId := Nat

/-! ## `std::map` and `std::set` with natural-number keys -/

/-- A `std::map<Nat, β>`: association list kept sorted by key. -/
abbrev StdMap (β : Type) := List (Nat × β)

namespace StdMap

/-- The call `m.find(k)`: the mapped value, `none` standing for `m.end()`. -/
def find {β : Type} : StdMap β → Nat → Option β
  | [], _ => none
  | (k', v) :: t, k => if k' = k then some v else find t k

/-- The assignment `m[k] = v`: overwrite or insert at the sorted position. -/
def put {β : Type} : StdMap β → Nat → β → StdMap β
  | [], k, v => [(k, v)]
  | (k', v') :: t, k, v =>
    if k < k' then (k, v) :: (k', v') :: t
    else if k = k' then (k, v) :: t
    else (k', v') :: put t k v

/-- The call `m.insert(make_pair(k, v))`: no effect when the key is present. -/
def insert {β : Type} (m : StdMap β) (k : Nat) (v : β) : StdMap β :=
  match find m k with
  | some _ => m
  | none => put m k v

/-- Reading `m[k]` as an rvalue: the value, default-constructed when absent. -/
def get {β : Type} (m : StdMap β) (k : Nat) (dflt : β) : β :=
  (find m k).getD dflt

/-- The map after evaluating `m[k]`: a missing key is inserted with the default value. -/
def touch {β : Type} (m : StdMap β) (k : Nat) (dflt : β) : StdMap β :=
  insert m k dflt

/-- The key list in iteration order. -/
def keys {β : Type} (m : StdMap β) : List Nat := m.map Prod.fst

end StdMap

/-- A `std::set<Nat>`: sorted list without repetition. -/
abbrev StdSet := List Nat

namespace StdSet

/-- The call `s.insert(k)`. -/
def insert : StdSet → Nat → StdSet
  | [], k => [k]
  | k' :: t, k =>
    if k < k' then k :: k' :: t
    else if k = k' then k' :: t
    else k' :: insert t k

/-- The call `s.erase(k)`. -/
def erase (s : StdSet) (k : Nat) : StdSet := s.filter (fun x => x ≠ k)

/-- The test `s.find(k) != s.end()`. -/
def contains (s : StdSet) (k : Nat) : Bool := decide (k ∈ s)

end StdSet

/-- The conversion `int(x)` of a `double`: truncation towards zero. A value outside the
range of `int`, for which the conversion is undefined in the source, is not cut down. -/
def truncToInt (x : ℚ) : Int := Int.tdiv x.num (x.den : Int)

/-- The quotient `a / b` of two naturals rounded to the nearest integer, ties to even. -/
def roundHalfEven (a b : Nat) : Nat :=
  if 2 * (a % b) < b then a / b
  else if b < 2 * (a % b) then a / b + 1
  else if (a / b) % 2 = 0 then a / b
  else a / b + 1

/-- The position of the leading bit of `n` (`0` for `n < 2`), found by halving; the first
argument bounds the number of halvings. -/
def log2F : Nat → Nat → Nat
  | 0, _ => 0
  | f + 1, n => if n < 2 then 0 else log2F f (n / 2) + 1

/-- The scale `k` for which `(n / d) * 2 ^ k` lies in `[2 ^ 52, 2 ^ 53)`, for positive `n`
and `d`. -/
def binScale (n d : Nat) : Int :=
  if d * 2 ^ log2F n n ≤ n * 2 ^ log2F d d
  then 52 + (log2F d d : Int) - (log2F n n : Int)
  else 53 + (log2F d d : Int) - (log2F n n : Int)

/-- The `double` that an arithmetic operation on `double` returns when its exact result
is `x`: IEEE 754 binary64, round to nearest, ties to even (a significand of 53 bits). The
exponent range is taken as unbounded: overflow, subnormal numbers, infinities and NaN are
not represented. -/
def roundDouble (x : ℚ) : ℚ :=
  if x.num = 0 then 0
  else
    let k := binScale x.num.natAbs x.den
    let m := roundHalfEven (x.num.natAbs * 2 ^ k.toNat) (x.den * 2 ^ (-k).toNat)
    mkRat (x.num.sign * (m : Int) * 2 ^ (-k).toNat) (2 ^ k.toNat)

/-- The `double` accumulator after the statements `acc += w` for the values `w` of `ws` in
order, started at `a`. -/
def doubleSumFrom (a : ℚ) (ws : List ℚ) : ℚ :=
  ws.foldl (fun acc w => roundDouble (acc + w)) a

/-! ## Paired-distance index -/

/-- A `PairInfo<EdgeId>`: `first` is keyed in the working graph, `second` in the
original graph. -/
structure PairInfo where
  first : EdgeId
  second : EdgeId
  d : ℚ
  weight : ℚ
  variance : ℚ
deriving DecidableEq

/-- Modelled from the spec: the paired-distance index `PairInfoIndexData`
(`omni/paired_info.hpp`), a collection of observations. -/
abbrev MixedData := List PairInfo

namespace MixedData

/-- Modelled from the spec: `addPairInfo(obs)`; repeated insertion is tolerated. -/
def AddPairInfo (data : MixedData) (pi : PairInfo) : MixedData := data ++ [pi]

/-- Modelled from the spec: `getEdgeInfos(edge)`, the observations keyed by `edge`. -/
def GetEdgeInfos (data : MixedData) (e : EdgeId) : List PairInfo :=
  data.filter (fun p => p.first = e)

/-- Modelled from the spec: `deleteEdgeInfo(edge)` drops all observations keyed by
that edge. -/
def DeleteEdgeInfo (data : MixedData) (e : EdgeId) : MixedData :=
  data.filter (fun p => p.first ≠ e)

/-- Modelled from the spec: `replaceFirstEdge(obs, newEdge)` re-keys an observation:
it is stored under `newEdge` and no longer under its old key. -/
def ReplaceFirstEdge (data : MixedData) (pi : PairInfo) (e : EdgeId) : MixedData :=
  data.filter (fun p => p ≠ pi) ++ [{ pi with first := e }]

end MixedData

/-! ## Graph abstraction -/

/-- A vertex of the graph with its conjugate partner (itself when the graph is not
conjugate-typed). -/
structure VertexRec where
  id : VertexId
  conj : VertexId
deriving DecidableEq

/-- An edge: endpoints, nucleotide sequence, raw coverage counter and conjugate. -/
structure EdgeRec where
  id : EdgeId
  start : VertexId
  finish : VertexId
  nucls : List Nat
  cov : Int
  conj : EdgeId
deriving DecidableEq

/-- Modelled from the spec: the consumed graph abstraction (`omni/omnigraph.hpp`,
`new_debruijn.hpp`), a directed multigraph with optional conjugate duality. -/
structure Graph where
  conjugate_typed : Bool
  vertices : List VertexRec
  edges : List EdgeRec
  fresh : Nat
deriving DecidableEq

namespace Graph

/-- Look up an edge record by identifier. -/
def edge (g : Graph) (e : EdgeId) : Option EdgeRec := g.edges.find? (fun r => r.id = e)

/-- Look up a vertex record by identifier. -/
def vertex (g : Graph) (v : VertexId) : Option VertexRec :=
  g.vertices.find? (fun r => r.id = v)

/-- The identifiers of the live vertices, in creation order. -/
def vertexIds (g : Graph) : List VertexId := g.vertices.map (fun r => r.id)

/-- The identifiers of the live edges, in creation order. -/
def edgeIds (g : Graph) : List EdgeId := g.edges.map (fun r => r.id)

/-- Modelled from the spec: `edgeStart`. -/
def EdgeStart (g : Graph) (e : EdgeId) : VertexId := ((g.edge e).map (fun r => r.start)).getD 0

/-- Modelled from the spec: `edgeEnd`. -/
def EdgeEnd (g : Graph) (e : EdgeId) : VertexId := ((g.edge e).map (fun r => r.finish)).getD 0

/-- Modelled from the spec: `EdgeNucls`, the sequence handed to `addEdge`. -/
def EdgeNucls (g : Graph) (e : EdgeId) : List Nat := ((g.edge e).map (fun r => r.nucls)).getD []

/-- Modelled from the spec: `length(e)`, the nucleotide length of the edge. -/
def length (g : Graph) (e : EdgeId) : Nat := (g.EdgeNucls e).length

/-- The raw coverage counter written by `SetCoverage`. -/
def rawCoverage (g : Graph) (e : EdgeId) : Int := ((g.edge e).map (fun r => r.cov)).getD 0

/-- Modelled from the spec: `coverage get`, the floating coverage value of an edge
(raw counter per nucleotide, a `double` quotient). -/
def coverage (g : Graph) (e : EdgeId) : ℚ :=
  roundDouble ((g.rawCoverage e : ℚ) / (g.length e : ℚ))

/-- Modelled from the spec: `outgoingEdges(v)`. -/
def OutgoingEdges (g : Graph) (v : VertexId) : List EdgeId :=
  (g.edges.filter (fun r => r.start = v)).map (fun r => r.id)

/-- Modelled from the spec: `incomingEdges(v)`. -/
def IncomingEdges (g : Graph) (v : VertexId) : List EdgeId :=
  (g.edges.filter (fun r => r.finish = v)).map (fun r => r.id)

/-- The count `OutgoingEdgeCount(v)`. -/
def OutgoingEdgeCount (g : Graph) (v : VertexId) : Nat := (g.OutgoingEdges v).length

/-- The count `IncomingEdgeCount(v)`. -/
def IncomingEdgeCount (g : Graph) (v : VertexId) : Nat := (g.IncomingEdges v).length

/-- Modelled from the spec: `conjugate(v)` on vertices (the lookup table). -/
def conjugateV (g : Graph) (v : VertexId) : VertexId := ((g.vertex v).map (fun r => r.conj)).getD v

/-- Modelled from the spec: `conjugate(e)` on edges (the lookup table). -/
def conjugateE (g : Graph) (e : EdgeId) : EdgeId := ((g.edge e).map (fun r => r.conj)).getD e

/-- The reverse complement of a nucleotide sequence (codes 0..3). -/
def revComp (s : List Nat) : List Nat := (s.map (fun x => 3 - x)).reverse

/-- Modelled from the spec: `addVertex`; a conjugate-typed graph creates the vertex
together with its conjugate partner. Returns the new vertex. -/
def AddVertex (g : Graph) : Graph × VertexId :=
  if g.conjugate_typed then
    ({ g with vertices := g.vertices ++ [⟨g.fresh, g.fresh + 1⟩, ⟨g.fresh + 1, g.fresh⟩],
              fresh := g.fresh + 2 }, g.fresh)
  else
    ({ g with vertices := g.vertices ++ [⟨g.fresh, g.fresh⟩], fresh := g.fresh + 1 }, g.fresh)

/-- Creation of one edge with a given raw coverage; a conjugate-typed graph creates
the mirror edge from `conjugate(end)` to `conjugate(start)` as well. -/
def addEdgeCov (g : Graph) (s t : VertexId) (nucls : List Nat) (cov : Int) : Graph × EdgeId :=
  if g.conjugate_typed then
    ({ g with edges := g.edges ++
                [⟨g.fresh, s, t, nucls, cov, g.fresh + 1⟩,
                 ⟨g.fresh + 1, g.conjugateV t, g.conjugateV s, revComp nucls, cov, g.fresh⟩],
              fresh := g.fresh + 2 }, g.fresh)
  else
    ({ g with edges := g.edges ++ [⟨g.fresh, s, t, nucls, cov, g.fresh⟩],
              fresh := g.fresh + 1 }, g.fresh)

/-- Modelled from the spec: `addEdge(start, end, sequence)`. -/
def AddEdge (g : Graph) (s t : VertexId) (nucls : List Nat) : Graph × EdgeId :=
  g.addEdgeCov s t nucls 0

/-- Modelled from the spec: `coverage set` (`coverage_index().SetCoverage(e, cov)`),
which writes the raw counter of the one edge `e`. -/
def SetCoverage (g : Graph) (e : EdgeId) (cov : Int) : Graph :=
  { g with edges := g.edges.map (fun r => if r.id = e then { r with cov := cov } else r) }

/-- Modelled from the spec: `deleteEdge`; mirrored on the conjugate edge when the
graph is conjugate-typed. -/
def DeleteEdge (g : Graph) (e : EdgeId) : Graph :=
  if g.conjugate_typed then
    { g with edges := g.edges.filter (fun r => r.id ≠ e ∧ r.id ≠ g.conjugateE e) }
  else
    { g with edges := g.edges.filter (fun r => r.id ≠ e) }

/-- Modelled from the spec: `deleteVertex`; mirrored on the conjugate vertex when the
graph is conjugate-typed. -/
def DeleteVertex (g : Graph) (v : VertexId) : Graph :=
  if g.conjugate_typed then
    { g with vertices := g.vertices.filter (fun r => r.id ≠ v ∧ r.id ≠ g.conjugateV v) }
  else
    { g with vertices := g.vertices.filter (fun r => r.id ≠ v) }

/-- Modelled from the spec: `forceDeleteVertex`, the forced delete that ignores the
remaining degree: the incident edges go first, then the vertex. -/
def ForceDeleteVertex (g : Graph) (v : VertexId) : Graph :=
  let g1 := (g.OutgoingEdges v ++ g.IncomingEdges v).foldl DeleteEdge g
  g1.DeleteVertex v

/-- One step of `splitVertex`: clone edge `e` so that it points at the new vertex
`nv` instead of `v`, keeping the other endpoint, with the weighted share of the
raw coverage (a `double` product, cut down to an integer). -/
def cloneEdge (v nv : VertexId) (acc : Graph × List (EdgeId × EdgeId)) (ec : EdgeId × ℚ) :
    Graph × List (EdgeId × EdgeId) :=
  let g := acc.1
  let s := if g.EdgeStart ec.1 = v then nv else g.EdgeStart ec.1
  let t := if g.EdgeEnd ec.1 = v then nv else g.EdgeEnd ec.1
  let r := g.addEdgeCov s t (g.EdgeNucls ec.1)
    (Int.floor (roundDouble ((g.rawCoverage ec.1 : ℚ) * ec.2)))
  (r.1, acc.2 ++ [(ec.1, r.2)])

/-- Modelled from the spec: `splitVertex(v, edgeSubset, weights) -> (newVertex,
mapping old-edge->new-edge)`; one new edge per input edge pointing at the new
vertex, the non-split endpoint preserved. The structural precondition is tested by
the caller. -/
def SplitVertex (g : Graph) (v : VertexId) (splittingEdges : List EdgeId)
    (split_coefficients : List ℚ) : Graph × VertexId × List (EdgeId × EdgeId) :=
  let a := g.AddVertex
  let r := (splittingEdges.zip split_coefficients).foldl (cloneEdge v a.2) (a.1, [])
  (r.1, a.2, r.2)

end Graph

/-! ## Configuration and external collaborators -/

/-- The configuration values read through `cfg::get()`. -/
structure Config where
  rr_max_distance : Int
  rr_symmetric_resolve : Bool
  rr_near_vertex : Int
  rr_mode : Int
  rr_max_repeat_length : Nat
  rr_inresolve_cutoff_proportion : ℚ
  ds_avg_coverage : Option ℚ
  ds_IS : ℚ
  ds_RL : ℚ
  simp_ec_max_coverage : ℚ

/-- The collaborators of the resolver that are defined outside `repeat_resolver.hpp`
and are not fixed by the specification; they are parameters of the development. -/
structure Env where
  cfg : Config
  /-- The structural precondition `Graph::SplitCondition(v, edges)`. -/
  SplitCondition : Graph → VertexId → List EdgeId → Bool
  /-- The result `dij.GetDistances()` of `BoundedDijkstra(graph, depth).run(start)`. -/
  BoundedDijkstra : Graph → Int → VertexId → List (VertexId × Nat)
  /-- The component sequence of `LongEdgesExclusiveSplitter(graph, IS)`. -/
  splitterComponents : Graph → List (List VertexId)
  /-- The integer identifiers `int_id` / `ReturnIntId` of working-graph vertices and edges. -/
  new_int_id : Nat → Int
  /-- The integer identifiers of original-graph edges. -/
  old_int_id : Nat → Int
  /-- The iteration order of an `unordered_map<int, VertexId>` with the given content. -/
  unorderedIteration : List (Int × VertexId) → List (Int × VertexId)

/-- The record `EdgeInfo`: one evidence occurrence at the vertex being resolved. -/
structure EdgeInfo where
  lp : PairInfo
  dir : Int
  edge : EdgeId
  d : ℚ
deriving DecidableEq

/-- The member `EdgeInfo::isClose`. -/
def EdgeInfo.isClose (a b max_diff : ℚ) : Bool := decide (|a - b| < max_diff)

/-- The cache of `FastDistanceCounter`: source vertex to distance map. -/
abbrev FastDistanceCounter := StdMap (StdMap Nat)

/-- The method `FastDistanceCounter::GetDistances(start, end)` over graph `graph_` with
depth `depth_`; returns the distance and the updated cache. -/
def FastDistanceCounter.GetDistances (env : Env) (graph_ : Graph) (depth_ : Int)
    (distances : FastDistanceCounter) (start finish : VertexId) : Int × FastDistanceCounter :=
  let distances1 :=
    match StdMap.find distances start with
    | none =>
      let inserting_map : StdMap Nat :=
        (env.BoundedDijkstra graph_ depth_ start).foldl (fun m p => StdMap.insert m p.1 p.2) []
      StdMap.insert distances start inserting_map
    | some _ => distances
  match StdMap.find (StdMap.get distances1 start []) finish with
  | none => (1000000000, distances1)
  | some x => ((x : Int), distances1)

/-- The state of a `RepeatResolver` object. The handlers that only record
identifiers and positions for output are left out; `split_calls` is a ghost trace
of the arguments of every `SplitVertex` call. -/
structure RepeatResolver where
  new_graph : Graph
  old_graph : Graph
  edge_info_colors : List Int
  edge_infos : List EdgeInfo
  paired_di_data : MixedData
  vertex_labels : StdMap VertexId
  edge_labels : StdMap EdgeId
  cheating_mode : Int
  local_cheating_edges : StdMap Int
  global_cheating_edges : StdSet
  rc_mode : Bool
  near_vertex : Int
  sum_count : Int
  distance_counter : FastDistanceCounter
  verify_failed : Bool
  split_calls : List (VertexId × List EdgeId × List ℚ)
deriving DecidableEq

/-- The overloads `conj_wrap(g, v)`: the conjugate in a conjugate graph; for a
non-conjugate graph `VERIFY(0); return v;`. -/
def conj_wrap_vertex (g : Graph) (v : VertexId) : VertexId :=
  if g.conjugate_typed then g.conjugateV v else v

/-- The overloads `conj_wrap(g, e)` on edges. -/
def conj_wrap_edge (g : Graph) (e : EdgeId) : EdgeId :=
  if g.conjugate_typed then g.conjugateE e else e

/-- Whether a call of `conj_wrap` on `g` runs into `VERIFY(0)`. -/
def conj_wrap_aborts (g : Graph) : Bool := !g.conjugate_typed

/-- The method `WrappedSetCoverage(e, cov)` on the working graph; the second
component tells whether `conj_wrap` was called on a non-conjugate graph. -/
def WrappedSetCoverage (rc_mode : Bool) (new_graph : Graph) (e : EdgeId) (cov : Int) :
    Graph × Bool :=
  if rc_mode = false then
    (new_graph.SetCoverage e cov, false)
  else
    let g1 := new_graph.SetCoverage e cov
    let rc_e := conj_wrap_edge g1 e
    (g1.SetCoverage rc_e cov, conj_wrap_aborts g1)

/-! ## Constructor -/

/-- The local variables of the vertex-copy loop of the constructor. -/
structure VertexCopy where
  new_graph : Graph
  vertex_labels : StdMap VertexId
  old_to_new : StdMap VertexId
  rc_vertices : StdSet
  verify_failed : Bool

/-- One iteration of `for (auto v_iter = vertices.begin(); ...)` (lines 284-311). -/
def copyVertex (rc_mode : Bool) (old_graph : Graph) (st : VertexCopy) (v : VertexId) :
    VertexCopy :=
  let skip : Bool := rc_mode && StdSet.contains st.rc_vertices v
  if skip then st
  else
    let st1 : VertexCopy :=
      if rc_mode then
        { st with rc_vertices := StdSet.insert st.rc_vertices (conj_wrap_vertex old_graph v),
                  verify_failed := st.verify_failed || conj_wrap_aborts old_graph }
      else st
    let degree := old_graph.IncomingEdgeCount v + old_graph.OutgoingEdgeCount v
    if degree > 0 then
      let a := st1.new_graph.AddVertex
      let new_vertex := a.2
      let st2 : VertexCopy :=
        { st1 with new_graph := a.1,
                   vertex_labels := StdMap.put st1.vertex_labels new_vertex v,
                   old_to_new := StdMap.put st1.old_to_new v new_vertex }
      if rc_mode then
        let new_rc_vertex := conj_wrap_vertex st2.new_graph new_vertex
        let old_rc_vertex := conj_wrap_vertex old_graph v
        { st2 with vertex_labels := StdMap.put st2.vertex_labels new_rc_vertex old_rc_vertex,
                   old_to_new := StdMap.put st2.old_to_new old_rc_vertex new_rc_vertex,
                   verify_failed := st2.verify_failed || conj_wrap_aborts st2.new_graph
                     || conj_wrap_aborts old_graph }
      else st2
    else st1

/-- The local variables of the edge-copy loop of the constructor. -/
structure EdgeCopy where
  new_graph : Graph
  edge_labels : StdMap EdgeId
  old_to_new : StdMap VertexId
  old_to_new_edge : StdMap EdgeId
  rc_edges : StdSet
  verify_failed : Bool

/-- One iteration of `for (auto e_iter = edges.begin(); ...)` (lines 313-345). -/
def copyEdge (rc_mode : Bool) (old_graph : Graph) (st : EdgeCopy) (e : EdgeId) : EdgeCopy :=
  let skip : Bool := rc_mode && StdSet.contains st.rc_edges e
  if skip then st
  else
    let st1 : EdgeCopy :=
      if rc_mode then
        { st with rc_edges := StdSet.insert st.rc_edges (conj_wrap_edge old_graph e),
                  verify_failed := st.verify_failed || conj_wrap_aborts old_graph }
      else st
    let s := StdMap.get st1.old_to_new (old_graph.EdgeStart e) 0
    let otn1 := StdMap.touch st1.old_to_new (old_graph.EdgeStart e) 0
    let t := StdMap.get otn1 (old_graph.EdgeEnd e) 0
    let otn2 := StdMap.touch otn1 (old_graph.EdgeEnd e) 0
    let a := st1.new_graph.AddEdge s t (old_graph.EdgeNucls e)
    let new_edge := a.2
    let w := WrappedSetCoverage rc_mode a.1 new_edge
      (truncToInt (roundDouble (old_graph.coverage e * (old_graph.length e : ℚ))))
    let st2 : EdgeCopy :=
      { st1 with new_graph := w.1,
                 old_to_new := otn2,
                 edge_labels := StdMap.put st1.edge_labels new_edge e,
                 old_to_new_edge := StdMap.put st1.old_to_new_edge e new_edge,
                 verify_failed := st1.verify_failed || w.2 }
    if rc_mode then
      let new_rc_edge := conj_wrap_edge st2.new_graph new_edge
      let old_rc_edge := conj_wrap_edge old_graph e
      { st2 with edge_labels := StdMap.put st2.edge_labels new_rc_edge old_rc_edge,
                 old_to_new_edge := StdMap.put st2.old_to_new_edge old_rc_edge new_rc_edge,
                 verify_failed := st2.verify_failed || conj_wrap_aborts st2.new_graph
                   || conj_wrap_aborts old_graph }
    else st2

/-- The body of the paired-info copy loop (lines 355-365) for one observation. -/
def copyPairInfo (old_to_new_edge : StdMap EdgeId) (paired_di_data : MixedData)
    (pi : PairInfo) : MixedData :=
  if (StdMap.find old_to_new_edge pi.first).isSome
      ∧ (StdMap.find old_to_new_edge pi.second).isSome then
    MixedData.AddPairInfo paired_di_data
      ⟨StdMap.get old_to_new_edge pi.first 0, pi.second, pi.d, pi.weight, pi.variance⟩
  else paired_di_data

/-- The flag `cheat_edge` computed by the loop of lines 372-379. -/
def cheat_edge (pi : List PairInfo) : Bool :=
  !(pi.any (fun p => decide (p.weight > 1 / 100000000 ∧ p.d ≥ 0)))

/-- One iteration of the pre-flagging loop (lines 370-385). The map is read with
`operator[]`, so a missing key is inserted with the null edge. -/
def flagCheater (paired_di_data : MixedData) (st : StdMap EdgeId × StdSet) (e : EdgeId) :
    StdMap EdgeId × StdSet :=
  let ne := StdMap.get st.1 e 0
  let m := StdMap.touch st.1 e 0
  if cheat_edge (MixedData.GetEdgeInfos paired_di_data ne) then (m, StdSet.insert st.2 ne)
  else (m, st.2)

/-- The vertex-copy loop of the constructor (lines 270-311), run over the sorted set
`vertices` of the original vertices. -/
def ctorVertexCopy (rc_mode : Bool) (old_graph_ new_graph_ : Graph) : VertexCopy :=
  let vertices : StdSet := old_graph_.vertexIds.foldl StdSet.insert []
  vertices.foldl (copyVertex rc_mode old_graph_)
    { new_graph := new_graph_, vertex_labels := [], old_to_new := [], rc_vertices := [],
      verify_failed := false }

/-- The edge-copy loop of the constructor (lines 277-345), run over the sorted set
`edges` of the original edges. -/
def ctorEdgeCopy (rc_mode : Bool) (old_graph_ new_graph_ : Graph) : EdgeCopy :=
  let vc := ctorVertexCopy rc_mode old_graph_ new_graph_
  let edges : StdSet := old_graph_.edgeIds.foldl StdSet.insert []
  edges.foldl (copyEdge rc_mode old_graph_)
    { new_graph := vc.new_graph, edge_labels := [], old_to_new := vc.old_to_new,
      old_to_new_edge := [], rc_edges := [], verify_failed := vc.verify_failed }

/-- The paired-info copy loop of the constructor (lines 351-366). -/
def ctorPairedData (old_to_new_edge : StdMap EdgeId) (ind : List (List PairInfo)) : MixedData :=
  ind.foldl (fun data pi => pi.foldl (copyPairInfo old_to_new_edge) data) []

/-- The constructor `RepeatResolver::RepeatResolver` (lines 244-389): copies the
original graph `old_graph_` into the working graph `new_graph_`, migrates the
paired index `ind` and pre-flags edges without usable evidence. -/
def RepeatResolver.ctor (env : Env) (old_graph_ : Graph) (ind : List (List PairInfo))
    (new_graph_ : Graph) : RepeatResolver :=
  let rc_mode := env.cfg.rr_symmetric_resolve
  let vc := ctorVertexCopy rc_mode old_graph_ new_graph_
  let ec := ctorEdgeCopy rc_mode old_graph_ new_graph_
  let edges : StdSet := old_graph_.edgeIds.foldl StdSet.insert []
  let paired_di_data := ctorPairedData ec.old_to_new_edge ind
  let fl := edges.foldl (flagCheater paired_di_data) (ec.old_to_new_edge, [])
  { new_graph := ec.new_graph,
    old_graph := old_graph_,
    edge_info_colors := [],
    edge_infos := [],
    paired_di_data := paired_di_data,
    vertex_labels := vc.vertex_labels,
    edge_labels := ec.edge_labels,
    cheating_mode := 0,
    local_cheating_edges := [],
    global_cheating_edges := fl.2,
    rc_mode := rc_mode,
    near_vertex := env.cfg.rr_near_vertex,
    sum_count := 0,
    distance_counter := [],
    verify_failed := ec.verify_failed,
    split_calls := [] }

/-! ## MultiSplit -/

/-- The map `edgeCounts` after the insertion loop of lines 609-613. -/
def initEdgeCounts (edgeIds0 edgeIds1 : List EdgeId) : StdMap Int :=
  (edgeIds0 ++ edgeIds1).foldl (fun m e => StdMap.insert m e 0) []

/-- One iteration of the loop of lines 632-637 on the pair `(k, edgeCounts)`. -/
def countStep (st : Int × StdMap Int) (ic : EdgeInfo × Int) : Int × StdMap Int :=
  let k := if ic.2 ≥ st.1 then ic.2 else st.1
  let le := ic.1.lp.first
  (k, StdMap.put st.2 le (StdMap.get st.2 le 0 + 1))

/-- The loop of lines 632-637: the largest colour `k` and the occurrence count of
every first edge. The vectors `edge_infos` and `edge_info_colors` have equal size
at every call of `MultiSplit`. -/
def countLoop (edge_infos : List EdgeInfo) (edge_info_colors : List Int)
    (edgeCounts : StdMap Int) : Int × StdMap Int :=
  (edge_infos.zip edge_info_colors).foldl countStep (0, edgeCounts)

/-- The inner loop of lines 658-674 for one orphan edge: every observation whose
truncated weight `int w` is not below `1e-8` becomes an occurrence of colour `k`. -/
def addOrphanInfos (k : Int) (st : List EdgeInfo × List Int × Int) (p : PairInfo) :
    List EdgeInfo × List Int × Int :=
  let w : Int := truncToInt p.weight
  if (w : ℚ) < 1 / 100000000 then st
  else
    let dif_d : Int := 0
    (st.1 ++ [⟨p, 0, p.second, (truncToInt (p.d - (dif_d : ℚ)) : ℚ)⟩], st.2.1 ++ [k], st.2.2 + 1)

/-- The loop of lines 651-692 over `edgeCounts`. The result is `none` when an edge
without pair info blocks the split (the `return` of line 687), otherwise the
extended occurrence vectors and the colour counter `k`. -/
def orphanLoop (cheating_mode : Int) (paired_di_data : MixedData) :
    List (Nat × Int) → List EdgeInfo → List Int → Int → Option (List EdgeInfo × List Int × Int)
  | [], edge_infos, edge_info_colors, k => some (edge_infos, edge_info_colors, k)
  | (e, cnt) :: rest, edge_infos, edge_info_colors, k =>
    if cnt = 0 then
      if cheating_mode = 2 then
        let r := (MixedData.GetEdgeInfos paired_di_data e).foldl (addOrphanInfos k)
          (edge_infos, edge_info_colors, 0)
        orphanLoop cheating_mode paired_di_data rest r.1 r.2.1 (if r.2.2 ≠ 0 then k + 1 else k)
      else none
    else orphanLoop cheating_mode paired_di_data rest edge_infos edge_info_colors k

/-- The variable `updated_edge_color` of lines 718-729: the colour of the first
occurrence whose first edge is `e`, `-1` when there is none. -/
def updatedEdgeColor (e : EdgeId) : List (EdgeInfo × Int) → Int
  | [] => -1
  | ic :: rest => if ic.1.lp.first = e then ic.2 else updatedEdgeColor e rest

/-- One iteration of the loop of lines 712-748 on the occurrence vectors and the
paired index. -/
def recolourStep (st : List EdgeInfo × List Int × MixedData) (ec : Nat × Int) :
    List EdgeInfo × List Int × MixedData :=
  let e := ec.1
  if ec.2 > 1 then (st.1, st.2.1, MixedData.DeleteEdgeInfo st.2.2 e)
  else if ec.2 = 1 then
    let zipped := st.1.zip st.2.1
    let updated_edge_color := updatedEdgeColor e zipped
    if updated_edge_color > -1 then
      let kept := zipped.filter (fun ic => ¬ (ic.2 = updated_edge_color ∧ ic.1.lp.first = e))
      let tmp := MixedData.GetEdgeInfos st.2.2 e
      (kept.map Prod.fst ++ tmp.map (fun p => (⟨p, 0, p.second, 0⟩ : EdgeInfo)),
       kept.map Prod.snd ++ tmp.map (fun _ => updated_edge_color),
       MixedData.DeleteEdgeInfo st.2.2 e)
    else st
  else st

/-- The statement `m[le] += w` on a `map<EdgeId, double>`, preceded by the zero
initialisation of a missing key (lines 765-767 and 768-770): the sum is a `double`. -/
def addWeight (m : StdMap ℚ) (le : EdgeId) (w : ℚ) : StdMap ℚ :=
  StdMap.put m le (roundDouble (StdMap.get m le 0 + w))

/-- One iteration of the loop of lines 762-771 on `(old_paired_coverage,
colored_paired_coverage)`; a colour outside `0..k-1` would index the vector out of
bounds and leaves it untouched here. -/
def coverageStep (st : StdMap ℚ × List (StdMap ℚ)) (ic : EdgeInfo × Int) :
    StdMap ℚ × List (StdMap ℚ) :=
  let le := ic.1.lp.first
  let color := ic.2
  (addWeight st.1 le ic.1.lp.weight,
   if 0 ≤ color then
     st.2.modify (fun m => addWeight m le ic.1.lp.weight) color.toNat
   else st.2)

/-- The value `cutting_coverage` of lines 780-787. -/
def cutting_coverage (cfg : Config) : ℚ :=
  match cfg.ds_avg_coverage with
  | some avg => avg * cfg.rr_inresolve_cutoff_proportion / 2
  | none => cfg.simp_ec_max_coverage * cfg.rr_inresolve_cutoff_proportion

/-- The local variables of the split loop of lines 791-916 together with the
resolver state they act on. -/
structure SplitLoop where
  rr : RepeatResolver
  res : List VertexId
  OldCopyCnt : StdMap Int
  LiveNewEdges : List EdgeId
  LiveProtoEdges : List EdgeId
  not_found : Nat
  low_coverage : Nat

/-- One iteration of the loop of lines 794-808: an edge with non-zero coloured
weight is appended to `split_edge`, its share of the total weight, the `double` quotient
`((double) it->second) / old_paired_coverage[it->first]`, to `split_coeff`, and its entry
in `local_cheating_edges`, if any, is incremented. A zero total under a non-zero coloured
weight (an infinite quotient in the source) is not represented. -/
def splitEdgesStep (old_paired_coverage : StdMap ℚ)
    (st : List EdgeId × List ℚ × StdMap Int) (it : Nat × ℚ) :
    List EdgeId × List ℚ × StdMap Int :=
  if it.2 ≠ 0 then
    let lce :=
      match StdMap.find st.2.2 it.1 with
      | some c => StdMap.put st.2.2 it.1 (c + 1)
      | none => st.2.2
    (st.1 ++ [it.1],
     st.2.1 ++ [roundDouble (it.2 / StdMap.get old_paired_coverage it.1 0)], lce)
  else st

/-- The loop of lines 794-808 over the map `colored_paired_coverage[i]`: the vectors
`split_edge` and `split_coeff` and the updated `local_cheating_edges`. -/
def splitEdges (old_paired_coverage : StdMap ℚ) (colored_i : StdMap ℚ)
    (local_cheating_edges : StdMap Int) : List EdgeId × List ℚ × StdMap Int :=
  colored_i.foldl (splitEdgesStep old_paired_coverage) ([], [], local_cheating_edges)

/-- The loop of lines 819-842 for one pair `(old edge, new edge)` returned by
`SplitVertex`, acting on `(old_to_new_edgeId, OldCopyCnt, edge_labels,
global_cheating_edges, not_found)`. -/
def labelStep (cheating_mode : Int) (local_cheating_edges : StdMap Int)
    (st : StdMap EdgeId × StdMap Int × StdMap EdgeId × StdSet × Nat) (it : EdgeId × EdgeId) :
    StdMap EdgeId × StdMap Int × StdMap EdgeId × StdSet × Nat :=
  let old_to_new_edgeId := StdMap.put st.1 it.1 it.2
  let OldCopyCnt := StdMap.put st.2.1 it.1 (StdMap.get st.2.1 it.1 0 + 1)
  let lbl := StdMap.get st.2.2.1 it.1 0
  let edge_labels := StdMap.put (StdMap.touch st.2.2.1 it.1 0) it.2 lbl
  if cheating_mode ≠ 0 then
    match StdMap.find local_cheating_edges it.1 with
    | some c =>
      if c = 0 then (old_to_new_edgeId, OldCopyCnt, edge_labels, st.2.2.2.1, st.2.2.2.2 + 1)
      else (old_to_new_edgeId, OldCopyCnt, edge_labels, StdSet.insert st.2.2.2.1 it.2, st.2.2.2.2)
    | none => (old_to_new_edgeId, OldCopyCnt, edge_labels, st.2.2.2.1, st.2.2.2.2)
  else (old_to_new_edgeId, OldCopyCnt, edge_labels, st.2.2.2.1, st.2.2.2.2)

/-- The test-and-delete `if (IncomingEdgeCount(u) + OutgoingEdgeCount(u) == 0)
DeleteVertex(u)`. -/
def deleteIfIsolated (g : Graph) (u : VertexId) : Graph :=
  if g.IncomingEdgeCount u + g.OutgoingEdgeCount u = 0 then g.DeleteVertex u else g

/-- The loop body of lines 851-906 for one pair returned by `SplitVertex`: a new
edge below `cutting_coverage` is deleted with its index entries, otherwise it is
recorded as live. -/
def pruneStep (cutting : ℚ) (st : SplitLoop) (it : EdgeId × EdgeId) : SplitLoop :=
  let rr := st.rr
  if rr.new_graph.coverage it.2 < cutting then
    let cnt := StdMap.put st.OldCopyCnt it.1 (StdMap.get st.OldCopyCnt it.1 0 - 1)
    let pd1 := MixedData.DeleteEdgeInfo rr.paired_di_data it.2
    let gc1 := StdSet.erase rr.global_cheating_edges it.2
    let pd2 := if rr.rc_mode then MixedData.DeleteEdgeInfo pd1 (conj_wrap_edge rr.new_graph it.2)
               else pd1
    let gc2 := if rr.rc_mode then StdSet.erase gc1 (conj_wrap_edge rr.new_graph it.2) else gc1
    let v_start := rr.new_graph.EdgeStart it.2
    let v_end := rr.new_graph.EdgeEnd it.2
    let g1 := rr.new_graph.DeleteEdge it.2
    let same : Bool :=
      if rr.rc_mode then decide (v_start = v_end) || decide (v_start = conj_wrap_vertex g1 v_end)
      else decide (v_start = v_end)
    let g2 := if same then deleteIfIsolated g1 v_start
              else deleteIfIsolated (deleteIfIsolated g1 v_start) v_end
    { st with
      rr := { rr with new_graph := g2, paired_di_data := pd2, global_cheating_edges := gc2,
                      verify_failed := rr.verify_failed
                        || (rr.rc_mode && conj_wrap_aborts rr.new_graph) },
      OldCopyCnt := cnt,
      low_coverage := st.low_coverage + 1 }
  else
    { st with LiveNewEdges := st.LiveNewEdges ++ [it.2],
              LiveProtoEdges := st.LiveProtoEdges ++ [it.1] }

/-- The mirror loop of lines 813-817: in conjugate mode the coverage of every new
edge is written on its conjugate through `WrappedSetCoverage`. -/
def mirrorCoverageStep (st : Graph × Bool) (it : EdgeId × EdgeId) : Graph × Bool :=
  let ce := conj_wrap_edge st.1 it.2
  let w := WrappedSetCoverage true st.1 ce
    (truncToInt (roundDouble (st.1.coverage it.2 * (st.1.length it.2 : ℚ))))
  (w.1, st.2 || conj_wrap_aborts st.1 || w.2)

/-- The loop of lines 844-850: re-key the observations of colour `i` to the new
edges. -/
def replaceStep (i : Int) (old_to_new_edgeId : StdMap EdgeId) (data : MixedData)
    (ic : EdgeInfo × Int) : MixedData :=
  if ic.2 = i then MixedData.ReplaceFirstEdge data ic.1.lp (StdMap.get old_to_new_edgeId ic.1.lp.first 0)
  else data

/-- The body of the colour loop of lines 791-916 for colour `i`. -/
def splitColour (env : Env) (v : VertexId) (old_paired_coverage : StdMap ℚ)
    (colored_paired_coverage : List (StdMap ℚ)) (st : SplitLoop) (i : Nat) : SplitLoop :=
  let rr := st.rr
  let se := splitEdges old_paired_coverage (colored_paired_coverage.getD i [])
    rr.local_cheating_edges
  let split_edge := se.1
  let split_coeff := se.2.1
  let rr1 := { rr with local_cheating_edges := se.2.2 }
  if split_edge.length > 0 ∧ env.SplitCondition rr1.new_graph v split_edge = true then
    let split_pair := rr1.new_graph.SplitVertex v split_edge split_coeff
    let res := st.res ++ [split_pair.2.1]
    let mc : Graph × Bool :=
      if rr1.rc_mode then split_pair.2.2.foldl mirrorCoverageStep (split_pair.1, false)
      else (split_pair.1, false)
    let lb := split_pair.2.2.foldl (labelStep rr1.cheating_mode rr1.local_cheating_edges)
      (([] : StdMap EdgeId), st.OldCopyCnt, rr1.edge_labels, rr1.global_cheating_edges,
        st.not_found)
    let pd := (rr1.edge_infos.zip rr1.edge_info_colors).foldl (replaceStep (i : Int) lb.1)
      rr1.paired_di_data
    let rr2 : RepeatResolver :=
      { rr1 with new_graph := mc.1,
                 edge_labels := lb.2.2.1,
                 global_cheating_edges := lb.2.2.2.1,
                 paired_di_data := pd,
                 verify_failed := rr1.verify_failed || mc.2,
                 split_calls := rr1.split_calls ++ [(v, split_edge, split_coeff)] }
    split_pair.2.2.foldl (pruneStep (cutting_coverage env.cfg))
      { st with rr := rr2, res := res, OldCopyCnt := lb.2.1, not_found := lb.2.2.2.2 }
  else { st with rr := rr1 }

/-- The loop of lines 927-948 (conjugate mode only) for the index `i` of
`LiveNewEdges`. -/
def processCheaterStep (OldCopyCnt : StdMap Int) (rr : RepeatResolver)
    (live : EdgeId × EdgeId) : RepeatResolver :=
  let cnt := StdMap.get OldCopyCnt live.2 0
  if cnt > 1 then
    { rr with global_cheating_edges :=
                StdSet.insert rr.global_cheating_edges (conj_wrap_edge rr.new_graph live.1),
              verify_failed := rr.verify_failed || conj_wrap_aborts rr.new_graph }
  else if cnt = 1 then
    let tmp_ei := conj_wrap_edge rr.new_graph live.2
    let tmp_ei_new := conj_wrap_edge rr.new_graph live.1
    let rr1 := { rr with verify_failed := rr.verify_failed || conj_wrap_aborts rr.new_graph }
    if tmp_ei_new ≠ live.1 then
      let conj_tmp := MixedData.GetEdgeInfos rr1.paired_di_data tmp_ei
      { rr1 with paired_di_data :=
                   conj_tmp.foldl (fun data p => MixedData.ReplaceFirstEdge data p tmp_ei_new)
                     rr1.paired_di_data }
    else rr1
  else rr

/-- The cleanup loop body of lines 951-960 for one original incident edge. -/
def cleanupStep (rr : RepeatResolver) (e : EdgeId) : RepeatResolver :=
  let pd1 := MixedData.DeleteEdgeInfo rr.paired_di_data e
  let gc1 := StdSet.erase rr.global_cheating_edges e
  if rr.rc_mode then
    { rr with paired_di_data := MixedData.DeleteEdgeInfo pd1 (conj_wrap_edge rr.new_graph e),
              global_cheating_edges := StdSet.erase gc1 (conj_wrap_edge rr.new_graph e),
              verify_failed := rr.verify_failed || conj_wrap_aborts rr.new_graph }
  else { rr with paired_di_data := pd1, global_cheating_edges := gc1 }

/-- The loop of lines 712-748 over `edgeCounts`, on the occurrence vectors and the
paired index. -/
def recolourLoop (edgeCounts : StdMap Int) (rr : RepeatResolver) : RepeatResolver :=
  let rc := edgeCounts.foldl recolourStep (rr.edge_infos, rr.edge_info_colors, rr.paired_di_data)
  { rr with edge_infos := rc.1, edge_info_colors := rc.2.1, paired_di_data := rc.2.2 }

/-- The loop of lines 762-771: the maps `old_paired_coverage` and
`colored_paired_coverage` (a vector of `k` maps) of the occurrences `occ`. -/
def coverageLoop (occ : List (EdgeInfo × Int)) (k : Nat) : StdMap ℚ × List (StdMap ℚ) :=
  occ.foldl coverageStep (([] : StdMap ℚ), List.replicate k ([] : StdMap ℚ))

/-- The part of `MultiSplit` behind the guards (lines 712-967), entered with the
colour count `k` and the map `edgeCounts`. -/
def splitPhase (env : Env) (rr1 : RepeatResolver) (edgeCounts : StdMap Int) (k : Int)
    (v : VertexId) : RepeatResolver × List VertexId :=
  let edgeIds0 := rr1.new_graph.OutgoingEdges v
  let edgeIds1 := rr1.new_graph.IncomingEdges v
  let rr2 := recolourLoop edgeCounts rr1
  let cov := coverageLoop (rr2.edge_infos.zip rr2.edge_info_colors) k.toNat
  let sl := (List.range k.toNat).foldl (splitColour env v cov.1 cov.2)
    { rr := rr2, res := [], OldCopyCnt := [], LiveNewEdges := [], LiveProtoEdges := [],
      not_found := 0, low_coverage := 0 }
  let rr3 :=
    if sl.rr.rc_mode then
      (sl.LiveNewEdges.zip sl.LiveProtoEdges).foldl (processCheaterStep sl.OldCopyCnt) sl.rr
    else sl.rr
  let rr4 := (edgeIds0 ++ edgeIds1).foldl cleanupStep rr3
  ({ rr4 with new_graph := rr4.new_graph.ForceDeleteVertex v }, sl.res)

/-- The method `RepeatResolver::MultiSplit(v)` (lines 599-969): the new resolver
state and the returned vector `res`. -/
def MultiSplit (env : Env) (rr : RepeatResolver) (v : VertexId) :
    RepeatResolver × List VertexId :=
  let edgeIds0 := rr.new_graph.OutgoingEdges v
  let edgeIds1 := rr.new_graph.IncomingEdges v
  let edgeCounts0 := initEdgeCounts edgeIds0 edgeIds1
  if ¬ (env.SplitCondition rr.new_graph v edgeIds0 = true
        ∧ env.SplitCondition rr.new_graph v edgeIds1 = true) then (rr, [v])
  else
    let kc := countLoop rr.edge_infos rr.edge_info_colors edgeCounts0
    let edgeCounts := kc.2
    if kc.1 = 0 then (rr, [v])
    else
      match orphanLoop rr.cheating_mode rr.paired_di_data edgeCounts rr.edge_infos
          rr.edge_info_colors kc.1 with
      | none => (rr, [v])
      | some (edge_infos1, edge_info_colors1, k1) =>
        let rr1 := { rr with edge_infos := edge_infos1, edge_info_colors := edge_info_colors1 }
        let k := k1 + 1
        if k = 1 then (rr1, [v])
        else splitPhase env rr1 edgeCounts k v

/-- The occurrences, paired with their colours, that the coverage loop of lines
762-771 reads when `MultiSplit(v)` gets behind its guards (the empty list when it
does not). -/
def splitOccurrences (rr : RepeatResolver) (v : VertexId) : List (EdgeInfo × Int) :=
  let kc := countLoop rr.edge_infos rr.edge_info_colors
    (initEdgeCounts (rr.new_graph.OutgoingEdges v) (rr.new_graph.IncomingEdges v))
  match orphanLoop rr.cheating_mode rr.paired_di_data kc.2 rr.edge_infos
      rr.edge_info_colors kc.1 with
  | none => []
  | some (edge_infos1, edge_info_colors1, _) =>
    let rr2 := recolourLoop kc.2
      { rr with edge_infos := edge_infos1, edge_info_colors := edge_info_colors1 }
    rr2.edge_infos.zip rr2.edge_info_colors

/-- The weights of the occurrences of colour `c` on edge `e`, added up in `double` in the
order of the occurrences: the value `colored_paired_coverage[c][e]`. -/
def colourWeight (occ : List (EdgeInfo × Int)) (c : Int) (e : EdgeId) : ℚ :=
  doubleSumFrom 0
    ((occ.filter (fun ic => ic.2 = c ∧ ic.1.lp.first = e)).map (fun ic => ic.1.lp.weight))

/-- The weights of all occurrences on edge `e`, added up in `double` in the order of the
occurrences: the value `old_paired_coverage[e]`. -/
def totalWeight (occ : List (EdgeInfo × Int)) (e : EdgeId) : ℚ :=
  doubleSumFrom 0 ((occ.filter (fun ic => ic.1.lp.first = e)).map (fun ic => ic.1.lp.weight))

/-- The method `CorrectedAndNotFiltered(new_graph, pair_inf)` (lines 1287-1322); the
observation is passed on uncorrected. -/
def CorrectedAndNotFiltered (env : Env) (rr : RepeatResolver) (pair_inf : PairInfo) :
    Bool × PairInfo :=
  let right_id := pair_inf.second
  let left_id := pair_inf.first
  if pair_inf.d - (rr.new_graph.length left_id : ℚ) > 13 / 10 * env.cfg.ds_IS then
    (false, pair_inf)
  else
    let corrected_info := pair_inf
    if |corrected_info.d - pair_inf.d| > 10 then (false, corrected_info)
    else if corrected_info.d + (rr.old_graph.length right_id : ℚ)
        < 1 / (13 / 10) * (env.cfg.ds_IS - env.cfg.ds_RL) then (false, corrected_info)
    else (true, corrected_info)

/-- The comparator `details::EdgeInfoCompare`. -/
def EdgeInfoCompare (env : Env) (i j : EdgeInfo) : Bool :=
  if env.new_int_id i.lp.first < env.new_int_id j.lp.first then true
  else if env.new_int_id i.lp.first > env.new_int_id j.lp.first then false
  else if env.old_int_id i.lp.second < env.old_int_id j.lp.second then true
  else if env.old_int_id i.lp.second > env.old_int_id j.lp.second then false
  else decide (i.lp.d < j.lp.d)

/-- Insertion of one element into a list sorted by the comparator `lt`. -/
def sortedInsert {α : Type} (lt : α → α → Bool) (x : α) : List α → List α
  | [] => [x]
  | y :: t => if lt x y then x :: y :: t else y :: sortedInsert lt x t

/-- The call `sort(begin, end, lt)`, modelled as a stable insertion sort. -/
def sortBy {α : Type} (lt : α → α → Bool) (l : List α) : List α :=
  l.foldl (fun acc x => sortedInsert lt x acc) []

/-- The loop body of lines 1367-1405 for one observation `tmp[j]` of an incident
edge in direction `dir`, on `(tmp_edge_infos, local_cheating_edges, right_edges)`. -/
def collectInfo (env : Env) (rr : RepeatResolver) (dir : Int)
    (st : List EdgeInfo × StdMap Int × StdSet) (p : PairInfo) :
    List EdgeInfo × StdMap Int × StdSet :=
  if p.weight < 1 / 100000000 then st
  else
    let right_id := p.second
    let left_id := p.first
    let d := p.d
    let dif_d : Int := if dir = 1 then (rr.new_graph.length left_id : Int) else 0
    if d * 1 ≥ -(1 / 100000000) then
      let correction_result := CorrectedAndNotFiltered env rr p
      if correction_result.1 = false then st
      else
        let ei : EdgeInfo := ⟨correction_result.2, dir, right_id, correction_result.2.d - (dif_d : ℚ)⟩
        let trusted_dist : Int := truncToInt (env.cfg.ds_IS - env.cfg.ds_RL)
        if rr.cheating_mode = 2
            ∧ (correction_result.2.d - (dif_d : ℚ) + (rr.old_graph.length right_id : ℚ)
                  < ((trusted_dist - rr.near_vertex : Int) : ℚ)
               ∨ correction_result.2.d - (dif_d : ℚ) > ((trusted_dist + rr.near_vertex : Int) : ℚ))
        then (st.1, StdMap.insert st.2.1 left_id 0, st.2.2)
        else (st.1 ++ [ei], st.2.1, StdSet.insert st.2.2 right_id)
    else st

/-- The loop body of lines 1363-1423 for one incident edge: its accepted
observations are appended to `edge_infos`. -/
def collectEdge (env : Env) (rr : RepeatResolver) (dir : Int)
    (st : List EdgeInfo × StdMap Int × StdSet) (e : EdgeId) :
    List EdgeInfo × StdMap Int × StdSet :=
  let tmp := MixedData.GetEdgeInfos rr.paired_di_data e
  let r := tmp.foldl (collectInfo env rr dir) ([], st.2.1, st.2.2)
  (st.1 ++ r.1, r.2.1, r.2.2)

/-- The method `GenerateVertexPairedInfo(new_graph, paired_data, vid)` (lines
1342-1436): the new state and the returned count of distinct paired edges. -/
def GenerateVertexPairedInfo (env : Env) (rr : RepeatResolver) (vid : VertexId) :
    RepeatResolver × Nat :=
  let edgeIds0 := rr.new_graph.OutgoingEdges vid
  let edgeIds1 := rr.new_graph.IncomingEdges vid
  let r0 := edgeIds0.foldl (collectEdge env rr 0) ([], [], [])
  let r1 := edgeIds1.foldl (collectEdge env rr 1) r0
  ({ rr with edge_infos := sortBy (EdgeInfoCompare env) r1.1,
             local_cheating_edges := r1.2.1 }, r1.2.2.length)

/-! ## Evidence adjacency -/

/-- The method `EdgeInfo::IsEdgesOnDistanceAdjacent` (lines 113-187); returns the
answer and the updated distance cache. -/
def IsEdgesOnDistanceAdjacent (env : Env) (depth : Int) (edge : EdgeId) (d : ℚ)
    (other_edge : EdgeId) (other_d : ℚ) (old_graph : Graph) (max_diff : ℚ) (first_equal : Bool)
    (distance_counter : FastDistanceCounter) : Bool × FastDistanceCounter :=
  let v_s := old_graph.EdgeStart edge
  let v_e := old_graph.EdgeEnd edge
  let other_v_s := old_graph.EdgeStart other_edge
  let other_v_e := old_graph.EdgeEnd other_edge
  let len : Int := old_graph.length edge
  let other_len : Int := old_graph.length other_edge
  let f := FastDistanceCounter.GetDistances env old_graph depth distance_counter v_e other_v_s
  let b := FastDistanceCounter.GetDistances env old_graph depth f.2 other_v_e v_s
  let forward_distance := f.1
  let backward_distance := b.1
  let answer : Bool :=
    if EdgeInfo.isClose (d + (len : ℚ) + (forward_distance : ℚ)) other_d max_diff then true
    else if EdgeInfo.isClose (other_d + (other_len : ℚ) + (backward_distance : ℚ)) d max_diff
      then true
    else if other_edge = edge ∧ EdgeInfo.isClose d other_d max_diff = true then true
    else if first_equal then
      if (v_e = other_v_s ∧ EdgeInfo.isClose (d + (len : ℚ)) other_d max_diff = true)
          ∨ (v_s = other_v_e ∧ EdgeInfo.isClose d (other_d + (other_len : ℚ)) max_diff = true)
          ∨ (other_edge = edge ∧ EdgeInfo.isClose d other_d max_diff = true) then true
      else false
    else false
  (answer, b.2)

/-- The method `EdgeInfo::isAdjacent` (lines 193-224) called on `this_info` with
argument `other_info`, for occurrences whose variances are numbers (on numbers `std::max`
is the maximum); returns the answer and the updated distance cache. The method for a
variance that is NaN is `EdgeInfo.isAdjacentNaN`. -/
def EdgeInfo.isAdjacent (env : Env) (this_info other_info : EdgeInfo) (old_graph new_graph : Graph)
    (distance_counter : FastDistanceCounter) : Bool × FastDistanceCounter :=
  let lp := this_info.lp
  if lp.first ≠ other_info.lp.first
      ∧ new_graph.EdgeStart lp.first ≠ new_graph.EdgeEnd lp.first
      ∧ new_graph.EdgeStart other_info.lp.first ≠ new_graph.EdgeEnd other_info.lp.first
      ∧ (new_graph.EdgeStart lp.first = new_graph.EdgeStart other_info.lp.first
          ∨ new_graph.EdgeEnd lp.first = new_graph.EdgeEnd other_info.lp.first) then
    (false, distance_counter)
  else if lp.first = other_info.lp.first
      ∧ new_graph.length lp.first > env.cfg.rr_max_repeat_length then
    (true, distance_counter)
  else
    let max_diff : ℚ := max lp.variance other_info.lp.variance + 1 / 2 + 1 / 1000000000
    IsEdgesOnDistanceAdjacent env env.cfg.rr_max_distance this_info.edge this_info.d
      other_info.edge other_info.d old_graph max_diff
      (decide (lp.first = other_info.lp.first)) distance_counter

/-! ## Colouring -/

/-- The method `dfs(edge_list, colors, cur_vert, cur_color)` (lines 1268-1285). The
recursion depth is bounded by `fuel`; `none` means the bound was hit. The Boolean
records whether the branch logging `error in dfs` was taken. -/
def dfs : Nat → List (List Nat) → List Int × Bool → Nat → Int → Option (List Int × Bool)
  | 0, _, _, _, _ => none
  | fuel + 1, edge_list, colors, cur_vert, cur_color =>
    (edge_list.getD cur_vert []).foldlM
      (fun (st : List Int × Bool) (n : Nat) =>
        if st.1.getD n 0 > -1 then
          if st.1.getD n 0 ≠ cur_color then some (st.1, true) else some st
        else if n ≠ cur_vert then dfs fuel edge_list st n cur_color
        else some st)
      (colors.1.set cur_vert cur_color, colors.2)

/-- The colouring loop `for (i = 0; i < size; i++) if (colors[i] == -1) { dfs(...);
cur_color++; }` over the indices in `is`. -/
def colourLoop (fuel : Nat) (edge_list : List (List Nat)) :
    List Nat → List Int × Bool → Int → Option ((List Int × Bool) × Int)
  | [], colors, cur_color => some (colors, cur_color)
  | i :: rest, colors, cur_color =>
    if colors.1.getD i 0 = -1 then
      match dfs fuel edge_list colors i cur_color with
      | none => none
      | some colors1 => colourLoop fuel edge_list rest colors1 (cur_color + 1)
    else colourLoop fuel edge_list rest colors cur_color

/-- The statements `neighbours[i].push_back(j); neighbours[j].push_back(i);`. -/
def addNeighbour (neighbours : List (List Nat)) (i j : Nat) : List (List Nat) :=
  (neighbours.modify (fun l => l ++ [j]) i).modify (fun l => l ++ [i]) j

/-- The body of the inner adjacency loop of lines 1504-1516 for the pair `(i, j)`. -/
def adjacencyStep (env : Env) (rr : RepeatResolver) (ei : EdgeInfo) (i : Nat)
    (st : List (List Nat) × FastDistanceCounter) (jej : Nat × EdgeInfo) :
    List (List Nat) × FastDistanceCounter :=
  let a := EdgeInfo.isAdjacent env ei jej.2 rr.old_graph rr.new_graph st.2
  let c1 := if a.1 then (EdgeInfo.isAdjacent env jej.2 ei rr.old_graph rr.new_graph a.2).2 else a.2
  let c := EdgeInfo.isAdjacent env ei jej.2 rr.old_graph rr.new_graph c1
  if c.1 then (addNeighbour st.1 i jej.1, c.2) else (st.1, c.2)

/-- The adjacency loops of lines 1499-1517: the adjacency lists `neighbours` and
the updated distance cache. -/
def buildNeighbours (env : Env) (rr : RepeatResolver) : List (List Nat) × FastDistanceCounter :=
  let indexed := (List.range rr.edge_infos.length).zip rr.edge_infos
  indexed.foldl
    (fun st iei => indexed.foldl (adjacencyStep env rr iei.2 iei.1) st)
    (List.replicate rr.edge_infos.length [], rr.distance_counter)

/-- The method `RectangleResolveVertex(vid, tot_labler)` (lines 1440-1542). The
result is `none` only if the recursion bound of `dfs` is hit. -/
def RectangleResolveVertex (env : Env) (rr : RepeatResolver) (vid : VertexId) :
    Option (RepeatResolver × Nat) :=
  let size := rr.edge_infos.length
  let incident := rr.new_graph.OutgoingEdges vid ++ rr.new_graph.IncomingEdges vid
  if rr.cheating_mode ≠ 0
      ∧ incident.any (fun e => StdSet.contains rr.global_cheating_edges e || decide (size = 0))
        = true then
    some (rr, 1)
  else
    let nb := buildNeighbours env rr
    match colourLoop (size + 1) nb.1 (List.range size) (List.replicate size (-1), false) 0 with
    | none => none
    | some (colors, _) =>
      let r := MultiSplit env
        { rr with edge_info_colors := colors.1, distance_counter := nb.2 } vid
      some (r.1, r.2.length)

/-! ## Fallback resolver -/

/-- The inner loop of lines 1575-1590: the unique partner `second` of occurrence
`ei`, the null edge `0` when there is none or more than one. The Boolean tells
that the loop was left by `break`. -/
def findSecond (ei : EdgeInfo) (st : EdgeId × Bool) (ej : EdgeInfo) : EdgeId × Bool :=
  if st.2 then st
  else if ei.lp.first ≠ ej.lp.first ∧ ei.d = ej.d ∧ ei.lp.second = ej.lp.second then
    if st.1 = 0 then (ej.lp.first, false)
    else if st.1 ≠ ej.lp.first then (0, true)
    else st
  else st

/-- The call `EdgeIdMap[ind].insert(make_pair(edgeIds[ind][i], i))` for all `i`. -/
def edgeIdMap (edgeIds : List EdgeId) : StdMap Nat :=
  (edgeIds.zip (List.range edgeIds.length)).foldl (fun m p => StdMap.insert m p.1 p.2) []

/-- The loop body of lines 1569-1605 for occurrence `ei`. -/
def matchStep (infos : List EdgeInfo) (map0 map1 : StdMap Nat) (counts1 : Nat)
    (neighbours : List (List Nat)) (ei : EdgeInfo) : List (List Nat) :=
  let first := ei.lp.first
  match StdMap.find map0 first with
  | none => neighbours
  | some first_ind =>
    let second := (infos.foldl (findSecond ei) (0, false)).1
    if second ≠ 0 then
      match StdMap.find map1 second with
      | none => neighbours
      | some second_ind => addNeighbour neighbours (first_ind + counts1) second_ind
    else neighbours

/-- The validity check of lines 1619-1629: `bad` after the loop. -/
def cheatBad (cheater_colors : List Int) : Bool :=
  let idx := List.range cheater_colors.length
  let step (st : Bool × Bool) (i : Nat) : Bool × Bool :=
    if st.2 then st
    else
      let alone := !(idx.any (fun j => decide (i ≠ j) &&
        decide (cheater_colors.getD i 0 = cheater_colors.getD j 0)))
      (alone, alone)
  (idx.foldl step (true, false)).1

/-- The recolouring loop of lines 1636-1644 for occurrence `ei` with current colour
`c`. -/
def cheatColour (map0 map1 : StdMap Nat) (counts1 : Nat) (cheater_colors : List Int)
    (eic : EdgeInfo × Int) : Int :=
  match StdMap.find map0 eic.1.lp.first with
  | some i0 => cheater_colors.getD (i0 + counts1) 0
  | none =>
    match StdMap.find map1 eic.1.lp.first with
    | some i1 => cheater_colors.getD i1 0
    | none => eic.2

/-- The method `CheatingResolveVertex(vid)` (lines 1545-1648). The result is `none`
only if the recursion bound of `dfs` is hit. -/
def CheatingResolveVertex (env : Env) (rr : RepeatResolver) (vid : VertexId) :
    Option (RepeatResolver × Nat) :=
  let size := rr.edge_infos.length
  let colors0 := rr.edge_info_colors.take size
    ++ List.replicate (size - rr.edge_info_colors.length) (0 : Int)
  let rr0 := { rr with edge_info_colors := colors0 }
  let edgeIds0 := rr.new_graph.OutgoingEdges vid
  let edgeIds1 := rr.new_graph.IncomingEdges vid
  let map0 := edgeIdMap edgeIds0
  let map1 := edgeIdMap edgeIds1
  let counts0 := edgeIds0.length
  let counts1 := edgeIds1.length
  let neighbours := rr.edge_infos.foldl (matchStep rr.edge_infos map0 map1 counts1)
    (List.replicate (counts1 + counts0) [])
  match colourLoop (counts0 + counts1 + 1) neighbours (List.range (counts0 + counts1))
      (List.replicate (counts0 + counts1) (-1), false) 0 with
  | none => none
  | some (cheater_colors, _) =>
    if cheatBad cheater_colors.1 then some (rr0, 1)
    else
      let colors1 := (rr0.edge_infos.zip rr0.edge_info_colors).map
        (cheatColour map0 map1 counts1 cheater_colors.1)
      let r := MultiSplit env { rr0 with edge_info_colors := colors1 } vid
      some (r.1, r.2.length)

/-! ## Driver -/

/-- The call `vertices.insert(make_pair(key, v))` on an `unordered_map<int, VertexId>`
held as its list of entries: no effect when the key is present. -/
def unorderedInsert (m : List (Int × VertexId)) (key : Int) (v : VertexId) :
    List (Int × VertexId) :=
  if m.any (fun p => decide (p.1 = key)) then m else m ++ [(key, v)]

/-- The method `fillVerticesAuto()` (lines 1032-1044). -/
def fillVerticesAuto (env : Env) (rr : RepeatResolver) : List (Int × VertexId) :=
  rr.new_graph.vertexIds.foldl (fun m v => unorderedInsert m (10000 - env.new_int_id v) v) []

/-- The record `details::VertexCompositId`. -/
structure VertexCompositId where
  Id : VertexId
  intId : Int
  componentId : Int
deriving DecidableEq

/-- The comparator `details::CompositIdCompare`. -/
def CompositIdCompare (i j : VertexCompositId) : Bool :=
  if i.componentId < j.componentId then true
  else if j.componentId < i.componentId then false
  else if i.intId < j.intId then true
  else false

/-- The variable `CompId` of lines 1090-1094: the least integer identifier in the
component `comps` (whose first element is `c0`). -/
def componentId (env : Env) (c0 : VertexId) (comps : List VertexId) : Int :=
  comps.foldl (fun CompId v => if CompId > env.new_int_id v then env.new_int_id v else CompId)
    (env.new_int_id c0)

/-- The loop of lines 1085-1110 over the components delivered by the splitter: it
stops at the first empty component. -/
def fillTemporaryOrderVect (env : Env) : List (List VertexId) → List VertexCompositId
  | [] => []
  | [] :: _ => []
  | (c0 :: cs) :: rest =>
    (c0 :: cs).map (fun v => (⟨v, env.new_int_id v, componentId env c0 cs⟩ : VertexCompositId))
      ++ fillTemporaryOrderVect env rest

/-- The method `fillVerticesComponentsInNonVariableOrder()` (lines 1069-1121). -/
def fillVerticesComponentsInNonVariableOrder (env : Env) (rr : RepeatResolver) :
    List (Int × VertexId) :=
  let TemporaryOrderVect :=
    sortBy CompositIdCompare (fillTemporaryOrderVect env (env.splitterComponents rr.new_graph))
  (TemporaryOrderVect.zip (List.range TemporaryOrderVect.length)).foldl
    (fun m p => unorderedInsert m (p.2 : Int) p.1.Id) []

/-- The body of the per-vertex loop of lines 1190-1242 on the resolver state and
the flag `changed`. The result is `none` only if the recursion bound of `dfs` is
hit. -/
def resolveVertexStep (env : Env) (st : RepeatResolver × Bool) (v : VertexId) :
    Option (RepeatResolver × Bool) :=
  let rr := st.1
  if rr.rc_mode = true ∧ ¬ (v ∈ rr.new_graph.vertexIds) then some st
  else
    let edgeIds0 := rr.new_graph.OutgoingEdges v
    let edgeIds1 := rr.new_graph.IncomingEdges v
    if (edgeIds0 ++ edgeIds1).any (fun e => StdSet.contains rr.global_cheating_edges e) then
      some st
    else
      let g := GenerateVertexPairedInfo env rr v
      let r := if g.1.cheating_mode ≠ 1 then RectangleResolveVertex env g.1 v
               else CheatingResolveVertex env g.1 v
      match r with
      | none => none
      | some (rr1, tcount) =>
        some ({ rr1 with sum_count := rr1.sum_count + (tcount : Int) },
              if tcount > 1 then true else st.2)

/-- One pass of the body of `while (changed)` (lines 1176-1242): the worklist is
filled, then every vertex of it is visited. -/
def sweep (env : Env) (rr : RepeatResolver) : Option (RepeatResolver × Bool) :=
  let vertices :=
    if rr.rc_mode then fillVerticesComponentsInNonVariableOrder env rr
    else fillVerticesAuto env rr
  ((env.unorderedIteration vertices).map Prod.snd).foldlM (resolveVertexStep env) (rr, false)

/-- The loop `while (changed)` of one resolve mode; `fuel` bounds the number of
sweeps and `none` means the bound was hit. -/
def sweepLoop (env : Env) : Nat → RepeatResolver → Option RepeatResolver
  | 0, _ => none
  | fuel + 1, rr =>
    match sweep env rr with
    | none => none
    | some (rr1, changed) => if changed then sweepLoop env fuel rr1 else some rr1

/-- The loop `for (cheating_mode = 0; cheating_mode < cfg::get().rr.mode;
cheating_mode++)` of lines 1169-1245 over the remaining modes. -/
def modeLoop (env : Env) (fuel : Nat) : List Nat → RepeatResolver → Option RepeatResolver
  | [], rr => some { rr with cheating_mode := max 0 env.cfg.rr_mode }
  | m :: rest, rr =>
    match sweepLoop env fuel { rr with cheating_mode := (m : Int) } with
    | none => none
    | some rr1 => modeLoop env fuel rest rr1

/-- The method `ResolveRepeats(output_folder)` (lines 1155-1266); `fuel` bounds the
number of sweeps per mode, `none` means that bound or the one of `dfs` was hit. -/
def ResolveRepeats (env : Env) (fuel : Nat) (rr : RepeatResolver) : Option RepeatResolver :=
  modeLoop env fuel (List.range env.cfg.rr_mode.toNat) { rr with sum_count := 0 }

/-! ## Predicates used in the statements -/

/-- The conjugation of the original graph pairs its edges up (conjugate mode). -/
def OldConjOk (old : Graph) : Prop :=
  ∀ e ∈ old.edgeIds, old.conjugateE e ≠ e ∧ old.conjugateE (old.conjugateE e) = e
    ∧ old.conjugateE e ∈ old.edgeIds

/-- The invariant of the edge-copy loop after the old edges `P` have been visited. -/
structure EdgeCopyInv (rc : Bool) (old : Graph) (P : List EdgeId) (st : EdgeCopy) : Prop where
  typed : st.new_graph.conjugate_typed = rc
  fresh : ∀ id ∈ st.new_graph.edgeIds, id < st.new_graph.fresh
  surj : ∀ id ∈ st.new_graph.edgeIds, ∃ x, StdMap.find st.old_to_new_edge x = some id
  keys : ∀ x, (StdMap.find st.old_to_new_edge x).isSome → x ∈ P ∨ x ∈ st.rc_edges
  rcs : ∀ x ∈ st.rc_edges, rc = true ∧ ∃ y ∈ P, x = old.conjugateE y
  done : rc = true → ∀ y ∈ P, y ∈ st.rc_edges ∨ old.conjugateE y ∈ st.rc_edges

/-- The preconditions of the constructor: the working graph handed in has no edge
yet, both graphs are of the flavour selected by `rr.symmetric_resolve`, and in
conjugate mode the conjugation of the original graph pairs its edges up. -/
structure CtorPre (env : Env) (old_graph_ new_graph_ : Graph) : Prop where
  new_edges : new_graph_.edges = []
  new_typed : new_graph_.conjugate_typed = env.cfg.rr_symmetric_resolve
  old_typed : old_graph_.conjugate_typed = env.cfg.rr_symmetric_resolve
  old_conj : env.cfg.rr_symmetric_resolve = true → OldConjOk old_graph_

/-- An observation counts as usable evidence for pre-flagging: weight above `1e-8`
and non-negative distance. -/
def usable (p : PairInfo) : Prop := p.weight > 1 / 100000000 ∧ p.d ≥ 0

/-- The part of the resolver state that a run can observe from outside is the same
in `rr1` as in `rr`: working graph, paired index, provenance maps, global cheater
set and the trace of `SplitVertex` calls. -/
structure Untouched (rr rr1 : RepeatResolver) : Prop where
  new_graph : rr1.new_graph = rr.new_graph
  paired_di_data : rr1.paired_di_data = rr.paired_di_data
  global_cheating_edges : rr1.global_cheating_edges = rr.global_cheating_edges
  edge_labels : rr1.edge_labels = rr.edge_labels
  vertex_labels : rr1.vertex_labels = rr.vertex_labels
  split_calls : rr1.split_calls = rr.split_calls
  rc_mode : rr1.rc_mode = rr.rc_mode
  verify_failed : rr1.verify_failed = rr.verify_failed

/-! ## Example data -/

/-- An environment for the examples: non-conjugate resolution, three resolve modes,
every split structurally allowed, no vertex reachable by the bounded search. -/
def exEnv : Env where
  cfg := { rr_max_distance := 100, rr_symmetric_resolve := false, rr_near_vertex := 0,
           rr_mode := 3, rr_max_repeat_length := 1000, rr_inresolve_cutoff_proportion := 0,
           ds_avg_coverage := none, ds_IS := 10, ds_RL := 5, simp_ec_max_coverage := 0 }
  SplitCondition := fun _ _ _ => true
  BoundedDijkstra := fun _ _ _ => []
  splitterComponents := fun g => [g.vertexIds]
  new_int_id := fun n => (n : Int)
  old_int_id := fun n => (n : Int)
  unorderedIteration := fun l => l

/-- An original graph: vertex `10` with outgoing edges `1`, `2` and incoming edges
`3`, `4`. -/
def exOld : Graph where
  conjugate_typed := false
  vertices := [⟨1, 1⟩, ⟨2, 2⟩, ⟨10, 10⟩, ⟨11, 11⟩, ⟨12, 12⟩]
  edges := [⟨1, 10, 11, [0, 1], 10, 1⟩, ⟨2, 10, 12, [0, 1], 10, 2⟩,
            ⟨3, 1, 10, [0, 1], 10, 3⟩, ⟨4, 2, 10, [0, 1], 10, 4⟩]
  fresh := 20

/-- An empty non-conjugate working graph as handed to the constructor. -/
def exNew0 : Graph where
  conjugate_typed := false
  vertices := []
  edges := []
  fresh := 20

/-- An index whose observations are all unusable: weight below `1e-8` or negative
distance. -/
def exIndUnusable : List (List PairInfo) :=
  [[⟨1, 3, 5, 0, 0⟩], [⟨2, 4, -3, 7, 0⟩, ⟨3, 1, 2, 1 / 1000000000, 0⟩]]

/-- A resolver on `exOld` at vertex `10` whose occurrences all have colour `0`. -/
def exRRSingle : RepeatResolver where
  new_graph := exOld
  old_graph := exOld
  edge_info_colors := [0, 0]
  edge_infos := [⟨⟨1, 3, 5, 7, 0⟩, 0, 3, 5⟩, ⟨⟨3, 1, 5, 7, 0⟩, 1, 1, 3⟩]
  paired_di_data := [⟨1, 3, 5, 7, 0⟩, ⟨3, 1, 5, 7, 0⟩]
  vertex_labels := [(1, 1), (2, 2), (10, 10), (11, 11), (12, 12)]
  edge_labels := [(1, 1), (2, 2), (3, 3), (4, 4)]
  cheating_mode := 0
  local_cheating_edges := []
  global_cheating_edges := []
  rc_mode := false
  near_vertex := 0
  sum_count := 0
  distance_counter := []
  verify_failed := false
  split_calls := []

/-- A strict-mode resolver on `exOld` at vertex `10` with two colours in which edge `4`
has no occurrence. -/
def exRROrphan : RepeatResolver :=
  { exRRSingle with
    edge_info_colors := [0, 1, 0]
    edge_infos := [⟨⟨1, 3, 5, 7, 0⟩, 0, 3, 5⟩, ⟨⟨2, 4, 5, 7, 0⟩, 0, 4, 5⟩,
                   ⟨⟨3, 1, 5, 7, 0⟩, 1, 1, 3⟩]
    paired_di_data := [⟨1, 3, 5, 7, 0⟩, ⟨2, 4, 5, 7, 0⟩, ⟨3, 1, 5, 7, 0⟩] }

/-- A strict-mode resolver on `exOld` at vertex `10`: the incoming edge `3` has total
weight `10`, of which `7` in colour `0` and `3` in colour `1`; edge `1` has colour `0`,
the edges `2` and `4` have colour `1`. -/
def exRRWeights : RepeatResolver :=
  { exRRSingle with
    edge_info_colors := [0, 1, 0, 1, 1]
    edge_infos := [⟨⟨1, 3, 5, 2, 0⟩, 0, 3, 5⟩, ⟨⟨2, 4, 5, 2, 0⟩, 0, 4, 5⟩,
                   ⟨⟨3, 1, 5, 7, 0⟩, 1, 1, 3⟩, ⟨⟨3, 2, 9, 3, 0⟩, 1, 2, 7⟩,
                   ⟨⟨4, 2, 5, 2, 0⟩, 1, 2, 3⟩]
    paired_di_data := [⟨1, 3, 5, 2, 0⟩, ⟨2, 4, 5, 2, 0⟩, ⟨3, 1, 5, 7, 0⟩, ⟨3, 2, 9, 3, 0⟩,
                       ⟨4, 2, 5, 2, 0⟩] }

/-- The number of occurrences whose first edge is `e`. -/
def occCount (occ : List (EdgeInfo × Int)) (e : EdgeId) : Nat :=
  (occ.filter (fun ic => ic.1.lp.first = e)).length

/-- The occurrences `occ` are coloured into exactly two classes: colour `0` holds
exactly the occurrences of the edges `A` and `C`, colour `1` exactly those of `B` and
`D`, and each of the four edges has an occurrence. -/
def CleanClasses (A B C D : EdgeId) (occ : List (EdgeInfo × Int)) : Prop :=
  (∀ ic ∈ occ, (ic.2 = 0 ∧ (ic.1.lp.first = A ∨ ic.1.lp.first = C))
      ∨ (ic.2 = 1 ∧ (ic.1.lp.first = B ∨ ic.1.lp.first = D)))
  ∧ ∀ e, (e = A ∨ e = B ∨ e = C ∨ e = D) → ∃ ic ∈ occ, ic.1.lp.first = e

/-- The state of the recolouring loop satisfies the clean-split conditions. -/
structure RecolourInv (A B C D : EdgeId) (keys : List Nat)
    (st : List EdgeInfo × List Int × MixedData) : Prop where
  len : st.1.length = st.2.1.length
  classes : CleanClasses A B C D (st.1.zip st.2.1)
  pos : ∀ ic ∈ st.1.zip st.2.1, 0 < ic.1.lp.weight
  idx : ∀ p ∈ st.2.2, (p.first = A ∨ p.first = B ∨ p.first = C ∨ p.first = D) → 0 < p.weight
  link : ∀ ic ∈ st.1.zip st.2.1, ic.1.lp.first ∈ keys → ic.1.lp ∈ st.2.2

/-- A strict-mode resolver on `exOld` before colouring: at vertex `10` the outgoing
edge `1` and the incoming edge `3` are observed with the original edge `3` at the same
offset, the outgoing edge `2` and the incoming edge `4` with the original edge `4`. -/
def exRRCleanInput : RepeatResolver :=
  { exRRSingle with
    edge_info_colors := []
    edge_infos := [⟨⟨1, 3, 5, 7, 0⟩, 0, 3, 5⟩, ⟨⟨2, 4, 5, 7, 0⟩, 0, 4, 5⟩,
                   ⟨⟨3, 3, 7, 7, 0⟩, 1, 3, 5⟩, ⟨⟨4, 4, 7, 7, 0⟩, 1, 4, 5⟩]
    paired_di_data := [⟨1, 3, 5, 7, 0⟩, ⟨2, 4, 5, 7, 0⟩, ⟨3, 3, 7, 7, 0⟩, ⟨4, 4, 7, 7, 0⟩] }

/-- The resolver `exRRCleanInput` after the colouring of `RectangleResolveVertex`:
colour `0` for the occurrences of the edges `1` and `3`, colour `1` for those of `2` and
`4`. -/
def exRRClean : RepeatResolver :=
  { exRRCleanInput with
    edge_info_colors := [0, 1, 0, 1]
    distance_counter := (buildNeighbours exEnv exRRCleanInput).2 }

/-- An index on `exOld` with the evidence of a clean split at vertex `10`: the edges
`1` and `3` are observed with the original edge `3`, the edges `2` and `4` with `4`. -/
def exIndClean : List (List PairInfo) :=
  [[⟨1, 3, 5, 7, 0⟩], [⟨2, 4, 5, 7, 0⟩], [⟨3, 3, 7, 7, 0⟩], [⟨4, 4, 7, 7, 0⟩]]

/-- The environment `exEnv` with conjugate (symmetric) resolution and one resolve mode. -/
def exEnvRc : Env :=
  { exEnv with cfg := { exEnv.cfg with rr_symmetric_resolve := true, rr_mode := 1 } }

/-- The conjugate-typed counterpart of `exOld`: every vertex `n` has the conjugate
`100 + n`, every edge `n` the conjugate `50 + n`. -/
def exOldRc : Graph where
  conjugate_typed := true
  vertices := [⟨1, 101⟩, ⟨101, 1⟩, ⟨2, 102⟩, ⟨102, 2⟩, ⟨10, 110⟩, ⟨110, 10⟩, ⟨11, 111⟩,
               ⟨111, 11⟩, ⟨12, 112⟩, ⟨112, 12⟩]
  edges := [⟨1, 10, 11, [0, 1], 10, 51⟩, ⟨51, 111, 110, [2, 3], 10, 1⟩,
            ⟨2, 10, 12, [0, 1], 10, 52⟩, ⟨52, 112, 110, [2, 3], 10, 2⟩,
            ⟨3, 1, 10, [0, 1], 10, 53⟩, ⟨53, 110, 101, [2, 3], 10, 3⟩,
            ⟨4, 2, 10, [0, 1], 10, 54⟩, ⟨54, 110, 102, [2, 3], 10, 4⟩]
  fresh := 200

/-- An empty conjugate-typed working graph as handed to the constructor. -/
def exNew0Rc : Graph where
  conjugate_typed := true
  vertices := []
  edges := []
  fresh := 200

/-- A resolver in the relaxed mode `cheating_mode = 2` on `exOld` at vertex `10`: the
colouring engine gave colour `0` to the occurrence of edge `1` and colour `1` to the
occurrence of edge `3`; the edges `2` and `4` are orphans with one observation of weight
`7` each. -/
def exRROrphanRelaxed : RepeatResolver :=
  { exRRSingle with
    cheating_mode := 2
    edge_info_colors := [0, 1]
    edge_infos := [⟨⟨1, 3, 5, 7, 0⟩, 0, 3, 5⟩, ⟨⟨3, 1, 30, 7, 0⟩, 1, 1, 28⟩]
    paired_di_data := [⟨1, 3, 5, 7, 0⟩, ⟨2, 4, 5, 7, 0⟩, ⟨3, 1, 30, 7, 0⟩, ⟨4, 2, 9, 7, 0⟩] }

/-- Every vertex of the graph has at most 2 incoming and at most 2 outgoing edges. -/
def LowDegree (g : Graph) : Prop :=
  ∀ v ∈ g.vertexIds, g.IncomingEdgeCount v ≤ 2 ∧ g.OutgoingEdgeCount v ≤ 2

/-- The number of observations of the paired index that are keyed by an edge incident
to `v` in the working graph, an edge counted once for each of its ends at `v`: an upper
bound on the number of occurrences that `GenerateVertexPairedInfo` collects at `v`. -/
def evidenceCount (rr : RepeatResolver) (v : VertexId) : Nat :=
  ((rr.new_graph.OutgoingEdges v ++ rr.new_graph.IncomingEdges v).map
    (fun e => (MixedData.GetEdgeInfos rr.paired_di_data e).length)).sum

/-- An index with a single usable observation, keyed by the edge `10 → 11` of `exOld`. -/
def exIndSparse : List (List PairInfo) := [[⟨1, 3, 5, 7, 0⟩]]

/-- The resolver constructed from `exOld` and `exIndClean`, put in the relaxed mode `2`,
with the working edge `25` (an outgoing edge of the vertex `22`) flagged as global
cheater. -/
def exRRGated : RepeatResolver :=
  { RepeatResolver.ctor exEnv exOld exIndClean exNew0 with
    cheating_mode := 2, global_cheating_edges := [25] }

/-- The distance that the bounded search from `start` assigns to `finish`, in the words
of the specification: the value the search result pairs with `finish` when the search
reaches it, the sentinel `1000000000` otherwise. -/
def searchDistance (env : Env) (graph_ : Graph) (depth_ : Int) (start finish : VertexId) : Int :=
  match (env.BoundedDijkstra graph_ depth_ start).find? (fun p => p.1 = finish) with
  | some p => (p.2 : Int)
  | none => 1000000000

/-- The cache of a `FastDistanceCounter` after the constructor (which clears it) and the
queries `queries`, asked in this order. -/
def cacheAfter (env : Env) (graph_ : Graph) (depth_ : Int)
    (queries : List (VertexId × VertexId)) : FastDistanceCounter :=
  queries.foldl
    (fun distances q => (FastDistanceCounter.GetDistances env graph_ depth_ distances q.1 q.2).2) []

/-- Every cached distance map is the one the bounded search from its source yields. -/
def CacheValid (env : Env) (graph_ : Graph) (depth_ : Int) (distances : FastDistanceCounter) :
    Prop :=
  ∀ s m, StdMap.find distances s = some m →
    m = (env.BoundedDijkstra graph_ depth_ s).foldl (fun m p => StdMap.insert m p.1 p.2) []

/-- The example collaborators with a search that reaches the start vertex at distance
`0` and its successor identifier at distance `2`. -/
def exEnvSearch : Env :=
  { exEnv with BoundedDijkstra := fun _ _ s => [(s, 0), (s + 1, 2)] }

/-- The two caches give the same answer to every query. -/
def SameAnswers (env : Env) (graph_ : Graph) (depth_ : Int) (dc dc2 : FastDistanceCounter) :
    Prop :=
  ∀ s e, (FastDistanceCounter.GetDistances env graph_ depth_ dc2 s e).1
    = (FastDistanceCounter.GetDistances env graph_ depth_ dc s e).1

/-- The topological veto of `isAdjacent` (lines 198-210): different first edges, neither
of them a loop, that share their start or their end in the working graph. -/
def topologicalVeto (this_info other_info : EdgeInfo) (new_graph : Graph) : Prop :=
  this_info.lp.first ≠ other_info.lp.first
    ∧ new_graph.EdgeStart this_info.lp.first ≠ new_graph.EdgeEnd this_info.lp.first
    ∧ new_graph.EdgeStart other_info.lp.first ≠ new_graph.EdgeEnd other_info.lp.first
    ∧ (new_graph.EdgeStart this_info.lp.first = new_graph.EdgeStart other_info.lp.first
        ∨ new_graph.EdgeEnd this_info.lp.first = new_graph.EdgeEnd other_info.lp.first)

/-- The long-edge shortcut of `isAdjacent` (lines 212-216): the same first edge, longer
than `rr.max_repeat_length`. -/
def longEdgeShortcut (env : Env) (this_info other_info : EdgeInfo) (new_graph : Graph) : Prop :=
  this_info.lp.first = other_info.lp.first
    ∧ new_graph.length this_info.lp.first > env.cfg.rr_max_repeat_length

/-- Two occurrences for the adjacency examples: paired edges `1` and `3` of `exOld`. -/
def exInfoA : EdgeInfo := ⟨⟨25, 3, 7, 7, 0⟩, 0, 3, 7⟩

/-- The second occurrence of the adjacency examples. -/
def exInfoB : EdgeInfo := ⟨⟨25, 1, 9, 7, 0⟩, 0, 1, 9⟩

/-- A working graph with five edges at vertex `10`: outgoing `1`, `2` and incoming `3`,
`4`, `5`. -/
def exGraphFive : Graph where
  conjugate_typed := false
  vertices := [⟨1, 1⟩, ⟨2, 2⟩, ⟨3, 3⟩, ⟨10, 10⟩, ⟨11, 11⟩, ⟨12, 12⟩]
  edges := [⟨1, 10, 11, [0, 1], 10, 1⟩, ⟨2, 10, 12, [0, 1], 10, 2⟩,
            ⟨3, 1, 10, [0, 1], 10, 3⟩, ⟨4, 2, 10, [0, 1], 10, 4⟩, ⟨5, 3, 10, [0, 1], 10, 5⟩]
  fresh := 20

/-- A resolver state in mode `1` at vertex `10` of `exGraphFive`: the outgoing edge `1`
is paired with the incoming edges `3` and `4` (through the second edges `3` and `4`), the
outgoing edge `2` with the incoming edge `5`. -/
def exRRMatch : RepeatResolver :=
  { exRRSingle with
    new_graph := exGraphFive
    old_graph := exGraphFive
    cheating_mode := 1
    edge_info_colors := []
    edge_infos := [⟨⟨1, 3, 5, 7, 0⟩, 0, 3, 5⟩, ⟨⟨3, 3, 7, 7, 0⟩, 1, 3, 5⟩,
                   ⟨⟨1, 4, 6, 7, 0⟩, 0, 4, 6⟩, ⟨⟨4, 4, 8, 7, 0⟩, 1, 4, 6⟩,
                   ⟨⟨2, 5, 5, 7, 0⟩, 0, 5, 5⟩, ⟨⟨5, 5, 7, 7, 0⟩, 1, 5, 5⟩]
    paired_di_data := [⟨1, 3, 5, 7, 0⟩, ⟨3, 3, 7, 7, 0⟩, ⟨1, 4, 6, 7, 0⟩, ⟨4, 4, 8, 7, 0⟩,
                       ⟨2, 5, 5, 7, 0⟩, ⟨5, 5, 7, 7, 0⟩] }

/-- The adjacency lists `neighbours` of the matching graph that `CheatingResolveVertex`
builds at `vid` (lines 1564-1605): the nodes `0 .. in_count - 1` are the incoming edges,
the nodes from `in_count` on the outgoing edges. -/
def matchingNeighbours (rr : RepeatResolver) (vid : VertexId) : List (List Nat) :=
  rr.edge_infos.foldl
    (matchStep rr.edge_infos (edgeIdMap (rr.new_graph.OutgoingEdges vid))
      (edgeIdMap (rr.new_graph.IncomingEdges vid)) (rr.new_graph.IncomingEdges vid).length)
    (List.replicate ((rr.new_graph.IncomingEdges vid).length
      + (rr.new_graph.OutgoingEdges vid).length) [])

/-- The resolver state that `CheatingResolveVertex` hands to `MultiSplit` when the
colouring `cheater_colors` of the matching graph passed the check (lines 1636-1644). -/
def cheatRecoloured (rr : RepeatResolver) (vid : VertexId) (cheater_colors : List Int) :
    RepeatResolver :=
  let colors0 := rr.edge_info_colors.take rr.edge_infos.length
    ++ List.replicate (rr.edge_infos.length - rr.edge_info_colors.length) (0 : Int)
  let colors1 := (rr.edge_infos.zip colors0).map
    (cheatColour (edgeIdMap (rr.new_graph.OutgoingEdges vid))
      (edgeIdMap (rr.new_graph.IncomingEdges vid)) (rr.new_graph.IncomingEdges vid).length
      cheater_colors)
  { rr with edge_info_colors := colors1 }

/-- Every node of the coloured matching graph shares its colour with another node, and
there is at least one node: each colour class has at least two nodes. -/
def AllMatched (cheater_colors : List Int) : Prop :=
  cheater_colors ≠ []
    ∧ ∀ i, i < cheater_colors.length →
        ∃ j, j < cheater_colors.length ∧ i ≠ j
          ∧ cheater_colors.getD i 0 = cheater_colors.getD j 0

/-- The value `tcount` of lines 1223-1228 for the worklist vertex `v` in state `rr`:
`none` when the loop body leaves by `continue` before a resolver is called. -/
def vertexCount (env : Env) (rr : RepeatResolver) (v : VertexId) : Option Nat :=
  if rr.rc_mode = true ∧ ¬ (v ∈ rr.new_graph.vertexIds) then none
  else if (rr.new_graph.OutgoingEdges v ++ rr.new_graph.IncomingEdges v).any
      (fun e => StdSet.contains rr.global_cheating_edges e) then none
  else
    let g := GenerateVertexPairedInfo env rr v
    let r := if g.1.cheating_mode ≠ 1 then RectangleResolveVertex env g.1 v
             else CheatingResolveVertex env g.1 v
    r.map Prod.snd

/-- The resolution of `v` in state `rr` returned more than one vertex. -/
def returnedSeveral (env : Env) (rr : RepeatResolver) (v : VertexId) : Prop :=
  ∃ tcount, vertexCount env rr v = some tcount ∧ tcount > 1

/-- The worklist of one sweep in iteration order (lines 1177-1191). -/
def sweepWorklist (env : Env) (rr : RepeatResolver) : List VertexId :=
  (env.unorderedIteration
    (if rr.rc_mode then fillVerticesComponentsInNonVariableOrder env rr
     else fillVerticesAuto env rr)).map Prod.snd

/-- Consecutive full sweeps: every sweep of the list runs on the state that the sweep
before it left (the first one on `rr`) and yields the listed state and flag `changed`. -/
def SweepChain (env : Env) : RepeatResolver → List (RepeatResolver × Bool) → Prop
  | _, [] => True
  | rr, x :: t => sweep env rr = some x ∧ SweepChain env x.1 t

/-- One resolve mode in the words of the specification: full sweeps are repeated from
`rr`, every sweep that split a vertex is followed by another one, and the mode is left
with the state `last` after the first sweep that split none; at most `fuel` sweeps. -/
def ModeFixpoint (env : Env) (fuel : Nat) (rr last : RepeatResolver) : Prop :=
  ∃ chain : List (RepeatResolver × Bool),
    chain.length < fuel
    ∧ SweepChain env rr (chain ++ [(last, false)])
    ∧ ∀ x ∈ chain, x.2 = true

/-- The run over the resolve modes `modes`, in the order of the list, each started on
the state the mode before it left with `cheating_mode` set to the mode; the loop variable
is left at the mode count. -/
def ModeRun (env : Env) (fuel : Nat) : List Nat → RepeatResolver → RepeatResolver → Prop
  | [], rr, result => result = { rr with cheating_mode := max 0 env.cfg.rr_mode }
  | m :: rest, rr, result =>
    ∃ last, ModeFixpoint env fuel { rr with cheating_mode := (m : Int) } last
      ∧ ModeRun env fuel rest last result

/-- The preconditions of the constructor in non-conjugate mode: `rr.symmetric_resolve`
is off, the working graph handed in is empty and not conjugate-typed, and every edge of
the original graph starts and ends at a vertex of the original graph. -/
structure PlainCtorPre (env : Env) (old_graph_ new_graph_ : Graph) : Prop where
  plain : env.cfg.rr_symmetric_resolve = false
  new_vertices : new_graph_.vertices = []
  new_edges : new_graph_.edges = []
  new_typed : new_graph_.conjugate_typed = false
  ends : ∀ r ∈ old_graph_.edges, r.start ∈ old_graph_.vertexIds ∧ r.finish ∈ old_graph_.vertexIds

/-- The invariant of the vertex-copy loop in non-conjugate mode after the original
vertices `P` have been visited. -/
structure PlainVertexCopyInv (old : Graph) (P : List VertexId) (st : VertexCopy) : Prop where
  typed : st.new_graph.conjugate_typed = false
  edges : st.new_graph.edges = []
  fresh : ∀ id ∈ st.new_graph.vertexIds, id < st.new_graph.fresh
  nodup : st.new_graph.vertexIds.Nodup
  dom : ∀ nv, (StdMap.find st.vertex_labels nv).isSome ↔ nv ∈ st.new_graph.vertexIds
  inv : ∀ nv v, StdMap.find st.vertex_labels nv = some v ↔ StdMap.find st.old_to_new v = some nv
  keys : ∀ v, (StdMap.find st.old_to_new v).isSome
    ↔ (v ∈ P ∧ 0 < old.IncomingEdgeCount v + old.OutgoingEdgeCount v)

/-- The invariant of the edge-copy loop in non-conjugate mode after the original edges
`P` have been visited; `V0` and `otn0` are the vertices and the vertex map that the
vertex-copy loop left. -/
structure PlainEdgeCopyInv (old : Graph) (V0 : List VertexRec) (otn0 : StdMap VertexId)
    (P : List EdgeId) (st : EdgeCopy) : Prop where
  typed : st.new_graph.conjugate_typed = false
  vertices : st.new_graph.vertices = V0
  otn : st.old_to_new = otn0
  fresh : ∀ id ∈ st.new_graph.edgeIds, id < st.new_graph.fresh
  nodup : st.new_graph.edgeIds.Nodup
  dom : ∀ ne, (StdMap.find st.edge_labels ne).isSome ↔ ne ∈ st.new_graph.edgeIds
  inv : ∀ ne e, StdMap.find st.edge_labels ne = some e
    ↔ StdMap.find st.old_to_new_edge e = some ne
  keys : ∀ e, (StdMap.find st.old_to_new_edge e).isSome ↔ e ∈ P
  ends : ∀ ne e, StdMap.find st.edge_labels ne = some e →
    st.new_graph.EdgeStart ne = StdMap.get otn0 (old.EdgeStart e) 0
    ∧ st.new_graph.EdgeEnd ne = StdMap.get otn0 (old.EdgeEnd e) 0

/-- A well-formed non-conjugate working graph: identifiers are allocated below the
counter `fresh`, the null identifier `0` is no vertex, and no vertex is listed twice. -/
structure PlainGraphOk (g : Graph) : Prop where
  typed : g.conjugate_typed = false
  fresh_pos : 0 < g.fresh
  vok : ∀ r ∈ g.vertices, 0 < r.id ∧ r.id < g.fresh
  eok : ∀ r ∈ g.edges, r.id < g.fresh
  vnodup : g.vertexIds.Nodup

/-- The vertex identifiers that an end of an edge can have while `MultiSplit(u)` runs on
the graph `g0`: a vertex created by the split, the null identifier, `u` itself, or an end
of an edge of `g0`. -/
def SplitEnd (g0 : Graph) (u : VertexId) (x : VertexId) : Prop :=
  g0.fresh ≤ x ∨ x = 0 ∨ x = u ∨ ∃ r0 ∈ g0.edges, r0.start = x ∨ r0.finish = x

/-- The invariant of the working graph `g` while `MultiSplit(u)`, entered with the graph
`g0`, runs in non-conjugate mode: the edges of `g0` are all still there and no vertex of
`g0` other than `u` has been deleted. -/
structure PlainSplitInv (g0 : Graph) (u : VertexId) (g : Graph) : Prop where
  typed : g.conjugate_typed = false
  fresh_ge : g0.fresh ≤ g.fresh
  fresh_pos : 0 < g.fresh
  vok : ∀ r ∈ g.vertices, 0 < r.id ∧ r.id < g.fresh
  eok : ∀ r ∈ g.edges, r.id < g.fresh
  vnodup : g.vertexIds.Nodup
  old : ∀ r ∈ g0.edges, r ∈ g.edges
  ends : ∀ r ∈ g.edges, SplitEnd g0 u r.start ∧ SplitEnd g0 u r.finish
  keep : ∀ w ∈ g0.vertexIds, w ≠ u → w ∈ g.vertexIds

/-- The test of line 1196 for the worklist vertex `v` in state `rr`: conjugate mode is on
and `v` is no longer a live vertex of the working graph, so that the loop body is left by
`continue` before the edges of `v` are queried. -/
def skippedAsDeleted (rr : RepeatResolver) (v : VertexId) : Prop :=
  rr.rc_mode = true ∧ ¬ (v ∈ rr.new_graph.vertexIds)

/-- The guards of `MultiSplit(v)` (lines 606-706): when all of them are passed, the
state with the occurrences added by the orphan loop, the map `edgeCounts` and the colour
count `k` with which the split phase is entered; `none` when `MultiSplit` returns `[v]`
at a guard. -/
def splitGuards (env : Env) (rr : RepeatResolver) (v : VertexId) :
    Option (RepeatResolver × StdMap Int × Int) :=
  let edgeIds0 := rr.new_graph.OutgoingEdges v
  let edgeIds1 := rr.new_graph.IncomingEdges v
  let edgeCounts0 := initEdgeCounts edgeIds0 edgeIds1
  if ¬ (env.SplitCondition rr.new_graph v edgeIds0 = true
        ∧ env.SplitCondition rr.new_graph v edgeIds1 = true) then none
  else
    let kc := countLoop rr.edge_infos rr.edge_info_colors edgeCounts0
    if kc.1 = 0 then none
    else
      match orphanLoop rr.cheating_mode rr.paired_di_data kc.2 rr.edge_infos
          rr.edge_info_colors kc.1 with
      | none => none
      | some (edge_infos1, edge_info_colors1, k1) =>
        if k1 + 1 = 1 then none
        else some ({ rr with edge_infos := edge_infos1, edge_info_colors := edge_info_colors1 },
                   kc.2, k1 + 1)

/-- The maps `old_paired_coverage` and `colored_paired_coverage` with which the colour
loop of the split phase runs (lines 762-771). -/
def splitCoverage (rr1 : RepeatResolver) (edgeCounts : StdMap Int) (k : Int) :
    StdMap ℚ × List (StdMap ℚ) :=
  coverageLoop ((recolourLoop edgeCounts rr1).edge_infos.zip
    (recolourLoop edgeCounts rr1).edge_info_colors) k.toNat

/-- The state of the colour loop of lines 791-916 when the colour `i` is entered. -/
def splitLoopAt (env : Env) (rr1 : RepeatResolver) (edgeCounts : StdMap Int) (k : Int)
    (v : VertexId) (i : Nat) : SplitLoop :=
  (List.range i).foldl
    (splitColour env v (splitCoverage rr1 edgeCounts k).1 (splitCoverage rr1 edgeCounts k).2)
    { rr := recolourLoop edgeCounts rr1, res := [], OldCopyCnt := [], LiveNewEdges := [],
      LiveProtoEdges := [], not_found := 0, low_coverage := 0 }

/-- The pairs `(old edge, new edge)` over which the pruning loop of lines 851-906 runs
for colour `i`: the pairs returned by `SplitVertex`, none when the colour is not split. -/
def prunePairs (env : Env) (v : VertexId) (old_paired_coverage : StdMap ℚ)
    (colored_paired_coverage : List (StdMap ℚ)) (st : SplitLoop) (i : Nat) :
    List (EdgeId × EdgeId) :=
  let se := splitEdges old_paired_coverage (colored_paired_coverage.getD i [])
    st.rr.local_cheating_edges
  if se.1.length > 0 ∧ env.SplitCondition st.rr.new_graph v se.1 = true then
    (st.rr.new_graph.SplitVertex v se.1 se.2.1).2.2
  else []

/-- The state in which the pruning loop of lines 851-906 starts for colour `i`: the body
of the colour loop up to line 850. -/
def pruneEntry (env : Env) (v : VertexId) (old_paired_coverage : StdMap ℚ)
    (colored_paired_coverage : List (StdMap ℚ)) (st : SplitLoop) (i : Nat) : SplitLoop :=
  let rr := st.rr
  let se := splitEdges old_paired_coverage (colored_paired_coverage.getD i [])
    rr.local_cheating_edges
  let split_edge := se.1
  let split_coeff := se.2.1
  let rr1 := { rr with local_cheating_edges := se.2.2 }
  if split_edge.length > 0 ∧ env.SplitCondition rr1.new_graph v split_edge = true then
    let split_pair := rr1.new_graph.SplitVertex v split_edge split_coeff
    let res := st.res ++ [split_pair.2.1]
    let mc : Graph × Bool :=
      if rr1.rc_mode then split_pair.2.2.foldl mirrorCoverageStep (split_pair.1, false)
      else (split_pair.1, false)
    let lb := split_pair.2.2.foldl (labelStep rr1.cheating_mode rr1.local_cheating_edges)
      (([] : StdMap EdgeId), st.OldCopyCnt, rr1.edge_labels, rr1.global_cheating_edges,
        st.not_found)
    let pd := (rr1.edge_infos.zip rr1.edge_info_colors).foldl (replaceStep (i : Int) lb.1)
      rr1.paired_di_data
    let rr2 : RepeatResolver :=
      { rr1 with new_graph := mc.1,
                 edge_labels := lb.2.2.1,
                 global_cheating_edges := lb.2.2.2.1,
                 paired_di_data := pd,
                 verify_failed := rr1.verify_failed || mc.2,
                 split_calls := rr1.split_calls ++ [(v, split_edge, split_coeff)] }
    { st with rr := rr2, res := res, OldCopyCnt := lb.2.1, not_found := lb.2.2.2.2 }
  else { st with rr := rr1 }

/-- Every identifier stored in the graph was allocated: it lies below the counter
`fresh`, which is positive. -/
structure AllocatedBelow (g : Graph) : Prop where
  fresh_pos : 0 < g.fresh
  ids : ∀ r ∈ g.edges, r.id < g.fresh
  conjs : ∀ r ∈ g.edges, r.conj < g.fresh
  ends : ∀ r ∈ g.edges, r.start < g.fresh ∧ r.finish < g.fresh
  vconj : ∀ r ∈ g.vertices, r.conj < g.fresh

/-- The invariant of the working graph during a split phase entered with the counter
`F0`: identifiers are allocated below the counter, and an edge whose conjugate field
names an edge created by the split is the conjugate of that edge (in a conjugate graph). -/
structure SplitGraphInv (F0 : Nat) (g : Graph) : Prop where
  fresh_ge : F0 ≤ g.fresh
  fresh_pos : 0 < g.fresh
  ids : ∀ r ∈ g.edges, r.id < g.fresh
  ends : ∀ r ∈ g.edges, r.start < g.fresh ∧ r.finish < g.fresh
  vconj : ∀ r ∈ g.vertices, r.conj < g.fresh
  conj : g.conjugate_typed = true →
    ∀ r ∈ g.edges, F0 ≤ r.conj → ∃ r2, g.edge r.conj = some r2 ∧ r2.conj = r.id

/-- The edge `e` has left the resolver state for good: it is below the counter, no edge
of the working graph carries it as identifier or (in a conjugate graph) as conjugate,
no observation is keyed by it and it is no global cheater. -/
structure EdgeGone (e : EdgeId) (rr : RepeatResolver) : Prop where
  lt : e < rr.new_graph.fresh
  edge : ∀ r ∈ rr.new_graph.edges, r.id ≠ e
  conj : rr.new_graph.conjugate_typed = true → ∀ r ∈ rr.new_graph.edges, r.conj ≠ e
  index : ∀ p ∈ rr.paired_di_data, p.first ≠ e
  cheat : e ∉ rr.global_cheating_edges

/-- The vertex `x` has left the working graph for good. -/
structure VertexGone (x : VertexId) (g : Graph) : Prop where
  lt : x < g.fresh
  vertex : ∀ r ∈ g.vertices, r.id ≠ x

/-- The invariant of the split loop entered with the counter `F0`: the working graph
satisfies `SplitGraphInv` and the recorded live edges lie below the counter. -/
structure PruneInv (F0 : Nat) (st : SplitLoop) : Prop where
  graph : SplitGraphInv F0 st.rr.new_graph
  live : ∀ l ∈ st.LiveNewEdges, l < st.rr.new_graph.fresh

/-- The graph that the pruning step of lines 851-906 leaves when it deletes the edge
`e` from `g`: the edge is deleted, then the start vertex and, unless `same` holds, the end
vertex are deleted if they have no incident edge left. -/
def prunedGraph (rc_mode : Bool) (g : Graph) (e : EdgeId) : Graph :=
  let v_start := g.EdgeStart e
  let v_end := g.EdgeEnd e
  let g1 := g.DeleteEdge e
  let same : Bool :=
    if rc_mode then decide (v_start = v_end) || decide (v_start = conj_wrap_vertex g1 v_end)
    else decide (v_start = v_end)
  if same then deleteIfIsolated g1 v_start
  else deleteIfIsolated (deleteIfIsolated g1 v_start) v_end

/-- The part of `MultiSplit(v)` behind the colour loop (lines 917-961): in conjugate
mode the loop over the live edges, then the cleanup of the original incident edges and
the forced delete of `v`. -/
def splitFinish (v : VertexId) (incident : List EdgeId) (sl : SplitLoop) : RepeatResolver :=
  let rr3 :=
    if sl.rr.rc_mode then
      (sl.LiveNewEdges.zip sl.LiveProtoEdges).foldl (processCheaterStep sl.OldCopyCnt) sl.rr
    else sl.rr
  let rr4 := incident.foldl cleanupStep rr3
  { rr4 with new_graph := rr4.new_graph.ForceDeleteVertex v }

/-- The state of the pruning loop of colour `i` after the pairs `p` have been handled. -/
def pruneStateAt (env : Env) (rr1 : RepeatResolver) (edgeCounts : StdMap Int) (k : Int)
    (v : VertexId) (i : Nat) (p : List (EdgeId × EdgeId)) : SplitLoop :=
  p.foldl (pruneStep (cutting_coverage env.cfg))
    (pruneEntry env v (splitCoverage rr1 edgeCounts k).1 (splitCoverage rr1 edgeCounts k).2
      (splitLoopAt env rr1 edgeCounts k v i) i)

/-- The environment `exEnv` with the coverage cutoff `6`. -/
def exEnvCut : Env :=
  { exEnv with cfg := { exEnv.cfg with rr_inresolve_cutoff_proportion := 1,
                                       simp_ec_max_coverage := 6 } }

/-- The environment `exEnv` with `rr.max_repeat_length = 1`. -/
def exEnvShort : Env :=
  { exEnv with cfg := { exEnv.cfg with rr_max_repeat_length := 1 } }

/-- The resolver state after `MultiSplit(10)` on `exRRWeights`: the original edge `3`
has the two working copies `22` and `25`. -/
def exRRCopies : RepeatResolver := (MultiSplit exEnv exRRWeights 10).1

/-- The forward check of `IsEdgesOnDistanceAdjacent` (lines 146-152). -/
def forwardCheck (env : Env) (depth : Int) (edge : EdgeId) (d : ℚ) (other_edge : EdgeId)
    (other_d : ℚ) (old_graph : Graph) (max_diff : ℚ) (dc : FastDistanceCounter) : Prop :=
  |d + (old_graph.length edge : ℚ)
      + ((FastDistanceCounter.GetDistances env old_graph depth dc
          (old_graph.EdgeEnd edge) (old_graph.EdgeStart other_edge)).1 : ℚ) - other_d| < max_diff

/-- The backward check of `IsEdgesOnDistanceAdjacent` (lines 157-163). -/
def backwardCheck (env : Env) (depth : Int) (edge : EdgeId) (d : ℚ) (other_edge : EdgeId)
    (other_d : ℚ) (old_graph : Graph) (max_diff : ℚ) (dc : FastDistanceCounter) : Prop :=
  |other_d + (old_graph.length other_edge : ℚ)
      + ((FastDistanceCounter.GetDistances env old_graph depth dc
          (old_graph.EdgeEnd other_edge) (old_graph.EdgeStart edge)).1 : ℚ) - d| < max_diff

/-- The state `exRROrphanRelaxed` in which the observations of the orphan edges `2` and
`4` have weight `0.5`. -/
def exRROrphanHalf : RepeatResolver :=
  { exRROrphanRelaxed with
    paired_di_data := [⟨1, 3, 5, 7, 0⟩, ⟨2, 4, 5, 1 / 2, 0⟩, ⟨3, 1, 30, 7, 0⟩,
                       ⟨4, 2, 9, 1 / 2, 0⟩] }

/-- The second invariant of the split loop entered with the counter `F0`: an edge of the
working graph and its conjugate field are both older than the split or both created by
it, and the recorded live edges were created by it. -/
structure CopyInv (F0 : Nat) (st : SplitLoop) : Prop where
  edges : ∀ r ∈ st.rr.new_graph.edges, (r.id < F0 ∧ r.conj < F0) ∨ (F0 ≤ r.id ∧ F0 ≤ r.conj)
  live : ∀ l ∈ st.LiveNewEdges, F0 ≤ l

/-- The conjugate-mode counterpart of `exRRWeights`: the working copy `204` of vertex `10`
of `exOldRc`, whose incoming edge `214` has occurrences of both colours. -/
def exRRWeightsRc : RepeatResolver :=
  { RepeatResolver.ctor exEnvRc exOldRc exIndClean exNew0Rc with
    edge_info_colors := [0, 1, 0, 1, 1]
    edge_infos := [⟨⟨210, 3, 5, 2, 0⟩, 0, 3, 5⟩, ⟨⟨212, 4, 5, 2, 0⟩, 0, 4, 5⟩,
                   ⟨⟨214, 1, 5, 7, 0⟩, 1, 1, 3⟩, ⟨⟨214, 2, 9, 3, 0⟩, 1, 2, 7⟩,
                   ⟨⟨216, 2, 5, 2, 0⟩, 1, 2, 3⟩]
    paired_di_data := [⟨210, 3, 5, 2, 0⟩, ⟨212, 4, 5, 2, 0⟩, ⟨214, 1, 5, 7, 0⟩,
                       ⟨214, 2, 9, 3, 0⟩, ⟨216, 2, 5, 2, 0⟩] }

/-- The third invariant of the split loop entered with the counter `F0` and `c0` earlier
`SplitVertex` calls: `res` holds one vertex per call made, each created by the split, and
as long as no edge was pruned every vertex of `res` is in the working graph. -/
structure ResInv (F0 c0 : Nat) (st : SplitLoop) : Prop where
  calls : st.res.length + c0 = st.rr.split_calls.length
  created : ∀ x ∈ st.res, F0 ≤ x
  present : st.low_coverage = 0 → ∀ x ∈ st.res, x ∈ st.rr.new_graph.vertexIds
  vold : ∀ r ∈ st.rr.new_graph.vertices, r.id < F0 → r.conj < F0

/-- The colouring `col2` extends `col` with the colour `c`: coloured indices keep their
colour, an uncoloured index stays uncoloured or gets `c`. -/
structure ColourExt (c : Int) (col col2 : List Int) : Prop where
  length : col2.length = col.length
  keep : ∀ x, col.getD x 0 ≠ -1 → col2.getD x 0 = col.getD x 0
  fresh : ∀ x, col.getD x 0 = -1 → col2.getD x 0 = -1 ∨ col2.getD x 0 = c

/-- No index that is uncoloured or coloured `c` lists an index with another colour. -/
def Frontier (edge_list : List (List Nat)) (c : Int) (col : List Int) : Prop :=
  ∀ x y, y ∈ edge_list.getD x [] → (col.getD x 0 = -1 ∨ col.getD x 0 = c) →
    (col.getD y 0 = -1 ∨ col.getD y 0 = c)

/-- Index `y` can be reached from `x` along the adjacency lists. -/
def Reach (edge_list : List (List Nat)) (x y : Nat) : Prop :=
  Relation.ReflTransGen (fun a b => b ∈ edge_list.getD a []) x y

/-- The invariant of the colouring loop before an index is visited with the next colour
`c`: the colours in use are below `c`, a coloured index lists only indices of its own
colour, and every colour below `c` has a start index from which all its indices are
reached. -/
structure Labelled (edge_list : List (List Nat)) (n : Nat) (col : List Int) (c : Int) :
    Prop where
  length : col.length = n
  range : ∀ x, x < n → col.getD x 0 = -1 ∨ (0 ≤ col.getD x 0 ∧ col.getD x 0 < c)
  closed : ∀ x y, x < n → y ∈ edge_list.getD x [] → col.getD x 0 ≠ -1 →
    col.getD y 0 = col.getD x 0
  root : ∀ k, 0 ≤ k → k < c → ∃ r, r < n ∧ col.getD r 0 = k
    ∧ ∀ x, x < n → col.getD x 0 = k → Reach edge_list r x

/-- The answer of `edge_infos[i].isAdjacent(edge_infos[j], ...)` for two occurrence
indices, with the distance cache as it is on entry to `RectangleResolveVertex`. -/
def occAdjacent (env : Env) (rr : RepeatResolver) (i j : Nat) : Bool :=
  match rr.edge_infos[i]?, rr.edge_infos[j]? with
  | some ei, some ej =>
    (EdgeInfo.isAdjacent env ei ej rr.old_graph rr.new_graph rr.distance_counter).1
  | _, _ => false

/-- Two occurrence indices lie in the same connected component of the undirected graph
whose edges are the pairs `(i, j)` with `isAdjacent(occurrence i, occurrence j)`. -/
def sameComponent (env : Env) (rr : RepeatResolver) (i j : Nat) : Prop :=
  Relation.EqvGen (fun a b => occAdjacent env rr a b = true) i j

/-- The partition of the occurrence indices `0..n-1` into connected components. -/
def componentSetoid (env : Env) (rr : RepeatResolver) : Setoid (Fin rr.edge_infos.length) :=
  Setoid.comap Fin.val (Relation.EqvGen.setoid (fun a b => occAdjacent env rr a b = true))

/-- The record of the edge `e` without its coverage counter: start, end, sequence and
conjugate. -/
def Graph.shape (g : Graph) (e : EdgeId) : Option (VertexId × VertexId × List Nat × EdgeId) :=
  (g.edge e).map (fun r => (r.start, r.finish, r.nucls, r.conj))

/-- The value of the counter `low_coverage` (lines 778 and 855) with which `MultiSplit(v)`
reaches the warning of line 913: the number of just-created edges that the pruning loop
deleted because their coverage was below `cutting_coverage`; `0` when `MultiSplit` returns
at a guard. -/
def lowCoverageCount (env : Env) (rr : RepeatResolver) (v : VertexId) : Nat :=
  match splitGuards env rr v with
  | none => 0
  | some t => (splitLoopAt env t.1 t.2.1 t.2.2 v t.2.2.toNat).low_coverage

/-- The invariant of the working graph `g` while `MultiSplit(v)`, entered with the graph
`G`, splits without pruning: the edges and vertices of `G` are still there, unchanged up to
the coverage counter, and no edge created since is incident to `v`. -/
structure CleanInv (G : Graph) (v : VertexId) (g : Graph) : Prop where
  typed : g.conjugate_typed = G.conjugate_typed
  fresh_ge : G.fresh ≤ g.fresh
  vids : ∀ r ∈ g.vertices, r.id < g.fresh
  vold : ∀ x, x < G.fresh → g.vertex x = G.vertex x
  old : ∀ e, e < G.fresh → g.shape e = G.shape e
  oldrec : ∀ r ∈ g.edges, r.id < G.fresh →
    r.start < G.fresh ∧ r.finish < G.fresh ∧ r.conj < G.fresh
  ids : ∀ r ∈ g.edges, r.id < g.fresh
  ends : ∀ r ∈ g.edges, r.start < g.fresh ∧ r.finish < g.fresh
  newrec : ∀ r ∈ g.edges, G.fresh ≤ r.id → r.start ≠ v ∧ r.finish ≠ v

/-- In `g` the vertex `nv` has exactly one outgoing edge, `a`, and `a` is a copy of the
edge `X` of `G` made after `G`: it has the end and the sequence of `X`. -/
structure OutCopy (G g : Graph) (nv : VertexId) (X a : EdgeId) : Prop where
  created : G.fresh ≤ a
  copy : ∃ r, g.edge a = some r ∧ r.start = nv ∧ r.finish = G.EdgeEnd X
    ∧ r.nucls = G.EdgeNucls X
  only : ∀ r ∈ g.edges, r.start = nv → r.id = a

/-- In `g` the vertex `nv` has exactly one incoming edge, `c`, and `c` is a copy of the
edge `Y` of `G` made after `G`: it has the start and the sequence of `Y`. -/
structure InCopy (G g : Graph) (nv : VertexId) (Y c : EdgeId) : Prop where
  created : G.fresh ≤ c
  copy : ∃ r, g.edge c = some r ∧ r.finish = nv ∧ r.start = G.EdgeStart Y
    ∧ r.nucls = G.EdgeNucls Y
  only : ∀ r ∈ g.edges, r.finish = nv → r.id = c

/-- The comparison `a < b` of two values of type `double` of which each may be NaN
(`none`): false as soon as an operand is NaN. -/
def nanLt (a b : Option ℚ) : Bool :=
  match a, b with
  | some x, some y => decide (x < y)
  | _, _ => false

/-- The call `std::max(a, b)` on `double`, which returns `(a < b) ? b : a`: when an
operand is NaN the first argument is returned. -/
def stdMax (a b : Option ℚ) : Option ℚ := if nanLt a b then b else a

/-- The member `EdgeInfo::isClose` when `max_diff` may be NaN (`none`). -/
def EdgeInfo.isCloseNaN (a b : ℚ) (max_diff : Option ℚ) : Bool :=
  nanLt (some |a - b|) max_diff

/-- The method `EdgeInfo::IsEdgesOnDistanceAdjacent` (lines 113-187) when `max_diff` may
be NaN; returns the answer and the updated distance cache. -/
def IsEdgesOnDistanceAdjacentNaN (env : Env) (depth : Int) (edge : EdgeId) (d : ℚ)
    (other_edge : EdgeId) (other_d : ℚ) (old_graph : Graph) (max_diff : Option ℚ)
    (first_equal : Bool) (distance_counter : FastDistanceCounter) :
    Bool × FastDistanceCounter :=
  let v_s := old_graph.EdgeStart edge
  let v_e := old_graph.EdgeEnd edge
  let other_v_s := old_graph.EdgeStart other_edge
  let other_v_e := old_graph.EdgeEnd other_edge
  let len : Int := old_graph.length edge
  let other_len : Int := old_graph.length other_edge
  let f := FastDistanceCounter.GetDistances env old_graph depth distance_counter v_e other_v_s
  let b := FastDistanceCounter.GetDistances env old_graph depth f.2 other_v_e v_s
  let forward_distance := f.1
  let backward_distance := b.1
  let answer : Bool :=
    if EdgeInfo.isCloseNaN (d + (len : ℚ) + (forward_distance : ℚ)) other_d max_diff then true
    else if EdgeInfo.isCloseNaN (other_d + (other_len : ℚ) + (backward_distance : ℚ)) d
        max_diff then true
    else if other_edge = edge ∧ EdgeInfo.isCloseNaN d other_d max_diff = true then true
    else if first_equal then
      if (v_e = other_v_s ∧ EdgeInfo.isCloseNaN (d + (len : ℚ)) other_d max_diff = true)
          ∨ (v_s = other_v_e
              ∧ EdgeInfo.isCloseNaN d (other_d + (other_len : ℚ)) max_diff = true)
          ∨ (other_edge = edge ∧ EdgeInfo.isCloseNaN d other_d max_diff = true) then true
      else false
    else false
  (answer, b.2)

/-- The method `EdgeInfo::isAdjacent` (lines 193-224) called on `this_info` with argument
`other_info`, for occurrences whose field `lp.variance` may hold NaN: `variance` stands for
`lp.variance` and `other_variance` for `other_info.lp.variance`, `none` being NaN (the
field `variance` of the two records is not read). Returns the answer and the updated
distance cache. -/
def EdgeInfo.isAdjacentNaN (env : Env) (this_info other_info : EdgeInfo)
    (variance other_variance : Option ℚ) (old_graph new_graph : Graph)
    (distance_counter : FastDistanceCounter) : Bool × FastDistanceCounter :=
  let lp := this_info.lp
  if lp.first ≠ other_info.lp.first
      ∧ new_graph.EdgeStart lp.first ≠ new_graph.EdgeEnd lp.first
      ∧ new_graph.EdgeStart other_info.lp.first ≠ new_graph.EdgeEnd other_info.lp.first
      ∧ (new_graph.EdgeStart lp.first = new_graph.EdgeStart other_info.lp.first
          ∨ new_graph.EdgeEnd lp.first = new_graph.EdgeEnd other_info.lp.first) then
    (false, distance_counter)
  else if lp.first = other_info.lp.first
      ∧ new_graph.length lp.first > env.cfg.rr_max_repeat_length then
    (true, distance_counter)
  else
    let max_diff : Option ℚ :=
      (stdMax variance other_variance).map (fun m => m + 1 / 2 + 1 / 1000000000)
    IsEdgesOnDistanceAdjacentNaN env env.cfg.rr_max_distance this_info.edge this_info.d
      other_info.edge other_info.d old_graph max_diff
      (decide (lp.first = other_info.lp.first)) distance_counter

/-! ## Theorems -/

theorem log2F_spec (f n : Nat) (hf : n ≤ f) (hn : 0 < n) :
    2 ^ log2F f n ≤ n ∧ n < 2 ^ (log2F f n + 1) := by
  induction f generalizing n with
  | zero => omega
  | succ f ih =>
    unfold log2F
    by_cases h2 : n < 2
    · rw [if_pos h2]
      have : n = 1 := by omega
      subst this
      simp
    · rw [if_neg h2]
      have hdiv : n / 2 ≤ f := by omega
      have hpos : 0 < n / 2 := by omega
      obtain ⟨i1, i2⟩ := ih (n / 2) hdiv hpos
      constructor
      · rw [pow_succ]
        omega
      · rw [pow_succ]
        omega

theorem roundHalfEven_ge (a b : Nat) : a / b ≤ roundHalfEven a b := by
  unfold roundHalfEven
  split_ifs <;> omega

theorem roundHalfEven_pos (a b : Nat) (hb : 0 < b) (h : b ≤ a) : 0 < roundHalfEven a b := by
  have h1 : 1 ≤ a / b := (Nat.one_le_div_iff hb).2 h
  have := roundHalfEven_ge a b
  omega

theorem binScale_le (n d : Nat) (hn : 0 < n) (hd : 0 < d) :
    d * 2 ^ (-binScale n d).toNat ≤ n * 2 ^ (binScale n d).toNat := by
  obtain ⟨n1, n2⟩ := log2F_spec n n (Nat.le_refl _) hn
  obtain ⟨d1, d2⟩ := log2F_spec d d (Nat.le_refl _) hd
  have hk : 52 + (log2F d d : Int) - (log2F n n : Int) ≤ binScale n d := by
    unfold binScale
    split_ifs <;> omega
  generalize binScale n d = k at hk
  generalize log2F n n = ln at *
  generalize log2F d d = ld at *
  have key : 2 ^ (ld + 1) * 2 ^ (-k).toNat ≤ 2 ^ ln * 2 ^ k.toNat := by
    rw [← pow_add, ← pow_add]
    apply Nat.pow_le_pow_right (by decide)
    omega
  calc d * 2 ^ (-k).toNat ≤ 2 ^ (ld + 1) * 2 ^ (-k).toNat :=
        Nat.mul_le_mul_right _ (Nat.le_of_lt d2)
    _ ≤ 2 ^ ln * 2 ^ k.toNat := key
    _ ≤ n * 2 ^ k.toNat := Nat.mul_le_mul_right _ n1

theorem roundDouble_zero : roundDouble 0 = 0 := by
  unfold roundDouble
  simp

/-- Rounding to `double` keeps a positive number positive (no underflow in the model). -/
theorem roundDouble_pos (x : ℚ) (hx : 0 < x) : 0 < roundDouble x := by
  have hnum : 0 < x.num := Rat.num_pos.2 hx
  unfold roundDouble
  rw [if_neg (ne_of_gt hnum)]
  simp only
  have hn : 0 < x.num.natAbs := Int.natAbs_pos.2 (ne_of_gt hnum)
  have hm := roundHalfEven_pos _ _
    (Nat.mul_pos x.den_pos (Nat.pos_pow_of_pos _ (by decide)))
    (binScale_le x.num.natAbs x.den hn x.den_pos)
  rw [Int.sign_eq_one_of_pos hnum, one_mul]
  have hnumpos : (0 : Int) < (roundHalfEven
      (x.num.natAbs * 2 ^ (binScale x.num.natAbs x.den).toNat)
      (x.den * 2 ^ (-binScale x.num.natAbs x.den).toNat) : Int)
        * 2 ^ (-binScale x.num.natAbs x.den).toNat := by
    apply mul_pos
    · exact_mod_cast hm
    · positivity
  rw [Rat.mkRat_eq_div]
  apply div_pos
  · exact_mod_cast hnumpos
  · positivity

theorem roundDouble_one : roundDouble 1 = 1 := by decide!

theorem roundDouble_div_self (x : ℚ) (hx : x ≠ 0) : roundDouble (x / x) = 1 := by
  rw [div_self hx, roundDouble_one]

theorem StdMap.find_put {β : Type} (m : StdMap β) (k : Nat) (v : β) (k2 : Nat) :
    StdMap.find (StdMap.put m k v) k2 = if k = k2 then some v else StdMap.find m k2 := by
  induction m with
  | nil => simp [StdMap.put, StdMap.find]
  | cons hd t ih =>
    obtain ⟨k', v'⟩ := hd
    simp only [StdMap.put]
    by_cases h1 : k < k'
    · simp only [if_pos h1, StdMap.find]
    · simp only [if_neg h1]
      by_cases h2 : k = k'
      · subst h2
        simp only [if_true, StdMap.find]
        by_cases h3 : k = k2 <;> simp [h3]
      · simp only [if_neg h2, StdMap.find, ih]
        by_cases h3 : k' = k2
        · subst h3
          simp [h2]
        · simp [h3]

theorem StdMap.find_insert {β : Type} (m : StdMap β) (k : Nat) (v : β) (k2 : Nat) :
    StdMap.find (StdMap.insert m k v) k2 =
      if (StdMap.find m k).isSome then StdMap.find m k2
      else if k = k2 then some v else StdMap.find m k2 := by
  unfold StdMap.insert
  cases h : StdMap.find m k with
  | none => simp [StdMap.find_put]
  | some x => simp

theorem StdMap.mem_of_find {β : Type} (m : StdMap β) (k : Nat) (v : β)
    (h : StdMap.find m k = some v) : (k, v) ∈ m := by
  induction m with
  | nil => simp [StdMap.find] at h
  | cons hd t ih =>
    obtain ⟨k', v'⟩ := hd
    simp only [StdMap.find] at h
    split_ifs at h with h1
    · simp at h; subst h1; subst h; simp
    · exact List.mem_cons_of_mem _ (ih h)

theorem initEdgeCounts_find (l : List EdgeId) (m : StdMap Int) (e : EdgeId)
    (h : e ∈ l ∨ StdMap.find m e = some 0) (hm : ∀ c, StdMap.find m e = some c → c = 0) :
    StdMap.find (l.foldl (fun m e => StdMap.insert m e 0) m) e = some 0 := by
  induction l generalizing m with
  | nil =>
    rcases h with h | h
    · simp at h
    · simpa using h
  | cons a t ih =>
    simp only [List.foldl_cons]
    apply ih
    · rcases h with h | h
      · rcases List.mem_cons.1 h with h | h
        · right
          subst h
          rw [StdMap.find_insert]
          cases hf : StdMap.find m e with
          | none => simp
          | some c => simp [hm c hf]
        · left; exact h
      · right
        rw [StdMap.find_insert]
        split_ifs <;> simp_all
    · intro c hc
      rw [StdMap.find_insert] at hc
      split_ifs at hc with h1 h2
      · exact hm c hc
      · simpa using hc.symm
      · exact hm c hc

theorem countLoop_find_of_absent (l : List (EdgeInfo × Int)) (st : Int × StdMap Int) (e : EdgeId)
    (c : Int) (h : StdMap.find st.2 e = some c) (hl : ∀ ic ∈ l, ic.1.lp.first ≠ e) :
    StdMap.find (l.foldl countStep st).2 e = some c := by
  induction l generalizing st with
  | nil => simpa using h
  | cons a t ih =>
    simp only [List.foldl_cons]
    apply ih
    · simp only [countStep, StdMap.find_put]
      rw [if_neg (hl a (List.mem_cons_self _ _))]
      exact h
    · intro ic hic
      exact hl ic (List.mem_cons_of_mem _ hic)

theorem countLoop_k_zero (l : List (EdgeInfo × Int)) (st : Int × StdMap Int)
    (h : st.1 = 0) (hl : ∀ ic ∈ l, ic.2 = 0) : (l.foldl countStep st).1 = 0 := by
  induction l generalizing st with
  | nil => simpa using h
  | cons a t ih =>
    simp only [List.foldl_cons]
    apply ih
    · simp [countStep, h, hl a (List.mem_cons_self _ _)]
    · intro ic hic
      exact hl ic (List.mem_cons_of_mem _ hic)

theorem orphanLoop_blocked (cheating_mode : Int) (pd : MixedData) (hm : cheating_mode ≠ 2)
    (l : List (Nat × Int)) (infos : List EdgeInfo) (cols : List Int) (k : Int)
    (h : ∃ e, (e, (0 : Int)) ∈ l) : orphanLoop cheating_mode pd l infos cols k = none := by
  induction l with
  | nil => simp at h
  | cons a t ih =>
    obtain ⟨e, cnt⟩ := a
    simp only [orphanLoop]
    by_cases hc : cnt = 0
    · simp [hc, hm]
    · simp only [if_neg hc]
      apply ih
      obtain ⟨e', he'⟩ := h
      rcases List.mem_cons.1 he' with h1 | h1
      · simp at h1; exact absurd h1.2.symm hc
      · exact ⟨e', h1⟩

/-- The guards of `MultiSplit` in front of the orphan loop return `[v]` on an
unchanged state. -/
theorem MultiSplit_guard_unchanged (env : Env) (rr : RepeatResolver) (v : VertexId)
    (h : env.SplitCondition rr.new_graph v (rr.new_graph.OutgoingEdges v) = false
       ∨ env.SplitCondition rr.new_graph v (rr.new_graph.IncomingEdges v) = false
       ∨ ∀ c ∈ rr.edge_info_colors, c = 0) :
    MultiSplit env rr v = (rr, [v]) := by
  unfold MultiSplit
  by_cases hg : env.SplitCondition rr.new_graph v (rr.new_graph.OutgoingEdges v) = true
        ∧ env.SplitCondition rr.new_graph v (rr.new_graph.IncomingEdges v) = true
  · have hcol : ∀ c ∈ rr.edge_info_colors, c = 0 := by
      rcases h with h | h | h
      · rw [hg.1] at h; cases h
      · rw [hg.2] at h; cases h
      · exact h
    have hk : (countLoop rr.edge_infos rr.edge_info_colors
        (initEdgeCounts (rr.new_graph.OutgoingEdges v) (rr.new_graph.IncomingEdges v))).1 = 0 := by
      unfold countLoop
      apply countLoop_k_zero _ _ rfl
      intro ic hic
      exact hcol _ (List.of_mem_zip hic).2
    simp only [hg, hk]
    simp
  · simp only [hg]
    simp

/-- Outside mode 2 an incident edge without coloured occurrence makes `MultiSplit`
return `[v]` on an unchanged state. -/
theorem MultiSplit_orphan_unchanged (env : Env) (rr : RepeatResolver) (v : VertexId)
    (hmode : rr.cheating_mode ≠ 2) (e : EdgeId)
    (he : e ∈ rr.new_graph.OutgoingEdges v ++ rr.new_graph.IncomingEdges v)
    (horphan : ∀ ic ∈ rr.edge_infos.zip rr.edge_info_colors, ic.1.lp.first ≠ e) :
    MultiSplit env rr v = (rr, [v]) := by
  unfold MultiSplit
  by_cases hg : env.SplitCondition rr.new_graph v (rr.new_graph.OutgoingEdges v) = true
        ∧ env.SplitCondition rr.new_graph v (rr.new_graph.IncomingEdges v) = true
  · simp only [hg]
    simp only [not_true_eq_false, and_self, if_false]
    split_ifs with hk
    · rfl
    · have h0 : StdMap.find (countLoop rr.edge_infos rr.edge_info_colors
          (initEdgeCounts (rr.new_graph.OutgoingEdges v) (rr.new_graph.IncomingEdges v))).2 e
            = some 0 := by
        unfold countLoop
        apply countLoop_find_of_absent _ _ _ _ _ horphan
        unfold initEdgeCounts
        apply initEdgeCounts_find _ _ _ (Or.inl he)
        intro c hc
        simp [StdMap.find] at hc
      have hb := orphanLoop_blocked rr.cheating_mode rr.paired_di_data hmode
        _ rr.edge_infos rr.edge_info_colors
        (countLoop rr.edge_infos rr.edge_info_colors
          (initEdgeCounts (rr.new_graph.OutgoingEdges v) (rr.new_graph.IncomingEdges v))).1
        ⟨e, StdMap.mem_of_find _ _ _ h0⟩
      rw [hb]
  · simp only [hg]
    simp

theorem StdSet.mem_insert (s : StdSet) (k x : Nat) :
    x ∈ StdSet.insert s k ↔ x = k ∨ x ∈ s := by
  induction s with
  | nil => simp [StdSet.insert]
  | cons a t ih =>
    simp only [StdSet.insert]
    by_cases h1 : k < a
    · simp [if_pos h1]
    · simp only [if_neg h1]
      by_cases h2 : k = a
      · subst h2
        simp
      · simp only [if_neg h2, List.mem_cons, ih]
        tauto

theorem StdSet.mem_foldl_insert (l : List Nat) (s : StdSet) (x : Nat) :
    x ∈ l.foldl StdSet.insert s ↔ x ∈ l ∨ x ∈ s := by
  induction l generalizing s with
  | nil => simp
  | cons a t ih =>
    simp only [List.foldl_cons, ih, StdSet.mem_insert, List.mem_cons]
    tauto

theorem StdSet.pairwise_insert (s : StdSet) (k : Nat) (h : s.Pairwise (· < ·)) :
    (StdSet.insert s k).Pairwise (· < ·) := by
  induction s with
  | nil => simp [StdSet.insert]
  | cons a t ih =>
    simp only [StdSet.insert]
    rw [List.pairwise_cons] at h
    by_cases h1 : k < a
    · simp only [if_pos h1]
      refine List.Pairwise.cons ?_ (List.Pairwise.cons h.1 h.2)
      intro b hb
      rcases List.mem_cons.1 hb with hb | hb
      · rw [hb]; exact h1
      · exact lt_trans h1 (h.1 b hb)
    · simp only [if_neg h1]
      by_cases h2 : k = a
      · simp only [if_pos h2]
        exact List.Pairwise.cons h.1 h.2
      · simp only [if_neg h2]
        refine List.Pairwise.cons ?_ (ih h.2)
        intro b hb
        rcases (StdSet.mem_insert t k b).1 hb with hb | hb
        · rw [hb]; omega
        · exact h.1 b hb

theorem StdSet.pairwise_foldl_insert (l : List Nat) (s : StdSet) (h : s.Pairwise (· < ·)) :
    (l.foldl StdSet.insert s).Pairwise (· < ·) := by
  induction l generalizing s with
  | nil => simpa using h
  | cons a t ih => exact ih _ (StdSet.pairwise_insert s a h)

theorem StdSet.nodup_foldl_insert (l : List Nat) : (l.foldl StdSet.insert []).Nodup := by
  have h := StdSet.pairwise_foldl_insert l [] List.Pairwise.nil
  exact h.imp (fun hab => Nat.ne_of_lt hab)

theorem Graph.edgeIds_SetCoverage (g : Graph) (e : EdgeId) (c : Int) :
    (g.SetCoverage e c).edgeIds = g.edgeIds := by
  unfold Graph.SetCoverage Graph.edgeIds
  simp only [List.map_map]
  apply List.map_congr_left
  intro r _
  simp only [Function.comp]
  split_ifs <;> rfl

theorem Graph.conjugateE_SetCoverage (g : Graph) (e : EdgeId) (c : Int) (x : EdgeId) :
    (g.SetCoverage e c).conjugateE x = g.conjugateE x := by
  unfold Graph.conjugateE Graph.edge Graph.SetCoverage
  simp only
  induction g.edges with
  | nil => simp
  | cons r t ih =>
    simp only [List.map_cons, List.find?_cons]
    by_cases h : r.id = e
    · simp only [if_pos h]
      by_cases h2 : r.id = x
      · simp [h2]
      · simp only [h2, decide_False]
        simpa using ih
    · simp only [if_neg h]
      by_cases h2 : r.id = x
      · simp [h2]
      · simp only [h2, decide_False]
        simpa using ih

theorem Graph.conjugateE_append_fresh (g : Graph) (r1 : EdgeRec) (rest : List EdgeRec)
    (h : ∀ id ∈ g.edgeIds, id < r1.id) :
    ({ g with edges := g.edges ++ r1 :: rest } : Graph).conjugateE r1.id = r1.conj := by
  unfold Graph.conjugateE Graph.edge
  simp only
  have : ∀ l : List EdgeRec, (∀ r ∈ l, r.id < r1.id) →
      (l ++ r1 :: rest).find? (fun r => decide (r.id = r1.id)) = some r1 := by
    intro l hl
    induction l with
    | nil => simp
    | cons a t ih =>
      have ha : a.id ≠ r1.id := Nat.ne_of_lt (hl a (List.mem_cons_self _ _))
      simp only [List.cons_append, List.find?_cons, ha, decide_False]
      exact ih (fun r hr => hl r (List.mem_cons_of_mem _ hr))
  rw [this]
  · simp
  · intro r hr
    apply h
    unfold Graph.edgeIds
    exact List.mem_map_of_mem _ hr


theorem StdSet.contains_iff (s : StdSet) (k : Nat) : StdSet.contains s k = true ↔ k ∈ s := by
  simp [StdSet.contains]

theorem copyEdge_skip (old : Graph) (st : EdgeCopy) (e : EdgeId) (h : e ∈ st.rc_edges) :
    copyEdge true old st e = st := by
  unfold copyEdge
  simp [StdSet.contains, h]

theorem Graph.fresh_SetCoverage (g : Graph) (e : EdgeId) (c : Int) :
    (g.SetCoverage e c).fresh = g.fresh := rfl

theorem Graph.typed_SetCoverage (g : Graph) (e : EdgeId) (c : Int) :
    (g.SetCoverage e c).conjugate_typed = g.conjugate_typed := rfl

theorem Graph.vertices_SetCoverage (g : Graph) (e : EdgeId) (c : Int) :
    (g.SetCoverage e c).vertices = g.vertices := rfl

theorem WrappedSetCoverage_edgeIds (rc : Bool) (g : Graph) (e : EdgeId) (c : Int) :
    (WrappedSetCoverage rc g e c).1.edgeIds = g.edgeIds := by
  unfold WrappedSetCoverage
  cases rc <;> simp [Graph.edgeIds_SetCoverage]

theorem WrappedSetCoverage_fresh (rc : Bool) (g : Graph) (e : EdgeId) (c : Int) :
    (WrappedSetCoverage rc g e c).1.fresh = g.fresh := by
  unfold WrappedSetCoverage
  cases rc <;> simp [Graph.fresh_SetCoverage]

theorem WrappedSetCoverage_typed (rc : Bool) (g : Graph) (e : EdgeId) (c : Int) :
    (WrappedSetCoverage rc g e c).1.conjugate_typed = g.conjugate_typed := by
  unfold WrappedSetCoverage
  cases rc <;> simp [Graph.typed_SetCoverage]

theorem WrappedSetCoverage_vertices (rc : Bool) (g : Graph) (e : EdgeId) (c : Int) :
    (WrappedSetCoverage rc g e c).1.vertices = g.vertices := by
  unfold WrappedSetCoverage
  cases rc <;> simp [Graph.vertices_SetCoverage]

theorem WrappedSetCoverage_conjugateE (rc : Bool) (g : Graph) (e : EdgeId) (c : Int) (x : EdgeId) :
    (WrappedSetCoverage rc g e c).1.conjugateE x = g.conjugateE x := by
  unfold WrappedSetCoverage
  cases rc <;> simp [Graph.conjugateE_SetCoverage]

theorem Graph.AddEdge_snd (g : Graph) (s t : VertexId) (n : List Nat) :
    (g.AddEdge s t n).2 = g.fresh := by
  unfold Graph.AddEdge Graph.addEdgeCov
  split_ifs <;> rfl

theorem Graph.AddEdge_typed (g : Graph) (s t : VertexId) (n : List Nat) :
    (g.AddEdge s t n).1.conjugate_typed = g.conjugate_typed := by
  unfold Graph.AddEdge Graph.addEdgeCov
  split_ifs <;> rfl

theorem Graph.AddEdge_vertices (g : Graph) (s t : VertexId) (n : List Nat) :
    (g.AddEdge s t n).1.vertices = g.vertices := by
  unfold Graph.AddEdge Graph.addEdgeCov
  split_ifs <;> rfl

theorem Graph.AddEdge_edgeIds_conj (g : Graph) (s t : VertexId) (n : List Nat)
    (h : g.conjugate_typed = true) :
    (g.AddEdge s t n).1.edgeIds = g.edgeIds ++ [g.fresh, g.fresh + 1] := by
  unfold Graph.AddEdge Graph.addEdgeCov
  simp [h, Graph.edgeIds]

theorem Graph.AddEdge_fresh_conj (g : Graph) (s t : VertexId) (n : List Nat)
    (h : g.conjugate_typed = true) : (g.AddEdge s t n).1.fresh = g.fresh + 2 := by
  unfold Graph.AddEdge Graph.addEdgeCov
  simp [h]

theorem Graph.AddEdge_conjugateE_conj (g : Graph) (s t : VertexId) (n : List Nat)
    (h : g.conjugate_typed = true) (hfresh : ∀ id ∈ g.edgeIds, id < g.fresh) :
    (g.AddEdge s t n).1.conjugateE g.fresh = g.fresh + 1 := by
  unfold Graph.AddEdge Graph.addEdgeCov
  simp only [h, if_true]
  exact Graph.conjugateE_append_fresh g ⟨g.fresh, _, _, _, _, _⟩ _ hfresh

theorem Graph.AddEdge_edgeIds_plain (g : Graph) (s t : VertexId) (n : List Nat)
    (h : g.conjugate_typed = false) :
    (g.AddEdge s t n).1.edgeIds = g.edgeIds ++ [g.fresh] := by
  unfold Graph.AddEdge Graph.addEdgeCov
  simp [h, Graph.edgeIds]

theorem Graph.AddEdge_fresh_plain (g : Graph) (s t : VertexId) (n : List Nat)
    (h : g.conjugate_typed = false) : (g.AddEdge s t n).1.fresh = g.fresh + 1 := by
  unfold Graph.AddEdge Graph.addEdgeCov
  simp [h]

theorem copyEdge_rc (old : Graph) (st : EdgeCopy) (e : EdgeId) (h : e ∉ st.rc_edges)
    (hold : old.conjugate_typed = true) (hnew : st.new_graph.conjugate_typed = true)
    (hfresh : ∀ id ∈ st.new_graph.edgeIds, id < st.new_graph.fresh) :
    (copyEdge true old st e).new_graph.edgeIds
        = st.new_graph.edgeIds ++ [st.new_graph.fresh, st.new_graph.fresh + 1]
    ∧ (copyEdge true old st e).new_graph.fresh = st.new_graph.fresh + 2
    ∧ (copyEdge true old st e).new_graph.conjugate_typed = true
    ∧ (copyEdge true old st e).old_to_new_edge
        = StdMap.put (StdMap.put st.old_to_new_edge e st.new_graph.fresh) (old.conjugateE e)
            (st.new_graph.fresh + 1)
    ∧ (copyEdge true old st e).rc_edges = StdSet.insert st.rc_edges (old.conjugateE e) := by
  have hs : (true && StdSet.contains st.rc_edges e) = false := by
    simp [StdSet.contains, h]
  simp only [copyEdge, hs, Bool.false_eq_true, if_false, if_true,
    WrappedSetCoverage_edgeIds, WrappedSetCoverage_fresh, WrappedSetCoverage_typed,
    Graph.AddEdge_snd, Graph.AddEdge_typed, hnew,
    Graph.AddEdge_edgeIds_conj _ _ _ _ hnew, Graph.AddEdge_fresh_conj _ _ _ _ hnew,
    conj_wrap_edge, hold, WrappedSetCoverage_conjugateE,
    Graph.AddEdge_conjugateE_conj _ _ _ _ hnew hfresh]
  simp

theorem copyEdge_plain (old : Graph) (st : EdgeCopy) (e : EdgeId)
    (hnew : st.new_graph.conjugate_typed = false) :
    (copyEdge false old st e).new_graph.edgeIds = st.new_graph.edgeIds ++ [st.new_graph.fresh]
    ∧ (copyEdge false old st e).new_graph.fresh = st.new_graph.fresh + 1
    ∧ (copyEdge false old st e).new_graph.conjugate_typed = false
    ∧ (copyEdge false old st e).old_to_new_edge
        = StdMap.put st.old_to_new_edge e st.new_graph.fresh
    ∧ (copyEdge false old st e).rc_edges = st.rc_edges := by
  simp only [copyEdge, Bool.false_and, Bool.false_eq_true, if_false,
    WrappedSetCoverage_edgeIds, WrappedSetCoverage_fresh, WrappedSetCoverage_typed,
    Graph.AddEdge_snd, Graph.AddEdge_typed, hnew,
    Graph.AddEdge_edgeIds_plain _ _ _ _ hnew, Graph.AddEdge_fresh_plain _ _ _ _ hnew]
  simp

theorem EdgeCopyInv.copy_step (rc : Bool) (old : Graph) (P : List EdgeId) (st : EdgeCopy) (e : EdgeId)
    (hold : old.conjugate_typed = rc) (hconj : rc = true → OldConjOk old)
    (hP : ∀ y ∈ P, y ∈ old.edgeIds) (he : e ∈ old.edgeIds) (heP : e ∉ P)
    (inv : EdgeCopyInv rc old P st) :
    EdgeCopyInv rc old (P ++ [e]) (copyEdge rc old st e) := by
  cases rc with
  | false =>
    obtain ⟨h1, h2, h3, h4, h5⟩ := copyEdge_plain old st e inv.typed
    have hkey : ∀ x, (StdMap.find st.old_to_new_edge x).isSome → x ≠ e := by
      intro x hx hxe
      rcases inv.keys x hx with h | h
      · exact heP (hxe ▸ h)
      · exact absurd (inv.rcs x h).1 (by simp)
    refine ⟨h3, ?_, ?_, ?_, ?_, ?_⟩
    · intro id hid
      rw [h1] at hid
      rw [h2]
      rcases List.mem_append.1 hid with hid | hid
      · exact Nat.lt_succ_of_lt (inv.fresh id hid)
      · simp at hid; rw [hid]; exact Nat.lt_succ_self _
    · intro id hid
      rw [h1] at hid
      rw [h4]
      rcases List.mem_append.1 hid with hid | hid
      · obtain ⟨x, hx⟩ := inv.surj id hid
        refine ⟨x, ?_⟩
        rw [StdMap.find_put, if_neg (Ne.symm (hkey x (by simp [hx]))), hx]
      · simp at hid
        exact ⟨e, by rw [StdMap.find_put, if_pos rfl, hid]⟩
    · intro x hx
      rw [h4, StdMap.find_put] at hx
      by_cases hxe : e = x
      · left; simp [hxe]
      · rw [if_neg hxe] at hx
        rcases inv.keys x hx with h | h
        · left; exact List.mem_append_left _ h
        · right; rw [h5]; exact h
    · intro x hx
      rw [h5] at hx
      exact absurd (inv.rcs x hx).1 (by simp)
    · intro h; cases h
  | true =>
    have hok := hconj rfl
    by_cases hs : e ∈ st.rc_edges
    · rw [copyEdge_skip old st e hs]
      refine ⟨inv.typed, inv.fresh, inv.surj, ?_, ?_, ?_⟩
      · intro x hx
        rcases inv.keys x hx with h | h
        · left; exact List.mem_append_left _ h
        · right; exact h
      · intro x hx
        obtain ⟨h1, y, hy, hxy⟩ := inv.rcs x hx
        exact ⟨h1, y, List.mem_append_left _ hy, hxy⟩
      · intro _ y hy
        rcases List.mem_append.1 hy with hy | hy
        · exact inv.done rfl y hy
        · simp at hy; left; rw [hy]; exact hs
    · obtain ⟨h1, h2, h3, h4, h5⟩ := copyEdge_rc old st e hs hold inv.typed inv.fresh
      have hinj : ∀ y ∈ P, old.conjugateE y ≠ old.conjugateE e := by
        intro y hy hye
        have := congrArg old.conjugateE hye
        rw [(hok y (hP y hy)).2.1, (hok e he).2.1] at this
        exact heP (this ▸ hy)
      have hkey : ∀ x, (StdMap.find st.old_to_new_edge x).isSome →
          x ≠ e ∧ x ≠ old.conjugateE e := by
        intro x hx
        rcases inv.keys x hx with h | h
        · refine ⟨fun hxe => heP (hxe ▸ h), fun hxe => ?_⟩
          rcases inv.done rfl x h with h' | h'
          · obtain ⟨_, y, hy, hxy⟩ := inv.rcs x h'
            exact hinj y hy (by rw [← hxy, hxe])
          · rw [hxe, (hok e he).2.1] at h'
            exact hs h'
        · refine ⟨fun hxe => hs (hxe ▸ h), fun hxe => ?_⟩
          obtain ⟨_, y, hy, hxy⟩ := inv.rcs x h
          exact hinj y hy (by rw [← hxy, hxe])
      refine ⟨h3, ?_, ?_, ?_, ?_, ?_⟩
      · intro id hid
        rw [h1] at hid
        rw [h2]
        rcases List.mem_append.1 hid with hid | hid
        · exact Nat.lt_of_lt_of_le (inv.fresh id hid) (by omega)
        · simp at hid
          rcases hid with hid | hid <;> rw [hid] <;> simp
      · intro id hid
        rw [h1] at hid
        rw [h4]
        rcases List.mem_append.1 hid with hid | hid
        · obtain ⟨x, hx⟩ := inv.surj id hid
          have hk := hkey x (by simp [hx])
          refine ⟨x, ?_⟩
          rw [StdMap.find_put, if_neg (Ne.symm hk.2), StdMap.find_put, if_neg (Ne.symm hk.1), hx]
        · simp at hid
          rcases hid with hid | hid
          · refine ⟨e, ?_⟩
            rw [StdMap.find_put, if_neg (hok e he).1, StdMap.find_put, if_pos rfl, hid]
          · refine ⟨old.conjugateE e, ?_⟩
            rw [StdMap.find_put, if_pos rfl, hid]
      · intro x hx
        rw [h4, StdMap.find_put, StdMap.find_put] at hx
        rw [h5]
        by_cases hx1 : old.conjugateE e = x
        · right; rw [StdSet.mem_insert]; left; exact hx1.symm
        · rw [if_neg hx1] at hx
          by_cases hx2 : e = x
          · left; simp [hx2]
          · rw [if_neg hx2] at hx
            rcases inv.keys x hx with h | h
            · left; exact List.mem_append_left _ h
            · right; rw [StdSet.mem_insert]; right; exact h
      · intro x hx
        rw [h5, StdSet.mem_insert] at hx
        rcases hx with hx | hx
        · exact ⟨rfl, e, by simp, hx⟩
        · obtain ⟨h1, y, hy, hxy⟩ := inv.rcs x hx
          exact ⟨h1, y, List.mem_append_left _ hy, hxy⟩
      · intro _ y hy
        rw [h5]
        rcases List.mem_append.1 hy with hy | hy
        · rcases inv.done rfl y hy with h | h
          · left; rw [StdSet.mem_insert]; right; exact h
          · right; rw [StdSet.mem_insert]; right; exact h
        · simp at hy
          right; rw [StdSet.mem_insert]; left; rw [hy]

theorem EdgeCopyInv.copy_fold (rc : Bool) (old : Graph)
    (hold : old.conjugate_typed = rc) (hconj : rc = true → OldConjOk old)
    (l : List EdgeId) (P : List EdgeId) (st : EdgeCopy)
    (hl : ∀ y ∈ l, y ∈ old.edgeIds) (hP : ∀ y ∈ P, y ∈ old.edgeIds)
    (hnd : l.Nodup) (hdis : ∀ y ∈ l, y ∉ P)
    (inv : EdgeCopyInv rc old P st) :
    EdgeCopyInv rc old (P ++ l) (l.foldl (copyEdge rc old) st) := by
  induction l generalizing P st with
  | nil => simpa using inv
  | cons a t ih =>
    simp only [List.foldl_cons]
    have h := ih (P ++ [a]) (copyEdge rc old st a)
      (fun y hy => hl y (List.mem_cons_of_mem _ hy))
      (by
        intro y hy
        rcases List.mem_append.1 hy with hy | hy
        · exact hP y hy
        · simp at hy; rw [hy]; exact hl a (List.mem_cons_self _ _))
      (List.nodup_cons.1 hnd).2
      (by
        intro y hy hy2
        rcases List.mem_append.1 hy2 with hy2 | hy2
        · exact hdis y (List.mem_cons_of_mem _ hy) hy2
        · simp at hy2
          rw [hy2] at hy
          exact (List.nodup_cons.1 hnd).1 hy)
      (EdgeCopyInv.copy_step rc old P st a hold hconj hP (hl a (List.mem_cons_self _ _))
        (hdis a (List.mem_cons_self _ _)) inv)
    simpa using h

theorem Graph.AddVertex_edges (g : Graph) : g.AddVertex.1.edges = g.edges := by
  unfold Graph.AddVertex
  split_ifs <;> rfl

theorem Graph.AddVertex_typed (g : Graph) : g.AddVertex.1.conjugate_typed = g.conjugate_typed := by
  unfold Graph.AddVertex
  split_ifs <;> rfl

theorem copyVertex_edges (rc : Bool) (old : Graph) (st : VertexCopy) (v : VertexId) :
    (copyVertex rc old st v).new_graph.edges = st.new_graph.edges
    ∧ (copyVertex rc old st v).new_graph.conjugate_typed = st.new_graph.conjugate_typed := by
  unfold copyVertex
  simp only
  split_ifs <;> simp [Graph.AddVertex_edges, Graph.AddVertex_typed]

theorem copyVertex_fold_edges (rc : Bool) (old : Graph) (l : List VertexId) (st : VertexCopy) :
    (l.foldl (copyVertex rc old) st).new_graph.edges = st.new_graph.edges
    ∧ (l.foldl (copyVertex rc old) st).new_graph.conjugate_typed
        = st.new_graph.conjugate_typed := by
  induction l generalizing st with
  | nil => simp
  | cons a t ih =>
    simp only [List.foldl_cons]
    rw [(ih _).1, (ih _).2, (copyVertex_edges rc old st a).1, (copyVertex_edges rc old st a).2]
    exact ⟨rfl, rfl⟩

theorem cheat_edge_iff (l : List PairInfo) :
    cheat_edge l = true ↔ ¬ ∃ p ∈ l, usable p := by
  simp [cheat_edge, usable, List.any_eq_true]

theorem StdMap.find_touch_of_find {β : Type} (m : StdMap β) (y : Nat) (d : β) (x : Nat) (v : β)
    (h : StdMap.find m x = some v) : StdMap.find (StdMap.touch m y d) x = some v := by
  unfold StdMap.touch
  rw [StdMap.find_insert]
  by_cases hy : (StdMap.find m y).isSome
  · rw [if_pos hy, h]
  · rw [if_neg hy]
    by_cases hyx : y = x
    · subst hyx
      rw [h] at hy
      simp at hy
    · rw [if_neg hyx, h]

theorem flagCheater_sound (pd : MixedData) (l : List EdgeId) (st : StdMap EdgeId × StdSet)
    (x : Nat) (hx : x ∈ (l.foldl (flagCheater pd) st).2) :
    x ∈ st.2 ∨ cheat_edge (MixedData.GetEdgeInfos pd x) = true := by
  induction l generalizing st with
  | nil => left; simpa using hx
  | cons a t ih =>
    simp only [List.foldl_cons] at hx
    rcases ih _ hx with h | h
    · unfold flagCheater at h
      by_cases hc : cheat_edge (MixedData.GetEdgeInfos pd (StdMap.get st.1 a 0)) = true
      · simp only [hc, if_true] at h
        rcases (StdSet.mem_insert _ _ _).1 h with h | h
        · right; rw [h]; exact hc
        · left; exact h
      · simp only [hc] at h
        left; simpa using h
    · right; exact h

theorem flagCheater_mono (pd : MixedData) (l : List EdgeId) (st : StdMap EdgeId × StdSet)
    (x : Nat) (hx : x ∈ st.2) : x ∈ (l.foldl (flagCheater pd) st).2 := by
  induction l generalizing st with
  | nil => simpa using hx
  | cons a t ih =>
    simp only [List.foldl_cons]
    apply ih
    unfold flagCheater
    simp only
    split_ifs
    · exact (StdSet.mem_insert _ _ _).2 (Or.inr hx)
    · exact hx

theorem flagCheater_complete (pd : MixedData) (l : List EdgeId) (st : StdMap EdgeId × StdSet)
    (x : Nat) (ne : EdgeId) (hx : x ∈ l) (hf : StdMap.find st.1 x = some ne)
    (hc : cheat_edge (MixedData.GetEdgeInfos pd ne) = true) :
    ne ∈ (l.foldl (flagCheater pd) st).2 := by
  induction l generalizing st with
  | nil => simp at hx
  | cons a t ih =>
    simp only [List.foldl_cons]
    rcases List.mem_cons.1 hx with h | h
    · subst h
      apply flagCheater_mono
      unfold flagCheater
      have : StdMap.get st.1 x 0 = ne := by simp [StdMap.get, hf]
      simp only [this, hc, if_true]
      exact (StdSet.mem_insert _ _ _).2 (Or.inl rfl)
    · apply ih _ h
      unfold flagCheater
      simp only
      split_ifs <;> exact StdMap.find_touch_of_find _ _ _ _ _ hf

theorem ctor_edge_surj (env : Env) (old new0 : Graph) (hpre : CtorPre env old new0) :
    EdgeCopyInv env.cfg.rr_symmetric_resolve old (old.edgeIds.foldl StdSet.insert [])
      (ctorEdgeCopy env.cfg.rr_symmetric_resolve old new0) := by
  have hmem : ∀ y ∈ old.edgeIds.foldl StdSet.insert [], y ∈ old.edgeIds := by
    intro y hy
    simpa using (StdSet.mem_foldl_insert _ _ _).1 hy
  have he := copyVertex_fold_edges env.cfg.rr_symmetric_resolve old
    (old.vertexIds.foldl StdSet.insert [])
    { new_graph := new0, vertex_labels := [], old_to_new := [], rc_vertices := [],
      verify_failed := false }
  have h := EdgeCopyInv.copy_fold env.cfg.rr_symmetric_resolve old hpre.old_typed hpre.old_conj
    (old.edgeIds.foldl StdSet.insert []) []
    { new_graph := (ctorVertexCopy env.cfg.rr_symmetric_resolve old new0).new_graph,
      edge_labels := [],
      old_to_new := (ctorVertexCopy env.cfg.rr_symmetric_resolve old new0).old_to_new,
      old_to_new_edge := [], rc_edges := [],
      verify_failed := (ctorVertexCopy env.cfg.rr_symmetric_resolve old new0).verify_failed }
    hmem (by simp) (StdSet.nodup_foldl_insert _) (by simp)
    (by
      refine ⟨?_, ?_, ?_, ?_, ?_, ?_⟩
      · simp only [ctorVertexCopy, he.2, hpre.new_typed]
      · intro id hid
        simp only [ctorVertexCopy, Graph.edgeIds, he.1, hpre.new_edges] at hid
        simp at hid
      · intro id hid
        simp only [ctorVertexCopy, Graph.edgeIds, he.1, hpre.new_edges] at hid
        simp at hid
      · intro x hx
        simp [StdMap.find] at hx
      · intro x hx
        simp at hx
      · intro _ y hy
        simp at hy)
  simpa [ctorEdgeCopy] using h

/-- After construction the global cheating set holds exactly the working edges
without usable observation in the migrated index. -/
theorem ctor_global_cheating_iff (env : Env) (old_graph_ new_graph_ : Graph)
    (ind : List (List PairInfo)) (hpre : CtorPre env old_graph_ new_graph_) (e : EdgeId)
    (he : e ∈ (RepeatResolver.ctor env old_graph_ ind new_graph_).new_graph.edgeIds) :
    e ∈ (RepeatResolver.ctor env old_graph_ ind new_graph_).global_cheating_edges ↔
      ¬ ∃ p ∈ MixedData.GetEdgeInfos
          (RepeatResolver.ctor env old_graph_ ind new_graph_).paired_di_data e, usable p := by
  have inv := ctor_edge_surj env old_graph_ new_graph_ hpre
  simp only [RepeatResolver.ctor] at he ⊢
  rw [← cheat_edge_iff]
  constructor
  · intro h
    rcases flagCheater_sound _ _ _ _ h with h | h
    · simp at h
    · exact h
  · intro h
    obtain ⟨x, hx⟩ := inv.surj e he
    have hxe : x ∈ old_graph_.edgeIds.foldl StdSet.insert [] := by
      rcases inv.keys x (by simp [hx]) with h1 | h1
      · exact h1
      · obtain ⟨hrc, y, hy, hxy⟩ := inv.rcs x h1
        have hy2 : y ∈ old_graph_.edgeIds := by
          simpa using (StdSet.mem_foldl_insert _ _ _).1 hy
        rw [hxy]
        exact (StdSet.mem_foldl_insert _ _ _).2 (Or.inl (hpre.old_conj hrc y hy2).2.2)
    exact flagCheater_complete _ _ _ x e hxe hx h

theorem copyPairInfo_fold_mem (m : StdMap EdgeId) (pi : List PairInfo) (data : MixedData)
    (p : PairInfo) (hp : p ∈ pi.foldl (copyPairInfo m) data) :
    p ∈ data ∨ ∃ q ∈ pi, p.weight = q.weight ∧ p.d = q.d := by
  induction pi generalizing data with
  | nil => left; simpa using hp
  | cons a t ih =>
    simp only [List.foldl_cons] at hp
    rcases ih _ hp with h | ⟨q, hq, hw⟩
    · unfold copyPairInfo at h
      split_ifs at h
      · unfold MixedData.AddPairInfo at h
        rcases List.mem_append.1 h with h | h
        · left; exact h
        · simp at h
          right
          exact ⟨a, List.mem_cons_self _ _, by rw [h], by rw [h]⟩
      · left; exact h
    · right
      exact ⟨q, List.mem_cons_of_mem _ hq, hw⟩

theorem ctorPairedData_mem (m : StdMap EdgeId) (ind : List (List PairInfo)) (data : MixedData)
    (p : PairInfo)
    (hp : p ∈ ind.foldl (fun data pi => pi.foldl (copyPairInfo m) data) data) :
    p ∈ data ∨ ∃ g ∈ ind, ∃ q ∈ g, p.weight = q.weight ∧ p.d = q.d := by
  induction ind generalizing data with
  | nil => left; simpa using hp
  | cons a t ih =>
    simp only [List.foldl_cons] at hp
    rcases ih _ hp with h | ⟨g, hg, q, hq, hw⟩
    · rcases copyPairInfo_fold_mem m a data p h with h | ⟨q, hq, hw⟩
      · left; exact h
      · right; exact ⟨a, List.mem_cons_self _ _, q, hq, hw⟩
    · right; exact ⟨g, List.mem_cons_of_mem _ hg, q, hq, hw⟩

/-- Without usable observation in the original index every working edge is a global
cheating edge after construction. -/
theorem ctor_all_cheaters (env : Env) (old_graph_ new_graph_ : Graph)
    (ind : List (List PairInfo)) (hpre : CtorPre env old_graph_ new_graph_)
    (hind : ∀ g ∈ ind, ∀ p ∈ g, ¬ usable p) (e : EdgeId)
    (he : e ∈ (RepeatResolver.ctor env old_graph_ ind new_graph_).new_graph.edgeIds) :
    e ∈ (RepeatResolver.ctor env old_graph_ ind new_graph_).global_cheating_edges := by
  rw [ctor_global_cheating_iff env old_graph_ new_graph_ ind hpre e he]
  rintro ⟨p, hp, hu⟩
  have hp2 : p ∈ (RepeatResolver.ctor env old_graph_ ind new_graph_).paired_di_data :=
    (List.mem_filter.1 hp).1
  simp only [RepeatResolver.ctor, ctorPairedData] at hp2
  rcases ctorPairedData_mem _ ind [] p hp2 with h | ⟨g, hg, q, hq, hw, hd⟩
  · simp at h
  · apply hind g hg q hq
    unfold usable at hu ⊢
    rw [← hw, ← hd]
    exact hu

theorem Untouched.refl (rr : RepeatResolver) : Untouched rr rr :=
  ⟨rfl, rfl, rfl, rfl, rfl, rfl, rfl, rfl⟩

theorem Untouched.trans {a b c : RepeatResolver} (h1 : Untouched a b) (h2 : Untouched b c) :
    Untouched a c :=
  ⟨h2.new_graph.trans h1.new_graph, h2.paired_di_data.trans h1.paired_di_data,
   h2.global_cheating_edges.trans h1.global_cheating_edges, h2.edge_labels.trans h1.edge_labels,
   h2.vertex_labels.trans h1.vertex_labels, h2.split_calls.trans h1.split_calls,
   h2.rc_mode.trans h1.rc_mode, h2.verify_failed.trans h1.verify_failed⟩

theorem Graph.mem_edgeIds_of_incident (g : Graph) (v : VertexId) (e : EdgeId)
    (h : e ∈ g.OutgoingEdges v ++ g.IncomingEdges v) : e ∈ g.edgeIds := by
  unfold Graph.OutgoingEdges Graph.IncomingEdges at h
  unfold Graph.edgeIds
  rcases List.mem_append.1 h with h | h
  · obtain ⟨r, hr, hre⟩ := List.mem_map.1 h
    exact List.mem_map.2 ⟨r, (List.mem_filter.1 hr).1, hre⟩
  · obtain ⟨r, hr, hre⟩ := List.mem_map.1 h
    exact List.mem_map.2 ⟨r, (List.mem_filter.1 hr).1, hre⟩

theorem sortBy_nil {α : Type} (lt : α → α → Bool) : sortBy lt ([] : List α) = [] := rfl

theorem resolveVertexStep_isolated (env : Env) (rr : RepeatResolver) (changed : Bool)
    (v : VertexId)
    (h0 : rr.new_graph.OutgoingEdges v = []) (h1 : rr.new_graph.IncomingEdges v = []) :
    ∃ rr1, resolveVertexStep env (rr, changed) v = some (rr1, changed) ∧ Untouched rr rr1
      ∧ rr1.cheating_mode = rr.cheating_mode := by
  unfold resolveVertexStep
  simp only
  by_cases hlive : rr.rc_mode = true ∧ ¬ (v ∈ rr.new_graph.vertexIds)
  · rw [if_pos hlive]
    exact ⟨rr, rfl, Untouched.refl rr, rfl⟩
  · rw [if_neg hlive]
    simp only [h0, h1, List.append_nil, List.any_nil, Bool.false_eq_true, if_false]
    have hg : GenerateVertexPairedInfo env rr v
        = ({ rr with edge_infos := [], local_cheating_edges := [] }, 0) := by
      unfold GenerateVertexPairedInfo
      simp [h0, h1, sortBy_nil]
    rw [hg]
    simp only
    by_cases hm : rr.cheating_mode ≠ 1
    · rw [if_pos hm]
      have hr : RectangleResolveVertex env
          { rr with edge_infos := [], local_cheating_edges := [] } v
          = some ({ rr with edge_infos := [], local_cheating_edges := [],
                            edge_info_colors := [] }, 1) := by
        unfold RectangleResolveVertex
        simp only [h0, h1, List.append_nil, List.any_nil, Bool.false_eq_true, and_false,
          if_false, List.length_nil, buildNeighbours, List.range_zero, List.zip_nil_left,
          List.foldl_nil, List.replicate_zero, colourLoop]
        rw [MultiSplit_guard_unchanged env _ v (Or.inr (Or.inr (by simp)))]
        simp
      rw [hr]
      refine ⟨{ rr with edge_infos := [], local_cheating_edges := [], edge_info_colors := [],
                        sum_count := rr.sum_count + ((1 : Nat) : Int) }, ?_,
        ⟨rfl, rfl, rfl, rfl, rfl, rfl, rfl, rfl⟩, rfl⟩
      simp
    · rw [if_neg hm]
      have hr : CheatingResolveVertex env
          { rr with edge_infos := [], local_cheating_edges := [] } v
          = some ({ rr with edge_infos := [], local_cheating_edges := [],
                            edge_info_colors := [] }, 1) := by
        unfold CheatingResolveVertex
        simp [h0, h1, colourLoop, cheatBad, edgeIdMap]
      rw [hr]
      refine ⟨{ rr with edge_infos := [], local_cheating_edges := [], edge_info_colors := [],
                        sum_count := rr.sum_count + ((1 : Nat) : Int) }, ?_,
        ⟨rfl, rfl, rfl, rfl, rfl, rfl, rfl, rfl⟩, rfl⟩
      simp

theorem resolveVertexStep_allCheat (env : Env) (rr : RepeatResolver) (changed : Bool)
    (v : VertexId)
    (hall : ∀ e ∈ rr.new_graph.edgeIds, e ∈ rr.global_cheating_edges) :
    ∃ rr1, resolveVertexStep env (rr, changed) v = some (rr1, changed) ∧ Untouched rr rr1
      ∧ rr1.cheating_mode = rr.cheating_mode := by
  by_cases hinc : rr.new_graph.OutgoingEdges v ++ rr.new_graph.IncomingEdges v = []
  · have h := List.append_eq_nil.1 hinc
    exact resolveVertexStep_isolated env rr changed v h.1 h.2
  · obtain ⟨e, he⟩ := List.exists_mem_of_ne_nil _ hinc
    have hany : (rr.new_graph.OutgoingEdges v ++ rr.new_graph.IncomingEdges v).any
        (fun e => StdSet.contains rr.global_cheating_edges e) = true := by
      rw [List.any_eq_true]
      exact ⟨e, he, by
        simp only [StdSet.contains, decide_eq_true_eq]
        exact hall e (Graph.mem_edgeIds_of_incident _ _ _ he)⟩
    refine ⟨rr, ?_, Untouched.refl rr, rfl⟩
    unfold resolveVertexStep
    simp only
    split_ifs
    · rfl
    · rfl

theorem sweep_fold_allCheat (env : Env) (l : List VertexId) (rr : RepeatResolver)
    (hall : ∀ e ∈ rr.new_graph.edgeIds, e ∈ rr.global_cheating_edges) :
    ∃ rr1, l.foldlM (resolveVertexStep env) (rr, false) = some (rr1, false) ∧ Untouched rr rr1
      ∧ rr1.cheating_mode = rr.cheating_mode := by
  induction l generalizing rr with
  | nil => exact ⟨rr, rfl, Untouched.refl rr, rfl⟩
  | cons a t ih =>
    obtain ⟨rr1, h1, hu1, hm1⟩ := resolveVertexStep_allCheat env rr false a hall
    have hall1 : ∀ e ∈ rr1.new_graph.edgeIds, e ∈ rr1.global_cheating_edges := by
      rw [hu1.new_graph, hu1.global_cheating_edges]
      exact hall
    obtain ⟨rr2, h2, hu2, hm2⟩ := ih rr1 hall1
    refine ⟨rr2, ?_, hu1.trans hu2, hm2.trans hm1⟩
    simp only [List.foldlM_cons, h1]
    exact h2

theorem sweepLoop_allCheat (env : Env) (fuel : Nat) (hfuel : 0 < fuel) (rr : RepeatResolver)
    (hall : ∀ e ∈ rr.new_graph.edgeIds, e ∈ rr.global_cheating_edges) :
    ∃ rr1, sweepLoop env fuel rr = some rr1 ∧ Untouched rr rr1 := by
  cases fuel with
  | zero => omega
  | succ n =>
    obtain ⟨rr1, h1, hu1, _⟩ := sweep_fold_allCheat env
      ((env.unorderedIteration (if rr.rc_mode then fillVerticesComponentsInNonVariableOrder env rr
        else fillVerticesAuto env rr)).map Prod.snd) rr hall
    refine ⟨rr1, ?_, hu1⟩
    simp only [sweepLoop, sweep, h1]
    simp

theorem modeLoop_allCheat (env : Env) (fuel : Nat) (hfuel : 0 < fuel) (modes : List Nat)
    (rr : RepeatResolver)
    (hall : ∀ e ∈ rr.new_graph.edgeIds, e ∈ rr.global_cheating_edges) :
    ∃ rr1, modeLoop env fuel modes rr = some rr1 ∧ Untouched rr rr1 := by
  induction modes generalizing rr with
  | nil => exact ⟨_, rfl, ⟨rfl, rfl, rfl, rfl, rfl, rfl, rfl, rfl⟩⟩
  | cons m t ih =>
    obtain ⟨rr1, h1, hu1⟩ := sweepLoop_allCheat env fuel hfuel
      { rr with cheating_mode := (m : Int) } hall
    have hall1 : ∀ e ∈ rr1.new_graph.edgeIds, e ∈ rr1.global_cheating_edges := by
      rw [hu1.new_graph, hu1.global_cheating_edges]
      exact hall
    obtain ⟨rr2, h2, hu2⟩ := ih rr1 hall1
    refine ⟨rr2, ?_, ?_⟩
    · simp only [modeLoop, h1]
      exact h2
    · have hu0 : Untouched rr { rr with cheating_mode := (m : Int) } :=
        ⟨rfl, rfl, rfl, rfl, rfl, rfl, rfl, rfl⟩
      exact hu0.trans (hu1.trans hu2)

theorem ResolveRepeats_allCheat (env : Env) (fuel : Nat) (hfuel : 0 < fuel)
    (rr : RepeatResolver)
    (hall : ∀ e ∈ rr.new_graph.edgeIds, e ∈ rr.global_cheating_edges) :
    ∃ rr1, ResolveRepeats env fuel rr = some rr1 ∧ Untouched rr rr1 := by
  obtain ⟨rr1, h1, hu1⟩ := modeLoop_allCheat env fuel hfuel
    (List.range env.cfg.rr_mode.toNat) { rr with sum_count := 0 } hall
  refine ⟨rr1, h1, ?_⟩
  have hu0 : Untouched rr { rr with sum_count := 0 } := ⟨rfl, rfl, rfl, rfl, rfl, rfl, rfl, rfl⟩
  exact hu0.trans hu1

theorem StdMap.get_put {β : Type} (m : StdMap β) (k : Nat) (v : β) (k2 : Nat) (d : β) :
    StdMap.get (StdMap.put m k v) k2 d = if k = k2 then v else StdMap.get m k2 d := by
  unfold StdMap.get
  rw [StdMap.find_put]
  split_ifs <;> rfl

theorem StdMap.keys_put_pairwise {β : Type} (m : StdMap β) (k : Nat) (v : β)
    (h : (StdMap.keys m).Pairwise (· < ·)) : (StdMap.keys (StdMap.put m k v)).Pairwise (· < ·) := by
  induction m with
  | nil => simp [StdMap.put, StdMap.keys]
  | cons hd t ih =>
    obtain ⟨k', v'⟩ := hd
    simp only [StdMap.keys, List.map_cons, List.pairwise_cons] at h
    simp only [StdMap.put]
    by_cases h1 : k < k'
    · simp only [if_pos h1, StdMap.keys, List.map_cons, List.pairwise_cons]
      refine ⟨?_, h.1, h.2⟩
      intro b hb
      rcases List.mem_cons.1 hb with hb | hb
      · rw [hb]; exact h1
      · exact lt_trans h1 (h.1 b hb)
    · simp only [if_neg h1]
      by_cases h2 : k = k'
      · subst h2
        simp only [if_true, StdMap.keys, List.map_cons, List.pairwise_cons]
        exact ⟨h.1, h.2⟩
      · simp only [if_neg h2, StdMap.keys, List.map_cons, List.pairwise_cons]
        refine ⟨?_, ih h.2⟩
        intro b hb
        have hb' : b ∈ StdMap.keys (StdMap.put t k v) := hb
        have : b = k ∨ b ∈ StdMap.keys t := by
          clear ih h
          induction t with
          | nil => simp [StdMap.put, StdMap.keys] at hb'; left; exact hb'
          | cons hd2 t2 ih2 =>
            obtain ⟨k2, v2⟩ := hd2
            simp only [StdMap.put] at hb'
            split_ifs at hb' with c1 c2
            · simp only [StdMap.keys, List.map_cons, List.mem_cons] at hb' ⊢
              tauto
            · simp only [StdMap.keys, List.map_cons, List.mem_cons] at hb' ⊢
              subst c2
              tauto
            · simp only [StdMap.keys, List.map_cons, List.mem_cons] at hb' ⊢
              rcases hb' with hb' | hb'
              · tauto
              · rcases ih2 hb' hb' with h3 | h3
                · left; exact h3
                · right; right; exact h3
        rcases this with hbk | hbt
        · rw [hbk]; omega
        · exact h.1 b hbt

theorem StdMap.find_of_mem {β : Type} (m : StdMap β) (k : Nat) (v : β)
    (hs : (StdMap.keys m).Pairwise (· < ·)) (h : (k, v) ∈ m) : StdMap.find m k = some v := by
  induction m with
  | nil => simp at h
  | cons hd t ih =>
    obtain ⟨k', v'⟩ := hd
    simp only [StdMap.keys, List.map_cons, List.pairwise_cons] at hs
    simp only [StdMap.find]
    rcases List.mem_cons.1 h with h | h
    · simp only [Prod.mk.injEq] at h
      rw [if_pos h.1.symm, h.2]
    · have hk : k ∈ List.map Prod.fst t := List.mem_map.2 ⟨(k, v), h, rfl⟩
      have := hs.1 k hk
      rw [if_neg (by omega)]
      exact ih hs.2 h

theorem addWeight_get (m : StdMap ℚ) (le : EdgeId) (w : ℚ) (e : EdgeId) :
    StdMap.get (addWeight m le w) e 0
      = if le = e then roundDouble (StdMap.get m e 0 + w) else StdMap.get m e 0 := by
  unfold addWeight
  rw [StdMap.get_put]
  split_ifs with h
  · rw [h]
  · rfl

theorem addWeight_pairwise (m : StdMap ℚ) (le : EdgeId) (w : ℚ)
    (h : (StdMap.keys m).Pairwise (· < ·)) : (StdMap.keys (addWeight m le w)).Pairwise (· < ·) :=
  StdMap.keys_put_pairwise m le _ h

theorem doubleSumFrom_cons (a w : ℚ) (ws : List ℚ) :
    doubleSumFrom a (w :: ws) = doubleSumFrom (roundDouble (a + w)) ws := rfl

theorem weights_filter_cons (p : EdgeInfo × Int → Prop) [DecidablePred p] (x : EdgeInfo × Int)
    (L : List (EdgeInfo × Int)) (a : ℚ) :
    doubleSumFrom a (((x :: L).filter (fun ic => decide (p ic))).map (fun ic => ic.1.lp.weight))
      = doubleSumFrom (if p x then roundDouble (a + x.1.lp.weight) else a)
          ((L.filter (fun ic => decide (p ic))).map (fun ic => ic.1.lp.weight)) := by
  by_cases h : p x
  · simp [List.filter_cons, h, doubleSumFrom_cons]
  · simp [List.filter_cons, h]

theorem getD_modify {α : Type} (f : α → α) (n : Nat) (l : List α) (c : Nat) (d : α)
    (hc : c < l.length) :
    (l.modify f n).getD c d = if n = c then f (l.getD c d) else l.getD c d := by
  simp only [List.getD_eq_getElem?_getD, List.getElem?_modify, List.getElem?_eq_getElem hc]
  split_ifs <;> simp_all

theorem coverageLoop_get (L : List (EdgeInfo × Int)) (st : StdMap ℚ × List (StdMap ℚ))
    (e : EdgeId) :
    StdMap.get (L.foldl coverageStep st).1 e 0
      = doubleSumFrom (StdMap.get st.1 e 0)
          ((L.filter (fun ic => ic.1.lp.first = e)).map (fun ic => ic.1.lp.weight))
    ∧ (L.foldl coverageStep st).2.length = st.2.length
    ∧ ∀ c : Nat, c < st.2.length →
        StdMap.get ((L.foldl coverageStep st).2.getD c []) e 0
          = doubleSumFrom (StdMap.get (st.2.getD c []) e 0)
              ((L.filter (fun ic => ic.2 = (c : Int) ∧ ic.1.lp.first = e)).map
                (fun ic => ic.1.lp.weight)) := by
  induction L generalizing st with
  | nil => simp [doubleSumFrom]
  | cons x t ih =>
    simp only [List.foldl_cons]
    obtain ⟨h1, h2, h3⟩ := ih (coverageStep st x)
    have hlen : (coverageStep st x).2.length = st.2.length := by
      unfold coverageStep
      simp only
      split_ifs <;> simp
    refine ⟨?_, ?_, ?_⟩
    · rw [h1, weights_filter_cons (fun ic => ic.1.lp.first = e)]
      simp only [coverageStep, addWeight_get]
    · rw [h2, hlen]
    · intro c hc
      rw [h3 c (by rw [hlen]; exact hc),
        weights_filter_cons (fun ic => ic.2 = (c : Int) ∧ ic.1.lp.first = e)]
      congr 1
      unfold coverageStep
      simp only
      by_cases hx : 0 ≤ x.2
      · rw [if_pos hx, getD_modify _ _ _ _ _ hc]
        by_cases hcc : x.2.toNat = c
        · rw [if_pos hcc, addWeight_get]
          have hxc : x.2 = (c : Int) := by omega
          by_cases hf : x.1.lp.first = e
          · simp [hf, hxc]
          · simp [hf]
        · rw [if_neg hcc]
          have hxc : ¬ x.2 = (c : Int) := by omega
          simp [hxc]
      · rw [if_neg hx]
        have hxc : ¬ x.2 = (c : Int) := by omega
        simp [hxc]

theorem coverageLoop_pairwise (L : List (EdgeInfo × Int)) (st : StdMap ℚ × List (StdMap ℚ))
    (hs : ∀ m ∈ st.2, (StdMap.keys m).Pairwise (· < ·)) :
    ∀ m ∈ (L.foldl coverageStep st).2, (StdMap.keys m).Pairwise (· < ·) := by
  induction L generalizing st with
  | nil => simpa using hs
  | cons x t ih =>
    simp only [List.foldl_cons]
    apply ih
    intro m hm
    unfold coverageStep at hm
    simp only at hm
    split_ifs at hm with hx
    · rw [List.modify_eq_take_drop] at hm
      rcases List.mem_append.1 hm with hm | hm
      · exact hs m (List.mem_of_mem_take hm)
      · cases hd : List.drop x.2.toNat st.2 with
        | nil => rw [hd] at hm; simp [List.modifyHead] at hm
        | cons a t2 =>
          rw [hd] at hm
          simp only [List.modifyHead, List.mem_cons] at hm
          have ha : a ∈ st.2 := List.mem_of_mem_drop (by rw [hd]; exact List.mem_cons_self _ _)
          rcases hm with hm | hm
          · rw [hm]
            exact addWeight_pairwise a _ _ (hs a ha)
          · exact hs m (List.mem_of_mem_drop (by rw [hd]; exact List.mem_cons_of_mem _ hm))
    · exact hs m hm

theorem splitEdges_fold (old : StdMap ℚ) (m : StdMap ℚ)
    (st : List EdgeId × List ℚ × StdMap Int) :
    (m.foldl (splitEdgesStep old) st).1
        = st.1 ++ (m.filter (fun it => it.2 ≠ 0)).map Prod.fst
    ∧ (m.foldl (splitEdgesStep old) st).2.1
        = st.2.1 ++ (m.filter (fun it => it.2 ≠ 0)).map
            (fun it => roundDouble (it.2 / StdMap.get old it.1 0)) := by
  induction m generalizing st with
  | nil => simp
  | cons x t ih =>
    simp only [List.foldl_cons]
    obtain ⟨h1, h2⟩ := ih (splitEdgesStep old st x)
    rw [h1, h2]
    constructor <;> (unfold splitEdgesStep; by_cases hx : x.2 = 0 <;> simp [hx])

theorem splitEdges_lists (old : StdMap ℚ) (m : StdMap ℚ) (lce : StdMap Int) :
    (splitEdges old m lce).1 = (m.filter (fun it => it.2 ≠ 0)).map Prod.fst
    ∧ (splitEdges old m lce).2.1
        = (m.filter (fun it => it.2 ≠ 0)).map
            (fun it => roundDouble (it.2 / StdMap.get old it.1 0)) := by
  unfold splitEdges
  have h := splitEdges_fold old m ([], [], lce)
  simpa using h

theorem splitEdges_mem (old : StdMap ℚ) (m : StdMap ℚ) (lce : StdMap Int)
    (hs : (StdMap.keys m).Pairwise (· < ·)) (e : EdgeId) :
    e ∈ (splitEdges old m lce).1 ↔ StdMap.get m e 0 ≠ 0 := by
  rw [(splitEdges_lists old m lce).1]
  constructor
  · intro h
    obtain ⟨it, hit, hite⟩ := List.mem_map.1 h
    obtain ⟨hm, hnz⟩ := List.mem_filter.1 hit
    have hf : StdMap.find m e = some it.2 := by
      apply StdMap.find_of_mem m e it.2 hs
      rw [← hite]
      exact hm
    simp only [StdMap.get, hf, Option.getD_some]
    simpa using hnz
  · intro h
    cases hf : StdMap.find m e with
    | none => simp [StdMap.get, hf] at h
    | some x =>
      simp only [StdMap.get, hf, Option.getD_some] at h
      exact List.mem_map.2 ⟨(e, x), List.mem_filter.2 ⟨StdMap.mem_of_find m e x hf, by simpa using h⟩, rfl⟩

theorem splitEdges_coeff (old : StdMap ℚ) (m : StdMap ℚ) (lce : StdMap Int)
    (hs : (StdMap.keys m).Pairwise (· < ·)) (eq : EdgeId × ℚ)
    (h : eq ∈ (splitEdges old m lce).1.zip (splitEdges old m lce).2.1) :
    eq.2 = roundDouble (StdMap.get m eq.1 0 / StdMap.get old eq.1 0) := by
  rw [(splitEdges_lists old m lce).1, (splitEdges_lists old m lce).2, List.zip_map'] at h
  obtain ⟨it, hit, hite⟩ := List.mem_map.1 h
  obtain ⟨hm, _⟩ := List.mem_filter.1 hit
  have hf : StdMap.find m it.1 = some it.2 := StdMap.find_of_mem m it.1 it.2 hs hm
  rw [← hite]
  simp only [StdMap.get, hf, Option.getD_some]

theorem splitEdges_length (old : StdMap ℚ) (m : StdMap ℚ) (lce : StdMap Int) :
    (splitEdges old m lce).1.length = (splitEdges old m lce).2.1.length := by
  rw [(splitEdges_lists old m lce).1, (splitEdges_lists old m lce).2]
  simp

theorem pruneStep_split_calls (cutting : ℚ) (st : SplitLoop) (it : EdgeId × EdgeId) :
    (pruneStep cutting st it).rr.split_calls = st.rr.split_calls
    ∧ (pruneStep cutting st it).res = st.res := by
  unfold pruneStep
  simp only
  split_ifs <;> exact ⟨rfl, rfl⟩

theorem pruneStep_fold_split_calls (cutting : ℚ) (l : List (EdgeId × EdgeId)) (st : SplitLoop) :
    (l.foldl (pruneStep cutting) st).rr.split_calls = st.rr.split_calls
    ∧ (l.foldl (pruneStep cutting) st).res = st.res := by
  induction l generalizing st with
  | nil => exact ⟨rfl, rfl⟩
  | cons a t ih =>
    simp only [List.foldl_cons]
    rw [(ih _).1, (ih _).2]
    exact pruneStep_split_calls cutting st a

theorem processCheaterStep_split_calls (cnt : StdMap Int) (rr : RepeatResolver)
    (live : EdgeId × EdgeId) : (processCheaterStep cnt rr live).split_calls = rr.split_calls := by
  unfold processCheaterStep
  simp only
  split_ifs <;> rfl

theorem processCheaterStep_fold_split_calls (cnt : StdMap Int) (l : List (EdgeId × EdgeId))
    (rr : RepeatResolver) :
    (l.foldl (processCheaterStep cnt) rr).split_calls = rr.split_calls := by
  induction l generalizing rr with
  | nil => rfl
  | cons a t ih =>
    simp only [List.foldl_cons]
    rw [ih, processCheaterStep_split_calls]

theorem cleanupStep_split_calls (rr : RepeatResolver) (e : EdgeId) :
    (cleanupStep rr e).split_calls = rr.split_calls := by
  unfold cleanupStep
  simp only
  split_ifs <;> rfl

theorem cleanupStep_fold_split_calls (l : List EdgeId) (rr : RepeatResolver) :
    (l.foldl cleanupStep rr).split_calls = rr.split_calls := by
  induction l generalizing rr with
  | nil => rfl
  | cons a t ih =>
    simp only [List.foldl_cons]
    rw [ih, cleanupStep_split_calls]

theorem recolourLoop_split_calls (edgeCounts : StdMap Int) (rr : RepeatResolver) :
    (recolourLoop edgeCounts rr).split_calls = rr.split_calls := rfl

theorem getD_mem_of_lt {α : Type} (l : List α) (i : Nat) (d : α) (h : i < l.length) :
    l.getD i d ∈ l := by
  rw [List.getD_eq_getElem?_getD, List.getElem?_eq_getElem h]
  simp

/-- The lists handed to `SplitVertex` for colour `c` below `k` hold the edges of
non-zero coloured weight with their share of the total weight. -/
theorem splitEdges_coverageLoop (occ : List (EdgeInfo × Int)) (k c : Nat) (hc : c < k) :
    (splitEdges (coverageLoop occ k).1 ((coverageLoop occ k).2.getD c []) []).1.length
      = (splitEdges (coverageLoop occ k).1 ((coverageLoop occ k).2.getD c []) []).2.1.length
    ∧ (∀ e, e ∈ (splitEdges (coverageLoop occ k).1 ((coverageLoop occ k).2.getD c []) []).1
        ↔ colourWeight occ (c : Int) e ≠ 0)
    ∧ ∀ eq ∈ (splitEdges (coverageLoop occ k).1 ((coverageLoop occ k).2.getD c []) []).1.zip
          (splitEdges (coverageLoop occ k).1 ((coverageLoop occ k).2.getD c []) []).2.1,
        eq.2 = roundDouble (colourWeight occ (c : Int) eq.1 / totalWeight occ eq.1) := by
  have hlen : (coverageLoop occ k).2.length = k := by
    have := (coverageLoop_get occ (([] : StdMap ℚ), List.replicate k ([] : StdMap ℚ)) 0).2.1
    simpa [coverageLoop] using this
  have hs : (StdMap.keys ((coverageLoop occ k).2.getD c [])).Pairwise (· < ·) := by
    apply coverageLoop_pairwise occ (([] : StdMap ℚ), List.replicate k ([] : StdMap ℚ))
    · intro m hm
      simp only [List.mem_replicate] at hm
      rw [hm.2]
      simp [StdMap.keys]
    · have := getD_mem_of_lt (coverageLoop occ k).2 c [] (by rw [hlen]; exact hc)
      exact this
  have hcol : ∀ e, StdMap.get ((coverageLoop occ k).2.getD c []) e 0
      = colourWeight occ (c : Int) e := by
    intro e
    have := (coverageLoop_get occ (([] : StdMap ℚ), List.replicate k ([] : StdMap ℚ)) e).2.2 c
      (by simpa using hc)
    simp only [coverageLoop]
    rw [this]
    simp [List.getD_eq_getElem?_getD, hc, StdMap.get, StdMap.find, colourWeight]
  have htot : ∀ e, StdMap.get (coverageLoop occ k).1 e 0 = totalWeight occ e := by
    intro e
    have := (coverageLoop_get occ (([] : StdMap ℚ), List.replicate k ([] : StdMap ℚ)) e).1
    simp only [coverageLoop]
    rw [this]
    simp [StdMap.get, StdMap.find, totalWeight]
  refine ⟨splitEdges_length _ _ _, ?_, ?_⟩
  · intro e
    rw [splitEdges_mem _ _ _ hs, hcol]
  · intro eq heq
    rw [splitEdges_coeff _ _ _ hs eq heq, hcol, htot]

theorem occCount_cons (x : EdgeInfo × Int) (L : List (EdgeInfo × Int)) (e : EdgeId) :
    occCount (x :: L) e = (if x.1.lp.first = e then 1 else 0) + occCount L e := by
  unfold occCount
  by_cases h : x.1.lp.first = e
  · simp [List.filter_cons, h, Nat.add_comm]
  · simp [List.filter_cons, h]

theorem occCount_pos (L : List (EdgeInfo × Int)) (e : EdgeId)
    (h : ∃ ic ∈ L, ic.1.lp.first = e) : 0 < occCount L e := by
  obtain ⟨ic, hic, hf⟩ := h
  unfold occCount
  apply List.length_pos_of_mem (a := ic)
  exact List.mem_filter.2 ⟨hic, by simpa using hf⟩

theorem countLoop_find_val (L : List (EdgeInfo × Int)) (st : Int × StdMap Int) (e : EdgeId) :
    StdMap.find (L.foldl countStep st).2 e
      = if occCount L e = 0 then StdMap.find st.2 e
        else some (StdMap.get st.2 e 0 + (occCount L e : Int)) := by
  induction L generalizing st with
  | nil => simp [occCount]
  | cons x t ih =>
    simp only [List.foldl_cons]
    rw [ih, occCount_cons]
    simp only [countStep, StdMap.find_put, StdMap.get_put]
    by_cases hx : x.1.lp.first = e
    · simp only [hx, if_true]
      by_cases h0 : occCount t e = 0
      · simp [h0]
      · simp only [h0, if_false]
        have : ¬ (1 + occCount t e = 0) := by omega
        simp only [this, if_false]
        congr 1
        push_cast
        ring
    · simp only [hx, if_false, zero_add]

theorem countLoop_keys_pairwise (L : List (EdgeInfo × Int)) (st : Int × StdMap Int)
    (h : (StdMap.keys st.2).Pairwise (· < ·)) :
    (StdMap.keys (L.foldl countStep st).2).Pairwise (· < ·) := by
  induction L generalizing st with
  | nil => simpa using h
  | cons x t ih =>
    simp only [List.foldl_cons]
    apply ih
    exact StdMap.keys_put_pairwise _ _ _ h

theorem StdMap.keys_insert_pairwise {β : Type} (m : StdMap β) (k : Nat) (v : β)
    (h : (StdMap.keys m).Pairwise (· < ·)) :
    (StdMap.keys (StdMap.insert m k v)).Pairwise (· < ·) := by
  unfold StdMap.insert
  cases StdMap.find m k with
  | none => exact StdMap.keys_put_pairwise m k v h
  | some x => exact h

theorem initEdgeCounts_fold_pairwise (l : List EdgeId) (m : StdMap Int)
    (h : (StdMap.keys m).Pairwise (· < ·)) :
    (StdMap.keys (l.foldl (fun m e => StdMap.insert m e 0) m)).Pairwise (· < ·) := by
  induction l generalizing m with
  | nil => simpa using h
  | cons a t ih =>
    simp only [List.foldl_cons]
    exact ih _ (StdMap.keys_insert_pairwise m a 0 h)

theorem initEdgeCounts_fold_find (l : List EdgeId) (m : StdMap Int) (e : EdgeId) (c : Int)
    (h : StdMap.find (l.foldl (fun m e => StdMap.insert m e 0) m) e = some c) :
    StdMap.find m e = some c ∨ (e ∈ l ∧ c = 0) := by
  induction l generalizing m with
  | nil => left; simpa using h
  | cons a t ih =>
    simp only [List.foldl_cons] at h
    rcases ih _ h with h1 | h1
    · rw [StdMap.find_insert] at h1
      split_ifs at h1 with h2 h3
      · left; exact h1
      · right
        simp only [Option.some.injEq] at h1
        exact ⟨by rw [← h3]; exact List.mem_cons_self _ _, h1.symm⟩
      · left; exact h1
    · right
      exact ⟨List.mem_cons_of_mem _ h1.1, h1.2⟩

theorem initEdgeCounts_find_some (out inc : List EdgeId) (e : EdgeId) (c : Int)
    (h : StdMap.find (initEdgeCounts out inc) e = some c) : e ∈ out ++ inc ∧ c = 0 := by
  unfold initEdgeCounts at h
  rcases initEdgeCounts_fold_find _ _ _ _ h with h1 | h1
  · simp [StdMap.find] at h1
  · exact h1

/-- When every incident edge and no other edge has an occurrence, every entry of
`edgeCounts` is positive. -/
theorem countLoop_entries_pos (infos : List EdgeInfo) (cols : List Int) (out inc : List EdgeId)
    (hocc : ∀ e ∈ out ++ inc, ∃ ic ∈ infos.zip cols, ic.1.lp.first = e)
    (ec : Nat × Int) (h : ec ∈ (countLoop infos cols (initEdgeCounts out inc)).2) :
    ec.2 ≠ 0 := by
  obtain ⟨e, c⟩ := ec
  have hs : (StdMap.keys (countLoop infos cols (initEdgeCounts out inc)).2).Pairwise (· < ·) := by
    unfold countLoop
    apply countLoop_keys_pairwise
    unfold initEdgeCounts
    apply initEdgeCounts_fold_pairwise
    simp [StdMap.keys]
  have hf := StdMap.find_of_mem _ e c hs h
  unfold countLoop at hf
  rw [countLoop_find_val] at hf
  simp only
  by_cases h0 : occCount (infos.zip cols) e = 0
  · rw [if_pos h0] at hf
    have hinc := (initEdgeCounts_find_some out inc e c hf).1
    have := occCount_pos _ e (hocc e hinc)
    omega
  · rw [if_neg h0] at hf
    simp only [Option.some.injEq] at hf
    have hget : StdMap.get (initEdgeCounts out inc) e 0 = 0 := by
      unfold StdMap.get
      cases hfi : StdMap.find (initEdgeCounts out inc) e with
      | none => rfl
      | some x => simp [(initEdgeCounts_find_some out inc e x hfi).2]
    simp only [hget, zero_add] at hf
    rw [← hf]
    exact_mod_cast h0

theorem orphanLoop_pass (cheating_mode : Int) (pd : MixedData) (l : List (Nat × Int))
    (infos : List EdgeInfo) (cols : List Int) (k : Int) (h : ∀ ec ∈ l, ec.2 ≠ 0) :
    orphanLoop cheating_mode pd l infos cols k = some (infos, cols, k) := by
  induction l with
  | nil => rfl
  | cons a t ih =>
    obtain ⟨e, cnt⟩ := a
    simp only [orphanLoop]
    rw [if_neg (h (e, cnt) (List.mem_cons_self _ _))]
    exact ih (fun ec hec => h ec (List.mem_cons_of_mem _ hec))

theorem countLoop_k_le (L : List (EdgeInfo × Int)) (st : Int × StdMap Int) (b : Int)
    (h : st.1 ≤ b) (hl : ∀ ic ∈ L, ic.2 ≤ b) : (L.foldl countStep st).1 ≤ b := by
  induction L generalizing st with
  | nil => simpa using h
  | cons a t ih =>
    simp only [List.foldl_cons]
    apply ih
    · simp only [countStep]
      split_ifs
      · exact hl a (List.mem_cons_self _ _)
      · exact h
    · exact fun ic hic => hl ic (List.mem_cons_of_mem _ hic)

theorem countLoop_k_ge (L : List (EdgeInfo × Int)) (st : Int × StdMap Int) :
    st.1 ≤ (L.foldl countStep st).1 ∧ ∀ ic ∈ L, ic.2 ≤ (L.foldl countStep st).1 := by
  induction L generalizing st with
  | nil => simp
  | cons a t ih =>
    simp only [List.foldl_cons]
    obtain ⟨h1, h2⟩ := ih (countStep st a)
    have hs : st.1 ≤ (countStep st a).1 ∧ a.2 ≤ (countStep st a).1 := by
      simp only [countStep]
      split_ifs with hc
      · exact ⟨by omega, le_refl _⟩
      · exact ⟨le_refl _, by omega⟩
    refine ⟨le_trans hs.1 h1, ?_⟩
    intro ic hic
    rcases List.mem_cons.1 hic with h | h
    · rw [h]; exact le_trans hs.2 h1
    · exact h2 ic h

theorem zip_map_fst_snd {α β : Type} (K : List (α × β)) :
    (K.map Prod.fst).zip (K.map Prod.snd) = K := by
  induction K with
  | nil => rfl
  | cons a t ih => simp [ih]

theorem updatedEdgeColor_spec (e : EdgeId) (Z : List (EdgeInfo × Int)) :
    (updatedEdgeColor e Z = -1 ∧ ∀ ic ∈ Z, ic.1.lp.first ≠ e)
    ∨ ∃ ic ∈ Z, ic.1.lp.first = e ∧ ic.2 = updatedEdgeColor e Z := by
  induction Z with
  | nil => left; simp [updatedEdgeColor]
  | cons a t ih =>
    simp only [updatedEdgeColor]
    by_cases h : a.1.lp.first = e
    · right
      rw [if_pos h]
      exact ⟨a, List.mem_cons_self _ _, h, rfl⟩
    · rw [if_neg h]
      rcases ih with ⟨h1, h2⟩ | ⟨ic, hic, h1, h2⟩
      · left
        refine ⟨h1, ?_⟩
        intro ic hic
        rcases List.mem_cons.1 hic with h3 | h3
        · rw [h3]; exact h
        · exact h2 ic h3
      · right
        exact ⟨ic, List.mem_cons_of_mem _ hic, h1, h2⟩

theorem RecolourInv.recolour_step (A B C D : EdgeId) (e : Nat) (c : Int) (keys : List Nat)
    (he : e ∉ keys) (st : List EdgeInfo × List Int × MixedData)
    (inv : RecolourInv A B C D (e :: keys) st) :
    RecolourInv A B C D keys (recolourStep st (e, c)) := by
  unfold recolourStep
  simp only
  by_cases h1 : c > 1
  · rw [if_pos h1]
    refine ⟨inv.len, inv.classes, inv.pos, ?_, ?_⟩
    · intro p hp
      exact inv.idx p (List.mem_filter.1 hp).1
    · intro ic hic hk
      have hne : ic.1.lp.first ≠ e := fun h => he (h ▸ hk)
      exact List.mem_filter.2 ⟨inv.link ic hic (List.mem_cons_of_mem _ hk), by simpa using hne⟩
  · rw [if_neg h1]
    by_cases h2 : c = 1
    · rw [if_pos h2]
      by_cases h3 : updatedEdgeColor e (st.1.zip st.2.1) > -1
      · rw [if_pos h3]
        rcases updatedEdgeColor_spec e (st.1.zip st.2.1) with ⟨h4, _⟩ | ⟨w, hw, hwe, hwu⟩
        · rw [h4] at h3; exact absurd h3 (by decide)
        · have hzip : (List.map Prod.fst
                (List.filter (fun ic => decide ¬(ic.2 = updatedEdgeColor e (st.1.zip st.2.1)
                  ∧ ic.1.lp.first = e)) (st.1.zip st.2.1))
              ++ List.map (fun p => ({ lp := p, dir := 0, edge := p.second, d := 0 } : EdgeInfo))
                  (MixedData.GetEdgeInfos st.2.2 e)).zip
              (List.map Prod.snd
                (List.filter (fun ic => decide ¬(ic.2 = updatedEdgeColor e (st.1.zip st.2.1)
                  ∧ ic.1.lp.first = e)) (st.1.zip st.2.1))
              ++ List.map (fun _ => updatedEdgeColor e (st.1.zip st.2.1))
                  (MixedData.GetEdgeInfos st.2.2 e))
              = List.filter (fun ic => decide ¬(ic.2 = updatedEdgeColor e (st.1.zip st.2.1)
                  ∧ ic.1.lp.first = e)) (st.1.zip st.2.1)
                ++ (MixedData.GetEdgeInfos st.2.2 e).map
                    (fun p => (({ lp := p, dir := 0, edge := p.second, d := 0 } : EdgeInfo),
                      updatedEdgeColor e (st.1.zip st.2.1))) := by
            rw [List.zip_append (by simp), zip_map_fst_snd, List.zip_map']
          have hwin : w.1.lp ∈ MixedData.GetEdgeInfos st.2.2 e :=
            List.mem_filter.2 ⟨inv.link w hw (by rw [hwe]; exact List.mem_cons_self _ _),
              by simpa using hwe⟩
          have hwclass := inv.classes.1 w hw
          rw [hwe, hwu] at hwclass
          refine ⟨by simp, ?_, ?_, ?_, ?_⟩
          · simp only [hzip]
            refine ⟨?_, ?_⟩
            · intro ic hic
              rcases List.mem_append.1 hic with h | h
              · exact inv.classes.1 ic (List.mem_filter.1 h).1
              · obtain ⟨p, hp, hpe⟩ := List.mem_map.1 h
                have hpf : p.first = e := by simpa using (List.mem_filter.1 hp).2
                rw [← hpe]
                simp only [hpf]
                exact hwclass
            · intro e' he'
              by_cases hee : e' = e
              · refine ⟨(({ lp := w.1.lp, dir := 0, edge := w.1.lp.second, d := 0 } : EdgeInfo),
                  updatedEdgeColor e (st.1.zip st.2.1)), ?_, ?_⟩
                · apply List.mem_append_right
                  exact List.mem_map.2 ⟨w.1.lp, hwin, rfl⟩
                · simp only [hwe, hee]
              · obtain ⟨ic, hic, hice⟩ := inv.classes.2 e' he'
                refine ⟨ic, ?_, hice⟩
                apply List.mem_append_left
                apply List.mem_filter.2 ⟨hic, ?_⟩
                simp only [decide_not, Bool.not_eq_true', decide_eq_false_iff_not, not_and]
                rw [decide_eq_true_iff]
                intro _ h
                exact hee (hice ▸ h)
          · simp only [hzip]
            intro ic hic
            rcases List.mem_append.1 hic with h | h
            · exact inv.pos ic (List.mem_filter.1 h).1
            · obtain ⟨p, hp, hpe⟩ := List.mem_map.1 h
              have hpf : p.first = e := by simpa using (List.mem_filter.1 hp).2
              rw [← hpe]
              simp only
              apply inv.idx p (List.mem_filter.1 hp).1
              rw [hpf]
              rcases hwclass with ⟨_, h | h⟩ | ⟨_, h | h⟩ <;> simp [h]
          · intro p hp
            exact inv.idx p (List.mem_filter.1 hp).1
          · simp only [hzip]
            intro ic hic hk
            rcases List.mem_append.1 hic with h | h
            · have hne : ic.1.lp.first ≠ e := fun h' => he (h' ▸ hk)
              exact List.mem_filter.2
                ⟨inv.link ic (List.mem_filter.1 h).1 (List.mem_cons_of_mem _ hk), by simpa using hne⟩
            · obtain ⟨p, hp, hpe⟩ := List.mem_map.1 h
              have hpf : p.first = e := by simpa using (List.mem_filter.1 hp).2
              rw [← hpe] at hk
              simp only [hpf] at hk
              exact absurd hk he
      · rw [if_neg h3]
        exact ⟨inv.len, inv.classes, inv.pos, inv.idx,
          fun ic hic hk => inv.link ic hic (List.mem_cons_of_mem _ hk)⟩
    · rw [if_neg h2]
      exact ⟨inv.len, inv.classes, inv.pos, inv.idx,
        fun ic hic hk => inv.link ic hic (List.mem_cons_of_mem _ hk)⟩

theorem RecolourInv.recolour_fold (A B C D : EdgeId) (l : List (Nat × Int))
    (hnd : (l.map Prod.fst).Nodup) (st : List EdgeInfo × List Int × MixedData)
    (inv : RecolourInv A B C D (l.map Prod.fst) st) :
    RecolourInv A B C D [] (l.foldl recolourStep st) := by
  induction l generalizing st with
  | nil => simpa using inv
  | cons a t ih =>
    obtain ⟨e, c⟩ := a
    simp only [List.foldl_cons]
    simp only [List.map_cons, List.nodup_cons] at hnd
    exact ih hnd.2 _ (RecolourInv.recolour_step A B C D e c _ hnd.1 st inv)

theorem colourWeight_zero_of_none (occ : List (EdgeInfo × Int)) (c : Int) (e : EdgeId)
    (h : ∀ ic ∈ occ, ¬ (ic.2 = c ∧ ic.1.lp.first = e)) : colourWeight occ c e = 0 := by
  unfold colourWeight
  have : occ.filter (fun ic => ic.2 = c ∧ ic.1.lp.first = e) = [] := by
    rw [List.filter_eq_nil_iff]
    intro ic hic
    simpa using h ic hic
  rw [this]
  rfl

theorem doubleSumFrom_pos (ws : List ℚ) (a : ℚ) (ha : 0 ≤ a) (hw : ∀ w ∈ ws, 0 < w)
    (hne : ws ≠ []) : 0 < doubleSumFrom a ws := by
  induction ws generalizing a with
  | nil => exact absurd rfl hne
  | cons w t ih =>
    rw [doubleSumFrom_cons]
    have hpos : 0 < roundDouble (a + w) :=
      roundDouble_pos _ (add_pos_of_nonneg_of_pos ha (hw w (List.mem_cons_self _ _)))
    cases t with
    | nil => exact hpos
    | cons w2 t2 =>
      exact ih _ (le_of_lt hpos) (fun x hx => hw x (List.mem_cons_of_mem _ hx))
        (List.cons_ne_nil _ _)

theorem colourWeight_pos (occ : List (EdgeInfo × Int)) (c : Int) (e : EdgeId)
    (hpos : ∀ ic ∈ occ, 0 < ic.1.lp.weight)
    (h : ∃ ic ∈ occ, ic.2 = c ∧ ic.1.lp.first = e) : 0 < colourWeight occ c e := by
  unfold colourWeight
  apply doubleSumFrom_pos _ 0 (le_refl _)
  · intro x hx
    obtain ⟨ic, hic, hx2⟩ := List.mem_map.1 hx
    rw [← hx2]
    exact hpos ic (List.mem_filter.1 hic).1
  · obtain ⟨ic, hic, hc⟩ := h
    intro hnil
    have hm : ic.1.lp.weight ∈ List.map (fun ic => ic.1.lp.weight)
        (occ.filter (fun ic => ic.2 = c ∧ ic.1.lp.first = e)) :=
      List.mem_map.2 ⟨ic, List.mem_filter.2 ⟨hic, by simpa using hc⟩, rfl⟩
    rw [hnil] at hm
    simp at hm

/-- With clean classes and positive weights colour `0` carries weight exactly on `A`
and `C`, colour `1` exactly on `B` and `D`. -/
theorem CleanClasses.colourWeight_ne_zero (A B C D : EdgeId) (occ : List (EdgeInfo × Int))
    (hAB : A ≠ B) (hAD : A ≠ D) (hCB : C ≠ B) (hCD : C ≠ D)
    (hc : CleanClasses A B C D occ) (hpos : ∀ ic ∈ occ, 0 < ic.1.lp.weight) (e : EdgeId) :
    (colourWeight occ 0 e ≠ 0 ↔ e = A ∨ e = C)
    ∧ (colourWeight occ 1 e ≠ 0 ↔ e = B ∨ e = D) := by
  constructor
  · constructor
    · intro h
      by_contra hne
      apply h
      apply colourWeight_zero_of_none
      rintro ic hic ⟨h0, hf⟩
      rcases hc.1 ic hic with ⟨_, h1⟩ | ⟨h1, _⟩
      · rw [hf] at h1; exact hne h1
      · rw [h0] at h1; exact absurd h1 (by decide)
    · intro h
      apply ne_of_gt
      apply colourWeight_pos occ 0 e hpos
      obtain ⟨ic, hic, hf⟩ := hc.2 e (by tauto)
      refine ⟨ic, hic, ?_, hf⟩
      rcases hc.1 ic hic with ⟨h0, _⟩ | ⟨_, h1⟩
      · exact h0
      · rw [hf] at h1
        rcases h with h | h <;> rcases h1 with h1 | h1 <;> subst h <;> subst h1 <;> simp_all
  · constructor
    · intro h
      by_contra hne
      apply h
      apply colourWeight_zero_of_none
      rintro ic hic ⟨h0, hf⟩
      rcases hc.1 ic hic with ⟨h1, _⟩ | ⟨_, h1⟩
      · rw [h0] at h1; exact absurd h1 (by decide)
      · rw [hf] at h1; exact hne h1
    · intro h
      apply ne_of_gt
      apply colourWeight_pos occ 1 e hpos
      obtain ⟨ic, hic, hf⟩ := hc.2 e (by tauto)
      refine ⟨ic, hic, ?_, hf⟩
      rcases hc.1 ic hic with ⟨_, h1⟩ | ⟨h0, _⟩
      · rw [hf] at h1
        rcases h with h | h <;> rcases h1 with h1 | h1 <;> subst h <;> subst h1 <;> simp_all
      · exact h0

theorem Graph.AddVertex_snd (g : Graph) : g.AddVertex.2 = g.fresh := by
  unfold Graph.AddVertex
  split_ifs <;> rfl

theorem Graph.AddVertex_fresh (g : Graph) : g.fresh < g.AddVertex.1.fresh := by
  unfold Graph.AddVertex
  split_ifs <;> simp

theorem Graph.addEdgeCov_fresh (g : Graph) (s t : VertexId) (n : List Nat) (c : Int) :
    g.fresh < (g.addEdgeCov s t n c).1.fresh := by
  unfold Graph.addEdgeCov
  split_ifs <;> simp

theorem Graph.cloneEdge_fold_fresh (v nv : VertexId) (l : List (EdgeId × ℚ))
    (acc : Graph × List (EdgeId × EdgeId)) :
    acc.1.fresh ≤ (l.foldl (Graph.cloneEdge v nv) acc).1.fresh := by
  induction l generalizing acc with
  | nil => simp
  | cons a t ih =>
    simp only [List.foldl_cons]
    refine le_trans ?_ (ih _)
    unfold Graph.cloneEdge
    simp only
    exact le_of_lt (Graph.addEdgeCov_fresh _ _ _ _ _)

theorem Graph.SplitVertex_fresh (g : Graph) (v : VertexId) (es : List EdgeId) (cs : List ℚ) :
    (g.SplitVertex v es cs).2.1 = g.fresh ∧ g.fresh < (g.SplitVertex v es cs).1.fresh := by
  unfold Graph.SplitVertex
  simp only
  refine ⟨Graph.AddVertex_snd g, ?_⟩
  exact lt_of_lt_of_le (Graph.AddVertex_fresh g)
    (Graph.cloneEdge_fold_fresh v g.AddVertex.2 (es.zip cs) (g.AddVertex.1, []))

theorem mirrorCoverageStep_fold_fresh (l : List (EdgeId × EdgeId)) (st : Graph × Bool) :
    (l.foldl mirrorCoverageStep st).1.fresh = st.1.fresh := by
  induction l generalizing st with
  | nil => rfl
  | cons a t ih =>
    simp only [List.foldl_cons]
    rw [ih]
    unfold mirrorCoverageStep
    simp only
    rw [WrappedSetCoverage_fresh]

theorem Graph.DeleteEdge_fresh (g : Graph) (e : EdgeId) : (g.DeleteEdge e).fresh = g.fresh := by
  unfold Graph.DeleteEdge
  split_ifs <;> rfl

theorem Graph.DeleteVertex_fresh (g : Graph) (v : VertexId) :
    (g.DeleteVertex v).fresh = g.fresh := by
  unfold Graph.DeleteVertex
  split_ifs <;> rfl

theorem deleteIfIsolated_fresh (g : Graph) (u : VertexId) :
    (deleteIfIsolated g u).fresh = g.fresh := by
  unfold deleteIfIsolated
  split_ifs
  · exact Graph.DeleteVertex_fresh g u
  · rfl

theorem pruneStep_fresh (cutting : ℚ) (st : SplitLoop) (it : EdgeId × EdgeId) :
    (pruneStep cutting st it).rr.new_graph.fresh = st.rr.new_graph.fresh := by
  unfold pruneStep
  simp only
  split_ifs <;>
    simp only [deleteIfIsolated_fresh, Graph.DeleteEdge_fresh]

theorem pruneStep_fold_fresh (cutting : ℚ) (l : List (EdgeId × EdgeId)) (st : SplitLoop) :
    (l.foldl (pruneStep cutting) st).rr.new_graph.fresh = st.rr.new_graph.fresh := by
  induction l generalizing st with
  | nil => rfl
  | cons a t ih =>
    simp only [List.foldl_cons]
    rw [ih, pruneStep_fresh]

/-- When the structural precondition holds and colour `i` has an edge to split, the
colour loop makes the `SplitVertex` call for colour `i` and returns its new vertex. -/
theorem splitColour_exact (env : Env) (v : VertexId) (old : StdMap ℚ)
    (cols : List (StdMap ℚ)) (st : SplitLoop) (i : Nat)
    (hsc : ∀ g es, env.SplitCondition g v es = true)
    (hne : (splitEdges old (cols.getD i []) []).1 ≠ []) :
    (splitColour env v old cols st i).rr.split_calls
        = st.rr.split_calls ++ [(v, (splitEdges old (cols.getD i []) []).1,
            (splitEdges old (cols.getD i []) []).2.1)]
    ∧ (splitColour env v old cols st i).res = st.res ++ [st.rr.new_graph.fresh]
    ∧ st.rr.new_graph.fresh < (splitColour env v old cols st i).rr.new_graph.fresh := by
  have hl := splitEdges_lists old (cols.getD i []) st.rr.local_cheating_edges
  have hl0 := splitEdges_lists old (cols.getD i []) []
  have hcond : (splitEdges old (cols.getD i []) st.rr.local_cheating_edges).1.length > 0
      ∧ env.SplitCondition st.rr.new_graph v
          (splitEdges old (cols.getD i []) st.rr.local_cheating_edges).1 = true := by
    refine ⟨?_, hsc _ _⟩
    rw [hl.1, ← hl0.1]
    exact List.length_pos.2 hne
  unfold splitColour
  simp only
  rw [if_pos hcond]
  rw [(pruneStep_fold_split_calls _ _ _).1, (pruneStep_fold_split_calls _ _ _).2,
    pruneStep_fold_fresh]
  simp only
  refine ⟨?_, ?_, ?_⟩
  · rw [hl.1, hl.2, hl0.1, hl0.2]
  · rw [(Graph.SplitVertex_fresh _ _ _ _).1]
  · split_ifs
    · rw [mirrorCoverageStep_fold_fresh]
      exact (Graph.SplitVertex_fresh _ _ _ _).2
    · exact (Graph.SplitVertex_fresh _ _ _ _).2

theorem splitPhase_eq (env : Env) (rr1 : RepeatResolver) (edgeCounts : StdMap Int)
    (k : Int) (v : VertexId) :
    (splitPhase env rr1 edgeCounts k v).1.split_calls
      = ((List.range k.toNat).foldl
          (splitColour env v
            (coverageLoop ((recolourLoop edgeCounts rr1).edge_infos.zip
              (recolourLoop edgeCounts rr1).edge_info_colors) k.toNat).1
            (coverageLoop ((recolourLoop edgeCounts rr1).edge_infos.zip
              (recolourLoop edgeCounts rr1).edge_info_colors) k.toNat).2)
          { rr := recolourLoop edgeCounts rr1, res := [], OldCopyCnt := [], LiveNewEdges := [],
            LiveProtoEdges := [], not_found := 0, low_coverage := 0 }).rr.split_calls
    ∧ (splitPhase env rr1 edgeCounts k v).2
      = ((List.range k.toNat).foldl
          (splitColour env v
            (coverageLoop ((recolourLoop edgeCounts rr1).edge_infos.zip
              (recolourLoop edgeCounts rr1).edge_info_colors) k.toNat).1
            (coverageLoop ((recolourLoop edgeCounts rr1).edge_infos.zip
              (recolourLoop edgeCounts rr1).edge_info_colors) k.toNat).2)
          { rr := recolourLoop edgeCounts rr1, res := [], OldCopyCnt := [], LiveNewEdges := [],
            LiveProtoEdges := [], not_found := 0, low_coverage := 0 }).res := by
  unfold splitPhase
  simp only
  refine ⟨?_, trivial⟩
  rw [cleanupStep_fold_split_calls]
  split_ifs
  · rw [processCheaterStep_fold_split_calls]
  · rfl

/-- With clean classes behind the recolouring loop the split phase makes exactly the
two `SplitVertex` calls for `{A, C}` and `{B, D}`. -/
theorem splitPhase_clean (env : Env) (rr1 : RepeatResolver) (edgeCounts : StdMap Int)
    (v : VertexId) (A B C D : EdgeId)
    (hAB : A ≠ B) (hAD : A ≠ D) (hCB : C ≠ B) (hCD : C ≠ D)
    (hsc : ∀ g es, env.SplitCondition g v es = true)
    (hcl : CleanClasses A B C D ((recolourLoop edgeCounts rr1).edge_infos.zip
              (recolourLoop edgeCounts rr1).edge_info_colors))
    (hpos : ∀ ic ∈ (recolourLoop edgeCounts rr1).edge_infos.zip
              (recolourLoop edgeCounts rr1).edge_info_colors, 0 < ic.1.lp.weight) :
    ∃ nv1 nv2 es1 cs1 es2 cs2, nv1 ≠ nv2
      ∧ (splitPhase env rr1 edgeCounts 2 v).2 = [nv1, nv2]
      ∧ (splitPhase env rr1 edgeCounts 2 v).1.split_calls
          = rr1.split_calls ++ [(v, es1, cs1), (v, es2, cs2)]
      ∧ (∀ e, e ∈ es1 ↔ e = A ∨ e = C) ∧ (∀ e, e ∈ es2 ↔ e = B ∨ e = D) := by
  obtain ⟨_, m0, _⟩ := splitEdges_coverageLoop
    ((recolourLoop edgeCounts rr1).edge_infos.zip (recolourLoop edgeCounts rr1).edge_info_colors)
    2 0 (by decide)
  obtain ⟨_, m1, _⟩ := splitEdges_coverageLoop
    ((recolourLoop edgeCounts rr1).edge_infos.zip (recolourLoop edgeCounts rr1).edge_info_colors)
    2 1 (by decide)
  have hw := CleanClasses.colourWeight_ne_zero A B C D _ hAB hAD hCB hCD hcl hpos
  have hm0 : ∀ e, e ∈ (splitEdges
      (coverageLoop ((recolourLoop edgeCounts rr1).edge_infos.zip
        (recolourLoop edgeCounts rr1).edge_info_colors) 2).1
      ((coverageLoop ((recolourLoop edgeCounts rr1).edge_infos.zip
        (recolourLoop edgeCounts rr1).edge_info_colors) 2).2.getD 0 []) []).1
      ↔ e = A ∨ e = C := by
    intro e
    rw [m0 e]
    exact (hw e).1
  have hm1 : ∀ e, e ∈ (splitEdges
      (coverageLoop ((recolourLoop edgeCounts rr1).edge_infos.zip
        (recolourLoop edgeCounts rr1).edge_info_colors) 2).1
      ((coverageLoop ((recolourLoop edgeCounts rr1).edge_infos.zip
        (recolourLoop edgeCounts rr1).edge_info_colors) 2).2.getD 1 []) []).1
      ↔ e = B ∨ e = D := by
    intro e
    rw [m1 e]
    exact (hw e).2
  have hne0 := List.ne_nil_of_mem ((hm0 A).2 (Or.inl rfl))
  have hne1 := List.ne_nil_of_mem ((hm1 B).2 (Or.inl rfl))
  obtain ⟨e1, e2⟩ := splitPhase_eq env rr1 edgeCounts 2 v
  have h2 : (2 : Int).toNat = 2 := rfl
  rw [h2] at e1 e2
  have hr : List.range 2 = [0, 1] := rfl
  rw [hr] at e1 e2
  simp only [List.foldl_cons, List.foldl_nil] at e1 e2
  obtain ⟨a1, a2, a3⟩ := splitColour_exact env v _ _
    { rr := recolourLoop edgeCounts rr1, res := [], OldCopyCnt := [], LiveNewEdges := [],
      LiveProtoEdges := [], not_found := 0, low_coverage := 0 } 0 hsc hne0
  obtain ⟨b1, b2, b3⟩ := splitColour_exact env v _ _
    (splitColour env v
      (coverageLoop ((recolourLoop edgeCounts rr1).edge_infos.zip
        (recolourLoop edgeCounts rr1).edge_info_colors) 2).1
      (coverageLoop ((recolourLoop edgeCounts rr1).edge_infos.zip
        (recolourLoop edgeCounts rr1).edge_info_colors) 2).2
      { rr := recolourLoop edgeCounts rr1, res := [], OldCopyCnt := [], LiveNewEdges := [],
        LiveProtoEdges := [], not_found := 0, low_coverage := 0 } 0) 1 hsc hne1
  refine ⟨(recolourLoop edgeCounts rr1).new_graph.fresh,
    (splitColour env v
      (coverageLoop ((recolourLoop edgeCounts rr1).edge_infos.zip
        (recolourLoop edgeCounts rr1).edge_info_colors) 2).1
      (coverageLoop ((recolourLoop edgeCounts rr1).edge_infos.zip
        (recolourLoop edgeCounts rr1).edge_info_colors) 2).2
      { rr := recolourLoop edgeCounts rr1, res := [], OldCopyCnt := [], LiveNewEdges := [],
        LiveProtoEdges := [], not_found := 0, low_coverage := 0 } 0).rr.new_graph.fresh,
    _,
    (splitEdges
      (coverageLoop ((recolourLoop edgeCounts rr1).edge_infos.zip
        (recolourLoop edgeCounts rr1).edge_info_colors) 2).1
      ((coverageLoop ((recolourLoop edgeCounts rr1).edge_infos.zip
        (recolourLoop edgeCounts rr1).edge_info_colors) 2).2.getD 0 []) []).2.1,
    _,
    (splitEdges
      (coverageLoop ((recolourLoop edgeCounts rr1).edge_infos.zip
        (recolourLoop edgeCounts rr1).edge_info_colors) 2).1
      ((coverageLoop ((recolourLoop edgeCounts rr1).edge_infos.zip
        (recolourLoop edgeCounts rr1).edge_info_colors) 2).2.getD 1 []) []).2.1,
    ?_, ?_, ?_, hm0, hm1⟩
  · exact Nat.ne_of_lt a3
  · rw [e2, b2, a2]
    rfl
  · rw [e1, b1, a1]
    simp [recolourLoop_split_calls]

/-- The clean split at the level of `MultiSplit`. -/
theorem MultiSplit_clean_split (env : Env) (rr : RepeatResolver) (v : VertexId)
    (A B C D : EdgeId) (hAB : A ≠ B) (hAD : A ≠ D) (hCB : C ≠ B) (hCD : C ≠ D)
    (hout : ∀ e, e ∈ rr.new_graph.OutgoingEdges v ↔ e = A ∨ e = B)
    (hin : ∀ e, e ∈ rr.new_graph.IncomingEdges v ↔ e = C ∨ e = D)
    (hlen : rr.edge_infos.length = rr.edge_info_colors.length)
    (hcl : CleanClasses A B C D (rr.edge_infos.zip rr.edge_info_colors))
    (hlink : ∀ ic ∈ rr.edge_infos.zip rr.edge_info_colors, ic.1.lp ∈ rr.paired_di_data)
    (hidx : ∀ p ∈ rr.paired_di_data,
      (p.first = A ∨ p.first = B ∨ p.first = C ∨ p.first = D) → 0 < p.weight)
    (hsc : ∀ g es, env.SplitCondition g v es = true) :
    ∃ nv1 nv2 es1 cs1 es2 cs2, nv1 ≠ nv2
      ∧ (MultiSplit env rr v).2 = [nv1, nv2]
      ∧ (MultiSplit env rr v).1.split_calls = rr.split_calls ++ [(v, es1, cs1), (v, es2, cs2)]
      ∧ (∀ e, e ∈ es1 ↔ e = A ∨ e = C) ∧ (∀ e, e ∈ es2 ↔ e = B ∨ e = D) := by
  have hocc : ∀ e ∈ rr.new_graph.OutgoingEdges v ++ rr.new_graph.IncomingEdges v,
      ∃ ic ∈ rr.edge_infos.zip rr.edge_info_colors, ic.1.lp.first = e := by
    intro e he
    apply hcl.2
    rcases List.mem_append.1 he with h | h
    · rcases (hout e).1 h with h | h <;> simp [h]
    · rcases (hin e).1 h with h | h <;> simp [h]
  have hfirst : ∀ ic ∈ rr.edge_infos.zip rr.edge_info_colors,
      ic.1.lp.first = A ∨ ic.1.lp.first = B ∨ ic.1.lp.first = C ∨ ic.1.lp.first = D := by
    intro ic hic
    rcases hcl.1 ic hic with ⟨_, h | h⟩ | ⟨_, h | h⟩ <;> simp [h]
  have hk : (countLoop rr.edge_infos rr.edge_info_colors
      (initEdgeCounts (rr.new_graph.OutgoingEdges v) (rr.new_graph.IncomingEdges v))).1 = 1 := by
    unfold countLoop
    apply le_antisymm
    · apply countLoop_k_le _ _ 1 (show (0 : Int) ≤ 1 by decide)
      intro ic hic
      rcases hcl.1 ic hic with ⟨h, _⟩ | ⟨h, _⟩ <;> rw [h] <;> decide
    · obtain ⟨ic, hic, hf⟩ := hcl.2 B (by simp)
      have h1 : ic.2 = 1 := by
        rcases hcl.1 ic hic with ⟨_, h | h⟩ | ⟨h, _⟩
        · rw [hf] at h; exact absurd h.symm hAB
        · rw [hf] at h; exact absurd h.symm hCB
        · exact h
      rw [← h1]
      exact (countLoop_k_ge _ _).2 ic hic
  have horph := orphanLoop_pass rr.cheating_mode rr.paired_di_data
    (countLoop rr.edge_infos rr.edge_info_colors
      (initEdgeCounts (rr.new_graph.OutgoingEdges v) (rr.new_graph.IncomingEdges v))).2
    rr.edge_infos rr.edge_info_colors
    (countLoop rr.edge_infos rr.edge_info_colors
      (initEdgeCounts (rr.new_graph.OutgoingEdges v) (rr.new_graph.IncomingEdges v))).1
    (fun ec hec => countLoop_entries_pos _ _ _ _ hocc ec hec)
  have hnd : ((countLoop rr.edge_infos rr.edge_info_colors
      (initEdgeCounts (rr.new_graph.OutgoingEdges v) (rr.new_graph.IncomingEdges v))).2.map
        Prod.fst).Nodup := by
    have hs : (StdMap.keys (countLoop rr.edge_infos rr.edge_info_colors
        (initEdgeCounts (rr.new_graph.OutgoingEdges v)
          (rr.new_graph.IncomingEdges v))).2).Pairwise (· < ·) := by
      unfold countLoop
      apply countLoop_keys_pairwise
      unfold initEdgeCounts
      apply initEdgeCounts_fold_pairwise
      simp [StdMap.keys]
    exact hs.imp (fun hab => Nat.ne_of_lt hab)
  have hinv := RecolourInv.recolour_fold A B C D _ hnd
    (rr.edge_infos, rr.edge_info_colors, rr.paired_di_data)
    ⟨hlen, hcl, fun ic hic => hidx _ (hlink ic hic) (hfirst ic hic), hidx,
      fun ic hic _ => hlink ic hic⟩
  have hmain := splitPhase_clean env rr
    (countLoop rr.edge_infos rr.edge_info_colors
      (initEdgeCounts (rr.new_graph.OutgoingEdges v) (rr.new_graph.IncomingEdges v))).2
    v A B C D hAB hAD hCB hCD hsc hinv.classes hinv.pos
  unfold MultiSplit
  simp only
  rw [if_neg (not_not.2 ⟨hsc _ _, hsc _ _⟩), hk, if_neg (by decide), ← hk, horph]
  simp only
  rw [hk, if_neg (by decide)]
  exact hmain

theorem pruneStep_vertex_labels (cutting : ℚ) (st : SplitLoop) (it : EdgeId × EdgeId) :
    (pruneStep cutting st it).rr.vertex_labels = st.rr.vertex_labels := by
  unfold pruneStep
  simp only
  split_ifs <;> rfl

theorem pruneStep_fold_vertex_labels (cutting : ℚ) (l : List (EdgeId × EdgeId))
    (st : SplitLoop) :
    (l.foldl (pruneStep cutting) st).rr.vertex_labels = st.rr.vertex_labels := by
  induction l generalizing st with
  | nil => rfl
  | cons a t ih =>
    simp only [List.foldl_cons]
    rw [ih, pruneStep_vertex_labels]

theorem splitColour_vertex_labels (env : Env) (v : VertexId) (old : StdMap ℚ)
    (cols : List (StdMap ℚ)) (st : SplitLoop) (i : Nat) :
    (splitColour env v old cols st i).rr.vertex_labels = st.rr.vertex_labels := by
  unfold splitColour
  simp only
  by_cases h : (splitEdges old (cols.getD i []) st.rr.local_cheating_edges).1.length > 0
      ∧ env.SplitCondition st.rr.new_graph v
          (splitEdges old (cols.getD i []) st.rr.local_cheating_edges).1 = true
  · rw [if_pos h, pruneStep_fold_vertex_labels]
  · rw [if_neg h]

theorem splitColour_fold_vertex_labels (env : Env) (v : VertexId) (old : StdMap ℚ)
    (cols : List (StdMap ℚ)) (l : List Nat) (st : SplitLoop) :
    (l.foldl (splitColour env v old cols) st).rr.vertex_labels = st.rr.vertex_labels := by
  induction l generalizing st with
  | nil => rfl
  | cons a t ih =>
    simp only [List.foldl_cons]
    rw [ih, splitColour_vertex_labels]

theorem processCheaterStep_fold_vertex_labels (cnt : StdMap Int) (l : List (EdgeId × EdgeId))
    (rr : RepeatResolver) :
    (l.foldl (processCheaterStep cnt) rr).vertex_labels = rr.vertex_labels := by
  induction l generalizing rr with
  | nil => rfl
  | cons a t ih =>
    simp only [List.foldl_cons]
    rw [ih]
    unfold processCheaterStep
    simp only
    split_ifs <;> rfl

theorem cleanupStep_fold_vertex_labels (l : List EdgeId) (rr : RepeatResolver) :
    (l.foldl cleanupStep rr).vertex_labels = rr.vertex_labels := by
  induction l generalizing rr with
  | nil => rfl
  | cons a t ih =>
    simp only [List.foldl_cons]
    rw [ih]
    unfold cleanupStep
    simp only
    split_ifs <;> rfl

theorem splitPhase_vertex_labels (env : Env) (rr1 : RepeatResolver) (edgeCounts : StdMap Int)
    (k : Int) (v : VertexId) :
    (splitPhase env rr1 edgeCounts k v).1.vertex_labels = rr1.vertex_labels := by
  unfold splitPhase
  simp only
  rw [cleanupStep_fold_vertex_labels]
  split_ifs
  · rw [processCheaterStep_fold_vertex_labels, splitColour_fold_vertex_labels]
    rfl
  · rw [splitColour_fold_vertex_labels]
    rfl

/-- The map `vertex_labels` is never written by `MultiSplit`. -/
theorem MultiSplit_vertex_labels (env : Env) (rr : RepeatResolver) (v : VertexId) :
    (MultiSplit env rr v).1.vertex_labels = rr.vertex_labels := by
  unfold MultiSplit
  simp only
  by_cases hg : env.SplitCondition rr.new_graph v (rr.new_graph.OutgoingEdges v) = true
        ∧ env.SplitCondition rr.new_graph v (rr.new_graph.IncomingEdges v) = true
  · rw [if_neg (not_not.2 hg)]
    by_cases hk : (countLoop rr.edge_infos rr.edge_info_colors
          (initEdgeCounts (rr.new_graph.OutgoingEdges v) (rr.new_graph.IncomingEdges v))).1 = 0
    · rw [if_pos hk]
    · rw [if_neg hk]
      cases ho : orphanLoop rr.cheating_mode rr.paired_di_data
          (countLoop rr.edge_infos rr.edge_info_colors
            (initEdgeCounts (rr.new_graph.OutgoingEdges v) (rr.new_graph.IncomingEdges v))).2
          rr.edge_infos rr.edge_info_colors
          (countLoop rr.edge_infos rr.edge_info_colors
            (initEdgeCounts (rr.new_graph.OutgoingEdges v) (rr.new_graph.IncomingEdges v))).1 with
      | none => rfl
      | some r =>
        obtain ⟨infos1, cols1, k1⟩ := r
        simp only
        by_cases h3 : k1 + 1 = 1
        · rw [if_pos h3]
        · rw [if_neg h3, splitPhase_vertex_labels]
  · rw [if_pos hg]

theorem sortedInsert_length {α : Type} (lt : α → α → Bool) (x : α) (l : List α) :
    (sortedInsert lt x l).length = l.length + 1 := by
  induction l with
  | nil => rfl
  | cons y t ih =>
    unfold sortedInsert
    by_cases h : lt x y = true
    · rw [if_pos h]; simp
    · rw [if_neg h]; simp [ih]

theorem sortBy_fold_length {α : Type} (lt : α → α → Bool) (l acc : List α) :
    (l.foldl (fun acc x => sortedInsert lt x acc) acc).length = acc.length + l.length := by
  induction l generalizing acc with
  | nil => simp
  | cons a t ih =>
    simp only [List.foldl_cons, List.length_cons]
    rw [ih, sortedInsert_length]
    omega

theorem sortBy_length {α : Type} (lt : α → α → Bool) (l : List α) :
    (sortBy lt l).length = l.length := by
  unfold sortBy
  rw [sortBy_fold_length]
  simp

theorem collectInfo_length (env : Env) (rr : RepeatResolver) (dir : Int)
    (st : List EdgeInfo × StdMap Int × StdSet) (p : PairInfo) :
    (collectInfo env rr dir st p).1.length ≤ st.1.length + 1 := by
  unfold collectInfo
  simp only
  split_ifs <;> simp

theorem collectInfo_fold_length (env : Env) (rr : RepeatResolver) (dir : Int)
    (tmp : List PairInfo) (st : List EdgeInfo × StdMap Int × StdSet) :
    (tmp.foldl (collectInfo env rr dir) st).1.length ≤ st.1.length + tmp.length := by
  induction tmp generalizing st with
  | nil => simp
  | cons a t ih =>
    simp only [List.foldl_cons, List.length_cons]
    have h1 := ih (collectInfo env rr dir st a)
    have h2 := collectInfo_length env rr dir st a
    omega

theorem collectEdge_length (env : Env) (rr : RepeatResolver) (dir : Int)
    (st : List EdgeInfo × StdMap Int × StdSet) (e : EdgeId) :
    (collectEdge env rr dir st e).1.length
      ≤ st.1.length + (MixedData.GetEdgeInfos rr.paired_di_data e).length := by
  unfold collectEdge
  simp only [List.length_append]
  have h := collectInfo_fold_length env rr dir (MixedData.GetEdgeInfos rr.paired_di_data e)
    ([], st.2.1, st.2.2)
  simp only [List.length_nil, Nat.zero_add] at h
  omega

theorem collectEdge_fold_length (env : Env) (rr : RepeatResolver) (dir : Int)
    (l : List EdgeId) (st : List EdgeInfo × StdMap Int × StdSet) :
    (l.foldl (collectEdge env rr dir) st).1.length
      ≤ st.1.length + (l.map (fun e => (MixedData.GetEdgeInfos rr.paired_di_data e).length)).sum := by
  induction l generalizing st with
  | nil => simp
  | cons a t ih =>
    simp only [List.foldl_cons, List.map_cons, List.sum_cons]
    have h1 := ih (collectEdge env rr dir st a)
    have h2 := collectEdge_length env rr dir st a
    omega

theorem GenerateVertexPairedInfo_length (env : Env) (rr : RepeatResolver) (v : VertexId) :
    (GenerateVertexPairedInfo env rr v).1.edge_infos.length ≤ evidenceCount rr v := by
  unfold GenerateVertexPairedInfo evidenceCount
  simp only [sortBy_length, List.map_append, List.sum_append]
  have h1 := collectEdge_fold_length env rr 1 (rr.new_graph.IncomingEdges v)
    ((rr.new_graph.OutgoingEdges v).foldl (collectEdge env rr 0) ([], [], []))
  have h0 := collectEdge_fold_length env rr 0 (rr.new_graph.OutgoingEdges v) ([], [], [])
  simp only [List.length_nil, Nat.zero_add] at h0
  omega

theorem dfs_single_fold (nb0 : List Nat) (hnb : ∀ n ∈ nb0, n = 0) (f : Nat) :
    nb0.foldlM
      (fun (st : List Int × Bool) (n : Nat) =>
        if st.1.getD n 0 > -1 then
          if st.1.getD n 0 ≠ 0 then some (st.1, true) else some st
        else if n ≠ 0 then dfs f [nb0] st n 0
        else some st)
      (([0], false) : List Int × Bool) = some ([0], false) := by
  suffices h : ∀ (l : List Nat), (∀ n ∈ l, n = 0) → ∀ (g : List (List Nat)),
      l.foldlM
        (fun (st : List Int × Bool) (n : Nat) =>
          if st.1.getD n 0 > -1 then
            if st.1.getD n 0 ≠ 0 then some (st.1, true) else some st
          else if n ≠ 0 then dfs f g st n 0
          else some st)
        (([0], false) : List Int × Bool) = some ([0], false) from h nb0 hnb [nb0]
  intro l
  induction l with
  | nil => intro _ _; rfl
  | cons a t ih =>
    intro hl g
    have ha : a = 0 := hl a (List.mem_cons_self _ _)
    subst ha
    simp only [List.foldlM_cons]
    have : (([0] : List Int).getD 0 0 > -1) := by decide
    simp only [List.getD_cons_zero, gt_iff_lt, Int.reduceNeg, Int.neg_neg_iff_pos, zero_lt_one,
      if_true, ne_eq, not_true_eq_false, if_false, Option.some_bind, Option.bind_eq_bind,
      Int.reduceLT]
    exact ih (fun n hn => hl n (List.mem_cons_of_mem _ hn)) g

theorem colourLoop_single (nb0 : List Nat) (hnb : ∀ n ∈ nb0, n = 0) :
    colourLoop 2 [nb0] [0] ([-1], false) 0 = some (([0], false), 1) := by
  have hd : dfs 2 [nb0] ([-1], false) 0 0 = some ([0], false) := by
    unfold dfs
    simp only [List.getD_cons_zero, List.set_cons_zero]
    exact dfs_single_fold nb0 hnb 1
  unfold colourLoop
  simp only [List.getD_cons_zero, if_true, hd]
  rfl

theorem adjacencyStep_single (env : Env) (rr : RepeatResolver) (ei ej : EdgeInfo)
    (dc : FastDistanceCounter) :
    ∃ nb0, (adjacencyStep env rr ei 0 ([[]], dc) (0, ej)).1 = [nb0] ∧ ∀ n ∈ nb0, n = 0 := by
  unfold adjacencyStep
  simp only
  generalize (EdgeInfo.isAdjacent env ei ej rr.old_graph rr.new_graph _) = c
  by_cases hc : c.1 = true
  · rw [if_pos hc]
    exact ⟨[0, 0], rfl, by simp⟩
  · rw [if_neg hc]
    exact ⟨[], rfl, by simp⟩

theorem buildNeighbours_single (env : Env) (rr : RepeatResolver) (e : EdgeInfo)
    (h : rr.edge_infos = [e]) :
    ∃ nb0, (buildNeighbours env rr).1 = [nb0] ∧ ∀ n ∈ nb0, n = 0 := by
  unfold buildNeighbours
  rw [h]
  have hr : List.range 1 = [0] := rfl
  simp only [List.length_singleton, hr, List.zip_cons_cons, List.zip_nil_left,
    List.foldl_cons, List.foldl_nil, List.replicate_one]
  exact adjacencyStep_single env rr e e rr.distance_counter

theorem RectangleResolveVertex_small (env : Env) (rr : RepeatResolver) (v : VertexId)
    (h : rr.edge_infos.length ≤ 1) :
    ∃ rr1, RectangleResolveVertex env rr v = some (rr1, 1) ∧ Untouched rr rr1
      ∧ rr1.cheating_mode = rr.cheating_mode := by
  have key : ∃ colors cc, colourLoop (rr.edge_infos.length + 1) (buildNeighbours env rr).1
      (List.range rr.edge_infos.length) (List.replicate rr.edge_infos.length (-1), false) 0
        = some (colors, cc) ∧ ∀ c ∈ colors.1, c = 0 := by
    cases hei : rr.edge_infos with
    | nil =>
      refine ⟨([], false), 0, ?_, by simp⟩
      simp [colourLoop]
    | cons e t =>
      have ht : t = [] := by
        rw [hei] at h
        simp only [List.length_cons] at h
        exact List.eq_nil_of_length_eq_zero (by omega)
      subst ht
      obtain ⟨nb0, h1, h2⟩ := buildNeighbours_single env rr e hei
      refine ⟨([0], false), 1, ?_, by simp⟩
      rw [h1]
      exact colourLoop_single nb0 h2
  obtain ⟨colors, cc, hcl, hzero⟩ := key
  unfold RectangleResolveVertex
  simp only
  by_cases hc : rr.cheating_mode ≠ 0
      ∧ (rr.new_graph.OutgoingEdges v ++ rr.new_graph.IncomingEdges v).any
          (fun e => StdSet.contains rr.global_cheating_edges e
            || decide (rr.edge_infos.length = 0)) = true
  · rw [if_pos hc]
    exact ⟨rr, rfl, Untouched.refl rr, rfl⟩
  · rw [if_neg hc, hcl]
    simp only
    rw [MultiSplit_guard_unchanged env _ v (Or.inr (Or.inr hzero))]
    exact ⟨_, rfl, ⟨rfl, rfl, rfl, rfl, rfl, rfl, rfl, rfl⟩, rfl⟩

theorem getD_replicate_nil (n i : Nat) :
    (List.replicate n ([] : List Nat)).getD i [] = [] := by
  rw [List.getD_eq_getElem?_getD, List.getElem?_replicate]
  split_ifs <;> rfl

theorem dfs_isolated (f n : Nat) (colors : List Int × Bool) (i : Nat) (c : Int) :
    dfs (f + 1) (List.replicate n []) colors i c = some (colors.1.set i c, colors.2) := by
  unfold dfs
  rw [getD_replicate_nil]
  rfl

theorem colourLoop_isolated (f n : Nat) (b : Bool) (m s : Nat) :
    colourLoop (f + 1) (List.replicate n []) (List.range' s m)
        ((List.range s).map (fun (j : Nat) => (j : Int)) ++ List.replicate m (-1), b) (s : Int)
      = some (((List.range (s + m)).map (fun (j : Nat) => (j : Int)), b), ((s + m : Nat) : Int)) := by
  induction m generalizing s with
  | zero => simp [colourLoop]
  | succ m ih =>
    rw [List.range'_succ]
    unfold colourLoop
    have hlen : ((List.range s).map (fun (j : Nat) => (j : Int))).length = s := by simp
    have hget : ((List.range s).map (fun (j : Nat) => (j : Int)) ++ List.replicate (m + 1) (-1)).getD s 0
        = -1 := by
      rw [List.getD_eq_getElem?_getD, List.getElem?_append_right (by rw [hlen])]
      simp [hlen, List.replicate_succ]
    simp only [hget, if_true, dfs_isolated]
    have hset : ((List.range s).map (fun (j : Nat) => (j : Int)) ++ List.replicate (m + 1) (-1)).set s
        (s : Int) = (List.range (s + 1)).map (fun (j : Nat) => (j : Int)) ++ List.replicate m (-1) := by
      rw [List.set_append_right _ _ (by rw [hlen])]
      simp [hlen, List.replicate_succ, List.range_succ]
    rw [hset]
    have h := ih (s + 1)
    rw [show s + 1 + m = s + (m + 1) by omega] at h
    rw [← h]
    push_cast
    rfl

theorem colourLoop_isolated_range (f n : Nat) :
    colourLoop (f + 1) (List.replicate n []) (List.range n) (List.replicate n (-1), false) 0
      = some (((List.range n).map (fun (j : Nat) => (j : Int)), false), (n : Int)) := by
  have h := colourLoop_isolated f n false n 0
  simp only [List.range_zero, List.map_nil, List.nil_append, Nat.zero_add, Nat.cast_zero] at h
  rw [List.range_eq_range'] at h ⊢
  exact h

theorem findSecond_self (ei : EdgeInfo) : findSecond ei (0, false) ei = (0, false) := by
  unfold findSecond
  simp

theorem matchStep_small (infos : List EdgeInfo) (hlen : infos.length ≤ 1)
    (map0 map1 : StdMap Nat) (counts1 : Nat) (nb : List (List Nat)) :
    infos.foldl (matchStep infos map0 map1 counts1) nb = nb := by
  cases hi : infos with
  | nil => rfl
  | cons e t =>
    have ht : t = [] := by
      rw [hi] at hlen
      simp only [List.length_cons] at hlen
      exact List.eq_nil_of_length_eq_zero (by omega)
    subst ht
    simp only [List.foldl_cons, List.foldl_nil]
    unfold matchStep
    simp only [List.foldl_cons, List.foldl_nil, findSecond_self]
    cases StdMap.find map0 e.lp.first <;> simp

theorem cheatBad_range (n : Nat) :
    cheatBad ((List.range n).map (fun (j : Nat) => (j : Int))) = true := by
  unfold cheatBad
  simp only [List.length_map, List.length_range]
  cases n with
  | zero => rfl
  | succ n =>
    have hsticky : ∀ (l : List Nat) (c : List Int) (idx : List Nat),
        (l.foldl (fun (st : Bool × Bool) (i : Nat) =>
          if st.2 then st
          else
            ((!(idx.any (fun j => decide (i ≠ j) &&
                decide (c.getD i 0 = c.getD j 0)))),
             (!(idx.any (fun j => decide (i ≠ j) &&
                decide (c.getD i 0 = c.getD j 0)))))) (true, true)).1 = true := by
      intro l c idx
      induction l with
      | nil => rfl
      | cons a t ih => simpa using ih
    rw [List.range_succ_eq_map]
    simp only [List.foldl_cons, Bool.false_eq_true, if_false]
    have halone : (!((0 :: List.map Nat.succ (List.range n)).any (fun j => decide (0 ≠ j) &&
        decide ((List.map (fun (j : Nat) => (j : Int)) (0 :: List.map Nat.succ (List.range n))).getD 0 0
          = (List.map (fun (j : Nat) => (j : Int)) (0 :: List.map Nat.succ (List.range n))).getD j 0))))
        = true := by
      rw [Bool.not_eq_true', List.any_eq_false]
      intro j hj
      rw [← List.range_succ_eq_map] at hj ⊢
      have hjn : j < n + 1 := List.mem_range.1 hj
      by_cases h0 : j = 0
      · simp [h0]
      · have : ((List.range (n + 1)).map (fun (j : Nat) => (j : Int))).getD j 0 = (j : Int) := by
          rw [List.getD_eq_getElem?_getD]
          simp [hjn]
        have h00 : ((List.range (n + 1)).map (fun (j : Nat) => (j : Int))).getD 0 0 = 0 := by
          rw [List.getD_eq_getElem?_getD]
          simp
        rw [this, h00]
        simp
        intro _
        exact_mod_cast (Ne.symm h0)
    rw [halone]
    exact hsticky _ _ _

theorem CheatingResolveVertex_small (env : Env) (rr : RepeatResolver) (v : VertexId)
    (h : rr.edge_infos.length ≤ 1) :
    ∃ rr1, CheatingResolveVertex env rr v = some (rr1, 1) ∧ Untouched rr rr1
      ∧ rr1.cheating_mode = rr.cheating_mode := by
  unfold CheatingResolveVertex
  simp only
  rw [matchStep_small rr.edge_infos h]
  rw [show (rr.new_graph.IncomingEdges v).length + (rr.new_graph.OutgoingEdges v).length
      = (rr.new_graph.OutgoingEdges v).length + (rr.new_graph.IncomingEdges v).length
    from Nat.add_comm _ _]
  rw [colourLoop_isolated_range]
  simp only [cheatBad_range, if_true]
  exact ⟨_, rfl, ⟨rfl, rfl, rfl, rfl, rfl, rfl, rfl, rfl⟩, rfl⟩

theorem evidenceCount_congr (rr rr1 : RepeatResolver) (hu : Untouched rr rr1) (v : VertexId) :
    evidenceCount rr1 v = evidenceCount rr v := by
  unfold evidenceCount
  rw [hu.new_graph, hu.paired_di_data]

theorem resolveVertexStep_sparse (env : Env) (rr : RepeatResolver) (changed : Bool)
    (v : VertexId) (hev : evidenceCount rr v ≤ 1) :
    ∃ rr1, resolveVertexStep env (rr, changed) v = some (rr1, changed) ∧ Untouched rr rr1
      ∧ rr1.cheating_mode = rr.cheating_mode := by
  unfold resolveVertexStep
  simp only
  by_cases hlive : rr.rc_mode = true ∧ ¬ (v ∈ rr.new_graph.vertexIds)
  · rw [if_pos hlive]
    exact ⟨rr, rfl, Untouched.refl rr, rfl⟩
  · rw [if_neg hlive]
    by_cases hch : ((rr.new_graph.OutgoingEdges v ++ rr.new_graph.IncomingEdges v).any
        (fun e => StdSet.contains rr.global_cheating_edges e)) = true
    · rw [if_pos hch]
      exact ⟨rr, rfl, Untouched.refl rr, rfl⟩
    · rw [if_neg hch]
      have hlen : (GenerateVertexPairedInfo env rr v).1.edge_infos.length ≤ 1 :=
        Nat.le_trans (GenerateVertexPairedInfo_length env rr v) hev
      have hug : Untouched rr (GenerateVertexPairedInfo env rr v).1 :=
        ⟨rfl, rfl, rfl, rfl, rfl, rfl, rfl, rfl⟩
      have hmg : (GenerateVertexPairedInfo env rr v).1.cheating_mode = rr.cheating_mode := rfl
      by_cases hm : (GenerateVertexPairedInfo env rr v).1.cheating_mode ≠ 1
      · rw [if_pos hm]
        obtain ⟨rr1, h1, hu1, hm1⟩ :=
          RectangleResolveVertex_small env (GenerateVertexPairedInfo env rr v).1 v hlen
        rw [h1]
        exact ⟨{ rr1 with sum_count := rr1.sum_count + ((1 : Nat) : Int) }, by simp,
          hug.trans (hu1.trans ⟨rfl, rfl, rfl, rfl, rfl, rfl, rfl, rfl⟩), hm1.trans hmg⟩
      · rw [if_neg hm]
        obtain ⟨rr1, h1, hu1, hm1⟩ :=
          CheatingResolveVertex_small env (GenerateVertexPairedInfo env rr v).1 v hlen
        rw [h1]
        exact ⟨{ rr1 with sum_count := rr1.sum_count + ((1 : Nat) : Int) }, by simp,
          hug.trans (hu1.trans ⟨rfl, rfl, rfl, rfl, rfl, rfl, rfl, rfl⟩), hm1.trans hmg⟩

theorem sweep_fold_sparse (env : Env) (l : List VertexId) (rr : RepeatResolver)
    (hev : ∀ v, evidenceCount rr v ≤ 1) :
    ∃ rr1, l.foldlM (resolveVertexStep env) (rr, false) = some (rr1, false) ∧ Untouched rr rr1
      ∧ rr1.cheating_mode = rr.cheating_mode := by
  induction l generalizing rr with
  | nil => exact ⟨rr, rfl, Untouched.refl rr, rfl⟩
  | cons a t ih =>
    obtain ⟨rr1, h1, hu1, hm1⟩ := resolveVertexStep_sparse env rr false a (hev a)
    have hev1 : ∀ v, evidenceCount rr1 v ≤ 1 := by
      intro v
      rw [evidenceCount_congr rr rr1 hu1]
      exact hev v
    obtain ⟨rr2, h2, hu2, hm2⟩ := ih rr1 hev1
    refine ⟨rr2, ?_, hu1.trans hu2, hm2.trans hm1⟩
    simp only [List.foldlM_cons, h1]
    exact h2

theorem sweepLoop_sparse (env : Env) (fuel : Nat) (hfuel : 0 < fuel) (rr : RepeatResolver)
    (hev : ∀ v, evidenceCount rr v ≤ 1) :
    ∃ rr1, sweepLoop env fuel rr = some rr1 ∧ Untouched rr rr1 := by
  cases fuel with
  | zero => omega
  | succ n =>
    obtain ⟨rr1, h1, hu1, _⟩ := sweep_fold_sparse env
      ((env.unorderedIteration (if rr.rc_mode then fillVerticesComponentsInNonVariableOrder env rr
        else fillVerticesAuto env rr)).map Prod.snd) rr hev
    refine ⟨rr1, ?_, hu1⟩
    simp only [sweepLoop, sweep, h1]
    simp

theorem modeLoop_sparse (env : Env) (fuel : Nat) (hfuel : 0 < fuel) (modes : List Nat)
    (rr : RepeatResolver) (hev : ∀ v, evidenceCount rr v ≤ 1) :
    ∃ rr1, modeLoop env fuel modes rr = some rr1 ∧ Untouched rr rr1 := by
  induction modes generalizing rr with
  | nil => exact ⟨_, rfl, ⟨rfl, rfl, rfl, rfl, rfl, rfl, rfl, rfl⟩⟩
  | cons m t ih =>
    obtain ⟨rr1, h1, hu1⟩ := sweepLoop_sparse env fuel hfuel
      { rr with cheating_mode := (m : Int) } hev
    have hev1 : ∀ v, evidenceCount rr1 v ≤ 1 := by
      intro v
      rw [evidenceCount_congr _ rr1 hu1]
      exact hev v
    obtain ⟨rr2, h2, hu2⟩ := ih rr1 hev1
    refine ⟨rr2, ?_, ?_⟩
    · simp only [modeLoop, h1]
      exact h2
    · have hu0 : Untouched rr { rr with cheating_mode := (m : Int) } :=
        ⟨rfl, rfl, rfl, rfl, rfl, rfl, rfl, rfl⟩
      exact hu0.trans (hu1.trans hu2)

theorem ResolveRepeats_sparse (env : Env) (fuel : Nat) (hfuel : 0 < fuel)
    (rr : RepeatResolver) (hev : ∀ v, evidenceCount rr v ≤ 1) :
    ∃ rr1, ResolveRepeats env fuel rr = some rr1 ∧ Untouched rr rr1 := by
  obtain ⟨rr1, h1, hu1⟩ := modeLoop_sparse env fuel hfuel
    (List.range env.cfg.rr_mode.toNat) { rr with sum_count := 0 } hev
  refine ⟨rr1, h1, ?_⟩
  have hu0 : Untouched rr { rr with sum_count := 0 } := ⟨rfl, rfl, rfl, rfl, rfl, rfl, rfl, rfl⟩
  exact hu0.trans hu1

/-- Every vertex of `exOld` has at most 2 incoming and at most 2 outgoing edges. -/
theorem exOld_lowDegree : LowDegree exOld := by
  intro v hv
  simp only [exOld, Graph.vertexIds, List.map_cons, List.map_nil, List.mem_cons,
    List.mem_singleton, List.not_mem_nil, or_false] at hv
  rcases hv with h | h | h | h | h <;> subst h <;> decide

/-- After construction from `exIndSparse` no vertex sees more than one observation. -/
theorem exIndSparse_sparse :
    ∀ v, evidenceCount (RepeatResolver.ctor exEnv exOld exIndSparse exNew0) v ≤ 1 := by
  intro v
  have hg : (RepeatResolver.ctor exEnv exOld exIndSparse exNew0).new_graph.edges
      = [⟨25, 22, 23, [0, 1], 10, 25⟩, ⟨26, 22, 24, [0, 1], 10, 26⟩,
         ⟨27, 20, 22, [0, 1], 10, 27⟩, ⟨28, 21, 22, [0, 1], 10, 28⟩] := by decide!
  have hp : (RepeatResolver.ctor exEnv exOld exIndSparse exNew0).paired_di_data
      = [⟨25, 3, 5, 7, 0⟩] := by decide!
  unfold evidenceCount Graph.OutgoingEdges Graph.IncomingEdges MixedData.GetEdgeInfos
  rw [hg, hp]
  by_cases h22 : v = 22
  · subst h22; decide
  · by_cases h23 : v = 23
    · subst h23; decide
    · have e22 : (22 : Nat) ≠ v := fun h => h22 h.symm
      have e23 : (23 : Nat) ≠ v := fun h => h23 h.symm
      simp [List.filter_cons, e22, e23]
      split_ifs <;> simp

theorem resolveVertexStep_cheater (env : Env) (rr : RepeatResolver) (changed : Bool)
    (v : VertexId) (e : EdgeId)
    (he : e ∈ rr.new_graph.OutgoingEdges v ++ rr.new_graph.IncomingEdges v)
    (hc : e ∈ rr.global_cheating_edges) :
    resolveVertexStep env (rr, changed) v = some (rr, changed) := by
  have hany : (rr.new_graph.OutgoingEdges v ++ rr.new_graph.IncomingEdges v).any
      (fun e => StdSet.contains rr.global_cheating_edges e) = true := by
    rw [List.any_eq_true]
    exact ⟨e, he, by simp only [StdSet.contains, decide_eq_true_eq]; exact hc⟩
  unfold resolveVertexStep
  simp only
  by_cases hlive : rr.rc_mode = true ∧ ¬ (v ∈ rr.new_graph.vertexIds)
  · rw [if_pos hlive]
  · rw [if_neg hlive, if_pos hany]

theorem RectangleResolveVertex_cheater (env : Env) (rr : RepeatResolver) (v : VertexId)
    (e : EdgeId) (hm : rr.cheating_mode ≠ 0)
    (he : e ∈ rr.new_graph.OutgoingEdges v ++ rr.new_graph.IncomingEdges v)
    (hc : e ∈ rr.global_cheating_edges) :
    RectangleResolveVertex env rr v = some (rr, 1) := by
  unfold RectangleResolveVertex
  simp only
  rw [if_pos]
  refine ⟨hm, ?_⟩
  rw [List.any_eq_true]
  exact ⟨e, he, by simp [StdSet.contains, hc]⟩

theorem insertingMap_find (l : List (VertexId × Nat)) (m0 : StdMap Nat) (k : Nat) :
    StdMap.find (l.foldl (fun m p => StdMap.insert m p.1 p.2) m0) k
      = match StdMap.find m0 k with
        | some v => some v
        | none => (l.find? (fun p => p.1 = k)).map Prod.snd := by
  induction l generalizing m0 with
  | nil =>
    simp only [List.foldl_nil]
    cases StdMap.find m0 k <;> rfl
  | cons a t ih =>
    simp only [List.foldl_cons]
    rw [ih, StdMap.find_insert]
    by_cases ha : (StdMap.find m0 a.1).isSome
    · rw [if_pos ha]
      cases hk : StdMap.find m0 k with
      | some v => rfl
      | none =>
        have hne : a.1 ≠ k := by
          intro h
          rw [h, hk] at ha
          cases ha
        simp [List.find?_cons, hne]
    · rw [if_neg ha]
      by_cases hak : a.1 = k
      · rw [if_pos hak]
        have hk : StdMap.find m0 k = none := by
          rw [← hak]
          cases h : StdMap.find m0 a.1 with
          | none => rfl
          | some v => rw [h] at ha; exact absurd rfl ha
        rw [hk]
        simp [List.find?_cons, hak]
      · rw [if_neg hak]
        cases hk : StdMap.find m0 k with
        | some v => rfl
        | none => simp [List.find?_cons, hak]

theorem insertingMap_value (env : Env) (graph_ : Graph) (depth_ : Int) (start finish : VertexId) :
    (match StdMap.find ((env.BoundedDijkstra graph_ depth_ start).foldl
        (fun m p => StdMap.insert m p.1 p.2) []) finish with
      | none => (1000000000 : Int)
      | some x => (x : Int))
      = searchDistance env graph_ depth_ start finish := by
  rw [insertingMap_find]
  unfold searchDistance
  simp only [StdMap.find]
  cases (env.BoundedDijkstra graph_ depth_ start).find? (fun p => p.1 = finish) <;> rfl

theorem GetDistances_cached (env : Env) (graph_ : Graph) (depth_ : Int)
    (distances : FastDistanceCounter) (start finish : VertexId) (m : StdMap Nat)
    (h : StdMap.find distances start = some m) :
    FastDistanceCounter.GetDistances env graph_ depth_ distances start finish
      = ((match StdMap.find m finish with
          | none => (1000000000 : Int)
          | some x => (x : Int)), distances) := by
  unfold FastDistanceCounter.GetDistances
  simp only [h, StdMap.get, Option.getD_some]
  cases StdMap.find m finish <;> rfl

theorem GetDistances_fresh (env : Env) (graph_ : Graph) (depth_ : Int)
    (distances : FastDistanceCounter) (start finish : VertexId)
    (h : StdMap.find distances start = none) :
    FastDistanceCounter.GetDistances env graph_ depth_ distances start finish
      = (searchDistance env graph_ depth_ start finish,
         StdMap.insert distances start ((env.BoundedDijkstra graph_ depth_ start).foldl
           (fun m p => StdMap.insert m p.1 p.2) [])) := by
  have hf : StdMap.find (StdMap.insert distances start
      ((env.BoundedDijkstra graph_ depth_ start).foldl (fun m p => StdMap.insert m p.1 p.2) []))
      start = some ((env.BoundedDijkstra graph_ depth_ start).foldl
        (fun m p => StdMap.insert m p.1 p.2) []) := by
    rw [StdMap.find_insert, h]
    simp
  unfold FastDistanceCounter.GetDistances
  simp only [h, StdMap.get, hf, Option.getD_some]
  rw [← insertingMap_value]
  cases StdMap.find ((env.BoundedDijkstra graph_ depth_ start).foldl
      (fun m p => StdMap.insert m p.1 p.2) []) finish <;> rfl

theorem CacheValid.getDistances (env : Env) (graph_ : Graph) (depth_ : Int)
    (distances : FastDistanceCounter) (h : CacheValid env graph_ depth_ distances)
    (start finish : VertexId) :
    (FastDistanceCounter.GetDistances env graph_ depth_ distances start finish).1
      = searchDistance env graph_ depth_ start finish
    ∧ CacheValid env graph_ depth_
        (FastDistanceCounter.GetDistances env graph_ depth_ distances start finish).2 := by
  cases hs : StdMap.find distances start with
  | none =>
    rw [GetDistances_fresh env graph_ depth_ distances start finish hs]
    refine ⟨rfl, ?_⟩
    intro s m hm
    rw [StdMap.find_insert, hs] at hm
    simp only [Option.isSome_none, Bool.false_eq_true, if_false] at hm
    by_cases hss : start = s
    · rw [if_pos hss] at hm
      rw [← hss]
      exact (Option.some.inj hm).symm
    · rw [if_neg hss] at hm
      exact h s m hm
  | some m =>
    rw [GetDistances_cached env graph_ depth_ distances start finish m hs]
    refine ⟨?_, h⟩
    rw [h start m hs]
    exact insertingMap_value env graph_ depth_ start finish

theorem cacheAfter_valid (env : Env) (graph_ : Graph) (depth_ : Int)
    (queries : List (VertexId × VertexId)) :
    CacheValid env graph_ depth_ (cacheAfter env graph_ depth_ queries) := by
  unfold cacheAfter
  suffices h : ∀ (c : FastDistanceCounter), CacheValid env graph_ depth_ c →
      CacheValid env graph_ depth_ (queries.foldl
        (fun distances q =>
          (FastDistanceCounter.GetDistances env graph_ depth_ distances q.1 q.2).2) c) by
    apply h
    intro s m hm
    simp [StdMap.find] at hm
  induction queries with
  | nil => intro c hc; exact hc
  | cons q t ih =>
    intro c hc
    simp only [List.foldl_cons]
    exact ih _ (CacheValid.getDistances env graph_ depth_ c hc q.1 q.2).2

theorem GetDistances_no_search (env env2 : Env) (graph_ : Graph) (depth_ : Int)
    (distances : FastDistanceCounter) (start finish : VertexId)
    (h : (StdMap.find distances start).isSome) :
    FastDistanceCounter.GetDistances env2 graph_ depth_ distances start finish
      = FastDistanceCounter.GetDistances env graph_ depth_ distances start finish := by
  cases hs : StdMap.find distances start with
  | none => rw [hs] at h; cases h
  | some m =>
    rw [GetDistances_cached env graph_ depth_ distances start finish m hs,
      GetDistances_cached env2 graph_ depth_ distances start finish m hs]

theorem isClose_iff (a b max_diff : ℚ) : EdgeInfo.isClose a b max_diff = true ↔ |a - b| < max_diff := by
  simp [EdgeInfo.isClose]

theorem IsEdgesOnDistanceAdjacent_iff (env : Env) (depth : Int) (edge : EdgeId) (d : ℚ)
    (other_edge : EdgeId) (other_d : ℚ) (old_graph : Graph) (max_diff : ℚ) (first_equal : Bool)
    (dc : FastDistanceCounter) :
    (IsEdgesOnDistanceAdjacent env depth edge d other_edge other_d old_graph max_diff first_equal
        dc).1 = true
      ↔ (|d + (old_graph.length edge : ℚ)
            + ((FastDistanceCounter.GetDistances env old_graph depth dc
                (old_graph.EdgeEnd edge) (old_graph.EdgeStart other_edge)).1 : ℚ) - other_d|
            < max_diff
        ∨ |other_d + (old_graph.length other_edge : ℚ)
            + ((FastDistanceCounter.GetDistances env old_graph depth
                (FastDistanceCounter.GetDistances env old_graph depth dc
                  (old_graph.EdgeEnd edge) (old_graph.EdgeStart other_edge)).2
                (old_graph.EdgeEnd other_edge) (old_graph.EdgeStart edge)).1 : ℚ) - d|
            < max_diff
        ∨ (other_edge = edge ∧ |d - other_d| < max_diff)
        ∨ (first_equal = true
            ∧ ((old_graph.EdgeEnd edge = old_graph.EdgeStart other_edge
                  ∧ |d + (old_graph.length edge : ℚ) - other_d| < max_diff)
              ∨ (old_graph.EdgeStart edge = old_graph.EdgeEnd other_edge
                  ∧ |d - (other_d + (old_graph.length other_edge : ℚ))| < max_diff)))) := by
  unfold IsEdgesOnDistanceAdjacent
  simp only [isClose_iff, Int.cast_natCast]
  by_cases h1 : |d + (old_graph.length edge : ℚ)
            + ((FastDistanceCounter.GetDistances env old_graph depth dc
                (old_graph.EdgeEnd edge) (old_graph.EdgeStart other_edge)).1 : ℚ) - other_d|
            < max_diff
  · simp [h1]
  · by_cases h2 : |other_d + (old_graph.length other_edge : ℚ)
            + ((FastDistanceCounter.GetDistances env old_graph depth
                (FastDistanceCounter.GetDistances env old_graph depth dc
                  (old_graph.EdgeEnd edge) (old_graph.EdgeStart other_edge)).2
                (old_graph.EdgeEnd other_edge) (old_graph.EdgeStart edge)).1 : ℚ) - d|
            < max_diff
    · simp [h1, h2]
    · by_cases h3 : other_edge = edge ∧ |d - other_d| < max_diff
      · simp [h1, h2, h3]
      · cases first_equal with
        | false => simp [h1, h2, h3]
        | true =>
          simp only [h1, h2, h3, if_false, if_true, false_or, true_and, or_false]
          by_cases h4 : (old_graph.EdgeEnd edge = old_graph.EdgeStart other_edge
                  ∧ |d + (old_graph.length edge : ℚ) - other_d| < max_diff)
              ∨ (old_graph.EdgeStart edge = old_graph.EdgeEnd other_edge
                  ∧ |d - (other_d + (old_graph.length other_edge : ℚ))| < max_diff)
          · rw [if_pos (by tauto)]
            simp [h4]
          · rw [if_neg (by tauto)]
            simp [h4]

theorem SameAnswers.same_refl (env : Env) (graph_ : Graph) (depth_ : Int) (dc : FastDistanceCounter) :
    SameAnswers env graph_ depth_ dc dc := fun _ _ => rfl

theorem SameAnswers.same_trans {env : Env} {graph_ : Graph} {depth_ : Int}
    {a b c : FastDistanceCounter} (h1 : SameAnswers env graph_ depth_ a b)
    (h2 : SameAnswers env graph_ depth_ b c) : SameAnswers env graph_ depth_ a c :=
  fun s e => (h2 s e).trans (h1 s e)

theorem GetDistances_value (env : Env) (graph_ : Graph) (depth_ : Int)
    (dc : FastDistanceCounter) (s e : VertexId) :
    (FastDistanceCounter.GetDistances env graph_ depth_ dc s e).1
      = match StdMap.find dc s with
        | none => searchDistance env graph_ depth_ s e
        | some m =>
          match StdMap.find m e with
          | none => (1000000000 : Int)
          | some x => (x : Int) := by
  cases hs : StdMap.find dc s with
  | none => rw [GetDistances_fresh env graph_ depth_ dc s e hs]
  | some m =>
    exact (congrArg Prod.fst (GetDistances_cached env graph_ depth_ dc s e m hs)).trans rfl

theorem SameAnswers.query (env : Env) (graph_ : Graph) (depth_ : Int) (dc : FastDistanceCounter)
    (s2 e2 : VertexId) :
    SameAnswers env graph_ depth_ dc
      (FastDistanceCounter.GetDistances env graph_ depth_ dc s2 e2).2 := by
  intro s e
  cases hs2 : StdMap.find dc s2 with
  | some m => rw [GetDistances_cached env graph_ depth_ dc s2 e2 m hs2]
  | none =>
    rw [GetDistances_fresh env graph_ depth_ dc s2 e2 hs2]
    simp only
    rw [GetDistances_value, GetDistances_value, StdMap.find_insert, hs2]
    simp only [Option.isSome_none, Bool.false_eq_true, if_false]
    by_cases hss : s2 = s
    · rw [if_pos hss, ← hss, hs2]
      simp only
      exact insertingMap_value env graph_ depth_ s2 e
    · rw [if_neg hss]

theorem IsEdgesOnDistanceAdjacent_cache (env : Env) (depth : Int) (edge : EdgeId) (d : ℚ)
    (other_edge : EdgeId) (other_d : ℚ) (old_graph : Graph) (max_diff : ℚ) (first_equal : Bool)
    (dc : FastDistanceCounter) :
    SameAnswers env old_graph depth dc
      (IsEdgesOnDistanceAdjacent env depth edge d other_edge other_d old_graph max_diff
        first_equal dc).2 := by
  unfold IsEdgesOnDistanceAdjacent
  simp only
  exact (SameAnswers.query env old_graph depth dc _ _).same_trans
    (SameAnswers.query env old_graph depth _ _ _)

theorem isAdjacent_cache (env : Env) (A B : EdgeInfo) (old_graph new_graph : Graph)
    (dc : FastDistanceCounter) :
    SameAnswers env old_graph env.cfg.rr_max_distance dc
      (EdgeInfo.isAdjacent env A B old_graph new_graph dc).2 := by
  unfold EdgeInfo.isAdjacent
  simp only
  split_ifs
  · exact SameAnswers.same_refl _ _ _ _
  · exact SameAnswers.same_refl _ _ _ _
  · exact IsEdgesOnDistanceAdjacent_cache _ _ _ _ _ _ _ _ _ _

theorem isAdjacent_iff (env : Env) (A B : EdgeInfo) (old_graph new_graph : Graph)
    (dc : FastDistanceCounter) :
    (EdgeInfo.isAdjacent env A B old_graph new_graph dc).1 = true
      ↔ ¬ topologicalVeto A B new_graph
        ∧ (longEdgeShortcut env A B new_graph
          ∨ (IsEdgesOnDistanceAdjacent env env.cfg.rr_max_distance A.edge A.d B.edge B.d old_graph
              (max A.lp.variance B.lp.variance + 1 / 2 + 1 / 1000000000)
              (decide (A.lp.first = B.lp.first)) dc).1 = true) := by
  unfold EdgeInfo.isAdjacent topologicalVeto longEdgeShortcut
  simp only
  by_cases hv : A.lp.first ≠ B.lp.first
      ∧ new_graph.EdgeStart A.lp.first ≠ new_graph.EdgeEnd A.lp.first
      ∧ new_graph.EdgeStart B.lp.first ≠ new_graph.EdgeEnd B.lp.first
      ∧ (new_graph.EdgeStart A.lp.first = new_graph.EdgeStart B.lp.first
          ∨ new_graph.EdgeEnd A.lp.first = new_graph.EdgeEnd B.lp.first)
  · rw [if_pos hv]
    simp [hv]
  · rw [if_neg hv]
    by_cases hl : A.lp.first = B.lp.first
        ∧ new_graph.length A.lp.first > env.cfg.rr_max_repeat_length
    · rw [if_pos hl]
      simp only [true_iff]
      exact ⟨hv, Or.inl hl⟩
    · rw [if_neg hl]
      constructor
      · intro h
        exact ⟨hv, Or.inr h⟩
      · rintro ⟨_, h | h⟩
        · exact absurd h hl
        · exact h

theorem topologicalVeto_symm (A B : EdgeInfo) (new_graph : Graph) :
    topologicalVeto A B new_graph ↔ topologicalVeto B A new_graph := by
  unfold topologicalVeto
  constructor <;>
  · rintro ⟨h1, h2, h3, h4⟩
    exact ⟨fun h => h1 h.symm, h3, h2, h4.imp Eq.symm Eq.symm⟩

theorem longEdgeShortcut_symm (env : Env) (A B : EdgeInfo) (new_graph : Graph) :
    longEdgeShortcut env A B new_graph ↔ longEdgeShortcut env B A new_graph := by
  unfold longEdgeShortcut
  constructor <;>
  · rintro ⟨h1, h2⟩
    exact ⟨h1.symm, by rw [← h1]; exact h2⟩

theorem IsEdgesOnDistanceAdjacent_symm (env : Env) (depth : Int) (eA : EdgeId) (dA : ℚ)
    (eB : EdgeId) (dB : ℚ) (old_graph : Graph) (max_diff : ℚ) (feA feB : Bool) (hfe : feA = feB)
    (dc dc2 : FastDistanceCounter) (hs : SameAnswers env old_graph depth dc dc2) :
    (IsEdgesOnDistanceAdjacent env depth eA dA eB dB old_graph max_diff feA dc).1 = true
      → (IsEdgesOnDistanceAdjacent env depth eB dB eA dA old_graph max_diff feB dc2).1 = true := by
  rw [IsEdgesOnDistanceAdjacent_iff, IsEdgesOnDistanceAdjacent_iff]
  have q1 : (FastDistanceCounter.GetDistances env old_graph depth
      (FastDistanceCounter.GetDistances env old_graph depth dc2
        (old_graph.EdgeEnd eB) (old_graph.EdgeStart eA)).2
      (old_graph.EdgeEnd eA) (old_graph.EdgeStart eB)).1
      = (FastDistanceCounter.GetDistances env old_graph depth dc
        (old_graph.EdgeEnd eA) (old_graph.EdgeStart eB)).1 :=
    (hs.same_trans (SameAnswers.query env old_graph depth dc2 _ _)) _ _
  have q2 : (FastDistanceCounter.GetDistances env old_graph depth dc2
        (old_graph.EdgeEnd eB) (old_graph.EdgeStart eA)).1
      = (FastDistanceCounter.GetDistances env old_graph depth
      (FastDistanceCounter.GetDistances env old_graph depth dc
        (old_graph.EdgeEnd eA) (old_graph.EdgeStart eB)).2
      (old_graph.EdgeEnd eB) (old_graph.EdgeStart eA)).1 :=
    (hs _ _).trans ((SameAnswers.query env old_graph depth dc _ _) _ _).symm
  rw [q1, q2, hfe]
  rintro (h | h | h | h)
  · exact Or.inr (Or.inl h)
  · exact Or.inl h
  · exact Or.inr (Or.inr (Or.inl ⟨h.1.symm, by rw [abs_sub_comm]; exact h.2⟩))
  · refine Or.inr (Or.inr (Or.inr ⟨h.1, ?_⟩))
    rcases h.2 with h2 | h2
    · refine Or.inr ⟨h2.1.symm, ?_⟩
      rw [abs_sub_comm]
      exact h2.2
    · refine Or.inl ⟨h2.1.symm, ?_⟩
      rw [abs_sub_comm]
      exact h2.2

theorem isAdjacent_imp (env : Env) (A B : EdgeInfo) (old_graph new_graph : Graph)
    (dc dc2 : FastDistanceCounter)
    (hs : SameAnswers env old_graph env.cfg.rr_max_distance dc dc2) :
    (EdgeInfo.isAdjacent env A B old_graph new_graph dc).1 = true
      → (EdgeInfo.isAdjacent env B A old_graph new_graph dc2).1 = true := by
  rw [isAdjacent_iff, isAdjacent_iff]
  rintro ⟨hv, h⟩
  refine ⟨fun hv2 => hv ((topologicalVeto_symm A B new_graph).2 hv2), ?_⟩
  rcases h with h | h
  · exact Or.inl ((longEdgeShortcut_symm env A B new_graph).1 h)
  · right
    rw [max_comm]
    exact IsEdgesOnDistanceAdjacent_symm env _ _ _ _ _ old_graph _ _ _
      (by simp only [eq_comm]) dc dc2 hs h

theorem isAdjacent_symm (env : Env) (A B : EdgeInfo) (old_graph new_graph : Graph)
    (dc dc2 : FastDistanceCounter)
    (hs : SameAnswers env old_graph env.cfg.rr_max_distance dc dc2) :
    (EdgeInfo.isAdjacent env B A old_graph new_graph dc2).1
      = (EdgeInfo.isAdjacent env A B old_graph new_graph dc).1 := by
  have hs2 : SameAnswers env old_graph env.cfg.rr_max_distance dc2 dc :=
    fun s e => (hs s e).symm
  cases h1 : (EdgeInfo.isAdjacent env A B old_graph new_graph dc).1 with
  | true => exact isAdjacent_imp env A B old_graph new_graph dc dc2 hs h1
  | false =>
    cases h2 : (EdgeInfo.isAdjacent env B A old_graph new_graph dc2).1 with
    | false => rfl
    | true =>
      have := isAdjacent_imp env B A old_graph new_graph dc2 dc hs2 h2
      rw [h1] at this
      cases this

theorem countP_set_le (l : List Int) (i : Nat) (c : Int) (hc : c > -1) :
    (l.set i c).countP (fun x => decide (x ≤ -1)) ≤ l.countP (fun x => decide (x ≤ -1)) := by
  induction l generalizing i with
  | nil => simp
  | cons a t ih =>
    cases i with
    | zero =>
      simp only [List.set_cons_zero, List.countP_cons]
      have : decide (c ≤ -1) = false := by simp; omega
      simp [this]
    | succ i =>
      simp only [List.set_cons_succ, List.countP_cons]
      have := ih i
      omega

theorem countP_set_lt (l : List Int) (i : Nat) (c : Int) (hc : c > -1)
    (hi : ¬ (l.getD i 0 > -1)) :
    (l.set i c).countP (fun x => decide (x ≤ -1)) < l.countP (fun x => decide (x ≤ -1)) := by
  induction l generalizing i with
  | nil => simp at hi
  | cons a t ih =>
    cases i with
    | zero =>
      simp only [List.getD_cons_zero] at hi
      simp only [List.set_cons_zero, List.countP_cons]
      have h1 : decide (c ≤ -1) = false := by simp; omega
      have h2 : decide (a ≤ -1) = true := by simp; omega
      simp [h1, h2]
    | succ i =>
      simp only [List.getD_cons_succ] at hi
      simp only [List.set_cons_succ, List.countP_cons]
      have := ih i hi
      omega

theorem dfs_total (fuel : Nat) (edge_list : List (List Nat)) (colors : List Int × Bool)
    (cur_vert : Nat) (cur_color : Int) (hc : cur_color > -1)
    (hfuel : fuel > (colors.1.set cur_vert cur_color).countP (fun x => decide (x ≤ -1))) :
    ∃ r, dfs fuel edge_list colors cur_vert cur_color = some r
      ∧ r.1.countP (fun x => decide (x ≤ -1))
          ≤ (colors.1.set cur_vert cur_color).countP (fun x => decide (x ≤ -1))
      ∧ r.1.length = colors.1.length := by
  induction fuel generalizing colors cur_vert with
  | zero => omega
  | succ f ih =>
    unfold dfs
    suffices h : ∀ (nb : List Nat) (st : List Int × Bool),
        st.1.countP (fun x => decide (x ≤ -1))
          ≤ (colors.1.set cur_vert cur_color).countP (fun x => decide (x ≤ -1)) →
        st.1.length = colors.1.length →
        ∃ r, nb.foldlM
            (fun (st : List Int × Bool) (n : Nat) =>
              if st.1.getD n 0 > -1 then
                if st.1.getD n 0 ≠ cur_color then some (st.1, true) else some st
              else if n ≠ cur_vert then dfs f edge_list st n cur_color
              else some st) st = some r
          ∧ r.1.countP (fun x => decide (x ≤ -1))
              ≤ (colors.1.set cur_vert cur_color).countP (fun x => decide (x ≤ -1))
          ∧ r.1.length = colors.1.length by
      exact h _ _ (Nat.le_refl _) (by simp)
    intro nb
    induction nb with
    | nil => intro st h1 h2; exact ⟨st, rfl, h1, h2⟩
    | cons n t iht =>
      intro st h1 h2
      simp only [List.foldlM_cons]
      by_cases hcol : st.1.getD n 0 > -1
      · rw [if_pos hcol]
        by_cases hd : st.1.getD n 0 ≠ cur_color
        · rw [if_pos hd]
          simp only [Option.some_bind, Option.bind_eq_bind]
          exact iht (st.1, true) h1 h2
        · rw [if_neg hd]
          simp only [Option.some_bind, Option.bind_eq_bind]
          exact iht st h1 h2
      · rw [if_neg hcol]
        by_cases hn : n ≠ cur_vert
        · rw [if_pos hn]
          have hlt := countP_set_lt st.1 n cur_color hc hcol
          obtain ⟨r, hr, hr1, hr2⟩ := ih st n (by omega)
          rw [hr]
          simp only [Option.some_bind, Option.bind_eq_bind]
          exact iht r (by omega) (by rw [hr2, h2])
        · rw [if_neg hn]
          simp only [Option.some_bind, Option.bind_eq_bind]
          exact iht st h1 h2

theorem colourLoop_total (fuel : Nat) (edge_list : List (List Nat)) (is : List Nat)
    (colors : List Int × Bool) (cur_color : Int) (hc : cur_color > -1)
    (hfuel : fuel > colors.1.length) :
    ∃ r, colourLoop fuel edge_list is colors cur_color = some r
      ∧ r.1.1.length = colors.1.length := by
  induction is generalizing colors cur_color with
  | nil => exact ⟨(colors, cur_color), rfl, rfl⟩
  | cons i rest ih =>
    unfold colourLoop
    by_cases hi : colors.1.getD i 0 = -1
    · rw [if_pos hi]
      have hle : (colors.1.set i cur_color).countP (fun x => decide (x ≤ -1))
          ≤ (colors.1.set i cur_color).length := List.countP_le_length _
      rw [List.length_set] at hle
      obtain ⟨r, hr, _, hr2⟩ := dfs_total fuel edge_list colors i cur_color hc (by omega)
      rw [hr]
      simp only
      obtain ⟨r2, h2, h3⟩ := ih r (cur_color + 1) (by omega) (by omega)
      exact ⟨r2, h2, by rw [h3, hr2]⟩
    · rw [if_neg hi]
      exact ih colors cur_color hc hfuel

theorem cheatBad_sticky (idx : List Nat) (c : List Int) (l : List Nat) (b : Bool) :
    l.foldl (fun (st : Bool × Bool) (i : Nat) =>
      if st.2 then st
      else
        ((!(idx.any (fun j => decide (i ≠ j) && decide (c.getD i 0 = c.getD j 0)))),
         (!(idx.any (fun j => decide (i ≠ j) && decide (c.getD i 0 = c.getD j 0))))))
      (b, true) = (b, true) := by
  induction l with
  | nil => rfl
  | cons a t ih => simpa using ih

theorem cheatBad_fold (idx : List Nat) (c : List Int) (l : List Nat) (b : Bool) :
    (l.foldl (fun (st : Bool × Bool) (i : Nat) =>
      if st.2 then st
      else
        ((!(idx.any (fun j => decide (i ≠ j) && decide (c.getD i 0 = c.getD j 0)))),
         (!(idx.any (fun j => decide (i ≠ j) && decide (c.getD i 0 = c.getD j 0))))))
      (b, false)).1 = true
    ↔ (∃ i ∈ l, ∀ j ∈ idx, i ≠ j → c.getD i 0 ≠ c.getD j 0) ∨ (l = [] ∧ b = true) := by
  induction l generalizing b with
  | nil => simp
  | cons a t ih =>
    simp only [List.foldl_cons, Bool.false_eq_true, if_false]
    by_cases ha : ∀ j ∈ idx, a ≠ j → c.getD a 0 ≠ c.getD j 0
    · have hal : (!(idx.any (fun j => decide (a ≠ j) && decide (c.getD a 0 = c.getD j 0))))
          = true := by
        rw [Bool.not_eq_true', List.any_eq_false]
        intro j hj
        by_cases haj : a = j
        · simp [haj]
        · have := ha j hj haj
          simp only [decide_eq_false this, Bool.and_false]
          exact Bool.false_ne_true
      rw [hal, cheatBad_sticky]
      simp only [true_iff]
      exact Or.inl ⟨a, List.mem_cons_self _ _, ha⟩
    · have hal : (!(idx.any (fun j => decide (a ≠ j) && decide (c.getD a 0 = c.getD j 0))))
          = false := by
        rw [Bool.not_eq_false', List.any_eq_true]
        push_neg at ha
        obtain ⟨j, hj, haj, hc⟩ := ha
        exact ⟨j, hj, by simp only [ne_eq, haj, not_false_eq_true, decide_True, hc, Bool.and_self]⟩
      rw [hal, ih]
      constructor
      · rintro (⟨i, hi, h⟩ | ⟨_, h⟩)
        · exact Or.inl ⟨i, List.mem_cons_of_mem _ hi, h⟩
        · cases h
      · rintro (⟨i, hi, h⟩ | ⟨h, _⟩)
        · rcases List.mem_cons.1 hi with rfl | hi
          · exact absurd h ha
          · exact Or.inl ⟨i, hi, h⟩
        · cases h

theorem cheatBad_iff (c : List Int) : cheatBad c = false ↔ AllMatched c := by
  have h := cheatBad_fold (List.range c.length) c (List.range c.length) true
  unfold cheatBad AllMatched
  simp only
  rw [Bool.eq_false_iff, Ne, h]
  constructor
  · intro hn
    push_neg at hn
    obtain ⟨h1, h2⟩ := hn
    have hne : c ≠ [] := by
      intro hc
      apply h2
      · rw [hc]; rfl
      · rfl
    refine ⟨hne, ?_⟩
    intro i hi
    obtain ⟨j, hj, hij, hcc⟩ := h1 i (List.mem_range.2 hi)
    exact ⟨j, List.mem_range.1 hj, hij, hcc⟩
  · rintro ⟨hne, hall⟩
    push_neg
    constructor
    · intro i hi
      obtain ⟨j, hj, hij, hcc⟩ := hall i (List.mem_range.1 hi)
      exact ⟨j, List.mem_range.2 hj, hij, hcc⟩
    · intro hr
      exfalso
      apply hne
      have : c.length = 0 := by
        cases hl : c.length with
        | zero => rfl
        | succ n => rw [hl] at hr; simp [List.range_succ] at hr
      exact List.eq_nil_of_length_eq_zero this

theorem CheatingResolveVertex_eq (env : Env) (rr : RepeatResolver) (vid : VertexId) :
    CheatingResolveVertex env rr vid
      = match colourLoop ((rr.new_graph.OutgoingEdges vid).length
            + (rr.new_graph.IncomingEdges vid).length + 1) (matchingNeighbours rr vid)
          (List.range ((rr.new_graph.OutgoingEdges vid).length
            + (rr.new_graph.IncomingEdges vid).length))
          (List.replicate ((rr.new_graph.OutgoingEdges vid).length
            + (rr.new_graph.IncomingEdges vid).length) (-1), false) 0 with
        | none => none
        | some (cheater_colors, _) =>
          if cheatBad cheater_colors.1 then
            some ({ rr with edge_info_colors := rr.edge_info_colors.take rr.edge_infos.length
              ++ List.replicate (rr.edge_infos.length - rr.edge_info_colors.length) (0 : Int) }, 1)
          else
            some ((MultiSplit env (cheatRecoloured rr vid cheater_colors.1) vid).1,
              (MultiSplit env (cheatRecoloured rr vid cheater_colors.1) vid).2.length) := rfl

theorem RectangleResolveVertex_total (env : Env) (rr : RepeatResolver) (v : VertexId) :
    ∃ r, RectangleResolveVertex env rr v = some r := by
  unfold RectangleResolveVertex
  simp only
  split_ifs
  · exact ⟨_, rfl⟩
  · obtain ⟨r, hr, _⟩ := colourLoop_total (rr.edge_infos.length + 1) (buildNeighbours env rr).1
      (List.range rr.edge_infos.length) (List.replicate rr.edge_infos.length (-1), false) 0
      (by decide) (by simp)
    rw [hr]
    exact ⟨_, rfl⟩

theorem CheatingResolveVertex_total (env : Env) (rr : RepeatResolver) (v : VertexId) :
    ∃ r, CheatingResolveVertex env rr v = some r := by
  obtain ⟨r, hr, _⟩ := colourLoop_total ((rr.new_graph.OutgoingEdges v).length
      + (rr.new_graph.IncomingEdges v).length + 1) (matchingNeighbours rr v)
    (List.range ((rr.new_graph.OutgoingEdges v).length
      + (rr.new_graph.IncomingEdges v).length))
    (List.replicate ((rr.new_graph.OutgoingEdges v).length
      + (rr.new_graph.IncomingEdges v).length) (-1), false) 0 (by decide) (by simp)
  rw [CheatingResolveVertex_eq, hr]
  simp only
  split_ifs
  · exact ⟨_, rfl⟩
  · exact ⟨_, rfl⟩

theorem resolveVertexStep_flag (env : Env) (st : RepeatResolver × Bool) (v : VertexId) :
    ∃ r, resolveVertexStep env st v = some r
      ∧ (r.2 = true ↔ st.2 = true ∨ returnedSeveral env st.1 v) := by
  unfold resolveVertexStep returnedSeveral vertexCount
  simp only
  by_cases hlive : st.1.rc_mode = true ∧ ¬ (v ∈ st.1.new_graph.vertexIds)
  · rw [if_pos hlive, if_pos hlive]
    exact ⟨st, rfl, by simp⟩
  · rw [if_neg hlive, if_neg hlive]
    by_cases hch : ((st.1.new_graph.OutgoingEdges v ++ st.1.new_graph.IncomingEdges v).any
        (fun e => StdSet.contains st.1.global_cheating_edges e)) = true
    · rw [if_pos hch, if_pos hch]
      exact ⟨st, rfl, by simp⟩
    · rw [if_neg hch, if_neg hch]
      have htot : ∃ r, (if (GenerateVertexPairedInfo env st.1 v).1.cheating_mode ≠ 1
          then RectangleResolveVertex env (GenerateVertexPairedInfo env st.1 v).1 v
          else CheatingResolveVertex env (GenerateVertexPairedInfo env st.1 v).1 v) = some r := by
        split_ifs
        · exact RectangleResolveVertex_total _ _ _
        · exact CheatingResolveVertex_total _ _ _
      obtain ⟨r, hr⟩ := htot
      rw [hr]
      simp only [Option.map_some', Option.some.injEq]
      refine ⟨_, rfl, ?_⟩
      by_cases ht : r.2 > 1
      · simp [ht]
      · simp only [ht, if_false]
        constructor
        · intro h; exact Or.inl h
        · rintro (h | ⟨t, h1, h2⟩)
          · exact h
          · rw [← h1] at h2; exact absurd h2 ht

theorem sweep_fold_flag (env : Env) (l : List VertexId) (st : RepeatResolver × Bool) :
    ∃ r, l.foldlM (resolveVertexStep env) st = some r
      ∧ (r.2 = true ↔ st.2 = true ∨ ∃ pre v post s, l = pre ++ v :: post
          ∧ pre.foldlM (resolveVertexStep env) st = some s ∧ returnedSeveral env s.1 v) := by
  induction l generalizing st with
  | nil =>
    refine ⟨st, rfl, ?_⟩
    constructor
    · intro h; exact Or.inl h
    · rintro (h | ⟨pre, v, post, s, h, _⟩)
      · exact h
      · simp at h
  | cons a t ih =>
    obtain ⟨r1, h1, hf1⟩ := resolveVertexStep_flag env st a
    obtain ⟨r2, h2, hf2⟩ := ih r1
    refine ⟨r2, by simp only [List.foldlM_cons, h1]; exact h2, ?_⟩
    rw [hf2, hf1]
    constructor
    · rintro ((h | h) | ⟨pre, v, post, s, hl, hs, hv⟩)
      · exact Or.inl h
      · exact Or.inr ⟨[], a, t, st, rfl, rfl, h⟩
      · refine Or.inr ⟨a :: pre, v, post, s, by rw [hl]; rfl, ?_, hv⟩
        simp only [List.foldlM_cons, h1]
        exact hs
    · rintro (h | ⟨pre, v, post, s, hl, hs, hv⟩)
      · exact Or.inl (Or.inl h)
      · cases pre with
        | nil =>
          simp only [List.nil_append, List.cons.injEq] at hl
          simp only [List.foldlM_nil] at hs
          have hs' : st = s := by simpa using hs
          rw [← hs', ← hl.1] at hv
          exact Or.inl (Or.inr hv)
        | cons p pre =>
          simp only [List.cons_append, List.cons.injEq] at hl
          rw [← hl.1] at hs
          simp only [List.foldlM_cons, h1] at hs
          exact Or.inr ⟨pre, v, post, s, hl.2, hs, hv⟩

theorem sweep_flag (env : Env) (rr : RepeatResolver) :
    ∃ r, sweep env rr = some r
      ∧ (r.2 = true ↔ ∃ pre v post s, sweepWorklist env rr = pre ++ v :: post
          ∧ pre.foldlM (resolveVertexStep env) (rr, false) = some s
          ∧ returnedSeveral env s.1 v) := by
  obtain ⟨r, hr, hf⟩ := sweep_fold_flag env (sweepWorklist env rr) (rr, false)
  refine ⟨r, hr, ?_⟩
  rw [hf]
  simp

theorem sweepLoop_iff (env : Env) (fuel : Nat) (rr last : RepeatResolver) :
    sweepLoop env fuel rr = some last ↔ ModeFixpoint env fuel rr last := by
  induction fuel generalizing rr with
  | zero =>
    simp only [sweepLoop, ModeFixpoint]
    constructor
    · intro h; cases h
    · rintro ⟨chain, h, _⟩; omega
  | succ n ih =>
    obtain ⟨r, hr, _⟩ := sweep_flag env rr
    obtain ⟨rr1, changed⟩ := r
    simp only [sweepLoop, hr]
    cases changed with
    | true =>
      simp only [if_true]
      rw [ih]
      constructor
      · rintro ⟨chain, hlen, hchain, hall⟩
        refine ⟨(rr1, true) :: chain, by simp only [List.length_cons]; omega, ?_, ?_⟩
        · exact ⟨hr, hchain⟩
        · intro x hx
          rcases List.mem_cons.1 hx with rfl | hx
          · rfl
          · exact hall x hx
      · rintro ⟨chain, hlen, hchain, hall⟩
        cases chain with
        | nil =>
          simp only [List.nil_append, SweepChain, and_true] at hchain
          rw [hr] at hchain
          cases hchain
        | cons x t =>
          simp only [List.cons_append, SweepChain] at hchain
          rw [hr] at hchain
          have hx : (rr1, true) = x := Option.some.inj hchain.1
          subst hx
          exact ⟨t, by simp only [List.length_cons] at hlen; omega, hchain.2,
            fun y hy => hall y (List.mem_cons_of_mem _ hy)⟩
    | false =>
      simp only [Bool.false_eq_true, if_false, Option.some.injEq]
      constructor
      · intro h
        subst h
        exact ⟨[], by simp, by simp [SweepChain, hr], by simp⟩
      · rintro ⟨chain, hlen, hchain, hall⟩
        cases chain with
        | nil =>
          simp only [List.nil_append, SweepChain, and_true] at hchain
          rw [hr] at hchain
          exact (Prod.mk.inj (Option.some.inj hchain)).1
        | cons x t =>
          simp only [List.cons_append, SweepChain] at hchain
          rw [hr] at hchain
          have hx : (rr1, false) = x := Option.some.inj hchain.1
          have := hall x (List.mem_cons_self _ _)
          rw [← hx] at this
          cases this

theorem modeLoop_iff (env : Env) (fuel : Nat) (modes : List Nat) (rr result : RepeatResolver) :
    modeLoop env fuel modes rr = some result ↔ ModeRun env fuel modes rr result := by
  induction modes generalizing rr with
  | nil =>
    simp only [modeLoop, ModeRun, Option.some.injEq]
    exact eq_comm
  | cons m rest ih =>
    simp only [modeLoop, ModeRun]
    cases h : sweepLoop env fuel { rr with cheating_mode := (m : Int) } with
    | none =>
      simp only
      constructor
      · intro hx; cases hx
      · rintro ⟨last, hl, _⟩
        rw [← sweepLoop_iff, h] at hl
        cases hl
    | some rr1 =>
      simp only
      rw [ih]
      constructor
      · intro hx
        exact ⟨rr1, (sweepLoop_iff env fuel _ rr1).1 h, hx⟩
      · rintro ⟨last, hl, hx⟩
        rw [← sweepLoop_iff, h] at hl
        rw [Option.some.inj hl]
        exact hx

theorem copyVertex_plain (old : Graph) (st : VertexCopy) (v : VertexId)
    (hnew : st.new_graph.conjugate_typed = false) :
    copyVertex false old st v
      = if 0 < old.IncomingEdgeCount v + old.OutgoingEdgeCount v then
          { st with
            new_graph := { st.new_graph with
              vertices := st.new_graph.vertices ++ [⟨st.new_graph.fresh, st.new_graph.fresh⟩],
              fresh := st.new_graph.fresh + 1 },
            vertex_labels := StdMap.put st.vertex_labels st.new_graph.fresh v,
            old_to_new := StdMap.put st.old_to_new v st.new_graph.fresh }
        else st := by
  unfold copyVertex Graph.AddVertex
  simp only [Bool.false_and, Bool.false_eq_true, if_false, hnew, gt_iff_lt]

theorem PlainVertexCopyInv.vertex_step (old : Graph) (P : List VertexId) (st : VertexCopy)
    (v : VertexId) (hv : v ∉ P) (h : PlainVertexCopyInv old P st) :
    PlainVertexCopyInv old (P ++ [v]) (copyVertex false old st v) := by
  rw [copyVertex_plain old st v h.typed]
  by_cases hd : 0 < old.IncomingEdgeCount v + old.OutgoingEdgeCount v
  · rw [if_pos hd]
    have hfresh_not : st.new_graph.fresh ∉ st.new_graph.vertexIds :=
      fun hm => absurd (h.fresh _ hm) (Nat.lt_irrefl _)
    have hvnone : StdMap.find st.old_to_new v = none := by
      cases hf : StdMap.find st.old_to_new v with
      | none => rfl
      | some x =>
        have := (h.keys v).1 (by rw [hf]; rfl)
        exact absurd this.1 hv
    have hlnone : StdMap.find st.vertex_labels st.new_graph.fresh = none := by
      cases hf : StdMap.find st.vertex_labels st.new_graph.fresh with
      | none => rfl
      | some x =>
        have := (h.dom _).1 (by rw [hf]; rfl)
        exact absurd this hfresh_not
    refine ⟨h.typed, h.edges, ?_, ?_, ?_, ?_, ?_⟩
    · intro id hid
      simp only [Graph.vertexIds, List.map_append, List.map_cons, List.map_nil, List.mem_append,
        List.mem_singleton] at hid
      rcases hid with hid | hid
      · exact Nat.lt_succ_of_lt (h.fresh id hid)
      · rw [hid]; exact Nat.lt_succ_self _
    · simp only [Graph.vertexIds, List.map_append, List.map_cons, List.map_nil]
      rw [List.nodup_append]
      refine ⟨h.nodup, List.nodup_singleton _, ?_⟩
      intro a ha hb
      rw [List.mem_singleton] at hb
      rw [hb] at ha
      exact hfresh_not ha
    · intro nv
      simp only [StdMap.find_put, Graph.vertexIds, List.map_append, List.map_cons, List.map_nil,
        List.mem_append, List.mem_singleton]
      by_cases hn : st.new_graph.fresh = nv
      · rw [if_pos hn]
        simp [hn]
      · rw [if_neg hn]
        rw [h.dom nv]
        constructor
        · intro hx; exact Or.inl hx
        · rintro (hx | hx)
          · exact hx
          · exact absurd hx.symm hn
    · intro nv w
      simp only [StdMap.find_put]
      by_cases hn : st.new_graph.fresh = nv
      · rw [if_pos hn]
        by_cases hw : v = w
        · rw [if_pos hw]
          simp [hn, hw]
        · rw [if_neg hw]
          constructor
          · intro hx
            exact absurd (Option.some.inj hx) hw
          · intro hx
            have := (h.inv nv w).2 hx
            rw [← hn, hlnone] at this
            cases this
      · rw [if_neg hn]
        by_cases hw : v = w
        · rw [if_pos hw]
          constructor
          · intro hx
            have := (h.inv nv w).1 hx
            rw [← hw, hvnone] at this
            cases this
          · intro hx
            exact absurd (Option.some.inj hx) hn
        · rw [if_neg hw]
          exact h.inv nv w
    · intro w
      simp only [StdMap.find_put, List.mem_append, List.mem_singleton]
      by_cases hw : v = w
      · rw [if_pos hw]
        simp only [Option.isSome_some, true_iff]
        exact ⟨Or.inr hw.symm, hw ▸ hd⟩
      · rw [if_neg hw, h.keys w]
        constructor
        · rintro ⟨h1, h2⟩; exact ⟨Or.inl h1, h2⟩
        · rintro ⟨h1 | h1, h2⟩
          · exact ⟨h1, h2⟩
          · exact absurd h1.symm hw
  · rw [if_neg hd]
    refine ⟨h.typed, h.edges, h.fresh, h.nodup, h.dom, h.inv, ?_⟩
    intro w
    rw [h.keys w]
    simp only [List.mem_append, List.mem_singleton]
    constructor
    · rintro ⟨h1, h2⟩; exact ⟨Or.inl h1, h2⟩
    · rintro ⟨h1 | h1, h2⟩
      · exact ⟨h1, h2⟩
      · rw [h1] at h2; exact absurd h2 hd

theorem PlainVertexCopyInv.vertex_fold (old : Graph) (l P : List VertexId) (st : VertexCopy)
    (hnd : (P ++ l).Nodup) (h : PlainVertexCopyInv old P st) :
    PlainVertexCopyInv old (P ++ l) (l.foldl (copyVertex false old) st) := by
  induction l generalizing P st with
  | nil => simpa using h
  | cons a t ih =>
    simp only [List.foldl_cons]
    have ha : a ∉ P := by
      intro hx
      rw [List.nodup_append] at hnd
      exact hnd.2.2 hx (List.mem_cons_self _ _)
    have := ih (P ++ [a]) (copyVertex false old st a) (by simpa using hnd)
      (PlainVertexCopyInv.vertex_step old P st a ha h)
    simpa using this

theorem ctorVertexCopy_plain (old new0 : Graph) (hv : new0.vertices = [])
    (he : new0.edges = []) (ht : new0.conjugate_typed = false) :
    PlainVertexCopyInv old (old.vertexIds.foldl StdSet.insert [])
      (ctorVertexCopy false old new0) := by
  unfold ctorVertexCopy
  have h0 : PlainVertexCopyInv old []
      { new_graph := new0, vertex_labels := [], old_to_new := [], rc_vertices := [],
        verify_failed := false } := by
    refine ⟨ht, he, ?_, ?_, ?_, ?_, ?_⟩
    · intro id hid; simp [Graph.vertexIds, hv] at hid
    · simp [Graph.vertexIds, hv]
    · intro nv; simp [StdMap.find, Graph.vertexIds, hv]
    · intro nv v; simp [StdMap.find]
    · intro v; simp [StdMap.find]
  have := PlainVertexCopyInv.vertex_fold old (old.vertexIds.foldl StdSet.insert []) [] _
    (by simpa using StdSet.nodup_foldl_insert old.vertexIds) h0
  simpa using this

theorem Graph.edge_SetCoverage (g : Graph) (e : EdgeId) (c : Int) (x : EdgeId) :
    (g.SetCoverage e c).edge x
      = (g.edge x).map (fun r => if r.id = e then { r with cov := c } else r) := by
  unfold Graph.edge Graph.SetCoverage
  simp only
  induction g.edges with
  | nil => simp
  | cons r t ih =>
    simp only [List.map_cons, List.find?_cons]
    by_cases h : r.id = e
    · simp only [if_pos h]
      by_cases h2 : r.id = x
      · simp only [h2, decide_True, Option.map_some', Option.some.injEq]
        rw [if_pos (h2 ▸ h)]
      · simp only [h2, decide_False]
        simpa using ih
    · simp only [if_neg h]
      by_cases h2 : r.id = x
      · simp only [h2, decide_True, Option.map_some', Option.some.injEq]
        rw [if_neg (h2 ▸ h)]
      · simp only [h2, decide_False]
        simpa using ih

theorem Graph.EdgeStart_SetCoverage (g : Graph) (e : EdgeId) (c : Int) (x : EdgeId) :
    (g.SetCoverage e c).EdgeStart x = g.EdgeStart x := by
  unfold Graph.EdgeStart
  rw [Graph.edge_SetCoverage]
  cases g.edge x with
  | none => rfl
  | some r => simp only [Option.map_some', Option.getD_some]; split_ifs <;> rfl

theorem Graph.EdgeEnd_SetCoverage (g : Graph) (e : EdgeId) (c : Int) (x : EdgeId) :
    (g.SetCoverage e c).EdgeEnd x = g.EdgeEnd x := by
  unfold Graph.EdgeEnd
  rw [Graph.edge_SetCoverage]
  cases g.edge x with
  | none => rfl
  | some r => simp only [Option.map_some', Option.getD_some]; split_ifs <;> rfl

theorem Graph.edge_append_of_mem (g g2 : Graph) (l : List EdgeRec) (x : EdgeId)
    (h2 : g2.edges = g.edges ++ l) (hx : x ∈ g.edgeIds) : g2.edge x = g.edge x := by
  unfold Graph.edge
  rw [h2]
  unfold Graph.edgeIds at hx
  have : ∀ es : List EdgeRec, x ∈ es.map (fun r => r.id) →
      (es ++ l).find? (fun r => decide (r.id = x)) = es.find? (fun r => decide (r.id = x)) := by
    intro es
    induction es with
    | nil => intro h; simp at h
    | cons r t ih =>
      intro h
      simp only [List.cons_append, List.find?_cons]
      by_cases h2 : r.id = x
      · simp [h2]
      · simp only [h2, decide_False]
        apply ih
        simp only [List.map_cons, List.mem_cons] at h
        rcases h with h | h
        · exact absurd h.symm h2
        · exact h
  exact this g.edges hx

theorem Graph.edge_append_fresh (g g2 : Graph) (r1 : EdgeRec) (rest : List EdgeRec)
    (h2 : g2.edges = g.edges ++ r1 :: rest) (h : ∀ id ∈ g.edgeIds, id < r1.id) :
    g2.edge r1.id = some r1 := by
  unfold Graph.edge
  rw [h2]
  have : ∀ l : List EdgeRec, (∀ r ∈ l, r.id < r1.id) →
      (l ++ r1 :: rest).find? (fun r => decide (r.id = r1.id)) = some r1 := by
    intro l hl
    induction l with
    | nil => simp
    | cons a t ih =>
      have ha : a.id ≠ r1.id := Nat.ne_of_lt (hl a (List.mem_cons_self _ _))
      simp only [List.cons_append, List.find?_cons, ha, decide_False]
      exact ih (fun r hr => hl r (List.mem_cons_of_mem _ hr))
  apply this
  intro r hr
  apply h
  unfold Graph.edgeIds
  exact List.mem_map_of_mem _ hr

theorem Graph.edge_mem (g : Graph) (x : EdgeId) (hx : x ∈ g.edgeIds) :
    ∃ r, g.edge x = some r ∧ r ∈ g.edges ∧ r.id = x := by
  unfold Graph.edge
  unfold Graph.edgeIds at hx
  obtain ⟨r0, hr0, hid⟩ := List.mem_map.1 hx
  cases hf : g.edges.find? (fun r => decide (r.id = x)) with
  | none =>
    rw [List.find?_eq_none] at hf
    exact absurd (by simpa using hid) (hf r0 hr0)
  | some r =>
    refine ⟨r, rfl, List.mem_of_find?_eq_some hf, ?_⟩
    simpa using List.find?_some hf

theorem copyEdge_plain_eq (old : Graph) (st : EdgeCopy) (e : EdgeId)
    (hnew : st.new_graph.conjugate_typed = false) :
    copyEdge false old st e
      = { st with
          new_graph := ({ st.new_graph with
              edges := st.new_graph.edges ++
                [⟨st.new_graph.fresh, StdMap.get st.old_to_new (old.EdgeStart e) 0,
                  StdMap.get (StdMap.touch st.old_to_new (old.EdgeStart e) 0) (old.EdgeEnd e) 0,
                  old.EdgeNucls e, 0, st.new_graph.fresh⟩],
              fresh := st.new_graph.fresh + 1 } : Graph).SetCoverage st.new_graph.fresh
                (truncToInt (roundDouble (old.coverage e * (old.length e : ℚ)))),
          old_to_new := StdMap.touch (StdMap.touch st.old_to_new (old.EdgeStart e) 0)
            (old.EdgeEnd e) 0,
          edge_labels := StdMap.put st.edge_labels st.new_graph.fresh e,
          old_to_new_edge := StdMap.put st.old_to_new_edge e st.new_graph.fresh,
          verify_failed := st.verify_failed || false } := by
  simp only [copyEdge, Bool.false_and, Bool.false_eq_true, if_false, WrappedSetCoverage,
    if_true, Graph.AddEdge, Graph.addEdgeCov, hnew]

theorem copyEdge_plain_graph (old : Graph) (st : EdgeCopy) (e : EdgeId)
    (hnew : st.new_graph.conjugate_typed = false)
    (hfresh : ∀ id ∈ st.new_graph.edgeIds, id < st.new_graph.fresh) :
    (copyEdge false old st e).new_graph.vertices = st.new_graph.vertices
    ∧ (copyEdge false old st e).new_graph.EdgeStart st.new_graph.fresh
        = StdMap.get st.old_to_new (old.EdgeStart e) 0
    ∧ (copyEdge false old st e).new_graph.EdgeEnd st.new_graph.fresh
        = StdMap.get (StdMap.touch st.old_to_new (old.EdgeStart e) 0) (old.EdgeEnd e) 0
    ∧ (∀ x ∈ st.new_graph.edgeIds,
        (copyEdge false old st e).new_graph.EdgeStart x = st.new_graph.EdgeStart x
        ∧ (copyEdge false old st e).new_graph.EdgeEnd x = st.new_graph.EdgeEnd x)
    ∧ (copyEdge false old st e).edge_labels = StdMap.put st.edge_labels st.new_graph.fresh e
    ∧ (copyEdge false old st e).old_to_new
        = StdMap.touch (StdMap.touch st.old_to_new (old.EdgeStart e) 0) (old.EdgeEnd e) 0 := by
  rw [copyEdge_plain_eq old st e hnew]
  refine ⟨rfl, ?_, ?_, ?_, rfl, rfl⟩
  · simp only [Graph.EdgeStart_SetCoverage]
    unfold Graph.EdgeStart
    rw [Graph.edge_append_fresh st.new_graph _ ⟨st.new_graph.fresh, _, _, _, _, _⟩ [] rfl hfresh]
    rfl
  · simp only [Graph.EdgeEnd_SetCoverage]
    unfold Graph.EdgeEnd
    rw [Graph.edge_append_fresh st.new_graph _ ⟨st.new_graph.fresh, _, _, _, _, _⟩ [] rfl hfresh]
    rfl
  · intro x hx
    simp only [Graph.EdgeStart_SetCoverage, Graph.EdgeEnd_SetCoverage]
    unfold Graph.EdgeStart Graph.EdgeEnd
    rw [Graph.edge_append_of_mem st.new_graph _ _ x rfl hx]
    exact ⟨rfl, rfl⟩

theorem StdMap.touch_of_isSome {β : Type} (m : StdMap β) (k : Nat) (d : β)
    (h : (StdMap.find m k).isSome) : StdMap.touch m k d = m := by
  unfold StdMap.touch StdMap.insert
  cases hf : StdMap.find m k with
  | none => rw [hf] at h; cases h
  | some x => rfl

theorem PlainEdgeCopyInv.edge_step (old : Graph) (V0 : List VertexRec) (otn0 : StdMap VertexId)
    (P : List EdgeId) (st : EdgeCopy) (e : EdgeId) (he : e ∉ P)
    (hs : (StdMap.find otn0 (old.EdgeStart e)).isSome)
    (ht : (StdMap.find otn0 (old.EdgeEnd e)).isSome)
    (h : PlainEdgeCopyInv old V0 otn0 P st) :
    PlainEdgeCopyInv old V0 otn0 (P ++ [e]) (copyEdge false old st e) := by
  obtain ⟨g1, g2, g3, g4, g5, g6⟩ := copyEdge_plain_graph old st e h.typed h.fresh
  obtain ⟨p1, p2, p3, p4, _⟩ := copyEdge_plain old st e h.typed
  have hotn1 : StdMap.touch st.old_to_new (old.EdgeStart e) 0 = otn0 := by
    rw [h.otn]; exact StdMap.touch_of_isSome _ _ _ hs
  have hfresh_not : st.new_graph.fresh ∉ st.new_graph.edgeIds :=
    fun hm => absurd (h.fresh _ hm) (Nat.lt_irrefl _)
  have henone : StdMap.find st.old_to_new_edge e = none := by
    cases hf : StdMap.find st.old_to_new_edge e with
    | none => rfl
    | some x => exact absurd ((h.keys e).1 (by rw [hf]; rfl)) he
  have hlnone : StdMap.find st.edge_labels st.new_graph.fresh = none := by
    cases hf : StdMap.find st.edge_labels st.new_graph.fresh with
    | none => rfl
    | some x => exact absurd ((h.dom _).1 (by rw [hf]; rfl)) hfresh_not
  refine ⟨p3, by rw [g1, h.vertices], ?_, ?_, ?_, ?_, ?_, ?_, ?_⟩
  · rw [g6, hotn1]
    exact StdMap.touch_of_isSome _ _ _ ht
  · intro id hid
    rw [p1] at hid
    rw [p2]
    rcases List.mem_append.1 hid with hid | hid
    · exact Nat.lt_succ_of_lt (h.fresh id hid)
    · rw [List.mem_singleton.1 hid]; exact Nat.lt_succ_self _
  · rw [p1, List.nodup_append]
    refine ⟨h.nodup, List.nodup_singleton _, ?_⟩
    intro a ha hb
    rw [List.mem_singleton] at hb
    rw [hb] at ha
    exact hfresh_not ha
  · intro ne
    rw [g5, p1, StdMap.find_put]
    simp only [List.mem_append, List.mem_singleton]
    by_cases hn : st.new_graph.fresh = ne
    · rw [if_pos hn]
      simp [hn]
    · rw [if_neg hn, h.dom ne]
      constructor
      · intro hx; exact Or.inl hx
      · rintro (hx | hx)
        · exact hx
        · exact absurd hx.symm hn
  · intro ne w
    rw [g5, p4]
    simp only [StdMap.find_put]
    by_cases hn : st.new_graph.fresh = ne
    · rw [if_pos hn]
      by_cases hw : e = w
      · rw [if_pos hw]
        simp [hn, hw]
      · rw [if_neg hw]
        constructor
        · intro hx
          exact absurd (Option.some.inj hx) hw
        · intro hx
          have := (h.inv ne w).2 hx
          rw [← hn, hlnone] at this
          cases this
    · rw [if_neg hn]
      by_cases hw : e = w
      · rw [if_pos hw]
        constructor
        · intro hx
          have := (h.inv ne w).1 hx
          rw [← hw, henone] at this
          cases this
        · intro hx
          exact absurd (Option.some.inj hx) hn
      · rw [if_neg hw]
        exact h.inv ne w
  · intro w
    rw [p4]
    simp only [StdMap.find_put, List.mem_append, List.mem_singleton]
    by_cases hw : e = w
    · rw [if_pos hw]
      simp [hw]
    · rw [if_neg hw, h.keys w]
      constructor
      · intro hx; exact Or.inl hx
      · rintro (hx | hx)
        · exact hx
        · exact absurd hx.symm hw
  · intro ne w hl
    rw [g5, StdMap.find_put] at hl
    by_cases hn : st.new_graph.fresh = ne
    · rw [if_pos hn] at hl
      have hw : e = w := Option.some.inj hl
      rw [← hn, ← hw, g2, g3, hotn1, h.otn]
      exact ⟨rfl, rfl⟩
    · rw [if_neg hn] at hl
      have hmem : ne ∈ st.new_graph.edgeIds := (h.dom ne).1 (by rw [hl]; rfl)
      rw [(g4 ne hmem).1, (g4 ne hmem).2]
      exact h.ends ne w hl

theorem PlainEdgeCopyInv.edge_fold (old : Graph) (V0 : List VertexRec) (otn0 : StdMap VertexId)
    (l P : List EdgeId) (st : EdgeCopy) (hnd : (P ++ l).Nodup)
    (hs : ∀ e ∈ l, (StdMap.find otn0 (old.EdgeStart e)).isSome
      ∧ (StdMap.find otn0 (old.EdgeEnd e)).isSome)
    (h : PlainEdgeCopyInv old V0 otn0 P st) :
    PlainEdgeCopyInv old V0 otn0 (P ++ l) (l.foldl (copyEdge false old) st) := by
  induction l generalizing P st with
  | nil => simpa using h
  | cons a t ih =>
    simp only [List.foldl_cons]
    have ha : a ∉ P := by
      intro hx
      rw [List.nodup_append] at hnd
      exact hnd.2.2 hx (List.mem_cons_self _ _)
    have := ih (P ++ [a]) (copyEdge false old st a) (by simpa using hnd)
      (fun e he => hs e (List.mem_cons_of_mem _ he))
      (PlainEdgeCopyInv.edge_step old V0 otn0 P st a ha
        (hs a (List.mem_cons_self _ _)).1 (hs a (List.mem_cons_self _ _)).2 h)
    simpa using this

theorem Graph.endpoints_degree (old : Graph) (e : EdgeId) (he : e ∈ old.edgeIds)
    (hends : ∀ r ∈ old.edges, r.start ∈ old.vertexIds ∧ r.finish ∈ old.vertexIds) :
    (old.EdgeStart e ∈ old.vertexIds
      ∧ 0 < old.IncomingEdgeCount (old.EdgeStart e) + old.OutgoingEdgeCount (old.EdgeStart e))
    ∧ (old.EdgeEnd e ∈ old.vertexIds
      ∧ 0 < old.IncomingEdgeCount (old.EdgeEnd e) + old.OutgoingEdgeCount (old.EdgeEnd e)) := by
  obtain ⟨r, hr, hmem, _⟩ := Graph.edge_mem old e he
  have hst : old.EdgeStart e = r.start := by unfold Graph.EdgeStart; rw [hr]; rfl
  have hen : old.EdgeEnd e = r.finish := by unfold Graph.EdgeEnd; rw [hr]; rfl
  rw [hst, hen]
  refine ⟨⟨(hends r hmem).1, ?_⟩, ⟨(hends r hmem).2, ?_⟩⟩
  · have : 0 < old.OutgoingEdgeCount r.start := by
      unfold Graph.OutgoingEdgeCount Graph.OutgoingEdges
      rw [List.length_map]
      apply List.length_pos_of_mem (a := r)
      exact List.mem_filter.2 ⟨hmem, by simp⟩
    omega
  · have : 0 < old.IncomingEdgeCount r.finish := by
      unfold Graph.IncomingEdgeCount Graph.IncomingEdges
      rw [List.length_map]
      apply List.length_pos_of_mem (a := r)
      exact List.mem_filter.2 ⟨hmem, by simp⟩
    omega

theorem ctorEdgeCopy_plain (env : Env) (old new0 : Graph) (hpre : PlainCtorPre env old new0) :
    PlainEdgeCopyInv old (ctorVertexCopy false old new0).new_graph.vertices
      (ctorVertexCopy false old new0).old_to_new (old.edgeIds.foldl StdSet.insert [])
      (ctorEdgeCopy false old new0) := by
  have hv := ctorVertexCopy_plain old new0 hpre.new_vertices hpre.new_edges hpre.new_typed
  unfold ctorEdgeCopy
  have h0 : PlainEdgeCopyInv old (ctorVertexCopy false old new0).new_graph.vertices
      (ctorVertexCopy false old new0).old_to_new []
      { new_graph := (ctorVertexCopy false old new0).new_graph, edge_labels := [],
        old_to_new := (ctorVertexCopy false old new0).old_to_new, old_to_new_edge := [],
        rc_edges := [], verify_failed := (ctorVertexCopy false old new0).verify_failed } := by
    refine ⟨hv.typed, rfl, rfl, ?_, ?_, ?_, ?_, ?_, ?_⟩
    · intro id hid; simp [Graph.edgeIds, hv.edges] at hid
    · simp [Graph.edgeIds, hv.edges]
    · intro ne; simp [StdMap.find, Graph.edgeIds, hv.edges]
    · intro ne e; simp [StdMap.find]
    · intro e; simp [StdMap.find]
    · intro ne e hl; simp [StdMap.find] at hl
  have := PlainEdgeCopyInv.edge_fold old _ _ (old.edgeIds.foldl StdSet.insert []) [] _
    (by simpa using StdSet.nodup_foldl_insert old.edgeIds)
    (by
      intro e he
      have he2 : e ∈ old.edgeIds := by simpa using (StdSet.mem_foldl_insert _ _ _).1 he
      obtain ⟨⟨a1, a2⟩, ⟨b1, b2⟩⟩ := Graph.endpoints_degree old e he2 hpre.ends
      constructor
      · exact (hv.keys _).2 ⟨(StdSet.mem_foldl_insert _ _ _).2 (Or.inl a1), a2⟩
      · exact (hv.keys _).2 ⟨(StdSet.mem_foldl_insert _ _ _).2 (Or.inl b1), b2⟩) h0
  simpa using this

/-- The non-conjugate preconditions of the constructor hold for the example graphs. -/
theorem exPlainCtorPre : PlainCtorPre exEnv exOld exNew0 :=
  ⟨rfl, rfl, rfl, rfl, by decide⟩

theorem pruneStep_rc_mode (cutting : ℚ) (st : SplitLoop) (it : EdgeId × EdgeId) :
    (pruneStep cutting st it).rr.rc_mode = st.rr.rc_mode := by
  unfold pruneStep
  simp only
  split_ifs <;> rfl

theorem pruneStep_fold_rc_mode (cutting : ℚ) (l : List (EdgeId × EdgeId)) (st : SplitLoop) :
    (l.foldl (pruneStep cutting) st).rr.rc_mode = st.rr.rc_mode := by
  induction l generalizing st with
  | nil => rfl
  | cons a t ih =>
    simp only [List.foldl_cons]
    rw [ih, pruneStep_rc_mode]

theorem splitColour_rc_mode (env : Env) (v : VertexId) (old : StdMap ℚ)
    (cols : List (StdMap ℚ)) (st : SplitLoop) (i : Nat) :
    (splitColour env v old cols st i).rr.rc_mode = st.rr.rc_mode := by
  unfold splitColour
  simp only
  by_cases h : (splitEdges old (cols.getD i []) st.rr.local_cheating_edges).1.length > 0
      ∧ env.SplitCondition st.rr.new_graph v
          (splitEdges old (cols.getD i []) st.rr.local_cheating_edges).1 = true
  · rw [if_pos h, pruneStep_fold_rc_mode]
  · rw [if_neg h]

theorem splitColour_fold_rc_mode (env : Env) (v : VertexId) (old : StdMap ℚ)
    (cols : List (StdMap ℚ)) (l : List Nat) (st : SplitLoop) :
    (l.foldl (splitColour env v old cols) st).rr.rc_mode = st.rr.rc_mode := by
  induction l generalizing st with
  | nil => rfl
  | cons a t ih =>
    simp only [List.foldl_cons]
    rw [ih, splitColour_rc_mode]

theorem processCheaterStep_fold_rc_mode (cnt : StdMap Int) (l : List (EdgeId × EdgeId))
    (rr : RepeatResolver) :
    (l.foldl (processCheaterStep cnt) rr).rc_mode = rr.rc_mode := by
  induction l generalizing rr with
  | nil => rfl
  | cons a t ih =>
    simp only [List.foldl_cons]
    rw [ih]
    unfold processCheaterStep
    simp only
    split_ifs <;> rfl

theorem cleanupStep_fold_rc_mode (l : List EdgeId) (rr : RepeatResolver) :
    (l.foldl cleanupStep rr).rc_mode = rr.rc_mode := by
  induction l generalizing rr with
  | nil => rfl
  | cons a t ih =>
    simp only [List.foldl_cons]
    rw [ih]
    unfold cleanupStep
    simp only
    split_ifs <;> rfl

theorem splitPhase_rc_mode (env : Env) (rr1 : RepeatResolver) (edgeCounts : StdMap Int)
    (k : Int) (v : VertexId) :
    (splitPhase env rr1 edgeCounts k v).1.rc_mode = rr1.rc_mode := by
  unfold splitPhase
  simp only
  rw [cleanupStep_fold_rc_mode]
  split_ifs
  · rw [processCheaterStep_fold_rc_mode, splitColour_fold_rc_mode]
    rfl
  · rw [splitColour_fold_rc_mode]
    rfl

/-- The result of `MultiSplit` is the unchanged state with `[v]`, or the state with the
occurrences of the orphan loop and `[v]`, or the result of the split phase behind the
guards. -/
theorem MultiSplit_cases (env : Env) (rr : RepeatResolver) (v : VertexId) :
    MultiSplit env rr v = (rr, [v])
    ∨ (∃ infos cols, MultiSplit env rr v
        = ({ rr with edge_infos := infos, edge_info_colors := cols }, [v]))
    ∨ ∃ infos cols edgeCounts k, MultiSplit env rr v
        = splitPhase env { rr with edge_infos := infos, edge_info_colors := cols }
            edgeCounts k v := by
  unfold MultiSplit
  simp only
  by_cases hg : env.SplitCondition rr.new_graph v (rr.new_graph.OutgoingEdges v) = true
        ∧ env.SplitCondition rr.new_graph v (rr.new_graph.IncomingEdges v) = true
  · rw [if_neg (not_not.2 hg)]
    by_cases hk : (countLoop rr.edge_infos rr.edge_info_colors
          (initEdgeCounts (rr.new_graph.OutgoingEdges v) (rr.new_graph.IncomingEdges v))).1 = 0
    · rw [if_pos hk]; exact Or.inl rfl
    · rw [if_neg hk]
      cases ho : orphanLoop rr.cheating_mode rr.paired_di_data
          (countLoop rr.edge_infos rr.edge_info_colors
            (initEdgeCounts (rr.new_graph.OutgoingEdges v) (rr.new_graph.IncomingEdges v))).2
          rr.edge_infos rr.edge_info_colors
          (countLoop rr.edge_infos rr.edge_info_colors
            (initEdgeCounts (rr.new_graph.OutgoingEdges v) (rr.new_graph.IncomingEdges v))).1 with
      | none => exact Or.inl rfl
      | some r =>
        obtain ⟨infos1, cols1, k1⟩ := r
        simp only
        by_cases h3 : k1 + 1 = 1
        · rw [if_pos h3]; exact Or.inr (Or.inl ⟨_, _, rfl⟩)
        · rw [if_neg h3]; exact Or.inr (Or.inr ⟨_, _, _, _, rfl⟩)
  · rw [if_pos hg]; exact Or.inl rfl

theorem MultiSplit_rc_mode (env : Env) (rr : RepeatResolver) (v : VertexId) :
    (MultiSplit env rr v).1.rc_mode = rr.rc_mode := by
  rcases MultiSplit_cases env rr v with h | ⟨_, _, h⟩ | ⟨_, _, _, _, h⟩
  · rw [h]
  · rw [h]
  · rw [h, splitPhase_rc_mode]

/-- The resolver called by the driver returns `1` on a state that agrees with the input
on everything but the occurrence vectors, or it returns what `MultiSplit` returns on such
a state. -/
theorem resolver_cases (env : Env) (rr : RepeatResolver) (v : VertexId) :
    ∃ rr2, Untouched rr rr2
      ∧ ((if rr.cheating_mode ≠ 1 then RectangleResolveVertex env rr v
            else CheatingResolveVertex env rr v) = some (rr2, 1)
        ∨ (if rr.cheating_mode ≠ 1 then RectangleResolveVertex env rr v
            else CheatingResolveVertex env rr v)
          = some ((MultiSplit env rr2 v).1, (MultiSplit env rr2 v).2.length)) := by
  by_cases hm : rr.cheating_mode ≠ 1
  · rw [if_pos hm]
    unfold RectangleResolveVertex
    simp only
    split_ifs
    · exact ⟨rr, Untouched.refl rr, Or.inl rfl⟩
    · obtain ⟨r, hr, _⟩ := colourLoop_total (rr.edge_infos.length + 1)
        (buildNeighbours env rr).1 (List.range rr.edge_infos.length)
        (List.replicate rr.edge_infos.length (-1), false) 0 (by decide) (by simp)
      rw [hr]
      obtain ⟨colors, n⟩ := r
      exact ⟨{ rr with edge_info_colors := colors.1,
                       distance_counter := (buildNeighbours env rr).2 },
        ⟨rfl, rfl, rfl, rfl, rfl, rfl, rfl, rfl⟩, Or.inr rfl⟩
  · rw [if_neg hm]
    obtain ⟨r, hr, _⟩ := colourLoop_total ((rr.new_graph.OutgoingEdges v).length
        + (rr.new_graph.IncomingEdges v).length + 1) (matchingNeighbours rr v)
      (List.range ((rr.new_graph.OutgoingEdges v).length
        + (rr.new_graph.IncomingEdges v).length))
      (List.replicate ((rr.new_graph.OutgoingEdges v).length
        + (rr.new_graph.IncomingEdges v).length) (-1), false) 0 (by decide) (by simp)
    rw [CheatingResolveVertex_eq, hr]
    obtain ⟨colors, n⟩ := r
    simp only
    by_cases hb : cheatBad colors.1 = true
    · rw [if_pos hb]
      exact ⟨{ rr with edge_info_colors := rr.edge_info_colors.take rr.edge_infos.length
          ++ List.replicate (rr.edge_infos.length - rr.edge_info_colors.length) (0 : Int) },
        ⟨rfl, rfl, rfl, rfl, rfl, rfl, rfl, rfl⟩, Or.inl rfl⟩
    · rw [if_neg hb]
      exact ⟨cheatRecoloured rr v colors.1, ⟨rfl, rfl, rfl, rfl, rfl, rfl, rfl, rfl⟩,
        Or.inr rfl⟩

/-- The loop body of the driver for `v` leaves the state and the flag as they are, or it
runs `MultiSplit` on a state that agrees with the input on everything but the occurrence
vectors and the local cheater map, and adds the count to `sum_count`. -/
theorem resolveVertexStep_cases (env : Env) (st : RepeatResolver × Bool) (v : VertexId) :
    resolveVertexStep env st v = some st
    ∨ (∃ rr2 b, Untouched st.1 rr2
        ∧ resolveVertexStep env st v
          = some ({ rr2 with sum_count := rr2.sum_count + ((1 : Nat) : Int) }, b))
    ∨ ∃ rr2 b, Untouched st.1 rr2
        ∧ resolveVertexStep env st v
          = some ({ (MultiSplit env rr2 v).1 with
              sum_count := (MultiSplit env rr2 v).1.sum_count
                + (((MultiSplit env rr2 v).2.length : Nat) : Int) }, b) := by
  unfold resolveVertexStep
  simp only
  by_cases hlive : st.1.rc_mode = true ∧ ¬ (v ∈ st.1.new_graph.vertexIds)
  · rw [if_pos hlive]; exact Or.inl rfl
  · rw [if_neg hlive]
    by_cases hch : ((st.1.new_graph.OutgoingEdges v ++ st.1.new_graph.IncomingEdges v).any
        (fun e => StdSet.contains st.1.global_cheating_edges e)) = true
    · rw [if_pos hch]; exact Or.inl rfl
    · rw [if_neg hch]
      obtain ⟨rr2, hu, hr⟩ := resolver_cases env (GenerateVertexPairedInfo env st.1 v).1 v
      have hug : Untouched st.1 (GenerateVertexPairedInfo env st.1 v).1 :=
        ⟨rfl, rfl, rfl, rfl, rfl, rfl, rfl, rfl⟩
      rcases hr with hr | hr
      · rw [hr]
        exact Or.inr (Or.inl ⟨rr2, _, hug.trans hu, rfl⟩)
      · rw [hr]
        exact Or.inr (Or.inr ⟨rr2, _, hug.trans hu, rfl⟩)

theorem resolveVertexStep_rc_mode (env : Env) (st r : RepeatResolver × Bool) (v : VertexId)
    (h : resolveVertexStep env st v = some r) : r.1.rc_mode = st.1.rc_mode := by
  rcases resolveVertexStep_cases env st v with h1 | ⟨rr2, b, hu, h1⟩ | ⟨rr2, b, hu, h1⟩
  · rw [h1] at h; rw [← Option.some.inj h]
  · rw [h1] at h; rw [← Option.some.inj h]; exact hu.rc_mode
  · rw [h1] at h; rw [← Option.some.inj h]
    exact (MultiSplit_rc_mode env rr2 v).trans hu.rc_mode

theorem sweep_prefix_rc_mode (env : Env) (pre : List VertexId) (st s : RepeatResolver × Bool)
    (h : pre.foldlM (resolveVertexStep env) st = some s) : s.1.rc_mode = st.1.rc_mode := by
  induction pre generalizing st with
  | nil =>
    simp only [List.foldlM_nil] at h
    rw [← Option.some.inj h]
  | cons a t ih =>
    simp only [List.foldlM_cons] at h
    obtain ⟨r, hr, _⟩ := resolveVertexStep_flag env st a
    rw [hr] at h
    simp only [Option.some_bind, Option.bind_eq_bind] at h
    rw [ih r h, resolveVertexStep_rc_mode env st r a hr]

theorem PlainSplitInv.init (g0 : Graph) (u : VertexId) (h : PlainGraphOk g0) :
    PlainSplitInv g0 u g0 :=
  ⟨h.typed, Nat.le_refl _, h.fresh_pos, h.vok, h.eok, h.vnodup, fun _ hr => hr,
    fun r hr => ⟨Or.inr (Or.inr (Or.inr ⟨r, hr, Or.inl rfl⟩)),
      Or.inr (Or.inr (Or.inr ⟨r, hr, Or.inr rfl⟩))⟩,
    fun _ hw _ => hw⟩

theorem PlainSplitInv.ok {g0 : Graph} {u : VertexId} {g : Graph} (h : PlainSplitInv g0 u g) :
    PlainGraphOk g :=
  ⟨h.typed, h.fresh_pos, h.vok, h.eok, h.vnodup⟩

theorem PlainSplitInv.edgeStart {g0 : Graph} {u : VertexId} {g : Graph}
    (h : PlainSplitInv g0 u g) (e : EdgeId) :
    SplitEnd g0 u (g.EdgeStart e) ∧ SplitEnd g0 u (g.EdgeEnd e) := by
  unfold Graph.EdgeStart Graph.EdgeEnd Graph.edge
  cases hf : g.edges.find? (fun r => decide (r.id = e)) with
  | none => exact ⟨Or.inr (Or.inl rfl), Or.inr (Or.inl rfl)⟩
  | some r => exact h.ends r (List.mem_of_find?_eq_some hf)

theorem PlainSplitInv.addVertex_step {g0 : Graph} {u : VertexId} {g : Graph}
    (h : PlainSplitInv g0 u g) :
    PlainSplitInv g0 u g.AddVertex.1 ∧ g.AddVertex.2 = g.fresh
      ∧ g.AddVertex.1.fresh = g.fresh + 1 := by
  unfold Graph.AddVertex
  simp only [h.typed, Bool.false_eq_true, if_false, and_true]
  refine ⟨rfl, Nat.le_succ_of_le h.fresh_ge, Nat.succ_pos _, ?_, ?_, ?_, h.old, h.ends, ?_⟩
  · intro r hr
    rcases List.mem_append.1 hr with hr | hr
    · exact ⟨(h.vok r hr).1, Nat.lt_succ_of_lt (h.vok r hr).2⟩
    · rw [List.mem_singleton.1 hr]
      exact ⟨h.fresh_pos, Nat.lt_succ_self _⟩
  · intro r hr
    exact Nat.lt_succ_of_lt (h.eok r hr)
  · simp only [Graph.vertexIds, List.map_append, List.map_cons, List.map_nil]
    rw [List.nodup_append]
    refine ⟨h.vnodup, List.nodup_singleton _, ?_⟩
    intro a ha hb
    rw [List.mem_singleton] at hb
    obtain ⟨r, hr, hra⟩ := List.mem_map.1 ha
    have := (h.vok r hr).2
    rw [hra, hb] at this
    exact Nat.lt_irrefl _ this
  · intro w hw hwu
    simp only [Graph.vertexIds, List.map_append, List.mem_append]
    exact Or.inl (h.keep w hw hwu)

theorem PlainSplitInv.cloneEdge_step {g0 : Graph} {u : VertexId} (v nv : VertexId)
    (acc : Graph × List (EdgeId × EdgeId)) (ec : EdgeId × ℚ)
    (h : PlainSplitInv g0 u acc.1) (hnv : SplitEnd g0 u nv) :
    PlainSplitInv g0 u (Graph.cloneEdge v nv acc ec).1
      ∧ (Graph.cloneEdge v nv acc ec).2 = acc.2 ++ [(ec.1, acc.1.fresh)]
      ∧ (Graph.cloneEdge v nv acc ec).1.fresh = acc.1.fresh + 1 := by
  unfold Graph.cloneEdge Graph.addEdgeCov
  simp only [h.typed, Bool.false_eq_true, if_false, and_true]
  refine ⟨rfl, Nat.le_succ_of_le h.fresh_ge, Nat.succ_pos _, ?_, ?_, h.vnodup, ?_, ?_,
    h.keep⟩
  · intro r hr
    exact ⟨(h.vok r hr).1, Nat.lt_succ_of_lt (h.vok r hr).2⟩
  · intro r hr
    rcases List.mem_append.1 hr with hr | hr
    · exact Nat.lt_succ_of_lt (h.eok r hr)
    · rw [List.mem_singleton.1 hr]
      exact Nat.lt_succ_self _
  · intro r hr
    exact List.mem_append.2 (Or.inl (h.old r hr))
  · intro r hr
    rcases List.mem_append.1 hr with hr | hr
    · exact h.ends r hr
    · rw [List.mem_singleton.1 hr]
      simp only
      constructor
      · split_ifs
        · exact hnv
        · exact (h.edgeStart ec.1).1
      · split_ifs
        · exact hnv
        · exact (h.edgeStart ec.1).2

theorem PlainSplitInv.cloneEdge_fold {g0 : Graph} {u : VertexId} (v nv : VertexId)
    (l : List (EdgeId × ℚ)) (acc : Graph × List (EdgeId × EdgeId))
    (h : PlainSplitInv g0 u acc.1) (hnv : SplitEnd g0 u nv)
    (hacc : ∀ it ∈ acc.2, g0.fresh ≤ it.2) :
    PlainSplitInv g0 u (l.foldl (Graph.cloneEdge v nv) acc).1
      ∧ ∀ it ∈ (l.foldl (Graph.cloneEdge v nv) acc).2, g0.fresh ≤ it.2 := by
  induction l generalizing acc with
  | nil => exact ⟨h, hacc⟩
  | cons a t ih =>
    simp only [List.foldl_cons]
    obtain ⟨h1, h2, _⟩ := PlainSplitInv.cloneEdge_step v nv acc a h hnv
    apply ih _ h1
    intro it hit
    rw [h2] at hit
    rcases List.mem_append.1 hit with hit | hit
    · exact hacc it hit
    · rw [List.mem_singleton.1 hit]
      exact h.fresh_ge

theorem PlainSplitInv.splitVertex_step {g0 : Graph} {u : VertexId} {g : Graph}
    (h : PlainSplitInv g0 u g) (v : VertexId) (es : List EdgeId) (cs : List ℚ) :
    PlainSplitInv g0 u (g.SplitVertex v es cs).1
      ∧ ∀ it ∈ (g.SplitVertex v es cs).2.2, g0.fresh ≤ it.2 := by
  unfold Graph.SplitVertex
  simp only
  obtain ⟨h1, h2, _⟩ := h.addVertex_step
  apply PlainSplitInv.cloneEdge_fold v _ _ _ h1
  · rw [h2]; exact Or.inl h.fresh_ge
  · intro it hit; simp at hit

theorem PlainSplitInv.deleteEdge_step {g0 : Graph} {u : VertexId} {g : Graph}
    (h : PlainSplitInv g0 u g) (h0 : PlainGraphOk g0) (e : EdgeId) (he : g0.fresh ≤ e) :
    PlainSplitInv g0 u (g.DeleteEdge e) := by
  unfold Graph.DeleteEdge
  simp only [h.typed, Bool.false_eq_true, if_false]
  refine ⟨rfl, h.fresh_ge, h.fresh_pos, h.vok, ?_, h.vnodup, ?_, ?_, h.keep⟩
  · intro r hr
    exact h.eok r (List.mem_filter.1 hr).1
  · intro r hr
    refine List.mem_filter.2 ⟨h.old r hr, ?_⟩
    have := h0.eok r hr
    simp only [ne_eq, decide_not, Bool.not_eq_true', decide_eq_false_iff_not]
    intro hre
    rw [hre] at this
    exact absurd this (Nat.not_lt.2 he)
  · intro r hr
    exact h.ends r (List.mem_filter.1 hr).1

theorem PlainSplitInv.isolated_step {g0 : Graph} {u : VertexId} {g : Graph}
    (h : PlainSplitInv g0 u g) (h0 : PlainGraphOk g0) (x : VertexId) (hx : SplitEnd g0 u x) :
    PlainSplitInv g0 u (deleteIfIsolated g x) := by
  unfold deleteIfIsolated
  by_cases hiso : g.IncomingEdgeCount x + g.OutgoingEdgeCount x = 0
  · rw [if_pos hiso]
    unfold Graph.DeleteVertex
    simp only [h.typed, Bool.false_eq_true, if_false]
    refine ⟨rfl, h.fresh_ge, h.fresh_pos, ?_, h.eok, ?_, h.old, h.ends, ?_⟩
    · intro r hr
      exact h.vok r (List.mem_filter.1 hr).1
    · unfold Graph.vertexIds
      exact (h.vnodup.sublist (List.Sublist.map _ (List.filter_sublist _)))
    · intro w hw hwu
      have hwg := h.keep w hw hwu
      unfold Graph.vertexIds at hwg ⊢
      obtain ⟨r, hr, hrw⟩ := List.mem_map.1 hwg
      refine List.mem_map.2 ⟨r, List.mem_filter.2 ⟨hr, ?_⟩, hrw⟩
      simp only [ne_eq, decide_not, Bool.not_eq_true', decide_eq_false_iff_not]
      intro hrx
      rw [hrw] at hrx
      -- the vertex `w = x` of `g0` is an end of an edge of `g0`, which is still in `g`
      obtain ⟨r0v, hr0v, hr0id⟩ := List.mem_map.1 hw
      have hwlt : w < g0.fresh := hr0id ▸ (h0.vok r0v hr0v).2
      have hwpos : 0 < w := hr0id ▸ (h0.vok r0v hr0v).1
      rw [← hrx] at hx
      rcases hx with hx | hx | hx | ⟨r0, hr0, hx⟩
      · exact absurd hwlt (Nat.not_lt.2 hx)
      · rw [hx] at hwpos
        exact absurd hwpos (Nat.lt_irrefl 0)
      · exact hwu hx
      · have hr0g := h.old r0 hr0
        rcases hx with hx | hx
        · have : 0 < g.OutgoingEdgeCount x := by
            unfold Graph.OutgoingEdgeCount Graph.OutgoingEdges
            rw [List.length_map]
            apply List.length_pos_of_mem (a := r0)
            exact List.mem_filter.2 ⟨hr0g, by simp [hx, hrx]⟩
          omega
        · have : 0 < g.IncomingEdgeCount x := by
            unfold Graph.IncomingEdgeCount Graph.IncomingEdges
            rw [List.length_map]
            apply List.length_pos_of_mem (a := r0)
            exact List.mem_filter.2 ⟨hr0g, by simp [hx, hrx]⟩
          omega
  · rw [if_neg hiso]
    exact h

theorem pruneStep_plain {g0 : Graph} {u : VertexId} (cutting : ℚ) (st : SplitLoop)
    (it : EdgeId × EdgeId) (h0 : PlainGraphOk g0) (hrc : st.rr.rc_mode = false)
    (h : PlainSplitInv g0 u st.rr.new_graph) (hit : g0.fresh ≤ it.2) :
    PlainSplitInv g0 u (pruneStep cutting st it).rr.new_graph := by
  unfold pruneStep
  simp only [hrc, Bool.false_eq_true, if_false]
  have hd := h.deleteEdge_step h0 it.2 hit
  have hs := (h.edgeStart it.2).1
  have he := (h.edgeStart it.2).2
  by_cases hc : st.rr.new_graph.coverage it.2 < cutting
  · rw [if_pos hc]
    simp only
    by_cases hsame : decide (st.rr.new_graph.EdgeStart it.2 = st.rr.new_graph.EdgeEnd it.2) = true
    · rw [if_pos hsame]
      exact hd.isolated_step h0 _ hs
    · rw [if_neg hsame]
      exact (hd.isolated_step h0 _ hs).isolated_step h0 _ he
  · rw [if_neg hc]
    exact h

theorem pruneStep_fold_plain {g0 : Graph} {u : VertexId} (cutting : ℚ)
    (l : List (EdgeId × EdgeId)) (st : SplitLoop) (h0 : PlainGraphOk g0)
    (hrc : st.rr.rc_mode = false) (h : PlainSplitInv g0 u st.rr.new_graph)
    (hl : ∀ it ∈ l, g0.fresh ≤ it.2) :
    PlainSplitInv g0 u (l.foldl (pruneStep cutting) st).rr.new_graph := by
  induction l generalizing st with
  | nil => exact h
  | cons a t ih =>
    simp only [List.foldl_cons]
    apply ih
    · rw [pruneStep_rc_mode]; exact hrc
    · exact pruneStep_plain cutting st a h0 hrc h (hl a (List.mem_cons_self _ _))
    · intro it hit
      exact hl it (List.mem_cons_of_mem _ hit)

theorem splitColour_plain {g0 : Graph} {u : VertexId} (env : Env) (v : VertexId)
    (old : StdMap ℚ) (cols : List (StdMap ℚ)) (st : SplitLoop) (i : Nat)
    (h0 : PlainGraphOk g0) (hrc : st.rr.rc_mode = false)
    (h : PlainSplitInv g0 u st.rr.new_graph) :
    PlainSplitInv g0 u (splitColour env v old cols st i).rr.new_graph := by
  unfold splitColour
  simp only
  by_cases hg : (splitEdges old (cols.getD i []) st.rr.local_cheating_edges).1.length > 0
      ∧ env.SplitCondition st.rr.new_graph v
          (splitEdges old (cols.getD i []) st.rr.local_cheating_edges).1 = true
  · rw [if_pos hg]
    obtain ⟨h1, h2⟩ := h.splitVertex_step v
      (splitEdges old (cols.getD i []) st.rr.local_cheating_edges).1
      (splitEdges old (cols.getD i []) st.rr.local_cheating_edges).2.1
    apply pruneStep_fold_plain _ _ _ h0
    · exact hrc
    · simp only [hrc, Bool.false_eq_true, if_false]
      exact h1
    · exact h2
  · rw [if_neg hg]
    exact h

theorem splitColour_fold_plain {g0 : Graph} {u : VertexId} (env : Env) (v : VertexId)
    (old : StdMap ℚ) (cols : List (StdMap ℚ)) (l : List Nat) (st : SplitLoop)
    (h0 : PlainGraphOk g0) (hrc : st.rr.rc_mode = false)
    (h : PlainSplitInv g0 u st.rr.new_graph) :
    PlainSplitInv g0 u (l.foldl (splitColour env v old cols) st).rr.new_graph := by
  induction l generalizing st with
  | nil => exact h
  | cons a t ih =>
    simp only [List.foldl_cons]
    apply ih
    · rw [splitColour_rc_mode]; exact hrc
    · exact splitColour_plain env v old cols st a h0 hrc h

theorem cleanupStep_fold_new_graph (l : List EdgeId) (rr : RepeatResolver) :
    (l.foldl cleanupStep rr).new_graph = rr.new_graph := by
  induction l generalizing rr with
  | nil => rfl
  | cons a t ih =>
    simp only [List.foldl_cons]
    rw [ih]
    unfold cleanupStep
    simp only
    split_ifs <;> rfl

theorem Graph.DeleteEdge_fold_plain (l : List EdgeId) (g : Graph) (h : PlainGraphOk g) :
    PlainGraphOk (l.foldl Graph.DeleteEdge g)
      ∧ (l.foldl Graph.DeleteEdge g).vertices = g.vertices := by
  induction l generalizing g with
  | nil => exact ⟨h, rfl⟩
  | cons a t ih =>
    simp only [List.foldl_cons]
    have h1 : PlainGraphOk (g.DeleteEdge a) ∧ (g.DeleteEdge a).vertices = g.vertices := by
      unfold Graph.DeleteEdge
      simp only [h.typed, Bool.false_eq_true, if_false, and_true]
      exact ⟨rfl, h.fresh_pos, h.vok, fun r hr => h.eok r (List.mem_filter.1 hr).1, h.vnodup⟩
    obtain ⟨h2, h3⟩ := ih _ h1.1
    exact ⟨h2, h3.trans h1.2⟩

/-- The forced delete of `u` in a non-conjugate graph removes no vertex but `u`. -/
theorem Graph.ForceDeleteVertex_plain (g : Graph) (u : VertexId) (h : PlainGraphOk g) :
    PlainGraphOk (g.ForceDeleteVertex u)
      ∧ ∀ w ∈ g.vertexIds, w ≠ u → w ∈ (g.ForceDeleteVertex u).vertexIds := by
  unfold Graph.ForceDeleteVertex
  simp only
  obtain ⟨h1, h2⟩ := Graph.DeleteEdge_fold_plain (g.OutgoingEdges u ++ g.IncomingEdges u) g h
  generalize (g.OutgoingEdges u ++ g.IncomingEdges u).foldl Graph.DeleteEdge g = g1 at h1 h2
  unfold Graph.DeleteVertex
  simp only [h1.typed, Bool.false_eq_true, if_false]
  refine ⟨⟨rfl, h1.fresh_pos, fun r hr => h1.vok r (List.mem_filter.1 hr).1, h1.eok, ?_⟩, ?_⟩
  · unfold Graph.vertexIds
    exact h1.vnodup.sublist (List.Sublist.map _ (List.filter_sublist _))
  · intro w hw hwu
    unfold Graph.vertexIds at hw ⊢
    simp only
    rw [h2]
    obtain ⟨r, hr, hrw⟩ := List.mem_map.1 hw
    refine List.mem_map.2 ⟨r, List.mem_filter.2 ⟨hr, ?_⟩, hrw⟩
    simp only [ne_eq, decide_not, Bool.not_eq_true', decide_eq_false_iff_not]
    rw [hrw]
    exact hwu

theorem splitPhase_plain (env : Env) (rr1 : RepeatResolver) (edgeCounts : StdMap Int)
    (k : Int) (u : VertexId) (hrc : rr1.rc_mode = false) (h0 : PlainGraphOk rr1.new_graph) :
    PlainGraphOk (splitPhase env rr1 edgeCounts k u).1.new_graph
      ∧ ∀ w ∈ rr1.new_graph.vertexIds, w ≠ u
          → w ∈ (splitPhase env rr1 edgeCounts k u).1.new_graph.vertexIds := by
  unfold splitPhase
  simp only
  rw [cleanupStep_fold_new_graph]
  have hsl := @splitColour_fold_plain rr1.new_graph u env u
    (coverageLoop ((recolourLoop edgeCounts rr1).edge_infos.zip
      (recolourLoop edgeCounts rr1).edge_info_colors) k.toNat).1
    (coverageLoop ((recolourLoop edgeCounts rr1).edge_infos.zip
      (recolourLoop edgeCounts rr1).edge_info_colors) k.toNat).2
    (List.range k.toNat)
    { rr := recolourLoop edgeCounts rr1, res := [], OldCopyCnt := [], LiveNewEdges := [],
      LiveProtoEdges := [], not_found := 0, low_coverage := 0 }
    h0 hrc (PlainSplitInv.init _ u h0)
  have hrc2 := (splitColour_fold_rc_mode env u
    (coverageLoop ((recolourLoop edgeCounts rr1).edge_infos.zip
      (recolourLoop edgeCounts rr1).edge_info_colors) k.toNat).1
    (coverageLoop ((recolourLoop edgeCounts rr1).edge_infos.zip
      (recolourLoop edgeCounts rr1).edge_info_colors) k.toNat).2
    (List.range k.toNat)
    { rr := recolourLoop edgeCounts rr1, res := [], OldCopyCnt := [], LiveNewEdges := [],
      LiveProtoEdges := [], not_found := 0, low_coverage := 0 }).trans hrc
  rw [if_neg (by rw [hrc2]; exact Bool.false_ne_true)]
  obtain ⟨hf1, hf2⟩ := Graph.ForceDeleteVertex_plain _ u hsl.ok
  exact ⟨hf1, fun w hw hwu => hf2 w (hsl.keep w hw hwu) hwu⟩

/-- In non-conjugate mode `MultiSplit(u)` deletes no vertex of the working graph but
`u`, and leaves the working graph well-formed. -/
theorem MultiSplit_plain (env : Env) (rr : RepeatResolver) (u : VertexId)
    (hrc : rr.rc_mode = false) (h0 : PlainGraphOk rr.new_graph) :
    PlainGraphOk (MultiSplit env rr u).1.new_graph
      ∧ ∀ w ∈ rr.new_graph.vertexIds, w ≠ u
          → w ∈ (MultiSplit env rr u).1.new_graph.vertexIds := by
  rcases MultiSplit_cases env rr u with h | ⟨_, _, h⟩ | ⟨infos, cols, ec, k, h⟩
  · rw [h]; exact ⟨h0, fun w hw _ => hw⟩
  · rw [h]; exact ⟨h0, fun w hw _ => hw⟩
  · rw [h]
    exact splitPhase_plain env { rr with edge_infos := infos, edge_info_colors := cols } ec k u
      hrc h0

theorem resolveVertexStep_plain (env : Env) (st r : RepeatResolver × Bool) (u : VertexId)
    (hrc : st.1.rc_mode = false) (h0 : PlainGraphOk st.1.new_graph)
    (h : resolveVertexStep env st u = some r) :
    PlainGraphOk r.1.new_graph
      ∧ ∀ w ∈ st.1.new_graph.vertexIds, w ≠ u → w ∈ r.1.new_graph.vertexIds := by
  rcases resolveVertexStep_cases env st u with h1 | ⟨rr2, b, hu, h1⟩ | ⟨rr2, b, hu, h1⟩
  · rw [h1] at h; rw [← Option.some.inj h]
    exact ⟨h0, fun w hw _ => hw⟩
  · rw [h1] at h; rw [← Option.some.inj h]
    simp only
    rw [hu.new_graph]
    exact ⟨h0, fun w hw _ => hw⟩
  · rw [h1] at h; rw [← Option.some.inj h]
    simp only
    have := MultiSplit_plain env rr2 u (hu.rc_mode.trans hrc) (hu.new_graph ▸ h0)
    rw [hu.new_graph] at this
    exact this

/-- In non-conjugate mode the steps of a sweep for the vertices `pre` delete no vertex
outside `pre`. -/
theorem sweep_prefix_plain (env : Env) (pre : List VertexId) (st s : RepeatResolver × Bool)
    (hrc : st.1.rc_mode = false) (h0 : PlainGraphOk st.1.new_graph)
    (h : pre.foldlM (resolveVertexStep env) st = some s) :
    PlainGraphOk s.1.new_graph
      ∧ ∀ w ∈ st.1.new_graph.vertexIds, w ∉ pre → w ∈ s.1.new_graph.vertexIds := by
  induction pre generalizing st with
  | nil =>
    simp only [List.foldlM_nil] at h
    rw [← Option.some.inj h]
    exact ⟨h0, fun w hw _ => hw⟩
  | cons a t ih =>
    simp only [List.foldlM_cons] at h
    obtain ⟨r, hr, _⟩ := resolveVertexStep_flag env st a
    rw [hr] at h
    simp only [Option.some_bind, Option.bind_eq_bind] at h
    obtain ⟨hr1, hr2⟩ := resolveVertexStep_plain env st r a hrc h0 hr
    obtain ⟨hs1, hs2⟩ := ih r ((resolveVertexStep_rc_mode env st r a hr).trans hrc) hr1 h
    refine ⟨hs1, fun w hw hwp => hs2 w (hr2 w hw ?_) ?_⟩
    · intro hwa
      exact hwp (hwa ▸ List.mem_cons_self _ _)
    · intro hwt
      exact hwp (List.mem_cons_of_mem _ hwt)

theorem fillVertices_fold_sublist (f : VertexId → Int) (l : List VertexId)
    (m : List (Int × VertexId)) :
    ∃ l2, l2.Sublist l
      ∧ (l.foldl (fun m v => unorderedInsert m (f v) v) m).map Prod.snd
          = m.map Prod.snd ++ l2 := by
  induction l generalizing m with
  | nil => exact ⟨[], List.Sublist.refl _, by simp⟩
  | cons a t ih =>
    simp only [List.foldl_cons]
    obtain ⟨l2, hl2, he⟩ := ih (unorderedInsert m (f a) a)
    unfold unorderedInsert at he
    by_cases hc : (m.any (fun p => decide (p.1 = f a))) = true
    · rw [if_pos hc] at he
      unfold unorderedInsert
      rw [if_pos hc]
      exact ⟨l2, List.Sublist.cons _ hl2, he⟩
    · rw [if_neg hc] at he
      unfold unorderedInsert
      rw [if_neg hc]
      refine ⟨a :: l2, List.Sublist.cons₂ _ hl2, ?_⟩
      rw [he]
      simp

/-- The worklist filled by `fillVerticesAuto` lists vertices of the working graph, in
their order and without inventing any. -/
theorem fillVerticesAuto_sublist (env : Env) (rr : RepeatResolver) :
    ((fillVerticesAuto env rr).map Prod.snd).Sublist rr.new_graph.vertexIds := by
  unfold fillVerticesAuto
  obtain ⟨l2, hl2, he⟩ := fillVertices_fold_sublist (fun v => 10000 - env.new_int_id v)
    rr.new_graph.vertexIds []
  rw [he]
  simpa using hl2

/-- In non-conjugate mode, on a well-formed working graph and with an iteration that
visits every entry of the map once, the worklist of a sweep lists vertices of the working
graph, none twice. -/
theorem sweepWorklist_plain (env : Env) (rr : RepeatResolver) (hrc : rr.rc_mode = false)
    (h0 : PlainGraphOk rr.new_graph)
    (hiter : (env.unorderedIteration (fillVerticesAuto env rr)).Perm (fillVerticesAuto env rr)) :
    (sweepWorklist env rr).Nodup ∧ ∀ w ∈ sweepWorklist env rr, w ∈ rr.new_graph.vertexIds := by
  have hp : (sweepWorklist env rr).Perm ((fillVerticesAuto env rr).map Prod.snd) := by
    unfold sweepWorklist
    simp only [hrc, Bool.false_eq_true, if_false]
    exact hiter.map _
  have hs := fillVerticesAuto_sublist env rr
  exact ⟨hp.nodup_iff.2 (h0.vnodup.sublist hs), fun w hw => hs.subset (hp.subset hw)⟩

theorem MultiSplit_of_guards (env : Env) (rr : RepeatResolver) (v : VertexId)
    (rr1 : RepeatResolver) (edgeCounts : StdMap Int) (k : Int)
    (h : splitGuards env rr v = some (rr1, edgeCounts, k)) :
    MultiSplit env rr v = splitPhase env rr1 edgeCounts k v := by
  unfold splitGuards at h
  unfold MultiSplit
  simp only at h ⊢
  by_cases hg : env.SplitCondition rr.new_graph v (rr.new_graph.OutgoingEdges v) = true
        ∧ env.SplitCondition rr.new_graph v (rr.new_graph.IncomingEdges v) = true
  · rw [if_neg (not_not.2 hg)] at h ⊢
    by_cases hk : (countLoop rr.edge_infos rr.edge_info_colors
          (initEdgeCounts (rr.new_graph.OutgoingEdges v) (rr.new_graph.IncomingEdges v))).1 = 0
    · rw [if_pos hk] at h; exact Option.noConfusion h
    · rw [if_neg hk] at h ⊢
      cases ho : orphanLoop rr.cheating_mode rr.paired_di_data
          (countLoop rr.edge_infos rr.edge_info_colors
            (initEdgeCounts (rr.new_graph.OutgoingEdges v) (rr.new_graph.IncomingEdges v))).2
          rr.edge_infos rr.edge_info_colors
          (countLoop rr.edge_infos rr.edge_info_colors
            (initEdgeCounts (rr.new_graph.OutgoingEdges v) (rr.new_graph.IncomingEdges v))).1 with
      | none => rw [ho] at h; exact Option.noConfusion h
      | some r =>
        obtain ⟨infos1, cols1, k1⟩ := r
        rw [ho] at h
        simp only at h ⊢
        by_cases h3 : k1 + 1 = 1
        · rw [if_pos h3] at h; exact Option.noConfusion h
        · rw [if_neg h3] at h ⊢
          have h4 := Option.some.inj h
          cases h4
          rfl
  · rw [if_pos hg] at h; exact Option.noConfusion h

theorem splitGuards_new_graph (env : Env) (rr : RepeatResolver) (v : VertexId)
    (rr1 : RepeatResolver) (edgeCounts : StdMap Int) (k : Int)
    (h : splitGuards env rr v = some (rr1, edgeCounts, k)) :
    rr1.new_graph = rr.new_graph := by
  unfold splitGuards at h
  simp only at h
  split_ifs at h
  split at h
  · exact Option.noConfusion h
  · split_ifs at h
    have h4 := Option.some.inj h
    cases h4
    rfl

theorem splitColour_eq_prune (env : Env) (v : VertexId) (old : StdMap ℚ)
    (cols : List (StdMap ℚ)) (st : SplitLoop) (i : Nat) :
    splitColour env v old cols st i
      = (prunePairs env v old cols st i).foldl (pruneStep (cutting_coverage env.cfg))
          (pruneEntry env v old cols st i) := by
  unfold splitColour prunePairs pruneEntry
  simp only
  by_cases hg : (splitEdges old (cols.getD i []) st.rr.local_cheating_edges).1.length > 0
      ∧ env.SplitCondition st.rr.new_graph v
          (splitEdges old (cols.getD i []) st.rr.local_cheating_edges).1 = true
  · rw [if_pos hg, if_pos hg, if_pos hg]
  · rw [if_neg hg, if_neg hg, if_neg hg]
    rfl

theorem splitPhase_loopAt (env : Env) (rr1 : RepeatResolver) (edgeCounts : StdMap Int)
    (k : Int) (v : VertexId) :
    splitPhase env rr1 edgeCounts k v
      = (splitFinish v (rr1.new_graph.OutgoingEdges v ++ rr1.new_graph.IncomingEdges v)
          (splitLoopAt env rr1 edgeCounts k v k.toNat),
         (splitLoopAt env rr1 edgeCounts k v k.toNat).res) := rfl

theorem AllocatedBelow.split_init {g : Graph} (h : AllocatedBelow g) : SplitGraphInv g.fresh g :=
  ⟨Nat.le_refl _, h.fresh_pos, h.ids, h.ends, h.vconj,
    fun _ r hr hc => absurd (h.conjs r hr) (Nat.not_lt.2 hc)⟩

theorem Graph.edge_congr (g g2 : Graph) (h : g2.edges = g.edges) (x : EdgeId) :
    g2.edge x = g.edge x := by
  unfold Graph.edge
  rw [h]

theorem Graph.edge_some (g : Graph) (x : EdgeId) (r : EdgeRec) (h : g.edge x = some r) :
    r ∈ g.edges ∧ r.id = x := by
  unfold Graph.edge at h
  exact ⟨List.mem_of_find?_eq_some h, by simpa using List.find?_some h⟩

theorem Graph.edge_none_of_fresh (g : Graph) (x : EdgeId) (h : ∀ r ∈ g.edges, r.id < x) :
    g.edge x = none := by
  unfold Graph.edge
  rw [List.find?_eq_none]
  intro r hr
  have := h r hr
  simp only [decide_eq_true_eq]
  exact Nat.ne_of_lt this

theorem Graph.conjugateV_lt {F0 : Nat} {g : Graph} (h : SplitGraphInv F0 g) (x : VertexId)
    (hx : x < g.fresh) : g.conjugateV x < g.fresh := by
  unfold Graph.conjugateV Graph.vertex
  cases hf : g.vertices.find? (fun r => decide (r.id = x)) with
  | none => exact hx
  | some r => exact h.vconj r (List.mem_of_find?_eq_some hf)

theorem Graph.EdgeStart_lt {F0 : Nat} {g : Graph} (h : SplitGraphInv F0 g) (e : EdgeId) :
    g.EdgeStart e < g.fresh ∧ g.EdgeEnd e < g.fresh := by
  unfold Graph.EdgeStart Graph.EdgeEnd
  cases hf : g.edge e with
  | none => exact ⟨h.fresh_pos, h.fresh_pos⟩
  | some r => exact h.ends r (Graph.edge_some g e r hf).1

theorem SplitGraphInv.addVertex_inv {F0 : Nat} {g : Graph} (h : SplitGraphInv F0 g) :
    SplitGraphInv F0 g.AddVertex.1
      ∧ g.AddVertex.1.conjugate_typed = g.conjugate_typed
      ∧ g.AddVertex.1.edges = g.edges
      ∧ ∀ r ∈ g.AddVertex.1.vertices, r ∈ g.vertices ∨ g.fresh ≤ r.id := by
  unfold Graph.AddVertex
  by_cases ht : g.conjugate_typed = true
  · simp only [ht, if_true, and_true, true_and]
    refine ⟨⟨Nat.le_trans h.fresh_ge (Nat.le_add_right _ _), Nat.succ_pos _, ?_, ?_, ?_, ?_⟩, ?_⟩
    · intro r hr; exact Nat.lt_add_right 2 (h.ids r hr)
    · intro r hr; exact ⟨Nat.lt_add_right 2 (h.ends r hr).1, Nat.lt_add_right 2 (h.ends r hr).2⟩
    · intro r hr
      rcases List.mem_append.1 hr with hr | hr
      · exact Nat.lt_add_right 2 (h.vconj r hr)
      · simp only [List.mem_cons, List.mem_singleton, List.not_mem_nil, or_false] at hr
        rcases hr with hr | hr
        · rw [hr]; exact Nat.lt_succ_self _
        · rw [hr]; exact Nat.lt_add_of_pos_right (by decide)
    · intro _ r hr hc
      exact h.conj ht r hr hc
    · intro r hr
      rcases List.mem_append.1 hr with hr | hr
      · exact Or.inl hr
      · simp only [List.mem_cons, List.mem_singleton, List.not_mem_nil, or_false] at hr
        rcases hr with hr | hr
        · rw [hr]; exact Or.inr (Nat.le_refl _)
        · rw [hr]; exact Or.inr (Nat.le_succ _)
  · simp only [ht, if_false, and_true, true_and, Bool.false_eq_true]
    have htf : g.conjugate_typed = false := by simpa using ht
    refine ⟨⟨Nat.le_trans h.fresh_ge (Nat.le_add_right _ _), Nat.succ_pos _, ?_, ?_, ?_, ?_⟩, ?_⟩
    · intro r hr; exact Nat.lt_add_right 1 (h.ids r hr)
    · intro r hr; exact ⟨Nat.lt_add_right 1 (h.ends r hr).1, Nat.lt_add_right 1 (h.ends r hr).2⟩
    · intro r hr
      rcases List.mem_append.1 hr with hr | hr
      · exact Nat.lt_add_right 1 (h.vconj r hr)
      · rw [List.mem_singleton.1 hr]; exact Nat.lt_succ_self _
    · intro hc
      exact absurd hc (by simp)
    · intro r hr
      rcases List.mem_append.1 hr with hr | hr
      · exact Or.inl hr
      · rw [List.mem_singleton.1 hr]; exact Or.inr (Nat.le_refl _)

theorem SplitGraphInv.addEdgeCov_inv {F0 : Nat} {g : Graph} (h : SplitGraphInv F0 g)
    (s t : VertexId) (n : List Nat) (c : Int) (hs : s < g.fresh) (ht : t < g.fresh) :
    SplitGraphInv F0 (g.addEdgeCov s t n c).1
      ∧ (g.addEdgeCov s t n c).2 = g.fresh
      ∧ g.fresh < (g.addEdgeCov s t n c).1.fresh
      ∧ (g.addEdgeCov s t n c).1.conjugate_typed = g.conjugate_typed
      ∧ (g.addEdgeCov s t n c).1.vertices = g.vertices
      ∧ ∀ r ∈ (g.addEdgeCov s t n c).1.edges,
          r ∈ g.edges ∨ (g.fresh ≤ r.id ∧ g.fresh ≤ r.conj) := by
  have hnone : g.edge g.fresh = none := Graph.edge_none_of_fresh g _ h.ids
  have hnone1 : g.edge (g.fresh + 1) = none :=
    Graph.edge_none_of_fresh g _ (fun r hr => Nat.lt_succ_of_lt (h.ids r hr))
  unfold Graph.edge at hnone hnone1
  unfold Graph.addEdgeCov
  by_cases hty : g.conjugate_typed = true
  · simp only [hty, if_true, and_true, true_and]
    refine ⟨⟨Nat.le_trans h.fresh_ge (Nat.le_add_right _ _), Nat.succ_pos _, ?_, ?_, ?_, ?_⟩,
      Nat.lt_add_of_pos_right (by decide), ?_⟩
    · intro r hr
      rcases List.mem_append.1 hr with hr | hr
      · exact Nat.lt_add_right 2 (h.ids r hr)
      · simp only [List.mem_cons, List.mem_singleton, List.not_mem_nil, or_false] at hr
        rcases hr with hr | hr
        · rw [hr]; exact Nat.lt_add_of_pos_right (by decide)
        · rw [hr]; exact Nat.lt_succ_self _
    · intro r hr
      rcases List.mem_append.1 hr with hr | hr
      · exact ⟨Nat.lt_add_right 2 (h.ends r hr).1, Nat.lt_add_right 2 (h.ends r hr).2⟩
      · have h1 := Graph.conjugateV_lt h s hs
        have h2 := Graph.conjugateV_lt h t ht
        simp only [List.mem_cons, List.mem_singleton, List.not_mem_nil, or_false] at hr
        rcases hr with hr | hr
        · rw [hr]; exact ⟨Nat.lt_add_right 2 hs, Nat.lt_add_right 2 ht⟩
        · rw [hr]; exact ⟨Nat.lt_add_right 2 h2, Nat.lt_add_right 2 h1⟩
    · intro r hr; exact Nat.lt_add_right 2 (h.vconj r hr)
    · intro _ r hr hc
      rcases List.mem_append.1 hr with hr | hr
      · obtain ⟨r2, hr2, hr2c⟩ := h.conj hty r hr hc
        refine ⟨r2, ?_, hr2c⟩
        unfold Graph.edge at hr2 ⊢
        simp only [List.find?_append, hr2]
        rfl
      · simp only [List.mem_cons, List.mem_singleton, List.not_mem_nil, or_false] at hr
        rcases hr with hr | hr
        · rw [hr]
          refine ⟨⟨g.fresh + 1, g.conjugateV t, g.conjugateV s, Graph.revComp n, c, g.fresh⟩, ?_, rfl⟩
          unfold Graph.edge
          simp only [List.find?_append, hnone1, Option.none_or]
          simp [List.find?_cons]
        · rw [hr]
          refine ⟨⟨g.fresh, s, t, n, c, g.fresh + 1⟩, ?_, rfl⟩
          unfold Graph.edge
          simp only [List.find?_append, hnone, Option.none_or]
          simp [List.find?_cons]
    · intro r hr
      rcases List.mem_append.1 hr with hr | hr
      · exact Or.inl hr
      · simp only [List.mem_cons, List.mem_singleton, List.not_mem_nil, or_false] at hr
        rcases hr with hr | hr
        · rw [hr]; exact Or.inr ⟨Nat.le_refl _, Nat.le_succ _⟩
        · rw [hr]; exact Or.inr ⟨Nat.le_succ _, Nat.le_refl _⟩
  · simp only [hty, if_false, and_true, true_and, Bool.false_eq_true]
    refine ⟨⟨Nat.le_trans h.fresh_ge (Nat.le_add_right _ _), Nat.succ_pos _, ?_, ?_, ?_, ?_⟩,
      Nat.lt_succ_self _, ?_⟩
    · intro r hr
      rcases List.mem_append.1 hr with hr | hr
      · exact Nat.lt_add_right 1 (h.ids r hr)
      · rw [List.mem_singleton.1 hr]; exact Nat.lt_succ_self _
    · intro r hr
      rcases List.mem_append.1 hr with hr | hr
      · exact ⟨Nat.lt_add_right 1 (h.ends r hr).1, Nat.lt_add_right 1 (h.ends r hr).2⟩
      · rw [List.mem_singleton.1 hr]
        exact ⟨Nat.lt_succ_of_lt hs, Nat.lt_succ_of_lt ht⟩
    · intro r hr; exact Nat.lt_add_right 1 (h.vconj r hr)
    · intro hc
      exact absurd hc (by simp)
    · intro r hr
      rcases List.mem_append.1 hr with hr | hr
      · exact Or.inl hr
      · rw [List.mem_singleton.1 hr]; exact Or.inr ⟨Nat.le_refl _, Nat.le_refl _⟩

theorem SplitGraphInv.cloneEdge_inv {F0 : Nat} (v nv : VertexId)
    (acc : Graph × List (EdgeId × EdgeId)) (ec : EdgeId × ℚ)
    (h : SplitGraphInv F0 acc.1) (hnv : nv < acc.1.fresh) :
    SplitGraphInv F0 (Graph.cloneEdge v nv acc ec).1
      ∧ (Graph.cloneEdge v nv acc ec).2 = acc.2 ++ [(ec.1, acc.1.fresh)]
      ∧ acc.1.fresh < (Graph.cloneEdge v nv acc ec).1.fresh
      ∧ (Graph.cloneEdge v nv acc ec).1.conjugate_typed = acc.1.conjugate_typed
      ∧ (Graph.cloneEdge v nv acc ec).1.vertices = acc.1.vertices
      ∧ ∀ r ∈ (Graph.cloneEdge v nv acc ec).1.edges,
          r ∈ acc.1.edges ∨ (acc.1.fresh ≤ r.id ∧ acc.1.fresh ≤ r.conj) := by
  have hs : (if acc.1.EdgeStart ec.1 = v then nv else acc.1.EdgeStart ec.1) < acc.1.fresh := by
    split_ifs
    · exact hnv
    · exact (Graph.EdgeStart_lt h ec.1).1
  have ht : (if acc.1.EdgeEnd ec.1 = v then nv else acc.1.EdgeEnd ec.1) < acc.1.fresh := by
    split_ifs
    · exact hnv
    · exact (Graph.EdgeStart_lt h ec.1).2
  obtain ⟨h1, h2, h3, h4, h5, h6⟩ := h.addEdgeCov_inv _ _ (acc.1.EdgeNucls ec.1)
    (Int.floor (roundDouble ((acc.1.rawCoverage ec.1 : ℚ) * ec.2))) hs ht
  unfold Graph.cloneEdge
  simp only
  refine ⟨h1, ?_, h3, h4, h5, h6⟩
  rw [h2]

/-- The pairs returned by the clone loop carry new edges with increasing identifiers
between the counter at the start and the counter at the end of the loop. -/
theorem SplitGraphInv.cloneEdge_fold_inv {F0 : Nat} (v nv : VertexId)
    (l : List (EdgeId × ℚ)) (acc : Graph × List (EdgeId × EdgeId)) (lo : Nat)
    (h : SplitGraphInv F0 acc.1) (hnv : nv < acc.1.fresh)
    (hp : (acc.2.map Prod.snd).Pairwise (· < ·))
    (hb : ∀ it ∈ acc.2, lo ≤ it.2 ∧ it.2 < acc.1.fresh) (hlo : lo ≤ acc.1.fresh) :
    SplitGraphInv F0 (l.foldl (Graph.cloneEdge v nv) acc).1
      ∧ acc.1.fresh ≤ (l.foldl (Graph.cloneEdge v nv) acc).1.fresh
      ∧ (l.foldl (Graph.cloneEdge v nv) acc).1.conjugate_typed = acc.1.conjugate_typed
      ∧ (l.foldl (Graph.cloneEdge v nv) acc).1.vertices = acc.1.vertices
      ∧ (∀ r ∈ (l.foldl (Graph.cloneEdge v nv) acc).1.edges,
          r ∈ acc.1.edges ∨ (acc.1.fresh ≤ r.id ∧ acc.1.fresh ≤ r.conj))
      ∧ (((l.foldl (Graph.cloneEdge v nv) acc).2.map Prod.snd).Pairwise (· < ·))
      ∧ ∀ it ∈ (l.foldl (Graph.cloneEdge v nv) acc).2,
          lo ≤ it.2 ∧ it.2 < (l.foldl (Graph.cloneEdge v nv) acc).1.fresh := by
  induction l generalizing acc with
  | nil => exact ⟨h, Nat.le_refl _, rfl, rfl, fun r hr => Or.inl hr, hp, hb⟩
  | cons a t ih =>
    simp only [List.foldl_cons]
    obtain ⟨h1, h2, h3, h4, h5, h6⟩ := SplitGraphInv.cloneEdge_inv v nv acc a h hnv
    have hp2 : ((Graph.cloneEdge v nv acc a).2.map Prod.snd).Pairwise (· < ·) := by
      rw [h2, List.map_append, List.pairwise_append]
      refine ⟨hp, by simp, ?_⟩
      intro x hx y hy
      obtain ⟨it, hit, hitx⟩ := List.mem_map.1 hx
      simp only [List.map_cons, List.map_nil, List.mem_singleton] at hy
      rw [hy, ← hitx]
      exact (hb it hit).2
    have hb2 : ∀ it ∈ (Graph.cloneEdge v nv acc a).2,
        lo ≤ it.2 ∧ it.2 < (Graph.cloneEdge v nv acc a).1.fresh := by
      intro it hit
      rw [h2] at hit
      rcases List.mem_append.1 hit with hit | hit
      · exact ⟨(hb it hit).1, Nat.lt_trans (hb it hit).2 h3⟩
      · rw [List.mem_singleton.1 hit]
        exact ⟨hlo, h3⟩
    obtain ⟨i1, i2, i3, i4, i5, i6, i7⟩ := ih _ h1 (Nat.lt_trans hnv h3) hp2 hb2
      (Nat.le_trans hlo (Nat.le_of_lt h3))
    refine ⟨i1, Nat.le_trans (Nat.le_of_lt h3) i2, i3.trans h4, i4.trans h5, ?_, i6, i7⟩
    intro r hr
    rcases i5 r hr with hr | hr
    · exact h6 r hr
    · exact Or.inr ⟨Nat.le_trans (Nat.le_of_lt h3) hr.1, Nat.le_trans (Nat.le_of_lt h3) hr.2⟩

/-- What `SplitVertex` does to a graph that satisfies the invariant: the invariant
holds again, old records are kept as they are or new ones carry identifiers from the
counter on, and the returned pairs carry increasing new edge identifiers. -/
theorem SplitGraphInv.splitVertex_inv {F0 : Nat} {g : Graph} (h : SplitGraphInv F0 g)
    (v : VertexId) (es : List EdgeId) (cs : List ℚ) :
    SplitGraphInv F0 (g.SplitVertex v es cs).1
      ∧ g.fresh ≤ (g.SplitVertex v es cs).1.fresh
      ∧ (g.SplitVertex v es cs).1.conjugate_typed = g.conjugate_typed
      ∧ (∀ r ∈ (g.SplitVertex v es cs).1.vertices, r ∈ g.vertices ∨ g.fresh ≤ r.id)
      ∧ (∀ r ∈ (g.SplitVertex v es cs).1.edges,
          r ∈ g.edges ∨ (g.fresh ≤ r.id ∧ g.fresh ≤ r.conj))
      ∧ (((g.SplitVertex v es cs).2.2.map Prod.snd).Pairwise (· < ·))
      ∧ ∀ it ∈ (g.SplitVertex v es cs).2.2,
          g.fresh ≤ it.2 ∧ it.2 < (g.SplitVertex v es cs).1.fresh := by
  unfold Graph.SplitVertex
  simp only
  obtain ⟨a1, a2, a3, a4⟩ := h.addVertex_inv
  have hf := Graph.AddVertex_fresh g
  have hnv : g.AddVertex.2 < g.AddVertex.1.fresh := by
    rw [Graph.AddVertex_snd]; exact hf
  obtain ⟨i1, i2, i3, i4, i5, i6, i7⟩ := SplitGraphInv.cloneEdge_fold_inv v g.AddVertex.2
    (es.zip cs) (g.AddVertex.1, []) g.fresh a1 hnv (by simp) (by simp) (Nat.le_of_lt hf)
  refine ⟨i1, Nat.le_trans (Nat.le_of_lt hf) i2, i3.trans a2, ?_, ?_, i6, i7⟩
  · intro r hr
    rw [i4] at hr
    exact a4 r hr
  · intro r hr
    rcases i5 r hr with hr | hr
    · left
      have : (g.AddVertex.1, ([] : List (EdgeId × EdgeId))).1.edges = g.edges := a3
      rw [← this]; exact hr
    · exact Or.inr ⟨Nat.le_trans (Nat.le_of_lt hf) hr.1, Nat.le_trans (Nat.le_of_lt hf) hr.2⟩

theorem SplitGraphInv.setCoverage_inv {F0 : Nat} {g : Graph} (h : SplitGraphInv F0 g)
    (e : EdgeId) (c : Int) :
    SplitGraphInv F0 (g.SetCoverage e c)
      ∧ ∀ r ∈ (g.SetCoverage e c).edges, ∃ r0 ∈ g.edges, r.id = r0.id ∧ r.conj = r0.conj := by
  have hrec : ∀ r ∈ (g.SetCoverage e c).edges,
      ∃ r0 ∈ g.edges, r.id = r0.id ∧ r.conj = r0.conj ∧ r.start = r0.start
        ∧ r.finish = r0.finish := by
    intro r hr
    unfold Graph.SetCoverage at hr
    obtain ⟨r0, hr0, hrr⟩ := List.mem_map.1 hr
    refine ⟨r0, hr0, ?_⟩
    rw [← hrr]
    split_ifs <;> exact ⟨rfl, rfl, rfl, rfl⟩
  refine ⟨⟨h.fresh_ge, h.fresh_pos, ?_, ?_, h.vconj, ?_⟩, ?_⟩
  · intro r hr
    obtain ⟨r0, hr0, h1, _⟩ := hrec r hr
    rw [h1]; exact h.ids r0 hr0
  · intro r hr
    obtain ⟨r0, hr0, _, _, h3, h4⟩ := hrec r hr
    rw [h3, h4]; exact h.ends r0 hr0
  · intro hty r hr hc
    obtain ⟨r0, hr0, h1, h2, _⟩ := hrec r hr
    rw [h2] at hc ⊢
    obtain ⟨r2, hr2, hr2c⟩ := h.conj hty r0 hr0 hc
    rw [Graph.edge_SetCoverage, hr2]
    refine ⟨_, rfl, ?_⟩
    rw [h1, ← hr2c]
    simp only
    split_ifs <;> rfl
  · intro r hr
    obtain ⟨r0, hr0, h1, h2, _⟩ := hrec r hr
    exact ⟨r0, hr0, h1, h2⟩

theorem SplitGraphInv.mirrorCoverage_fold {F0 : Nat} (l : List (EdgeId × EdgeId))
    (st : Graph × Bool) (h : SplitGraphInv F0 st.1) :
    SplitGraphInv F0 (l.foldl mirrorCoverageStep st).1
      ∧ (l.foldl mirrorCoverageStep st).1.fresh = st.1.fresh
      ∧ (l.foldl mirrorCoverageStep st).1.conjugate_typed = st.1.conjugate_typed
      ∧ (l.foldl mirrorCoverageStep st).1.vertices = st.1.vertices
      ∧ ∀ r ∈ (l.foldl mirrorCoverageStep st).1.edges,
          ∃ r0 ∈ st.1.edges, r.id = r0.id ∧ r.conj = r0.conj := by
  induction l generalizing st with
  | nil => exact ⟨h, rfl, rfl, rfl, fun r hr => ⟨r, hr, rfl, rfl⟩⟩
  | cons a t ih =>
    simp only [List.foldl_cons]
    have hstep : SplitGraphInv F0 (mirrorCoverageStep st a).1
        ∧ (mirrorCoverageStep st a).1.fresh = st.1.fresh
        ∧ (mirrorCoverageStep st a).1.conjugate_typed = st.1.conjugate_typed
        ∧ (mirrorCoverageStep st a).1.vertices = st.1.vertices
        ∧ ∀ r ∈ (mirrorCoverageStep st a).1.edges,
            ∃ r0 ∈ st.1.edges, r.id = r0.id ∧ r.conj = r0.conj := by
      unfold mirrorCoverageStep WrappedSetCoverage
      simp only [Bool.true_eq_false, if_false]
      obtain ⟨h1, h2⟩ := h.setCoverage_inv (conj_wrap_edge st.1 a.2)
        (truncToInt (roundDouble (st.1.coverage a.2 * (st.1.length a.2 : ℚ))))
      obtain ⟨h3, h4⟩ := h1.setCoverage_inv
        (conj_wrap_edge (st.1.SetCoverage (conj_wrap_edge st.1 a.2)
          (truncToInt (roundDouble (st.1.coverage a.2 * (st.1.length a.2 : ℚ)))))
          (conj_wrap_edge st.1 a.2))
        (truncToInt (roundDouble (st.1.coverage a.2 * (st.1.length a.2 : ℚ))))
      refine ⟨h3, rfl, rfl, rfl, ?_⟩
      intro r hr
      obtain ⟨r1, hr1, e1, e2⟩ := h4 r hr
      obtain ⟨r0, hr0, e3, e4⟩ := h2 r1 hr1
      exact ⟨r0, hr0, e1.trans e3, e2.trans e4⟩
    obtain ⟨s1, s2, s3, s4, s5⟩ := hstep
    obtain ⟨i1, i2, i3, i4, i5⟩ := ih _ s1
    refine ⟨i1, i2.trans s2, i3.trans s3, i4.trans s4, ?_⟩
    intro r hr
    obtain ⟨r1, hr1, e1, e2⟩ := i5 r hr
    obtain ⟨r0, hr0, e3, e4⟩ := s5 r1 hr1
    exact ⟨r0, hr0, e1.trans e3, e2.trans e4⟩

theorem List.find?_filter_of_kept {α : Type} (p q : α → Bool) (l : List α) (a : α)
    (h : l.find? p = some a) (hq : q a = true) : (l.filter q).find? p = some a := by
  induction l with
  | nil => simp at h
  | cons x t ih =>
    rw [List.find?_cons] at h
    cases hp : p x with
    | true =>
      rw [hp] at h
      have hx : x = a := Option.some.inj h
      rw [hx, List.filter_cons_of_pos hq, List.find?_cons, ← hx, hp]
    | false =>
      rw [hp] at h
      cases hqx : q x with
      | true =>
        rw [List.filter_cons_of_pos hqx, List.find?_cons, hp]
        exact ih h
      | false =>
        rw [List.filter_cons_of_neg (by rw [hqx]; exact Bool.false_ne_true)]
        exact ih h

/-- Deleting an edge keeps the invariant; in a conjugate graph no remaining edge names
the deleted edge, created by the split, as its conjugate. -/
theorem SplitGraphInv.deleteEdge_inv {F0 : Nat} {g : Graph} (h : SplitGraphInv F0 g)
    (x : EdgeId) :
    SplitGraphInv F0 (g.DeleteEdge x)
      ∧ (g.DeleteEdge x).vertices = g.vertices
      ∧ (g.DeleteEdge x).conjugate_typed = g.conjugate_typed
      ∧ (∀ r ∈ (g.DeleteEdge x).edges, r ∈ g.edges ∧ r.id ≠ x)
      ∧ (g.conjugate_typed = true → F0 ≤ x → ∀ r ∈ (g.DeleteEdge x).edges, r.conj ≠ x) := by
  unfold Graph.DeleteEdge
  by_cases hty : g.conjugate_typed = true
  · simp only [hty, if_true, true_and, and_true]
    have hkeep : ∀ r ∈ g.edges.filter (fun r => decide (r.id ≠ x ∧ r.id ≠ g.conjugateE x)),
        r ∈ g.edges ∧ r.id ≠ x ∧ r.id ≠ g.conjugateE x := by
      intro r hr
      have := List.mem_filter.1 hr
      exact ⟨this.1, of_decide_eq_true this.2⟩
    refine ⟨⟨h.fresh_ge, h.fresh_pos, fun r hr => h.ids r (hkeep r hr).1,
      fun r hr => h.ends r (hkeep r hr).1, h.vconj, ?_⟩,
      fun r hr => ⟨(hkeep r hr).1, (hkeep r hr).2.1⟩, ?_⟩
    · intro _ r hr hc
      obtain ⟨hrg, hrx, hry⟩ := hkeep r hr
      obtain ⟨r2, hr2, hr2c⟩ := h.conj hty r hrg hc
      refine ⟨r2, ?_, hr2c⟩
      have hr2id := (Graph.edge_some g _ r2 hr2).2
      unfold Graph.edge at hr2 ⊢
      apply List.find?_filter_of_kept _ _ _ _ hr2
      apply decide_eq_true
      rw [hr2id]
      constructor
      · intro hcx
        apply hry
        unfold Graph.conjugateE Graph.edge
        rw [← hcx, hr2]
        exact hr2c.symm
      · intro hcy
        cases hx : g.edge x with
        | none =>
          have hyx : g.conjugateE x = x := by
            unfold Graph.conjugateE; rw [hx]; rfl
          rw [hyx] at hcy
          unfold Graph.edge at hx
          rw [← hcy, hr2] at hx
          exact Option.noConfusion hx
        | some r3 =>
          have hy3 : g.conjugateE x = r3.conj := by
            unfold Graph.conjugateE; rw [hx]; rfl
          obtain ⟨hr3g, hr3id⟩ := Graph.edge_some g x r3 hx
          have hc3 : F0 ≤ r3.conj := by rw [← hy3, ← hcy]; exact hc
          obtain ⟨r4, hr4, hr4c⟩ := h.conj hty r3 hr3g hc3
          unfold Graph.edge at hr4
          rw [← hy3, ← hcy, hr2] at hr4
          have h24 : r2 = r4 := Option.some.inj hr4
          apply hrx
          rw [← hr2c, h24, hr4c, hr3id]
    · intro _ hx r hr hcx
      obtain ⟨hrg, hrx, hry⟩ := hkeep r hr
      obtain ⟨r2, hr2, hr2c⟩ := h.conj hty r hrg (hcx ▸ hx)
      apply hry
      unfold Graph.conjugateE
      rw [← hcx, hr2]
      exact hr2c.symm
  · simp only [hty, if_false, true_and, and_true, Bool.false_eq_true]
    have hkeep : ∀ r ∈ g.edges.filter (fun r => decide (r.id ≠ x)), r ∈ g.edges ∧ r.id ≠ x := by
      intro r hr
      have := List.mem_filter.1 hr
      exact ⟨this.1, of_decide_eq_true this.2⟩
    refine ⟨⟨h.fresh_ge, h.fresh_pos, fun r hr => h.ids r (hkeep r hr).1,
      fun r hr => h.ends r (hkeep r hr).1, h.vconj, ?_⟩, hkeep, ?_⟩
    · intro hc
      exact absurd hc (by simp)
    · intro hc
      exact False.elim hc

theorem SplitGraphInv.deleteVertex_inv {F0 : Nat} {g : Graph} (h : SplitGraphInv F0 g)
    (x : VertexId) :
    SplitGraphInv F0 (g.DeleteVertex x)
      ∧ (g.DeleteVertex x).edges = g.edges
      ∧ (g.DeleteVertex x).fresh = g.fresh
      ∧ (g.DeleteVertex x).conjugate_typed = g.conjugate_typed
      ∧ ∀ r ∈ (g.DeleteVertex x).vertices, r ∈ g.vertices ∧ r.id ≠ x := by
  unfold Graph.DeleteVertex
  by_cases hty : g.conjugate_typed = true
  · simp only [hty, if_true, true_and, and_true]
    have hkeep : ∀ r ∈ g.vertices.filter (fun r => decide (r.id ≠ x ∧ r.id ≠ g.conjugateV x)),
        r ∈ g.vertices ∧ r.id ≠ x := by
      intro r hr
      have := List.mem_filter.1 hr
      exact ⟨this.1, (of_decide_eq_true this.2).1⟩
    refine ⟨⟨h.fresh_ge, h.fresh_pos, h.ids, h.ends, fun r hr => h.vconj r (hkeep r hr).1, ?_⟩,
      hkeep⟩
    intro _ r hr hc
    exact h.conj hty r hr hc
  · simp only [hty, if_false, true_and, and_true, Bool.false_eq_true]
    have hkeep : ∀ r ∈ g.vertices.filter (fun r => decide (r.id ≠ x)),
        r ∈ g.vertices ∧ r.id ≠ x := by
      intro r hr
      have := List.mem_filter.1 hr
      exact ⟨this.1, of_decide_eq_true this.2⟩
    refine ⟨⟨h.fresh_ge, h.fresh_pos, h.ids, h.ends, fun r hr => h.vconj r (hkeep r hr).1, ?_⟩,
      hkeep⟩
    intro hc
    exact absurd hc (by simp)

theorem SplitGraphInv.isolated_inv {F0 : Nat} {g : Graph} (h : SplitGraphInv F0 g)
    (x : VertexId) :
    SplitGraphInv F0 (deleteIfIsolated g x)
      ∧ (deleteIfIsolated g x).edges = g.edges
      ∧ (deleteIfIsolated g x).fresh = g.fresh
      ∧ (deleteIfIsolated g x).conjugate_typed = g.conjugate_typed
      ∧ (∀ r ∈ (deleteIfIsolated g x).vertices, r ∈ g.vertices)
      ∧ (g.IncomingEdgeCount x + g.OutgoingEdgeCount x = 0 →
          ∀ r ∈ (deleteIfIsolated g x).vertices, r.id ≠ x) := by
  unfold deleteIfIsolated
  by_cases hiso : g.IncomingEdgeCount x + g.OutgoingEdgeCount x = 0
  · rw [if_pos hiso]
    obtain ⟨h1, h2, h3, h4, h5⟩ := h.deleteVertex_inv x
    exact ⟨h1, h2, h3, h4, fun r hr => (h5 r hr).1, fun _ r hr => (h5 r hr).2⟩
  · rw [if_neg hiso]
    exact ⟨h, rfl, rfl, rfl, fun r hr => hr, fun hc => absurd hc hiso⟩

theorem pruneStep_new_graph (cutting : ℚ) (st : SplitLoop) (it : EdgeId × EdgeId) :
    (pruneStep cutting st it).rr.new_graph
      = if st.rr.new_graph.coverage it.2 < cutting
        then prunedGraph st.rr.rc_mode st.rr.new_graph it.2 else st.rr.new_graph := by
  unfold pruneStep prunedGraph
  simp only
  split_ifs <;> rfl

theorem Graph.degree_congr (g g2 : Graph) (h : g2.edges = g.edges) (x : VertexId) :
    g2.IncomingEdgeCount x + g2.OutgoingEdgeCount x
      = g.IncomingEdgeCount x + g.OutgoingEdgeCount x := by
  unfold Graph.IncomingEdgeCount Graph.OutgoingEdgeCount Graph.IncomingEdges Graph.OutgoingEdges
  rw [h]

/-- What the pruning of `e` does to the graph: the invariant is kept, the counter and
the flavour stay, no vertex or edge is added, `e` is gone, and an endpoint found without
incident edge after the deletion of `e` is gone as well. -/
theorem SplitGraphInv.pruned_inv {F0 : Nat} {g : Graph} (h : SplitGraphInv F0 g)
    (rc : Bool) (e : EdgeId) :
    SplitGraphInv F0 (prunedGraph rc g e)
      ∧ (prunedGraph rc g e).fresh = g.fresh
      ∧ (prunedGraph rc g e).conjugate_typed = g.conjugate_typed
      ∧ (∀ r ∈ (prunedGraph rc g e).vertices, r ∈ g.vertices)
      ∧ (∀ r ∈ (prunedGraph rc g e).edges, r ∈ g.edges ∧ r.id ≠ e)
      ∧ (g.conjugate_typed = true → F0 ≤ e → ∀ r ∈ (prunedGraph rc g e).edges, r.conj ≠ e)
      ∧ ((g.DeleteEdge e).IncomingEdgeCount (g.EdgeStart e)
            + (g.DeleteEdge e).OutgoingEdgeCount (g.EdgeStart e) = 0 →
          ∀ r ∈ (prunedGraph rc g e).vertices, r.id ≠ g.EdgeStart e)
      ∧ ((if rc then decide (g.EdgeStart e = g.EdgeEnd e)
                || decide (g.EdgeStart e = conj_wrap_vertex (g.DeleteEdge e) (g.EdgeEnd e))
              else decide (g.EdgeStart e = g.EdgeEnd e)) = false →
          (g.DeleteEdge e).IncomingEdgeCount (g.EdgeEnd e)
            + (g.DeleteEdge e).OutgoingEdgeCount (g.EdgeEnd e) = 0 →
          ∀ r ∈ (prunedGraph rc g e).vertices, r.id ≠ g.EdgeEnd e) := by
  obtain ⟨d1, d2, d3, d4, d5⟩ := h.deleteEdge_inv e
  have dfresh := Graph.DeleteEdge_fresh g e
  obtain ⟨s1, s2, s3, s4, s5, s6⟩ := d1.isolated_inv (g.EdgeStart e)
  obtain ⟨t1, t2, t3, t4, t5, t6⟩ := s1.isolated_inv (g.EdgeEnd e)
  unfold prunedGraph
  simp only
  by_cases hsame : (if rc then decide (g.EdgeStart e = g.EdgeEnd e)
                || decide (g.EdgeStart e = conj_wrap_vertex (g.DeleteEdge e) (g.EdgeEnd e))
              else decide (g.EdgeStart e = g.EdgeEnd e)) = true
  · rw [if_pos hsame]
    refine ⟨s1, s3.trans dfresh, s4.trans d3, ?_, ?_, ?_, s6, ?_⟩
    · intro r hr; rw [← d2]; exact s5 r hr
    · intro r hr; rw [s2] at hr; exact d4 r hr
    · intro hty hx r hr; rw [s2] at hr; exact d5 hty hx r hr
    · intro hf
      rw [hsame] at hf
      exact Bool.noConfusion hf
  · rw [if_neg hsame]
    refine ⟨t1, (t3.trans s3).trans dfresh, (t4.trans s4).trans d3, ?_, ?_, ?_, ?_, ?_⟩
    · intro r hr; rw [← d2]; exact s5 r (t5 r hr)
    · intro r hr; rw [t2, s2] at hr; exact d4 r hr
    · intro hty hx r hr; rw [t2, s2] at hr; exact d5 hty hx r hr
    · intro hiso r hr
      exact s6 hiso r (t5 r hr)
    · intro _ hiso r hr
      apply t6 _ r hr
      rw [Graph.degree_congr _ _ s2]
      exact hiso

theorem pruneStep_LiveNewEdges (cutting : ℚ) (st : SplitLoop) (it : EdgeId × EdgeId) :
    (pruneStep cutting st it).LiveNewEdges
      = if st.rr.new_graph.coverage it.2 < cutting then st.LiveNewEdges
        else st.LiveNewEdges ++ [it.2] := by
  unfold pruneStep
  simp only
  by_cases hc : st.rr.new_graph.coverage it.2 < cutting
  · rw [if_pos hc, if_pos hc]
  · rw [if_neg hc, if_neg hc]

theorem pruneStep_index (cutting : ℚ) (st : SplitLoop) (it : EdgeId × EdgeId) :
    ∀ p ∈ (pruneStep cutting st it).rr.paired_di_data,
      p ∈ st.rr.paired_di_data
        ∧ (st.rr.new_graph.coverage it.2 < cutting → p.first ≠ it.2) := by
  intro p hp
  unfold pruneStep at hp
  simp only at hp
  by_cases hc : st.rr.new_graph.coverage it.2 < cutting
  · rw [if_pos hc] at hp
    simp only at hp
    have h1 : p ∈ MixedData.DeleteEdgeInfo st.rr.paired_di_data it.2 := by
      by_cases hrc : st.rr.rc_mode = true
      · rw [if_pos hrc] at hp
        unfold MixedData.DeleteEdgeInfo at hp ⊢
        exact (List.mem_filter.1 hp).1
      · rw [if_neg hrc] at hp
        exact hp
    unfold MixedData.DeleteEdgeInfo at h1
    have h2 := List.mem_filter.1 h1
    exact ⟨h2.1, fun _ => of_decide_eq_true h2.2⟩
  · rw [if_neg hc] at hp
    exact ⟨hp, fun h => absurd h hc⟩

theorem pruneStep_cheaters (cutting : ℚ) (st : SplitLoop) (it : EdgeId × EdgeId) :
    ∀ x ∈ (pruneStep cutting st it).rr.global_cheating_edges,
      x ∈ st.rr.global_cheating_edges
        ∧ (st.rr.new_graph.coverage it.2 < cutting → x ≠ it.2) := by
  intro x hx
  unfold pruneStep at hx
  simp only at hx
  by_cases hc : st.rr.new_graph.coverage it.2 < cutting
  · rw [if_pos hc] at hx
    simp only at hx
    have h1 : x ∈ StdSet.erase st.rr.global_cheating_edges it.2 := by
      by_cases hrc : st.rr.rc_mode = true
      · rw [if_pos hrc] at hx
        unfold StdSet.erase at hx ⊢
        exact (List.mem_filter.1 hx).1
      · rw [if_neg hrc] at hx
        exact hx
    unfold StdSet.erase at h1
    have h2 := List.mem_filter.1 h1
    exact ⟨h2.1, fun _ => of_decide_eq_true h2.2⟩
  · rw [if_neg hc] at hx
    exact ⟨hx, fun h => absurd h hc⟩

theorem pruneStep_inv {F0 : Nat} (cutting : ℚ) (st : SplitLoop) (it : EdgeId × EdgeId)
    (h : PruneInv F0 st) (hit : it.2 < st.rr.new_graph.fresh) :
    PruneInv F0 (pruneStep cutting st it)
      ∧ (pruneStep cutting st it).rr.new_graph.fresh = st.rr.new_graph.fresh
      ∧ (pruneStep cutting st it).rr.new_graph.conjugate_typed
          = st.rr.new_graph.conjugate_typed
      ∧ (∀ r ∈ (pruneStep cutting st it).rr.new_graph.vertices, r ∈ st.rr.new_graph.vertices)
      ∧ ∀ r ∈ (pruneStep cutting st it).rr.new_graph.edges, r ∈ st.rr.new_graph.edges := by
  have hg := pruneStep_new_graph cutting st it
  obtain ⟨p1, p2, p3, p4, p5, _⟩ := h.graph.pruned_inv st.rr.rc_mode it.2
  have hfresh : (pruneStep cutting st it).rr.new_graph.fresh = st.rr.new_graph.fresh := by
    rw [hg]; split_ifs
    · exact p2
    · rfl
  refine ⟨⟨?_, ?_⟩, hfresh, ?_, ?_, ?_⟩
  · rw [hg]; split_ifs
    · exact p1
    · exact h.graph
  · rw [hfresh, pruneStep_LiveNewEdges]
    intro l hl
    split_ifs at hl
    · exact h.live l hl
    · simp only [List.mem_append, List.mem_singleton] at hl
      rcases hl with hl | hl
      · exact h.live l hl
      · rw [hl]; exact hit
  · rw [hg]; split_ifs
    · exact p3
    · rfl
  · rw [hg]; split_ifs
    · exact p4
    · exact fun r hr => hr
  · rw [hg]; split_ifs
    · exact fun r hr => (p5 r hr).1
    · exact fun r hr => hr

theorem pruneStep_fold_inv {F0 : Nat} (cutting : ℚ) (l : List (EdgeId × EdgeId))
    (st : SplitLoop) (h : PruneInv F0 st) (hl : ∀ it ∈ l, it.2 < st.rr.new_graph.fresh) :
    PruneInv F0 (l.foldl (pruneStep cutting) st)
      ∧ (l.foldl (pruneStep cutting) st).rr.new_graph.fresh = st.rr.new_graph.fresh := by
  induction l generalizing st with
  | nil => exact ⟨h, rfl⟩
  | cons a t ih =>
    simp only [List.foldl_cons]
    obtain ⟨h1, h2, _⟩ := pruneStep_inv cutting st a h (hl a (List.mem_cons_self _ _))
    obtain ⟨i1, i2⟩ := ih _ h1 (fun it hit => h2 ▸ hl it (List.mem_cons_of_mem _ hit))
    exact ⟨i1, i2.trans h2⟩

theorem pruneStep_live (cutting : ℚ) (st : SplitLoop) (it : EdgeId × EdgeId) (e : EdgeId)
    (h : e ∉ st.LiveNewEdges)
    (hit : it.2 ≠ e ∨ st.rr.new_graph.coverage it.2 < cutting) :
    e ∉ (pruneStep cutting st it).LiveNewEdges := by
  rw [pruneStep_LiveNewEdges]
  split_ifs with hc
  · exact h
  · simp only [List.mem_append, List.mem_singleton, not_or]
    rcases hit with hit | hit
    · exact ⟨h, fun he => hit he.symm⟩
    · exact absurd hit hc

theorem pruneStep_fold_live (cutting : ℚ) (l : List (EdgeId × EdgeId)) (st : SplitLoop)
    (e : EdgeId) (h : e ∉ st.LiveNewEdges) (hl : ∀ it ∈ l, it.2 ≠ e) :
    e ∉ (l.foldl (pruneStep cutting) st).LiveNewEdges := by
  induction l generalizing st with
  | nil => exact h
  | cons a t ih =>
    simp only [List.foldl_cons]
    exact ih _ (pruneStep_live cutting st a e h (Or.inl (hl a (List.mem_cons_self _ _))))
      (fun it hit => hl it (List.mem_cons_of_mem _ hit))

/-- The pruning step never adds an edge, an observation or a cheater: an edge that is
gone stays gone. -/
theorem pruneStep_gone {F0 : Nat} (cutting : ℚ) (st : SplitLoop) (it : EdgeId × EdgeId)
    (e : EdgeId) (hi : PruneInv F0 st) (hit : it.2 < st.rr.new_graph.fresh)
    (h : EdgeGone e st.rr) : EdgeGone e (pruneStep cutting st it).rr := by
  obtain ⟨_, h2, h3, _, h5⟩ := pruneStep_inv cutting st it hi hit
  refine ⟨h2 ▸ h.lt, fun r hr => h.edge r (h5 r hr), ?_,
    fun p hp => h.index p (pruneStep_index cutting st it p hp).1,
    fun hx => h.cheat (pruneStep_cheaters cutting st it e hx).1⟩
  intro hty r hr
  exact h.conj (h3 ▸ hty) r (h5 r hr)

theorem pruneStep_fold_gone {F0 : Nat} (cutting : ℚ) (l : List (EdgeId × EdgeId))
    (st : SplitLoop) (e : EdgeId) (hi : PruneInv F0 st)
    (hl : ∀ it ∈ l, it.2 < st.rr.new_graph.fresh) (h : EdgeGone e st.rr) :
    EdgeGone e (l.foldl (pruneStep cutting) st).rr := by
  induction l generalizing st with
  | nil => exact h
  | cons a t ih =>
    simp only [List.foldl_cons]
    have ha := hl a (List.mem_cons_self _ _)
    obtain ⟨h1, h2, _⟩ := pruneStep_inv cutting st a hi ha
    exact ih _ h1 (fun it hit => h2 ▸ hl it (List.mem_cons_of_mem _ hit))
      (pruneStep_gone cutting st a e hi ha h)

/-- The pruning step for an edge `e` created by the split and found below the cutoff
removes `e` from the working graph, the paired index and the global cheater set. -/
theorem pruneStep_cut {F0 : Nat} (cutting : ℚ) (st : SplitLoop) (it : EdgeId × EdgeId)
    (hi : PruneInv F0 st) (hit : it.2 < st.rr.new_graph.fresh) (hF : F0 ≤ it.2)
    (hc : st.rr.new_graph.coverage it.2 < cutting) :
    EdgeGone it.2 (pruneStep cutting st it).rr := by
  have hg := pruneStep_new_graph cutting st it
  rw [if_pos hc] at hg
  obtain ⟨p1, p2, p3, p4, p5, p6, _⟩ := hi.graph.pruned_inv st.rr.rc_mode it.2
  refine ⟨?_, ?_, ?_, fun p hp => (pruneStep_index cutting st it p hp).2 hc,
    fun hx => (pruneStep_cheaters cutting st it it.2 hx).2 hc rfl⟩
  · rw [hg, p2]; exact hit
  · rw [hg]; exact fun r hr => (p5 r hr).2
  · rw [hg]
    intro hty r hr
    exact p6 (p3 ▸ hty) hF r hr

theorem VertexGone.pruneStep_keeps {F0 : Nat} (cutting : ℚ) (st : SplitLoop)
    (it : EdgeId × EdgeId) (x : VertexId) (hi : PruneInv F0 st)
    (hit : it.2 < st.rr.new_graph.fresh) (h : VertexGone x st.rr.new_graph) :
    VertexGone x (pruneStep cutting st it).rr.new_graph := by
  obtain ⟨_, h2, _, h4, _⟩ := pruneStep_inv cutting st it hi hit
  exact ⟨h2 ▸ h.lt, fun r hr => h.vertex r (h4 r hr)⟩

theorem VertexGone.pruneStep_fold_keeps {F0 : Nat} (cutting : ℚ) (l : List (EdgeId × EdgeId))
    (st : SplitLoop) (x : VertexId) (hi : PruneInv F0 st)
    (hl : ∀ it ∈ l, it.2 < st.rr.new_graph.fresh) (h : VertexGone x st.rr.new_graph) :
    VertexGone x (l.foldl (pruneStep cutting) st).rr.new_graph := by
  induction l generalizing st with
  | nil => exact h
  | cons a t ih =>
    simp only [List.foldl_cons]
    have ha := hl a (List.mem_cons_self _ _)
    obtain ⟨h1, h2, _⟩ := pruneStep_inv cutting st a hi ha
    exact ih _ h1 (fun it hit => h2 ▸ hl it (List.mem_cons_of_mem _ hit))
      (VertexGone.pruneStep_keeps cutting st a x hi ha h)

theorem labelStep_fields (cm : Int) (lce : StdMap Int)
    (st : StdMap EdgeId × StdMap Int × StdMap EdgeId × StdSet × Nat) (it : EdgeId × EdgeId) :
    (labelStep cm lce st it).1 = StdMap.put st.1 it.1 it.2
      ∧ ∀ x ∈ (labelStep cm lce st it).2.2.2.1, x ∈ st.2.2.2.1 ∨ x = it.2 := by
  unfold labelStep
  simp only
  by_cases hcm : cm ≠ 0
  · rw [if_pos hcm]
    cases hf : StdMap.find lce it.1 with
    | none => exact ⟨rfl, fun x hx => Or.inl hx⟩
    | some c =>
      simp only
      by_cases hc0 : c = 0
      · rw [if_pos hc0]; exact ⟨rfl, fun x hx => Or.inl hx⟩
      · rw [if_neg hc0]
        refine ⟨rfl, fun x hx => ?_⟩
        simp only at hx
        rcases (StdSet.mem_insert _ _ _).1 hx with hx | hx
        · exact Or.inr hx
        · exact Or.inl hx
  · rw [if_neg hcm]; exact ⟨rfl, fun x hx => Or.inl hx⟩

/-- The label loop enters only new edges of the pairs into `old_to_new_edgeId` and into
the global cheater set. -/
theorem labelStep_fold_fields (cm : Int) (lce : StdMap Int) (l : List (EdgeId × EdgeId))
    (st : StdMap EdgeId × StdMap Int × StdMap EdgeId × StdSet × Nat) :
    (∀ k val, StdMap.find (l.foldl (labelStep cm lce) st).1 k = some val →
        StdMap.find st.1 k = some val ∨ ∃ it ∈ l, val = it.2)
    ∧ ∀ x ∈ (l.foldl (labelStep cm lce) st).2.2.2.1, x ∈ st.2.2.2.1 ∨ ∃ it ∈ l, x = it.2 := by
  induction l generalizing st with
  | nil => exact ⟨fun k val h => Or.inl h, fun x hx => Or.inl hx⟩
  | cons a t ih =>
    simp only [List.foldl_cons]
    obtain ⟨h1, h2⟩ := labelStep_fields cm lce st a
    obtain ⟨i1, i2⟩ := ih (labelStep cm lce st a)
    constructor
    · intro k val hk
      rcases i1 k val hk with hk | ⟨it, hit, hv⟩
      · rw [h1, StdMap.find_put] at hk
        by_cases hak : a.1 = k
        · rw [if_pos hak] at hk
          exact Or.inr ⟨a, List.mem_cons_self _ _, (Option.some.inj hk).symm⟩
        · rw [if_neg hak] at hk
          exact Or.inl hk
      · exact Or.inr ⟨it, List.mem_cons_of_mem _ hit, hv⟩
    · intro x hx
      rcases i2 x hx with hx | ⟨it, hit, hv⟩
      · rcases h2 x hx with hx | hx
        · exact Or.inl hx
        · exact Or.inr ⟨a, List.mem_cons_self _ _, hx⟩
      · exact Or.inr ⟨it, List.mem_cons_of_mem _ hit, hv⟩

/-- The re-keying loop of lines 844-850 keys observations only by values of the map
`old_to_new_edgeId` or by the null edge. -/
theorem replaceStep_fold_index (i : Int) (m : StdMap EdgeId) (l : List (EdgeInfo × Int))
    (data : MixedData) :
    ∀ p ∈ l.foldl (replaceStep i m) data,
      p ∈ data ∨ ∃ k, p.first = StdMap.get m k 0 := by
  induction l generalizing data with
  | nil => exact fun p hp => Or.inl hp
  | cons a t ih =>
    simp only [List.foldl_cons]
    intro p hp
    rcases ih _ p hp with hp | hp
    · unfold replaceStep at hp
      by_cases hc : a.2 = i
      · rw [if_pos hc] at hp
        unfold MixedData.ReplaceFirstEdge at hp
        rcases List.mem_append.1 hp with hp | hp
        · exact Or.inl (List.mem_filter.1 hp).1
        · rw [List.mem_singleton.1 hp]
          exact Or.inr ⟨_, rfl⟩
      · rw [if_neg hc] at hp
        exact Or.inl hp
    · exact Or.inr hp

/-- What the body of the colour loop up to line 850 does to the state. -/
theorem pruneEntry_inv {F0 : Nat} (env : Env) (v : VertexId) (old : StdMap ℚ)
    (cols : List (StdMap ℚ)) (st : SplitLoop) (i : Nat) (h : PruneInv F0 st) :
    PruneInv F0 (pruneEntry env v old cols st i)
      ∧ st.rr.new_graph.fresh ≤ (pruneEntry env v old cols st i).rr.new_graph.fresh
      ∧ (pruneEntry env v old cols st i).rr.new_graph.conjugate_typed
          = st.rr.new_graph.conjugate_typed
      ∧ (pruneEntry env v old cols st i).LiveNewEdges = st.LiveNewEdges
      ∧ (∀ r ∈ (pruneEntry env v old cols st i).rr.new_graph.vertices,
          r ∈ st.rr.new_graph.vertices ∨ st.rr.new_graph.fresh ≤ r.id)
      ∧ (∀ r ∈ (pruneEntry env v old cols st i).rr.new_graph.edges,
          (∃ r0 ∈ st.rr.new_graph.edges, r.id = r0.id ∧ r.conj = r0.conj)
            ∨ (st.rr.new_graph.fresh ≤ r.id ∧ st.rr.new_graph.fresh ≤ r.conj))
      ∧ ((prunePairs env v old cols st i).map Prod.snd).Pairwise (· < ·)
      ∧ (∀ it ∈ prunePairs env v old cols st i,
          st.rr.new_graph.fresh ≤ it.2
            ∧ it.2 < (pruneEntry env v old cols st i).rr.new_graph.fresh)
      ∧ (∀ p ∈ (pruneEntry env v old cols st i).rr.paired_di_data,
          p ∈ st.rr.paired_di_data ∨ p.first = 0
            ∨ ∃ it ∈ prunePairs env v old cols st i, p.first = it.2)
      ∧ ∀ x ∈ (pruneEntry env v old cols st i).rr.global_cheating_edges,
          x ∈ st.rr.global_cheating_edges
            ∨ ∃ it ∈ prunePairs env v old cols st i, x = it.2 := by
  unfold pruneEntry prunePairs
  simp only
  by_cases hg : (splitEdges old (cols.getD i []) st.rr.local_cheating_edges).1.length > 0
      ∧ env.SplitCondition st.rr.new_graph v
          (splitEdges old (cols.getD i []) st.rr.local_cheating_edges).1 = true
  · rw [if_pos hg, if_pos hg]
    simp only
    obtain ⟨s1, s2, s3, s4, s5, s6, s7⟩ := h.graph.splitVertex_inv v
      (splitEdges old (cols.getD i []) st.rr.local_cheating_edges).1
      (splitEdges old (cols.getD i []) st.rr.local_cheating_edges).2.1
    generalize st.rr.new_graph.SplitVertex v
      (splitEdges old (cols.getD i []) st.rr.local_cheating_edges).1
      (splitEdges old (cols.getD i []) st.rr.local_cheating_edges).2.1 = sp at s1 s2 s3 s4 s5 s6 s7
    obtain ⟨m1, m2, m3, m4, m5⟩ := SplitGraphInv.mirrorCoverage_fold sp.2.2 (sp.1, false) s1
    obtain ⟨l1, l2⟩ := labelStep_fold_fields st.rr.cheating_mode
      (splitEdges old (cols.getD i []) st.rr.local_cheating_edges).2.2 sp.2.2
      (([] : StdMap EdgeId), st.OldCopyCnt, st.rr.edge_labels, st.rr.global_cheating_edges,
        st.not_found)
    have hgraph : SplitGraphInv F0
          (if st.rr.rc_mode = true then sp.2.2.foldl mirrorCoverageStep (sp.1, false)
            else (sp.1, false)).1
        ∧ (if st.rr.rc_mode = true then sp.2.2.foldl mirrorCoverageStep (sp.1, false)
            else (sp.1, false)).1.fresh = sp.1.fresh
        ∧ (if st.rr.rc_mode = true then sp.2.2.foldl mirrorCoverageStep (sp.1, false)
            else (sp.1, false)).1.conjugate_typed = sp.1.conjugate_typed
        ∧ (if st.rr.rc_mode = true then sp.2.2.foldl mirrorCoverageStep (sp.1, false)
            else (sp.1, false)).1.vertices = sp.1.vertices
        ∧ ∀ r ∈ (if st.rr.rc_mode = true then sp.2.2.foldl mirrorCoverageStep (sp.1, false)
            else (sp.1, false)).1.edges, ∃ r0 ∈ sp.1.edges, r.id = r0.id ∧ r.conj = r0.conj := by
      by_cases hrc : st.rr.rc_mode = true
      · rw [if_pos hrc]; exact ⟨m1, m2, m3, m4, m5⟩
      · rw [if_neg hrc]; exact ⟨s1, rfl, rfl, rfl, fun r hr => ⟨r, hr, rfl, rfl⟩⟩
    obtain ⟨g1, g2, g3, g4, g5⟩ := hgraph
    refine ⟨⟨g1, ?_⟩, ?_, g3.trans s3, trivial, ?_, ?_, s6, ?_, ?_, ?_⟩
    · intro l hl
      rw [g2]
      exact Nat.lt_of_lt_of_le (h.live l hl) s2
    · rw [g2]; exact s2
    · intro r hr
      rw [g4] at hr
      exact s4 r hr
    · intro r hr
      obtain ⟨r0, hr0, e1, e2⟩ := g5 r hr
      rcases s5 r0 hr0 with hr0 | hr0
      · exact Or.inl ⟨r0, hr0, e1, e2⟩
      · exact Or.inr ⟨e1 ▸ hr0.1, e2 ▸ hr0.2⟩
    · intro it hit
      rw [g2]
      exact s7 it hit
    · intro p hp
      rcases replaceStep_fold_index _ _ _ _ p hp with hp | ⟨k, hk⟩
      · exact Or.inl hp
      · right
        unfold StdMap.get at hk
        cases hf : StdMap.find (sp.2.2.foldl (labelStep st.rr.cheating_mode
            (splitEdges old (cols.getD i []) st.rr.local_cheating_edges).2.2)
            (([] : StdMap EdgeId), st.OldCopyCnt, st.rr.edge_labels,
              st.rr.global_cheating_edges, st.not_found)).1 k with
        | none =>
          rw [hf] at hk
          exact Or.inl hk
        | some val =>
          rw [hf] at hk
          rcases l1 k val hf with hh | ⟨it, hit, hv⟩
          · exact Option.noConfusion hh
          · exact Or.inr ⟨it, hit, hk.trans hv⟩
    · intro x hx
      exact l2 x hx
  · rw [if_neg hg, if_neg hg]
    exact ⟨⟨h.graph, h.live⟩, Nat.le_refl _, rfl, rfl, fun r hr => Or.inl hr,
      fun r hr => Or.inl ⟨r, hr, rfl, rfl⟩, List.Pairwise.nil,
      fun it hit => absurd hit (List.not_mem_nil _), fun p hp => Or.inl hp,
      fun x hx => Or.inl hx⟩

theorem splitColour_inv {F0 : Nat} (env : Env) (v : VertexId) (old : StdMap ℚ)
    (cols : List (StdMap ℚ)) (st : SplitLoop) (i : Nat) (h : PruneInv F0 st) :
    PruneInv F0 (splitColour env v old cols st i)
      ∧ st.rr.new_graph.fresh ≤ (splitColour env v old cols st i).rr.new_graph.fresh := by
  obtain ⟨e1, e2, _, _, _, _, _, e8, _⟩ := pruneEntry_inv env v old cols st i h
  rw [splitColour_eq_prune]
  obtain ⟨f1, f2⟩ := pruneStep_fold_inv (cutting_coverage env.cfg) _ _ e1
    (fun it hit => (e8 it hit).2)
  exact ⟨f1, f2 ▸ e2⟩

theorem splitColour_fold_inv {F0 : Nat} (env : Env) (v : VertexId) (old : StdMap ℚ)
    (cols : List (StdMap ℚ)) (l : List Nat) (st : SplitLoop) (h : PruneInv F0 st) :
    PruneInv F0 (l.foldl (splitColour env v old cols) st)
      ∧ st.rr.new_graph.fresh ≤ (l.foldl (splitColour env v old cols) st).rr.new_graph.fresh := by
  induction l generalizing st with
  | nil => exact ⟨h, Nat.le_refl _⟩
  | cons a t ih =>
    simp only [List.foldl_cons]
    obtain ⟨h1, h2⟩ := splitColour_inv env v old cols st a h
    obtain ⟨i1, i2⟩ := ih _ h1
    exact ⟨i1, Nat.le_trans h2 i2⟩

/-- A later colour of the split loop does not bring back an edge that is gone: what
it adds to graph, index and cheater set carries identifiers from the counter on. -/
theorem splitColour_gone {F0 : Nat} (env : Env) (v : VertexId) (old : StdMap ℚ)
    (cols : List (StdMap ℚ)) (st : SplitLoop) (i : Nat) (e : EdgeId) (h : PruneInv F0 st)
    (he0 : e ≠ 0) (hg : EdgeGone e st.rr) (hl : e ∉ st.LiveNewEdges) :
    EdgeGone e (splitColour env v old cols st i).rr
      ∧ e ∉ (splitColour env v old cols st i).LiveNewEdges := by
  obtain ⟨e1, e2, e3, e4, _, e6, _, e8, e9, e10⟩ := pruneEntry_inv env v old cols st i h
  have hne : ∀ it ∈ prunePairs env v old cols st i, it.2 ≠ e := by
    intro it hit hie
    have := (e8 it hit).1
    rw [hie] at this
    exact absurd hg.lt (Nat.not_lt.2 this)
  have hentry : EdgeGone e (pruneEntry env v old cols st i).rr := by
    refine ⟨Nat.lt_of_lt_of_le hg.lt e2, ?_, ?_, ?_, ?_⟩
    · intro r hr hre
      rcases e6 r hr with ⟨r0, hr0, h1, _⟩ | ⟨h1, _⟩
      · exact hg.edge r0 hr0 (h1 ▸ hre)
      · rw [hre] at h1
        exact absurd hg.lt (Nat.not_lt.2 h1)
    · intro hty r hr hre
      rcases e6 r hr with ⟨r0, hr0, _, h2⟩ | ⟨_, h2⟩
      · exact hg.conj (e3 ▸ hty) r0 hr0 (h2 ▸ hre)
      · rw [hre] at h2
        exact absurd hg.lt (Nat.not_lt.2 h2)
    · intro p hp hpe
      rcases e9 p hp with hp | hp | ⟨it, hit, hp⟩
      · exact hg.index p hp hpe
      · exact he0 (hpe ▸ hp)
      · exact hne it hit (hp ▸ hpe)
    · intro hx
      rcases e10 e hx with hx | ⟨it, hit, hx⟩
      · exact hg.cheat hx
      · exact hne it hit hx.symm
  rw [splitColour_eq_prune]
  exact ⟨pruneStep_fold_gone (cutting_coverage env.cfg) _ _ e e1
      (fun it hit => (e8 it hit).2) hentry,
    pruneStep_fold_live (cutting_coverage env.cfg) _ _ e (e4 ▸ hl) hne⟩

theorem splitColour_fold_gone {F0 : Nat} (env : Env) (v : VertexId) (old : StdMap ℚ)
    (cols : List (StdMap ℚ)) (l : List Nat) (st : SplitLoop) (e : EdgeId)
    (h : PruneInv F0 st) (he0 : e ≠ 0) (hg : EdgeGone e st.rr) (hl : e ∉ st.LiveNewEdges) :
    EdgeGone e (l.foldl (splitColour env v old cols) st).rr
      ∧ e ∉ (l.foldl (splitColour env v old cols) st).LiveNewEdges := by
  induction l generalizing st with
  | nil => exact ⟨hg, hl⟩
  | cons a t ih =>
    simp only [List.foldl_cons]
    obtain ⟨h1, h2⟩ := splitColour_gone env v old cols st a e h he0 hg hl
    exact ih _ (splitColour_inv env v old cols st a h).1 h1 h2

theorem VertexGone.splitColour_keeps {F0 : Nat} (env : Env) (v : VertexId) (old : StdMap ℚ)
    (cols : List (StdMap ℚ)) (st : SplitLoop) (i : Nat) (x : VertexId) (h : PruneInv F0 st)
    (hg : VertexGone x st.rr.new_graph) :
    VertexGone x (splitColour env v old cols st i).rr.new_graph := by
  obtain ⟨e1, e2, _, _, e5, _, _, e8, _⟩ := pruneEntry_inv env v old cols st i h
  rw [splitColour_eq_prune]
  apply VertexGone.pruneStep_fold_keeps (cutting_coverage env.cfg) _ _ x e1
    (fun it hit => (e8 it hit).2)
  refine ⟨Nat.lt_of_lt_of_le hg.lt e2, ?_⟩
  intro r hr hrx
  rcases e5 r hr with hr | hr
  · exact hg.vertex r hr hrx
  · rw [hrx] at hr
    exact absurd hg.lt (Nat.not_lt.2 hr)

theorem VertexGone.splitColour_fold_keeps {F0 : Nat} (env : Env) (v : VertexId)
    (old : StdMap ℚ) (cols : List (StdMap ℚ)) (l : List Nat) (st : SplitLoop) (x : VertexId)
    (h : PruneInv F0 st) (hg : VertexGone x st.rr.new_graph) :
    VertexGone x (l.foldl (splitColour env v old cols) st).rr.new_graph := by
  induction l generalizing st with
  | nil => exact hg
  | cons a t ih =>
    simp only [List.foldl_cons]
    exact ih _ (splitColour_inv env v old cols st a h).1
      (VertexGone.splitColour_keeps env v old cols st a x h hg)

theorem EdgeGone.conj_wrap_ne {e : EdgeId} {rr : RepeatResolver} (h : EdgeGone e rr)
    (l : EdgeId) (hl : l ≠ e) : conj_wrap_edge rr.new_graph l ≠ e := by
  unfold conj_wrap_edge
  by_cases hty : rr.new_graph.conjugate_typed = true
  · rw [if_pos hty]
    unfold Graph.conjugateE
    cases hf : rr.new_graph.edge l with
    | none => exact hl
    | some r => exact h.conj hty r (Graph.edge_some _ _ _ hf).1
  · rw [if_neg hty]
    exact hl

theorem ReplaceFirstEdge_fold_index (k : EdgeId) (l : List PairInfo) (data : MixedData) :
    ∀ p ∈ l.foldl (fun data p => MixedData.ReplaceFirstEdge data p k) data,
      p ∈ data ∨ p.first = k := by
  induction l generalizing data with
  | nil => exact fun p hp => Or.inl hp
  | cons a t ih =>
    simp only [List.foldl_cons]
    intro p hp
    rcases ih _ p hp with hp | hp
    · unfold MixedData.ReplaceFirstEdge at hp
      rcases List.mem_append.1 hp with hp | hp
      · exact Or.inl (List.mem_filter.1 hp).1
      · rw [List.mem_singleton.1 hp]
        exact Or.inr rfl
    · exact Or.inr hp

theorem processCheaterStep_new_graph (cnt : StdMap Int) (rr : RepeatResolver)
    (live : EdgeId × EdgeId) : (processCheaterStep cnt rr live).new_graph = rr.new_graph := by
  unfold processCheaterStep
  simp only
  split_ifs <;> rfl

theorem processCheaterStep_gone (cnt : StdMap Int) (rr : RepeatResolver)
    (live : EdgeId × EdgeId) (e : EdgeId) (h : EdgeGone e rr) (hl : live.1 ≠ e) :
    EdgeGone e (processCheaterStep cnt rr live) := by
  have hne := h.conj_wrap_ne live.1 hl
  unfold processCheaterStep
  simp only
  by_cases h1 : StdMap.get cnt live.2 0 > 1
  · rw [if_pos h1]
    refine ⟨h.lt, h.edge, h.conj, h.index, ?_⟩
    intro hx
    rcases (StdSet.mem_insert _ _ _).1 hx with hx | hx
    · exact hne hx.symm
    · exact h.cheat hx
  · rw [if_neg h1]
    by_cases h2 : StdMap.get cnt live.2 0 = 1
    · rw [if_pos h2]
      by_cases h3 : conj_wrap_edge rr.new_graph live.1 ≠ live.1
      · rw [if_pos h3]
        refine ⟨h.lt, h.edge, h.conj, ?_, h.cheat⟩
        intro p hp hpe
        rcases ReplaceFirstEdge_fold_index _ _ _ p hp with hp | hp
        · exact h.index p hp hpe
        · exact hne (hp ▸ hpe)
      · rw [if_neg h3]
        exact ⟨h.lt, h.edge, h.conj, h.index, h.cheat⟩
    · rw [if_neg h2]
      exact h

theorem processCheaterStep_fold_gone (cnt : StdMap Int) (l : List (EdgeId × EdgeId))
    (rr : RepeatResolver) (e : EdgeId) (h : EdgeGone e rr) (hl : ∀ live ∈ l, live.1 ≠ e) :
    EdgeGone e (l.foldl (processCheaterStep cnt) rr)
      ∧ (l.foldl (processCheaterStep cnt) rr).new_graph = rr.new_graph := by
  induction l generalizing rr with
  | nil => exact ⟨h, rfl⟩
  | cons a t ih =>
    simp only [List.foldl_cons]
    obtain ⟨i1, i2⟩ := ih _ (processCheaterStep_gone cnt rr a e h (hl a (List.mem_cons_self _ _)))
      (fun live hlive => hl live (List.mem_cons_of_mem _ hlive))
    exact ⟨i1, i2.trans (processCheaterStep_new_graph cnt rr a)⟩

theorem cleanupStep_fold_gone (l : List EdgeId) (rr : RepeatResolver) (e : EdgeId)
    (h : EdgeGone e rr) : EdgeGone e (l.foldl cleanupStep rr) := by
  induction l generalizing rr with
  | nil => exact h
  | cons a t ih =>
    simp only [List.foldl_cons]
    apply ih
    unfold cleanupStep
    simp only
    split_ifs
    · refine ⟨h.lt, h.edge, h.conj, ?_, ?_⟩
      · intro p hp
        unfold MixedData.DeleteEdgeInfo at hp
        exact h.index p (List.mem_filter.1 (List.mem_filter.1 hp).1).1
      · intro hx
        unfold StdSet.erase at hx
        exact h.cheat (List.mem_filter.1 (List.mem_filter.1 hx).1).1
    · refine ⟨h.lt, h.edge, h.conj, ?_, ?_⟩
      · intro p hp
        unfold MixedData.DeleteEdgeInfo at hp
        exact h.index p (List.mem_filter.1 hp).1
      · intro hx
        unfold StdSet.erase at hx
        exact h.cheat (List.mem_filter.1 hx).1

theorem SplitGraphInv.deleteEdge_fold_inv {F0 : Nat} (l : List EdgeId) (g : Graph)
    (h : SplitGraphInv F0 g) :
    SplitGraphInv F0 (l.foldl Graph.DeleteEdge g)
      ∧ (l.foldl Graph.DeleteEdge g).vertices = g.vertices
      ∧ (l.foldl Graph.DeleteEdge g).conjugate_typed = g.conjugate_typed
      ∧ (l.foldl Graph.DeleteEdge g).fresh = g.fresh
      ∧ ∀ r ∈ (l.foldl Graph.DeleteEdge g).edges, r ∈ g.edges := by
  induction l generalizing g with
  | nil => exact ⟨h, rfl, rfl, rfl, fun r hr => hr⟩
  | cons a t ih =>
    simp only [List.foldl_cons]
    obtain ⟨d1, d2, d3, d4, _⟩ := h.deleteEdge_inv a
    obtain ⟨i1, i2, i3, i4, i5⟩ := ih _ d1
    exact ⟨i1, i2.trans d2, i3.trans d3, i4.trans (Graph.DeleteEdge_fresh g a),
      fun r hr => (d4 r (i5 r hr)).1⟩

/-- The forced delete of `v` adds nothing to the graph. -/
theorem SplitGraphInv.forceDelete_inv {F0 : Nat} {g : Graph} (h : SplitGraphInv F0 g)
    (v : VertexId) :
    (g.ForceDeleteVertex v).fresh = g.fresh
      ∧ (g.ForceDeleteVertex v).conjugate_typed = g.conjugate_typed
      ∧ (∀ r ∈ (g.ForceDeleteVertex v).vertices, r ∈ g.vertices)
      ∧ ∀ r ∈ (g.ForceDeleteVertex v).edges, r ∈ g.edges := by
  unfold Graph.ForceDeleteVertex
  simp only
  obtain ⟨d1, d2, d3, d4, d5⟩ := SplitGraphInv.deleteEdge_fold_inv
    (g.OutgoingEdges v ++ g.IncomingEdges v) g h
  obtain ⟨v1, v2, v3, v4, v5⟩ := d1.deleteVertex_inv v
  refine ⟨v3.trans d4, v4.trans d3, ?_, ?_⟩
  · intro r hr
    rw [← d2]
    exact (v5 r hr).1
  · intro r hr
    rw [v2] at hr
    exact d5 r hr

theorem List.range_split (i n : Nat) (h : i < n) :
    ∃ rest, List.range n = List.range i ++ i :: rest := by
  induction n with
  | zero => exact absurd h (Nat.not_lt_zero _)
  | succ m ih =>
    rw [List.range_succ]
    rcases Nat.lt_succ_iff_lt_or_eq.1 h with hlt | heq
    · obtain ⟨rest, hr⟩ := ih hlt
      exact ⟨rest ++ [m], by rw [hr]; simp⟩
    · exact ⟨[], by rw [heq]⟩

/-- The part of `MultiSplit` behind the colour loop does not bring back an edge that is
gone and is not recorded as live. -/
theorem splitFinish_gone {F0 : Nat} (v : VertexId) (incident : List EdgeId) (sl : SplitLoop)
    (e : EdgeId) (h : PruneInv F0 sl) (hg : EdgeGone e sl.rr) (hl : e ∉ sl.LiveNewEdges) :
    EdgeGone e (splitFinish v incident sl) := by
  have h3 : EdgeGone e (if sl.rr.rc_mode then
        (sl.LiveNewEdges.zip sl.LiveProtoEdges).foldl (processCheaterStep sl.OldCopyCnt) sl.rr
      else sl.rr)
      ∧ (if sl.rr.rc_mode then
        (sl.LiveNewEdges.zip sl.LiveProtoEdges).foldl (processCheaterStep sl.OldCopyCnt) sl.rr
      else sl.rr).new_graph = sl.rr.new_graph := by
    by_cases hrc : sl.rr.rc_mode = true
    · rw [if_pos hrc]
      apply processCheaterStep_fold_gone _ _ _ e hg
      intro live hlive hle
      exact hl (hle ▸ (List.of_mem_zip hlive).1)
    · rw [if_neg hrc]
      exact ⟨hg, rfl⟩
  have h4 := cleanupStep_fold_gone incident _ e h3.1
  have hgr := (cleanupStep_fold_new_graph incident (if sl.rr.rc_mode then
        (sl.LiveNewEdges.zip sl.LiveProtoEdges).foldl (processCheaterStep sl.OldCopyCnt) sl.rr
      else sl.rr)).trans h3.2
  have hinv : SplitGraphInv F0 (incident.foldl cleanupStep (if sl.rr.rc_mode then
        (sl.LiveNewEdges.zip sl.LiveProtoEdges).foldl (processCheaterStep sl.OldCopyCnt) sl.rr
      else sl.rr)).new_graph := by
    rw [hgr]; exact h.graph
  obtain ⟨f1, f2, _, f4⟩ := hinv.forceDelete_inv v
  unfold splitFinish
  simp only
  exact ⟨f1 ▸ h4.lt, fun r hr => h4.edge r (f4 r hr),
    fun hty r hr => h4.conj (f2 ▸ hty) r (f4 r hr), h4.index, h4.cheat⟩

theorem VertexGone.splitFinish_keeps {F0 : Nat} (v : VertexId) (incident : List EdgeId)
    (sl : SplitLoop) (x : VertexId) (h : PruneInv F0 sl)
    (hg : VertexGone x sl.rr.new_graph) :
    VertexGone x (splitFinish v incident sl).new_graph := by
  have h3 : (if sl.rr.rc_mode then
        (sl.LiveNewEdges.zip sl.LiveProtoEdges).foldl (processCheaterStep sl.OldCopyCnt) sl.rr
      else sl.rr).new_graph = sl.rr.new_graph := by
    by_cases hrc : sl.rr.rc_mode = true
    · rw [if_pos hrc]
      generalize sl.LiveNewEdges.zip sl.LiveProtoEdges = l
      generalize sl.rr = rr
      induction l generalizing rr with
      | nil => rfl
      | cons a t ih =>
        simp only [List.foldl_cons]
        rw [ih, processCheaterStep_new_graph]
    · rw [if_neg hrc]
  have hgr := (cleanupStep_fold_new_graph incident (if sl.rr.rc_mode then
        (sl.LiveNewEdges.zip sl.LiveProtoEdges).foldl (processCheaterStep sl.OldCopyCnt) sl.rr
      else sl.rr)).trans h3
  unfold splitFinish
  simp only
  rw [hgr]
  obtain ⟨f1, _, f3, _⟩ := h.graph.forceDelete_inv v
  exact ⟨f1 ▸ hg.lt, fun r hr => hg.vertex r (f3 r hr)⟩

/-- The state of the split loop when colour `i` is entered satisfies the invariant. -/
theorem splitLoopAt_inv (env : Env) (rr1 : RepeatResolver) (edgeCounts : StdMap Int)
    (k : Int) (v : VertexId) (i : Nat) (h0 : AllocatedBelow rr1.new_graph) :
    PruneInv rr1.new_graph.fresh (splitLoopAt env rr1 edgeCounts k v i) := by
  unfold splitLoopAt
  apply (splitColour_fold_inv env v _ _ (List.range i) _ _).1
  exact ⟨h0.split_init, fun l hl => absurd hl (List.not_mem_nil _)⟩

/-- The heart of the pruning claim: an edge that the pruning loop of colour `i` finds
below the cutoff is gone when the split phase returns, and so is each endpoint that the
loop finds without incident edge right after the deletion. -/
theorem splitPhase_pruned (env : Env) (rr1 : RepeatResolver) (edgeCounts : StdMap Int)
    (k : Int) (v : VertexId) (i : Nat) (p q : List (EdgeId × EdgeId)) (it : EdgeId × EdgeId)
    (h0 : AllocatedBelow rr1.new_graph) (hi : i < k.toNat)
    (hpairs : prunePairs env v (splitCoverage rr1 edgeCounts k).1
        (splitCoverage rr1 edgeCounts k).2 (splitLoopAt env rr1 edgeCounts k v i) i
      = p ++ it :: q)
    (hlow : (pruneStateAt env rr1 edgeCounts k v i p).rr.new_graph.coverage it.2
      < cutting_coverage env.cfg) :
    EdgeGone it.2 (splitPhase env rr1 edgeCounts k v).1
    ∧ (((pruneStateAt env rr1 edgeCounts k v i p).rr.new_graph.DeleteEdge it.2).IncomingEdgeCount
          ((pruneStateAt env rr1 edgeCounts k v i p).rr.new_graph.EdgeStart it.2)
        + ((pruneStateAt env rr1 edgeCounts k v i p).rr.new_graph.DeleteEdge
            it.2).OutgoingEdgeCount
          ((pruneStateAt env rr1 edgeCounts k v i p).rr.new_graph.EdgeStart it.2) = 0 →
        VertexGone ((pruneStateAt env rr1 edgeCounts k v i p).rr.new_graph.EdgeStart it.2)
          (splitPhase env rr1 edgeCounts k v).1.new_graph)
    ∧ ((if (pruneStateAt env rr1 edgeCounts k v i p).rr.rc_mode then
            decide ((pruneStateAt env rr1 edgeCounts k v i p).rr.new_graph.EdgeStart it.2
              = (pruneStateAt env rr1 edgeCounts k v i p).rr.new_graph.EdgeEnd it.2)
            || decide ((pruneStateAt env rr1 edgeCounts k v i p).rr.new_graph.EdgeStart it.2
              = conj_wrap_vertex
                  ((pruneStateAt env rr1 edgeCounts k v i p).rr.new_graph.DeleteEdge it.2)
                  ((pruneStateAt env rr1 edgeCounts k v i p).rr.new_graph.EdgeEnd it.2))
          else decide ((pruneStateAt env rr1 edgeCounts k v i p).rr.new_graph.EdgeStart it.2
              = (pruneStateAt env rr1 edgeCounts k v i p).rr.new_graph.EdgeEnd it.2)) = false →
        ((pruneStateAt env rr1 edgeCounts k v i p).rr.new_graph.DeleteEdge it.2).IncomingEdgeCount
          ((pruneStateAt env rr1 edgeCounts k v i p).rr.new_graph.EdgeEnd it.2)
        + ((pruneStateAt env rr1 edgeCounts k v i p).rr.new_graph.DeleteEdge
            it.2).OutgoingEdgeCount
          ((pruneStateAt env rr1 edgeCounts k v i p).rr.new_graph.EdgeEnd it.2) = 0 →
        VertexGone ((pruneStateAt env rr1 edgeCounts k v i p).rr.new_graph.EdgeEnd it.2)
          (splitPhase env rr1 edgeCounts k v).1.new_graph) := by
  have hsti := splitLoopAt_inv env rr1 edgeCounts k v i h0
  obtain ⟨e1, e2, _, e4, _, _, e7, e8, _⟩ := pruneEntry_inv env v
    (splitCoverage rr1 edgeCounts k).1 (splitCoverage rr1 edgeCounts k).2
    (splitLoopAt env rr1 edgeCounts k v i) i hsti
  rw [hpairs] at e7 e8
  have hit := e8 it (by simp)
  have hF : rr1.new_graph.fresh ≤ it.2 := Nat.le_trans hsti.graph.fresh_ge hit.1
  have he0 : it.2 ≠ 0 := by
    intro hz
    have := Nat.lt_of_lt_of_le hsti.graph.fresh_pos hit.1
    rw [hz] at this
    exact Nat.lt_irrefl _ this
  rw [List.map_append, List.map_cons, List.pairwise_append, List.pairwise_cons] at e7
  obtain ⟨_, ⟨hq, _⟩, hpq⟩ := e7
  have hp_ne : ∀ it2 ∈ p, it2.2 ≠ it.2 := by
    intro it2 h2 heq
    have := hpq it2.2 (List.mem_map_of_mem _ h2) it.2 (List.mem_cons_self _ _)
    rw [heq] at this
    exact Nat.lt_irrefl _ this
  have hq_ne : ∀ it2 ∈ q, it2.2 ≠ it.2 := by
    intro it2 h2 heq
    have := hq it2.2 (List.mem_map_of_mem _ h2)
    rw [heq] at this
    exact Nat.lt_irrefl _ this
  -- the state in which the edge is tested
  have hstp : PruneInv rr1.new_graph.fresh (pruneStateAt env rr1 edgeCounts k v i p)
      ∧ (pruneStateAt env rr1 edgeCounts k v i p).rr.new_graph.fresh
          = (pruneEntry env v (splitCoverage rr1 edgeCounts k).1
              (splitCoverage rr1 edgeCounts k).2
              (splitLoopAt env rr1 edgeCounts k v i) i).rr.new_graph.fresh :=
    pruneStep_fold_inv (cutting_coverage env.cfg) p _ e1
      (fun it2 h2 => (e8 it2 (List.mem_append_left _ h2)).2)
  have hlive_entry : it.2 ∉ (pruneEntry env v (splitCoverage rr1 edgeCounts k).1
      (splitCoverage rr1 edgeCounts k).2
      (splitLoopAt env rr1 edgeCounts k v i) i).LiveNewEdges := by
    rw [e4]
    intro hin
    exact absurd (hsti.live _ hin) (Nat.not_lt.2 hit.1)
  have hlive_p : it.2 ∉ (pruneStateAt env rr1 edgeCounts k v i p).LiveNewEdges :=
    pruneStep_fold_live (cutting_coverage env.cfg) p _ it.2 hlive_entry hp_ne
  have hit_lt : it.2 < (pruneStateAt env rr1 edgeCounts k v i p).rr.new_graph.fresh := by
    rw [hstp.2]; exact hit.2
  -- the step that deletes the edge
  obtain ⟨s1, s2, _⟩ := pruneStep_inv (cutting_coverage env.cfg)
    (pruneStateAt env rr1 edgeCounts k v i p) it hstp.1 hit_lt
  have hgone1 := pruneStep_cut (cutting_coverage env.cfg)
    (pruneStateAt env rr1 edgeCounts k v i p) it hstp.1 hit_lt hF hlow
  have hlive1 := pruneStep_live (cutting_coverage env.cfg)
    (pruneStateAt env rr1 edgeCounts k v i p) it it.2 hlive_p (Or.inr hlow)
  have hq_lt : ∀ it2 ∈ q, it2.2 < (pruneStep (cutting_coverage env.cfg)
      (pruneStateAt env rr1 edgeCounts k v i p) it).rr.new_graph.fresh := by
    intro it2 h2
    rw [s2, hstp.2]
    exact (e8 it2 (List.mem_append_right _ (List.mem_cons_of_mem _ h2))).2
  -- the rest of colour `i`
  have hcol : splitColour env v (splitCoverage rr1 edgeCounts k).1
      (splitCoverage rr1 edgeCounts k).2 (splitLoopAt env rr1 edgeCounts k v i) i
      = q.foldl (pruneStep (cutting_coverage env.cfg))
          (pruneStep (cutting_coverage env.cfg) (pruneStateAt env rr1 edgeCounts k v i p) it) := by
    rw [splitColour_eq_prune, hpairs, List.foldl_append, List.foldl_cons]
    rfl
  obtain ⟨rest, hrest⟩ := List.range_split i k.toNat hi
  have hloop : splitLoopAt env rr1 edgeCounts k v k.toNat
      = rest.foldl (splitColour env v (splitCoverage rr1 edgeCounts k).1
          (splitCoverage rr1 edgeCounts k).2)
        (q.foldl (pruneStep (cutting_coverage env.cfg))
          (pruneStep (cutting_coverage env.cfg) (pruneStateAt env rr1 edgeCounts k v i p) it)) := by
    rw [← hcol]
    unfold splitLoopAt
    rw [hrest, List.foldl_append, List.foldl_cons]
  have hinv2 := (pruneStep_fold_inv (cutting_coverage env.cfg) q _ s1 hq_lt).1
  have hgone2 := pruneStep_fold_gone (cutting_coverage env.cfg) q _ it.2 s1 hq_lt hgone1
  have hlive2 := pruneStep_fold_live (cutting_coverage env.cfg) q _ it.2 hlive1 hq_ne
  obtain ⟨hgone3, hlive3⟩ := splitColour_fold_gone env v (splitCoverage rr1 edgeCounts k).1
    (splitCoverage rr1 edgeCounts k).2 rest _ it.2 hinv2 he0 hgone2 hlive2
  have hinv3 := (splitColour_fold_inv env v (splitCoverage rr1 edgeCounts k).1
    (splitCoverage rr1 edgeCounts k).2 rest _ hinv2).1
  rw [← hloop] at hgone3 hlive3 hinv3
  -- a vertex gone after the step stays gone
  have hvert : ∀ x, VertexGone x (pruneStep (cutting_coverage env.cfg)
      (pruneStateAt env rr1 edgeCounts k v i p) it).rr.new_graph →
      VertexGone x (splitPhase env rr1 edgeCounts k v).1.new_graph := by
    intro x hx
    have h2 := VertexGone.pruneStep_fold_keeps (cutting_coverage env.cfg) q _ x s1 hq_lt hx
    have h3 := VertexGone.splitColour_fold_keeps env v (splitCoverage rr1 edgeCounts k).1
      (splitCoverage rr1 edgeCounts k).2 rest _ x hinv2 h2
    rw [← hloop] at h3
    rw [splitPhase_loopAt]
    exact VertexGone.splitFinish_keeps v _ _ x hinv3 h3
  have hg := pruneStep_new_graph (cutting_coverage env.cfg)
    (pruneStateAt env rr1 edgeCounts k v i p) it
  rw [if_pos hlow] at hg
  obtain ⟨_, _, _, _, _, _, p7, p8⟩ := hstp.1.graph.pruned_inv
    (pruneStateAt env rr1 edgeCounts k v i p).rr.rc_mode it.2
  have hends := Graph.EdgeStart_lt hstp.1.graph it.2
  refine ⟨?_, ?_, ?_⟩
  · rw [splitPhase_loopAt]
    exact splitFinish_gone v _ _ it.2 hinv3 hgone3 hlive3
  · intro hiso
    apply hvert
    refine ⟨s2 ▸ hends.1, ?_⟩
    rw [hg]
    exact p7 hiso
  · intro hsame hiso
    apply hvert
    refine ⟨s2 ▸ hends.2, ?_⟩
    rw [hg]
    exact p8 hsame hiso

theorem copyVertex_verify (old : Graph) (st : VertexCopy) (v : VertexId) :
    (copyVertex false old st v).verify_failed = st.verify_failed := by
  unfold copyVertex
  simp only [Bool.false_and, Bool.false_eq_true, if_false]
  split_ifs <;> rfl

theorem ctorVertexCopy_verify (old new0 : Graph) :
    (ctorVertexCopy false old new0).verify_failed = false := by
  unfold ctorVertexCopy
  simp only
  generalize old.vertexIds.foldl StdSet.insert [] = l
  have h : ∀ (l : List Nat) (st : VertexCopy),
      (l.foldl (copyVertex false old) st).verify_failed = st.verify_failed := by
    intro l
    induction l with
    | nil => intro st; rfl
    | cons a t ih =>
      intro st
      simp only [List.foldl_cons]
      rw [ih, copyVertex_verify]
  rw [h]

theorem copyEdge_verify (old : Graph) (st : EdgeCopy) (e : EdgeId) :
    (copyEdge false old st e).verify_failed = st.verify_failed := by
  unfold copyEdge WrappedSetCoverage
  simp only [Bool.false_and, Bool.false_eq_true, if_false, if_true, Bool.or_false]

theorem ctorEdgeCopy_verify (old new0 : Graph) :
    (ctorEdgeCopy false old new0).verify_failed = false := by
  unfold ctorEdgeCopy
  simp only
  generalize old.edgeIds.foldl StdSet.insert [] = l
  have h : ∀ (l : List Nat) (st : EdgeCopy),
      (l.foldl (copyEdge false old) st).verify_failed = st.verify_failed := by
    intro l
    induction l with
    | nil => intro st; rfl
    | cons a t ih =>
      intro st
      simp only [List.foldl_cons]
      rw [ih, copyEdge_verify]
  rw [h]
  exact ctorVertexCopy_verify old new0

theorem pruneStep_verify (cutting : ℚ) (st : SplitLoop) (it : EdgeId × EdgeId)
    (hrc : st.rr.rc_mode = false) :
    (pruneStep cutting st it).rr.verify_failed = st.rr.verify_failed := by
  unfold pruneStep
  simp only [hrc, Bool.false_and, Bool.or_false]
  split_ifs <;> rfl

theorem pruneStep_fold_verify (cutting : ℚ) (l : List (EdgeId × EdgeId)) (st : SplitLoop)
    (hrc : st.rr.rc_mode = false) :
    (l.foldl (pruneStep cutting) st).rr.verify_failed = st.rr.verify_failed := by
  induction l generalizing st with
  | nil => rfl
  | cons a t ih =>
    simp only [List.foldl_cons]
    rw [ih _ ((pruneStep_rc_mode cutting st a).trans hrc), pruneStep_verify cutting st a hrc]

theorem splitColour_verify (env : Env) (v : VertexId) (old : StdMap ℚ)
    (cols : List (StdMap ℚ)) (st : SplitLoop) (i : Nat) (hrc : st.rr.rc_mode = false) :
    (splitColour env v old cols st i).rr.verify_failed = st.rr.verify_failed := by
  rw [splitColour_eq_prune, pruneStep_fold_verify]
  · unfold pruneEntry
    simp only [hrc, Bool.false_eq_true, if_false, Bool.or_false]
    split_ifs <;> rfl
  · unfold pruneEntry
    simp only
    split_ifs <;> exact hrc

theorem splitColour_fold_verify (env : Env) (v : VertexId) (old : StdMap ℚ)
    (cols : List (StdMap ℚ)) (l : List Nat) (st : SplitLoop) (hrc : st.rr.rc_mode = false) :
    (l.foldl (splitColour env v old cols) st).rr.verify_failed = st.rr.verify_failed := by
  induction l generalizing st with
  | nil => rfl
  | cons a t ih =>
    simp only [List.foldl_cons]
    rw [ih _ ((splitColour_rc_mode env v old cols st a).trans hrc),
      splitColour_verify env v old cols st a hrc]

theorem cleanupStep_fold_verify (l : List EdgeId) (rr : RepeatResolver)
    (hrc : rr.rc_mode = false) : (l.foldl cleanupStep rr).verify_failed = rr.verify_failed := by
  induction l generalizing rr with
  | nil => rfl
  | cons a t ih =>
    simp only [List.foldl_cons]
    have h1 : (cleanupStep rr a).rc_mode = false := by
      unfold cleanupStep; simp only; split_ifs <;> exact hrc
    have h2 : (cleanupStep rr a).verify_failed = rr.verify_failed := by
      unfold cleanupStep
      simp only [hrc, Bool.false_eq_true, if_false]
    rw [ih _ h1, h2]

theorem splitPhase_verify (env : Env) (rr1 : RepeatResolver) (edgeCounts : StdMap Int)
    (k : Int) (v : VertexId) (hrc : rr1.rc_mode = false) :
    (splitPhase env rr1 edgeCounts k v).1.verify_failed = rr1.verify_failed := by
  rw [splitPhase_loopAt]
  have hrc2 : (splitLoopAt env rr1 edgeCounts k v k.toNat).rr.rc_mode = false := by
    unfold splitLoopAt
    rw [splitColour_fold_rc_mode]
    exact hrc
  have hv2 : (splitLoopAt env rr1 edgeCounts k v k.toNat).rr.verify_failed
      = rr1.verify_failed := by
    unfold splitLoopAt
    rw [splitColour_fold_verify _ _ _ _ _ _ hrc]
    rfl
  unfold splitFinish
  simp only [hrc2, Bool.false_eq_true, if_false]
  rw [cleanupStep_fold_verify _ _ hrc2, hv2]

/-- In non-conjugate mode `MultiSplit` never runs into the abort of `conj_wrap`. -/
theorem MultiSplit_verify (env : Env) (rr : RepeatResolver) (v : VertexId)
    (hrc : rr.rc_mode = false) :
    (MultiSplit env rr v).1.verify_failed = rr.verify_failed := by
  rcases MultiSplit_cases env rr v with h | ⟨_, _, h⟩ | ⟨infos, cols, ec, k, h⟩
  · rw [h]
  · rw [h]
  · rw [h]
    exact splitPhase_verify env { rr with edge_infos := infos, edge_info_colors := cols } ec k v
      hrc

theorem resolveVertexStep_verify (env : Env) (st r : RepeatResolver × Bool) (v : VertexId)
    (hrc : st.1.rc_mode = false) (h : resolveVertexStep env st v = some r) :
    r.1.verify_failed = st.1.verify_failed := by
  rcases resolveVertexStep_cases env st v with h1 | ⟨rr2, b, hu, h1⟩ | ⟨rr2, b, hu, h1⟩
  · rw [h1] at h; rw [← Option.some.inj h]
  · rw [h1] at h; rw [← Option.some.inj h]; exact hu.verify_failed
  · rw [h1] at h; rw [← Option.some.inj h]
    exact (MultiSplit_verify env rr2 v (hu.rc_mode.trans hrc)).trans hu.verify_failed

theorem sweep_fold_verify (env : Env) (l : List VertexId) (st s : RepeatResolver × Bool)
    (hrc : st.1.rc_mode = false) (h : l.foldlM (resolveVertexStep env) st = some s) :
    s.1.verify_failed = st.1.verify_failed ∧ s.1.rc_mode = false := by
  induction l generalizing st with
  | nil =>
    simp only [List.foldlM_nil] at h
    rw [← Option.some.inj h]
    exact ⟨rfl, hrc⟩
  | cons a t ih =>
    simp only [List.foldlM_cons] at h
    obtain ⟨r, hr, _⟩ := resolveVertexStep_flag env st a
    rw [hr] at h
    simp only [Option.some_bind, Option.bind_eq_bind] at h
    have h1 := resolveVertexStep_verify env st r a hrc hr
    have h2 := (resolveVertexStep_rc_mode env st r a hr).trans hrc
    obtain ⟨i1, i2⟩ := ih r h2 h
    exact ⟨i1.trans h1, i2⟩

theorem sweepLoop_verify (env : Env) (fuel : Nat) (rr last : RepeatResolver)
    (hrc : rr.rc_mode = false) (h : sweepLoop env fuel rr = some last) :
    last.verify_failed = rr.verify_failed ∧ last.rc_mode = false := by
  induction fuel generalizing rr with
  | zero => simp only [sweepLoop] at h; cases h
  | succ n ih =>
    obtain ⟨r, hr, _⟩ := sweep_flag env rr
    obtain ⟨rr1, changed⟩ := r
    have hs : rr1.verify_failed = rr.verify_failed ∧ rr1.rc_mode = false := by
      unfold sweep at hr
      exact sweep_fold_verify env _ (rr, false) (rr1, changed) hrc hr
    simp only [sweepLoop, hr] at h
    cases changed with
    | true =>
      simp only [if_true] at h
      obtain ⟨i1, i2⟩ := ih rr1 hs.2 h
      exact ⟨i1.trans hs.1, i2⟩
    | false =>
      simp only [Bool.false_eq_true, if_false] at h
      rw [← Option.some.inj h]
      exact hs

theorem modeLoop_verify (env : Env) (fuel : Nat) (modes : List Nat) (rr result : RepeatResolver)
    (hrc : rr.rc_mode = false) (h : modeLoop env fuel modes rr = some result) :
    result.verify_failed = rr.verify_failed ∧ result.rc_mode = false := by
  induction modes generalizing rr with
  | nil =>
    simp only [modeLoop] at h
    rw [← Option.some.inj h]
    exact ⟨rfl, hrc⟩
  | cons m rest ih =>
    simp only [modeLoop] at h
    cases hs : sweepLoop env fuel { rr with cheating_mode := (m : Int) } with
    | none => rw [hs] at h; cases h
    | some rr1 =>
      rw [hs] at h
      simp only at h
      obtain ⟨s1, s2⟩ := sweepLoop_verify env fuel { rr with cheating_mode := (m : Int) } rr1 hrc hs
      obtain ⟨i1, i2⟩ := ih rr1 s2 h
      exact ⟨i1.trans s1, i2⟩

theorem CopyInv.pruneStep_copy {F0 : Nat} (cutting : ℚ) (st : SplitLoop)
    (it : EdgeId × EdgeId) (hi : PruneInv F0 st) (hit : it.2 < st.rr.new_graph.fresh)
    (hF : F0 ≤ it.2) (h : CopyInv F0 st) : CopyInv F0 (pruneStep cutting st it) := by
  obtain ⟨_, _, _, _, h5⟩ := pruneStep_inv cutting st it hi hit
  refine ⟨fun r hr => h.edges r (h5 r hr), ?_⟩
  rw [pruneStep_LiveNewEdges]
  intro l hl
  split_ifs at hl
  · exact h.live l hl
  · rcases List.mem_append.1 hl with hl | hl
    · exact h.live l hl
    · rw [List.mem_singleton.1 hl]; exact hF

theorem CopyInv.pruneStep_fold_copy {F0 : Nat} (cutting : ℚ) (l : List (EdgeId × EdgeId))
    (st : SplitLoop) (hi : PruneInv F0 st)
    (hl : ∀ it ∈ l, F0 ≤ it.2 ∧ it.2 < st.rr.new_graph.fresh) (h : CopyInv F0 st) :
    CopyInv F0 (l.foldl (pruneStep cutting) st) := by
  induction l generalizing st with
  | nil => exact h
  | cons a t ih =>
    simp only [List.foldl_cons]
    have ha := hl a (List.mem_cons_self _ _)
    obtain ⟨h1, h2, _⟩ := pruneStep_inv cutting st a hi ha.2
    exact ih _ h1 (fun it hit => h2 ▸ hl it (List.mem_cons_of_mem _ hit))
      (CopyInv.pruneStep_copy cutting st a hi ha.2 ha.1 h)

theorem CopyInv.splitColour_copy {F0 : Nat} (env : Env) (v : VertexId) (old : StdMap ℚ)
    (cols : List (StdMap ℚ)) (st : SplitLoop) (i : Nat) (hi : PruneInv F0 st)
    (h : CopyInv F0 st) : CopyInv F0 (splitColour env v old cols st i) := by
  obtain ⟨e1, _, _, e4, _, e6, _, e8, _⟩ := pruneEntry_inv env v old cols st i hi
  rw [splitColour_eq_prune]
  apply CopyInv.pruneStep_fold_copy _ _ _ e1
  · intro it hit
    exact ⟨Nat.le_trans hi.graph.fresh_ge (e8 it hit).1, (e8 it hit).2⟩
  · refine ⟨?_, ?_⟩
    · intro r hr
      rcases e6 r hr with ⟨r0, hr0, h1, h2⟩ | ⟨h1, h2⟩
      · rw [h1, h2]; exact h.edges r0 hr0
      · exact Or.inr ⟨Nat.le_trans hi.graph.fresh_ge h1, Nat.le_trans hi.graph.fresh_ge h2⟩
    · rw [e4]; exact h.live

theorem CopyInv.splitColour_fold_copy {F0 : Nat} (env : Env) (v : VertexId) (old : StdMap ℚ)
    (cols : List (StdMap ℚ)) (l : List Nat) (st : SplitLoop) (hi : PruneInv F0 st)
    (h : CopyInv F0 st) : CopyInv F0 (l.foldl (splitColour env v old cols) st) := by
  induction l generalizing st with
  | nil => exact h
  | cons a t ih =>
    simp only [List.foldl_cons]
    exact ih _ (splitColour_inv env v old cols st a hi).1
      (CopyInv.splitColour_copy env v old cols st a hi h)

theorem splitLoopAt_copy (env : Env) (rr1 : RepeatResolver) (edgeCounts : StdMap Int)
    (k : Int) (v : VertexId) (i : Nat) (h0 : AllocatedBelow rr1.new_graph) :
    CopyInv rr1.new_graph.fresh (splitLoopAt env rr1 edgeCounts k v i) := by
  unfold splitLoopAt
  apply CopyInv.splitColour_fold_copy env v _ _ (List.range i) _
  · exact ⟨h0.split_init, fun l hl => absurd hl (List.not_mem_nil _)⟩
  · exact ⟨fun r hr => Or.inl ⟨h0.ids r hr, h0.conjs r hr⟩,
      fun l hl => absurd hl (List.not_mem_nil _)⟩

/-- The value of `conj_wrap` on an edge is older than the split or created by it, as
the edge is. -/
theorem CopyInv.conj_wrap_side {F0 : Nat} {st : SplitLoop} (h : CopyInv F0 st) (e : EdgeId) :
    (e < F0 → conj_wrap_edge st.rr.new_graph e < F0)
      ∧ (F0 ≤ e → F0 ≤ conj_wrap_edge st.rr.new_graph e) := by
  unfold conj_wrap_edge
  by_cases hty : st.rr.new_graph.conjugate_typed = true
  · rw [if_pos hty]
    unfold Graph.conjugateE
    cases hf : st.rr.new_graph.edge e with
    | none => exact ⟨fun h => h, fun h => h⟩
    | some r =>
      obtain ⟨hr, hid⟩ := Graph.edge_some _ _ _ hf
      rcases h.edges r hr with ⟨h1, h2⟩ | ⟨h1, h2⟩
      · exact ⟨fun _ => h2, fun hc => absurd (hid ▸ h1) (Nat.not_lt.2 hc)⟩
      · exact ⟨fun hc => absurd hc (Nat.not_lt.2 (hid ▸ h1)), fun _ => h2⟩
  · rw [if_neg hty]
    exact ⟨fun h => h, fun h => h⟩

theorem processCheaterStep_cheaters_mono (cnt : StdMap Int) (rr : RepeatResolver)
    (live : EdgeId × EdgeId) (x : EdgeId) (hx : x ∈ rr.global_cheating_edges) :
    x ∈ (processCheaterStep cnt rr live).global_cheating_edges := by
  unfold processCheaterStep
  simp only
  split_ifs
  · exact (StdSet.mem_insert _ _ _).2 (Or.inr hx)
  · exact hx
  · exact hx
  · exact hx

theorem processCheaterStep_fold_cheaters_mono (cnt : StdMap Int) (l : List (EdgeId × EdgeId))
    (rr : RepeatResolver) (x : EdgeId) (hx : x ∈ rr.global_cheating_edges) :
    x ∈ (l.foldl (processCheaterStep cnt) rr).global_cheating_edges := by
  induction l generalizing rr with
  | nil => exact hx
  | cons a t ih =>
    simp only [List.foldl_cons]
    exact ih _ (processCheaterStep_cheaters_mono cnt rr a x hx)

/-- The loop of lines 927-948 enters the conjugate of every live copy whose original has
more than one live copy into the global cheater set. -/
theorem processCheaterStep_fold_marks (cnt : StdMap Int) (l : List (EdgeId × EdgeId))
    (rr : RepeatResolver) (live : EdgeId × EdgeId) (hl : live ∈ l)
    (hc : StdMap.get cnt live.2 0 > 1) :
    conj_wrap_edge rr.new_graph live.1
      ∈ (l.foldl (processCheaterStep cnt) rr).global_cheating_edges := by
  induction l generalizing rr with
  | nil => exact absurd hl (List.not_mem_nil _)
  | cons a t ih =>
    simp only [List.foldl_cons]
    rcases List.mem_cons.1 hl with hl | hl
    · apply processCheaterStep_fold_cheaters_mono
      rw [← hl]
      unfold processCheaterStep
      simp only
      rw [if_pos hc]
      exact (StdSet.mem_insert _ _ _).2 (Or.inl rfl)
    · have := ih (processCheaterStep cnt rr a) hl
      rw [processCheaterStep_new_graph] at this
      exact this

theorem cleanupStep_fold_keeps (l : List EdgeId) (rr : RepeatResolver) (x : EdgeId)
    (hx : x ∈ rr.global_cheating_edges)
    (hne : ∀ e ∈ l, x ≠ e ∧ x ≠ conj_wrap_edge rr.new_graph e) :
    x ∈ (l.foldl cleanupStep rr).global_cheating_edges := by
  induction l generalizing rr with
  | nil => exact hx
  | cons a t ih =>
    simp only [List.foldl_cons]
    have hg : (cleanupStep rr a).new_graph = rr.new_graph := by
      unfold cleanupStep; simp only; split_ifs <;> rfl
    apply ih
    · have ha := hne a (List.mem_cons_self _ _)
      unfold cleanupStep
      simp only
      split_ifs
      · unfold StdSet.erase
        exact List.mem_filter.2 ⟨List.mem_filter.2 ⟨hx, decide_eq_true ha.1⟩,
          decide_eq_true ha.2⟩
      · unfold StdSet.erase
        exact List.mem_filter.2 ⟨hx, decide_eq_true ha.1⟩
    · intro e he
      rw [hg]
      exact hne e (List.mem_cons_of_mem _ he)

theorem processCheaterStep_fold_gone_graph (cnt : StdMap Int) (l : List (EdgeId × EdgeId))
    (rr : RepeatResolver) :
    (l.foldl (processCheaterStep cnt) rr).new_graph = rr.new_graph := by
  induction l generalizing rr with
  | nil => rfl
  | cons a t ih =>
    simp only [List.foldl_cons]
    rw [ih, processCheaterStep_new_graph]

theorem splitGuards_split_calls (env : Env) (rr : RepeatResolver) (v : VertexId)
    (rr1 : RepeatResolver) (edgeCounts : StdMap Int) (k : Int)
    (h : splitGuards env rr v = some (rr1, edgeCounts, k)) :
    rr1.split_calls = rr.split_calls := by
  unfold splitGuards at h
  simp only at h
  split_ifs at h
  split at h
  · exact Option.noConfusion h
  · split_ifs at h
    have h4 := Option.some.inj h
    cases h4
    rfl

theorem pruneStep_res (cutting : ℚ) (st : SplitLoop) (it : EdgeId × EdgeId) :
    (pruneStep cutting st it).res = st.res
      ∧ (pruneStep cutting st it).low_coverage
          = (if st.rr.new_graph.coverage it.2 < cutting then st.low_coverage + 1
             else st.low_coverage) := by
  unfold pruneStep
  simp only
  by_cases hc : st.rr.new_graph.coverage it.2 < cutting
  · rw [if_pos hc, if_pos hc]
    exact ⟨rfl, rfl⟩
  · rw [if_neg hc, if_neg hc]
    exact ⟨rfl, rfl⟩

theorem ResInv.pruneStep_resinv {F0 c0 : Nat} (cutting : ℚ) (st : SplitLoop)
    (it : EdgeId × EdgeId) (hi : PruneInv F0 st) (hit : it.2 < st.rr.new_graph.fresh)
    (h : ResInv F0 c0 st) : ResInv F0 c0 (pruneStep cutting st it) := by
  obtain ⟨_, _, _, h4, _⟩ := pruneStep_inv cutting st it hi hit
  obtain ⟨r1, r2⟩ := pruneStep_res cutting st it
  have hg := pruneStep_new_graph cutting st it
  refine ⟨?_, ?_, ?_, fun r hr => h.vold r (h4 r hr)⟩
  · rw [r1, (pruneStep_split_calls cutting st it).1]; exact h.calls
  · rw [r1]; exact h.created
  · rw [r1, r2, hg]
    by_cases hc : st.rr.new_graph.coverage it.2 < cutting
    · rw [if_pos hc]
      intro hz
      exact absurd hz (Nat.succ_ne_zero _)
    · rw [if_neg hc, if_neg hc]
      exact h.present

theorem ResInv.pruneStep_fold_resinv {F0 c0 : Nat} (cutting : ℚ) (l : List (EdgeId × EdgeId))
    (st : SplitLoop) (hi : PruneInv F0 st) (hl : ∀ it ∈ l, it.2 < st.rr.new_graph.fresh)
    (h : ResInv F0 c0 st) : ResInv F0 c0 (l.foldl (pruneStep cutting) st) := by
  induction l generalizing st with
  | nil => exact h
  | cons a t ih =>
    simp only [List.foldl_cons]
    have ha := hl a (List.mem_cons_self _ _)
    obtain ⟨h1, h2, _⟩ := pruneStep_inv cutting st a hi ha
    exact ih _ h1 (fun it hit => h2 ▸ hl it (List.mem_cons_of_mem _ hit))
      (ResInv.pruneStep_resinv cutting st a hi ha h)

theorem Graph.SplitVertex_vertices {F0 : Nat} {g : Graph} (h : SplitGraphInv F0 g)
    (v : VertexId) (es : List EdgeId) (cs : List ℚ) :
    (∀ r ∈ g.vertices, r ∈ (g.SplitVertex v es cs).1.vertices)
      ∧ g.fresh ∈ (g.SplitVertex v es cs).1.vertexIds := by
  obtain ⟨a1, _, _, _⟩ := h.addVertex_inv
  have hf := Graph.AddVertex_fresh g
  have hnv : g.AddVertex.2 < g.AddVertex.1.fresh := by
    rw [Graph.AddVertex_snd]; exact hf
  obtain ⟨_, _, _, i4, _⟩ := SplitGraphInv.cloneEdge_fold_inv v g.AddVertex.2
    (es.zip cs) (g.AddVertex.1, []) g.fresh a1 hnv (by simp) (by simp) (Nat.le_of_lt hf)
  have hv : (g.SplitVertex v es cs).1.vertices = g.AddVertex.1.vertices := by
    unfold Graph.SplitVertex
    simp only
    exact i4
  unfold Graph.vertexIds
  rw [hv]
  unfold Graph.AddVertex
  split_ifs
  · exact ⟨fun r hr => List.mem_append_left _ hr,
      List.mem_map.2 ⟨⟨g.fresh, g.fresh + 1⟩, by simp, rfl⟩⟩
  · exact ⟨fun r hr => List.mem_append_left _ hr,
      List.mem_map.2 ⟨⟨g.fresh, g.fresh⟩, by simp, rfl⟩⟩

/-- What the body of the colour loop up to line 850 does to `res`, to the trace of
`SplitVertex` calls and to the vertices. -/
theorem pruneEntry_res {F0 : Nat} (env : Env) (v : VertexId) (old : StdMap ℚ)
    (cols : List (StdMap ℚ)) (st : SplitLoop) (i : Nat) (h : PruneInv F0 st) :
    (∀ r ∈ st.rr.new_graph.vertices, r ∈ (pruneEntry env v old cols st i).rr.new_graph.vertices)
      ∧ (pruneEntry env v old cols st i).low_coverage = st.low_coverage
      ∧ (((pruneEntry env v old cols st i).res = st.res
            ∧ (pruneEntry env v old cols st i).rr.split_calls = st.rr.split_calls)
          ∨ ((pruneEntry env v old cols st i).res = st.res ++ [st.rr.new_graph.fresh]
            ∧ (pruneEntry env v old cols st i).rr.split_calls.length
                = st.rr.split_calls.length + 1
            ∧ st.rr.new_graph.fresh
                ∈ (pruneEntry env v old cols st i).rr.new_graph.vertexIds)) := by
  unfold pruneEntry
  simp only
  by_cases hg : (splitEdges old (cols.getD i []) st.rr.local_cheating_edges).1.length > 0
      ∧ env.SplitCondition st.rr.new_graph v
          (splitEdges old (cols.getD i []) st.rr.local_cheating_edges).1 = true
  · rw [if_pos hg]
    simp only
    obtain ⟨s1, _⟩ := h.graph.splitVertex_inv v
      (splitEdges old (cols.getD i []) st.rr.local_cheating_edges).1
      (splitEdges old (cols.getD i []) st.rr.local_cheating_edges).2.1
    obtain ⟨v1, v2⟩ := Graph.SplitVertex_vertices h.graph v
      (splitEdges old (cols.getD i []) st.rr.local_cheating_edges).1
      (splitEdges old (cols.getD i []) st.rr.local_cheating_edges).2.1
    have hnv := (Graph.SplitVertex_fresh st.rr.new_graph v
      (splitEdges old (cols.getD i []) st.rr.local_cheating_edges).1
      (splitEdges old (cols.getD i []) st.rr.local_cheating_edges).2.1).1
    generalize st.rr.new_graph.SplitVertex v
      (splitEdges old (cols.getD i []) st.rr.local_cheating_edges).1
      (splitEdges old (cols.getD i []) st.rr.local_cheating_edges).2.1 = sp at s1 v1 v2 hnv
    obtain ⟨_, _, _, m4, _⟩ := SplitGraphInv.mirrorCoverage_fold sp.2.2 (sp.1, false) s1
    have hvert : (if st.rr.rc_mode = true then sp.2.2.foldl mirrorCoverageStep (sp.1, false)
            else (sp.1, false)).1.vertices = sp.1.vertices := by
      by_cases hrc : st.rr.rc_mode = true
      · rw [if_pos hrc]; exact m4
      · rw [if_neg hrc]
    refine ⟨?_, trivial, Or.inr ⟨?_, ?_, ?_⟩⟩
    · intro r hr
      rw [hvert]
      exact v1 r hr
    · rw [hnv]
    · simp
    · unfold Graph.vertexIds at v2 ⊢
      rw [hvert]
      exact v2
  · rw [if_neg hg]
    exact ⟨fun r hr => hr, rfl, Or.inl ⟨rfl, rfl⟩⟩

theorem ResInv.splitColour_resinv {F0 c0 : Nat} (env : Env) (v : VertexId) (old : StdMap ℚ)
    (cols : List (StdMap ℚ)) (st : SplitLoop) (i : Nat) (hi : PruneInv F0 st)
    (h : ResInv F0 c0 st) : ResInv F0 c0 (splitColour env v old cols st i) := by
  obtain ⟨e1, _, _, _, e5, _, _, e8, _⟩ := pruneEntry_inv env v old cols st i hi
  obtain ⟨p1, p2, p3⟩ := pruneEntry_res env v old cols st i hi
  rw [splitColour_eq_prune]
  apply ResInv.pruneStep_fold_resinv _ _ _ e1 (fun it hit => (e8 it hit).2)
  have hvold : ∀ r ∈ (pruneEntry env v old cols st i).rr.new_graph.vertices,
      r.id < F0 → r.conj < F0 := by
    intro r hr hlt
    rcases e5 r hr with hr | hr
    · exact h.vold r hr hlt
    · exact absurd hlt (Nat.not_lt.2 (Nat.le_trans hi.graph.fresh_ge hr))
  have hkeep : ∀ x ∈ st.rr.new_graph.vertexIds,
      x ∈ (pruneEntry env v old cols st i).rr.new_graph.vertexIds := by
    intro x hx
    unfold Graph.vertexIds at hx ⊢
    obtain ⟨r, hr, hrx⟩ := List.mem_map.1 hx
    exact List.mem_map.2 ⟨r, p1 r hr, hrx⟩
  rcases p3 with ⟨q1, q2⟩ | ⟨q1, q2, q3⟩
  · refine ⟨?_, ?_, ?_, hvold⟩
    · rw [q1, q2]; exact h.calls
    · rw [q1]; exact h.created
    · rw [q1, p2]
      intro hz x hx
      exact hkeep x (h.present hz x hx)
  · refine ⟨?_, ?_, ?_, hvold⟩
    · rw [q1, q2, List.length_append, List.length_singleton, ← h.calls]
      omega
    · rw [q1]
      intro x hx
      rcases List.mem_append.1 hx with hx | hx
      · exact h.created x hx
      · rw [List.mem_singleton.1 hx]; exact hi.graph.fresh_ge
    · rw [q1, p2]
      intro hz x hx
      rcases List.mem_append.1 hx with hx | hx
      · exact hkeep x (h.present hz x hx)
      · rw [List.mem_singleton.1 hx]; exact q3

theorem ResInv.splitColour_fold_resinv {F0 c0 : Nat} (env : Env) (v : VertexId) (old : StdMap ℚ)
    (cols : List (StdMap ℚ)) (l : List Nat) (st : SplitLoop) (hi : PruneInv F0 st)
    (h : ResInv F0 c0 st) : ResInv F0 c0 (l.foldl (splitColour env v old cols) st) := by
  induction l generalizing st with
  | nil => exact h
  | cons a t ih =>
    simp only [List.foldl_cons]
    exact ih _ (splitColour_inv env v old cols st a hi).1
      (ResInv.splitColour_resinv env v old cols st a hi h)

theorem splitLoopAt_res (env : Env) (rr1 : RepeatResolver) (edgeCounts : StdMap Int)
    (k : Int) (v : VertexId) (i : Nat) (h0 : AllocatedBelow rr1.new_graph) :
    ResInv rr1.new_graph.fresh rr1.split_calls.length
      (splitLoopAt env rr1 edgeCounts k v i) := by
  unfold splitLoopAt
  apply ResInv.splitColour_fold_resinv env v _ _ (List.range i) _
  · exact ⟨h0.split_init, fun l hl => absurd hl (List.not_mem_nil _)⟩
  · refine ⟨?_, fun x hx => absurd hx (List.not_mem_nil _),
      fun _ x hx => absurd hx (List.not_mem_nil _), fun r hr _ => h0.vconj r hr⟩
    simp [recolourLoop]

/-- The forced delete of `v` keeps every vertex that the split created. -/
theorem Graph.ForceDeleteVertex_keeps_new {F0 : Nat} {g : Graph} (h : SplitGraphInv F0 g)
    (hvold : ∀ r ∈ g.vertices, r.id < F0 → r.conj < F0) (v x : VertexId) (hv : v < F0)
    (hx : F0 ≤ x) (hin : x ∈ g.vertexIds) : x ∈ (g.ForceDeleteVertex v).vertexIds := by
  unfold Graph.ForceDeleteVertex
  simp only
  obtain ⟨_, d2, _⟩ := SplitGraphInv.deleteEdge_fold_inv
    (g.OutgoingEdges v ++ g.IncomingEdges v) g h
  generalize (g.OutgoingEdges v ++ g.IncomingEdges v).foldl Graph.DeleteEdge g = g1 at d2
  unfold Graph.vertexIds at hin ⊢
  obtain ⟨r, hr, hrx⟩ := List.mem_map.1 hin
  refine List.mem_map.2 ⟨r, ?_, hrx⟩
  have hne : r.id ≠ v := by
    rw [hrx]; intro he; rw [he] at hx; exact absurd hv (Nat.not_lt.2 hx)
  have hconj : r.id ≠ g1.conjugateV v := by
    rw [hrx]
    intro he
    have hlt : g1.conjugateV v < F0 := by
      unfold Graph.conjugateV Graph.vertex
      rw [d2]
      cases hf : g.vertices.find? (fun r => decide (r.id = v)) with
      | none => exact hv
      | some r2 =>
        have hm := List.mem_of_find?_eq_some hf
        have hid : r2.id = v := by simpa using List.find?_some hf
        exact hvold r2 hm (hid ▸ hv)
    rw [← he] at hlt
    exact absurd hlt (Nat.not_lt.2 hx)
  unfold Graph.DeleteVertex
  split_ifs
  · simp only
    rw [d2]
    exact List.mem_filter.2 ⟨hr, decide_eq_true ⟨hne, hconj⟩⟩
  · simp only
    rw [d2]
    exact List.mem_filter.2 ⟨hr, decide_eq_true hne⟩

theorem splitFinish_graph_calls (v : VertexId) (incident : List EdgeId) (sl : SplitLoop) :
    (splitFinish v incident sl).new_graph = sl.rr.new_graph.ForceDeleteVertex v
      ∧ (splitFinish v incident sl).split_calls = sl.rr.split_calls := by
  unfold splitFinish
  simp only
  rw [cleanupStep_fold_new_graph, cleanupStep_fold_split_calls]
  by_cases hrc : sl.rr.rc_mode = true
  · rw [if_pos hrc, processCheaterStep_fold_split_calls]
    rw [processCheaterStep_fold_gone_graph]
    exact ⟨rfl, rfl⟩
  · rw [if_neg hrc]
    exact ⟨rfl, rfl⟩

theorem getD_set_same (l : List Int) (i : Nat) (a d : Int) (h : i < l.length) :
    (l.set i a).getD i d = a := by
  simp [List.getD_eq_getElem?_getD, List.getElem?_set, h]

theorem getD_set_other (l : List Int) (i j : Nat) (a d : Int) (h : i ≠ j) :
    (l.set i a).getD j d = l.getD j d := by
  simp [List.getD_eq_getElem?_getD, List.getElem?_set, h]

theorem lt_length_of_uncoloured (l : List Int) (i : Nat) (h : l.getD i 0 = -1) :
    i < l.length := by
  by_contra hn
  rw [List.getD_eq_default _ _ (Nat.le_of_not_lt hn)] at h
  exact absurd h (by decide)

theorem ColourExt.ext_refl (c : Int) (col : List Int) : ColourExt c col col :=
  ⟨rfl, fun _ _ => rfl, fun _ h => Or.inl h⟩

theorem ColourExt.ext_trans {c : Int} {col col2 col3 : List Int} (hc : c > -1)
    (h1 : ColourExt c col col2) (h2 : ColourExt c col2 col3) : ColourExt c col col3 := by
  refine ⟨h2.length.trans h1.length, ?_, ?_⟩
  · intro x hx
    have := h1.keep x hx
    rw [h2.keep x (by rw [this]; exact hx), this]
  · intro x hx
    rcases h1.fresh x hx with h | h
    · exact h2.fresh x h
    · right
      rw [h2.keep x (by rw [h]; omega), h]

theorem ColourExt.ext_set (c : Int) (col : List Int) (v : Nat) (h : col.getD v 0 = -1) :
    ColourExt c col (col.set v c) := by
  refine ⟨List.length_set _ _ _, ?_, ?_⟩
  · intro x hx
    have hne : v ≠ x := by intro he; rw [he] at h; exact hx h
    exact getD_set_other col v x c 0 hne
  · intro x hx
    by_cases he : v = x
    · right
      rw [← he]
      exact getD_set_same col v c 0 (lt_length_of_uncoloured col v h)
    · left
      rw [getD_set_other col v x c 0 he]
      exact hx

theorem Frontier.frontier_ext {edge_list : List (List Nat)} {c : Int} {col col2 : List Int}
    (hc : c > -1) (h : Frontier edge_list c col) (he : ColourExt c col col2) :
    Frontier edge_list c col2 := by
  intro x y hy hx
  have hx0 : col.getD x 0 = -1 ∨ col.getD x 0 = c := by
    by_cases hu : col.getD x 0 = -1
    · exact Or.inl hu
    · right
      have hk := he.keep x hu
      rw [hk] at hx
      rcases hx with hx | hx
      · exact absurd hx hu
      · exact hx
  rcases h x y hy hx0 with hy0 | hy0
  · exact he.fresh y hy0
  · right
    rw [he.keep y (by rw [hy0]; omega), hy0]

/-- The walk `dfs` started at an uncoloured index `v` with colour `c`: it returns, never
takes the conflict branch, extends the colouring with `c` only, colours `v`, and every
index it colours is reachable from `v` and has all its neighbours coloured `c`. -/
theorem dfs_spec (edge_list : List (List Nat)) (c : Int) (hc : c > -1) (fuel : Nat) :
    ∀ (col : List Int) (b : Bool) (v : Nat),
      (∀ i j, j ∈ edge_list.getD i [] → j < col.length) →
      col.getD v 0 = -1 → Frontier edge_list c col →
      fuel > (col.set v c).countP (fun x => decide (x ≤ -1)) →
      ∃ r, dfs fuel edge_list (col, b) v c = some r ∧ r.2 = b ∧ ColourExt c col r.1
        ∧ r.1.getD v 0 = c
        ∧ (∀ x, col.getD x 0 = -1 → r.1.getD x 0 = c →
            (∀ y ∈ edge_list.getD x [], r.1.getD y 0 = c) ∧ Reach edge_list v x)
        ∧ r.1.countP (fun x => decide (x ≤ -1))
            ≤ (col.set v c).countP (fun x => decide (x ≤ -1)) := by
  induction fuel with
  | zero => intro col b v _ _ _ hf; omega
  | succ f ih =>
    intro col b v hr hv hfr hfuel
    have hvlt := lt_length_of_uncoloured col v hv
    have hset := ColourExt.ext_set c col v hv
    have hv0 : (col.set v c).getD v 0 = c := getD_set_same col v c 0 hvlt
    unfold dfs
    suffices h : ∀ (nb : List Nat) (st : List Int × Bool),
        (∀ y ∈ nb, y ∈ edge_list.getD v []) →
        st.2 = b → ColourExt c (col.set v c) st.1 →
        (∀ x, x ≠ v → col.getD x 0 = -1 → st.1.getD x 0 = c →
            (∀ y ∈ edge_list.getD x [], st.1.getD y 0 = c) ∧ Reach edge_list v x) →
        st.1.countP (fun x => decide (x ≤ -1))
          ≤ (col.set v c).countP (fun x => decide (x ≤ -1)) →
        ∃ r, nb.foldlM
            (fun (st : List Int × Bool) (n : Nat) =>
              if st.1.getD n 0 > -1 then
                if st.1.getD n 0 ≠ c then some (st.1, true) else some st
              else if n ≠ v then dfs f edge_list st n c
              else some st) st = some r
          ∧ r.2 = b ∧ ColourExt c (col.set v c) r.1
          ∧ (∀ x, x ≠ v → col.getD x 0 = -1 → r.1.getD x 0 = c →
              (∀ y ∈ edge_list.getD x [], r.1.getD y 0 = c) ∧ Reach edge_list v x)
          ∧ r.1.countP (fun x => decide (x ≤ -1))
              ≤ (col.set v c).countP (fun x => decide (x ≤ -1))
          ∧ ColourExt c st.1 r.1
          ∧ ∀ y ∈ nb, r.1.getD y 0 = c by
      obtain ⟨r, h1, h2, h3, h4, h5, _, h7⟩ := h (edge_list.getD v []) (col.set v c, b)
        (fun y hy => hy) rfl (ColourExt.ext_refl c _)
        (fun x hx hu hcx => by
          rw [getD_set_other col v x c 0 (Ne.symm hx), hu] at hcx
          omega)
        (Nat.le_refl _)
      have hrv : r.1.getD v 0 = c := by
        rw [h3.keep v (by rw [hv0]; omega), hv0]
      refine ⟨r, h1, h2, ColourExt.ext_trans hc hset h3, hrv, ?_, h5⟩
      intro x hu hcx
      by_cases hx : x = v
      · rw [hx]
        exact ⟨h7, Relation.ReflTransGen.refl⟩
      · exact h4 x hx hu hcx
    intro nb
    induction nb with
    | nil =>
      intro st _ h2 h3 h4 h5
      exact ⟨st, rfl, h2, h3, h4, h5, ColourExt.ext_refl c _, fun y hy => absurd hy (List.not_mem_nil _)⟩
    | cons n t iht =>
      intro st hsub h2 h3 h4 h5
      have hn : n ∈ edge_list.getD v [] := hsub n (List.mem_cons_self _ _)
      have hsub2 : ∀ y ∈ t, y ∈ edge_list.getD v [] :=
        fun y hy => hsub y (List.mem_cons_of_mem _ hy)
      have hfst : Frontier edge_list c st.1 :=
        (hfr.frontier_ext hc hset).frontier_ext hc h3
      have hstv : st.1.getD v 0 = c := by
        rw [h3.keep v (by rw [hv0]; omega), hv0]
      have hnc := hfst v n hn (Or.inr hstv)
      simp only [List.foldlM_cons]
      by_cases hcol : st.1.getD n 0 > -1
      · have hnc2 : st.1.getD n 0 = c := by
          rcases hnc with h | h
          · omega
          · exact h
        rw [if_pos hcol, if_neg (not_not.2 hnc2)]
        simp only [Option.some_bind, Option.bind_eq_bind]
        obtain ⟨r, g1, g2, g3, g4, g5, g6, g7⟩ := iht st hsub2 h2 h3 h4 h5
        refine ⟨r, g1, g2, g3, g4, g5, g6, ?_⟩
        intro y hy
        rcases List.mem_cons.1 hy with hy | hy
        · rw [hy, g6.keep n (by rw [hnc2]; omega), hnc2]
        · exact g7 y hy
      · have hnu : st.1.getD n 0 = -1 := by
          rcases hnc with h | h
          · exact h
          · omega
        have hnv : n ≠ v := by
          intro he
          rw [he, hstv] at hnu
          omega
        rw [if_neg hcol, if_pos hnv]
        have hlt := countP_set_lt st.1 n c hc hcol
        have hlen : st.1.length = col.length := by
          rw [h3.length, List.length_set]
        obtain ⟨r, hr1, hr2, hr3, hr4, hr5, hr6⟩ := ih st.1 st.2 n
          (fun i j hj => by rw [hlen]; exact hr i j hj) hnu hfst (by omega)
        have hst : (st.1, st.2) = st := rfl
        rw [hst] at hr1
        rw [hr1]
        simp only [Option.some_bind, Option.bind_eq_bind]
        have hle := countP_set_le st.1 n c hc
        obtain ⟨r2, g1, g2, g3, g4, g5, g6, g7⟩ := iht r hsub2 (hr2.trans h2)
          (ColourExt.ext_trans hc h3 hr3)
          (fun x hx hu hcx => by
            have hsx : st.1.getD x 0 = -1 ∨ st.1.getD x 0 = c := by
              apply h3.fresh x
              rw [getD_set_other col v x c 0 (Ne.symm hx)]
              exact hu
            rcases hsx with hsx | hsx
            · obtain ⟨q1, q2⟩ := hr5 x hsx hcx
              exact ⟨q1, Relation.ReflTransGen.head hn q2⟩
            · obtain ⟨q1, q2⟩ := h4 x hx hu hsx
              refine ⟨fun y hy => ?_, q2⟩
              rw [hr3.keep y (by rw [q1 y hy]; omega), q1 y hy])
          (by omega)
        refine ⟨r2, g1, g2, g3, g4, g5, ColourExt.ext_trans hc hr3 g6, ?_⟩
        intro y hy
        rcases List.mem_cons.1 hy with hy | hy
        · rw [hy, g6.keep n (by rw [hr4]; omega), hr4]
        · exact g7 y hy

theorem Labelled.frontier {edge_list : List (List Nat)} {n : Nat} {col : List Int} {c : Int}
    (h : Labelled edge_list n col c)
    (hrange : ∀ i j, j ∈ edge_list.getD i [] → j < n)
    (hsym : ∀ i j, j ∈ edge_list.getD i [] → i ∈ edge_list.getD j []) :
    Frontier edge_list c col := by
  intro x y hy hx
  have hxy := hsym x y hy
  have hxn := hrange y x hxy
  have hxu : col.getD x 0 = -1 := by
    rcases hx with hx | hx
    · exact hx
    · rcases h.range x hxn with h1 | h1
      · exact h1
      · omega
  left
  by_contra hyu
  have := h.closed y x (hrange x y hy) hxy hyu
  rw [hxu] at this
  exact hyu this.symm

theorem Labelled.after_dfs {edge_list : List (List Nat)} {n : Nat} {col col2 : List Int}
    {c : Int} (hc : c > -1) (i : Nat) (h : Labelled edge_list n col c)
    (hi : col.getD i 0 = -1) (he : ColourExt c col col2) (hci : col2.getD i 0 = c)
    (hfin : ∀ x, col.getD x 0 = -1 → col2.getD x 0 = c →
      (∀ y ∈ edge_list.getD x [], col2.getD y 0 = c) ∧ Reach edge_list i x) :
    Labelled edge_list n col2 (c + 1) := by
  refine ⟨he.length.trans h.length, ?_, ?_, ?_⟩
  · intro x hx
    by_cases hu : col.getD x 0 = -1
    · rcases he.fresh x hu with h1 | h1
      · exact Or.inl h1
      · right; omega
    · rw [he.keep x hu]
      rcases h.range x hx with h1 | h1
      · exact absurd h1 hu
      · right; omega
  · intro x y hxn hy hx
    by_cases hu : col.getD x 0 = -1
    · rcases he.fresh x hu with h1 | h1
      · exact absurd h1 hx
      · rw [h1]
        exact (hfin x hu h1).1 y hy
    · have h1 := h.closed x y hxn hy hu
      rw [he.keep x hu, he.keep y (by rw [h1]; exact hu), h1]
  · intro k hk0 hk
    by_cases hkc : k = c
    · refine ⟨i, ?_, by rw [hkc]; exact hci, ?_⟩
      · rw [← h.length]
        exact lt_length_of_uncoloured col i hi
      · intro x hx hxk
        rw [hkc] at hxk
        by_cases hu : col.getD x 0 = -1
        · exact (hfin x hu hxk).2
        · have h1 := he.keep x hu
          rw [hxk] at h1
          rcases h.range x hx with h2 | h2
          · exact absurd h2 hu
          · omega
    · obtain ⟨r, hr1, hr2, hr3⟩ := h.root k hk0 (by omega)
      refine ⟨r, hr1, ?_, ?_⟩
      · rw [he.keep r (by rw [hr2]; omega), hr2]
      · intro x hx hxk
        apply hr3 x hx
        by_cases hu : col.getD x 0 = -1
        · rcases he.fresh x hu with h1 | h1
          · rw [h1] at hxk; omega
          · rw [h1] at hxk; omega
        · rw [← he.keep x hu]
          exact hxk

/-- The colouring loop on adjacency lists that are symmetric and hold indices below `n`:
it returns without taking the conflict branch, keeps the invariant, and colours every
index it visits. -/
theorem colourLoop_spec (edge_list : List (List Nat)) (n fuel : Nat) (hfuel : fuel > n)
    (hrange : ∀ i j, j ∈ edge_list.getD i [] → j < n)
    (hsym : ∀ i j, j ∈ edge_list.getD i [] → i ∈ edge_list.getD j [])
    (is : List Nat) :
    ∀ (col : List Int) (c : Int), c > -1 → Labelled edge_list n col c →
      ∃ col2 c2, colourLoop fuel edge_list is (col, false) c = some ((col2, false), c2)
        ∧ c2 > -1 ∧ Labelled edge_list n col2 c2
        ∧ (∀ x, col.getD x 0 ≠ -1 → col2.getD x 0 ≠ -1)
        ∧ ∀ i ∈ is, col2.getD i 0 ≠ -1 := by
  induction is with
  | nil =>
    intro col c hc h
    exact ⟨col, c, rfl, hc, h, fun _ hx => hx, fun i hi => absurd hi (List.not_mem_nil _)⟩
  | cons i rest ih =>
    intro col c hc h
    unfold colourLoop
    by_cases hi : col.getD i 0 = -1
    · rw [if_pos hi]
      have hle : (col.set i c).countP (fun x => decide (x ≤ -1)) ≤ (col.set i c).length :=
        List.countP_le_length _
      rw [List.length_set, h.length] at hle
      obtain ⟨r, hr1, hr2, hr3, hr4, hr5, _⟩ := dfs_spec edge_list c hc fuel col false i
        (fun a b hb => by rw [h.length]; exact hrange a b hb) hi
        (h.frontier hrange hsym) (by omega)
      rw [hr1]
      simp only
      have hr : r = (r.1, false) := by rw [← hr2]
      rw [hr]
      obtain ⟨col2, c2, g1, g2, g3, g4, g5⟩ := ih r.1 (c + 1) (by omega)
        (h.after_dfs hc i hi hr3 hr4 hr5)
      refine ⟨col2, c2, g1, g2, g3, ?_, ?_⟩
      · intro x hx
        apply g4
        rw [hr3.keep x hx]
        exact hx
      · intro j hj
        rcases List.mem_cons.1 hj with hj | hj
        · rw [hj]
          apply g4
          rw [hr4]
          omega
        · exact g5 j hj
    · rw [if_neg hi]
      obtain ⟨col2, c2, g1, g2, g3, g4, g5⟩ := ih col c hc h
      refine ⟨col2, c2, g1, g2, g3, g4, ?_⟩
      intro j hj
      rcases List.mem_cons.1 hj with hj | hj
      · rw [hj]
        exact g4 i hi
      · exact g5 j hj

theorem Labelled.start (edge_list : List (List Nat)) (n : Nat) :
    Labelled edge_list n (List.replicate n (-1)) 0 := by
  have hget : ∀ x, x < n → (List.replicate n (-1 : Int)).getD x 0 = -1 := by
    intro x hx
    simp [List.getD_eq_getElem?_getD, List.getElem?_replicate, hx]
  refine ⟨List.length_replicate _ _, fun x hx => Or.inl (hget x hx), ?_, ?_⟩
  · intro x y hxn _ hx
    exact absurd (hget x hxn) hx
  · intro k h0 hk
    omega

theorem isAdjacent_same (env : Env) (A B : EdgeInfo) (old_graph new_graph : Graph)
    (dc dc2 : FastDistanceCounter)
    (hs : SameAnswers env old_graph env.cfg.rr_max_distance dc dc2) :
    (EdgeInfo.isAdjacent env A B old_graph new_graph dc2).1
      = (EdgeInfo.isAdjacent env A B old_graph new_graph dc).1 := by
  rw [isAdjacent_symm env B A old_graph new_graph dc dc2 hs]
  exact isAdjacent_symm env A B old_graph new_graph dc dc (SameAnswers.same_refl _ _ _ _)

theorem mem_getD_modify (l : List (List Nat)) (i j x y : Nat) (h : i < l.length) :
    y ∈ (l.modify (fun r => r ++ [j]) i).getD x [] ↔ y ∈ l.getD x [] ∨ (x = i ∧ y = j) := by
  by_cases hx : x = i
  · subst hx
    simp [List.getD_eq_getElem?_getD, List.getElem?_modify_eq, List.getElem?_eq_getElem h]
  · have hne : i ≠ x := fun he => hx he.symm
    simp [List.getD_eq_getElem?_getD, List.getElem?_modify_ne _ _ hne, hx]

theorem addNeighbour_mem (nb : List (List Nat)) (i j x y : Nat) (hi : i < nb.length)
    (hj : j < nb.length) :
    (addNeighbour nb i j).length = nb.length
      ∧ (y ∈ (addNeighbour nb i j).getD x []
          ↔ y ∈ nb.getD x [] ∨ (x = i ∧ y = j) ∨ (x = j ∧ y = i)) := by
  unfold addNeighbour
  refine ⟨by simp, ?_⟩
  rw [mem_getD_modify _ j i x y (by simpa using hj), mem_getD_modify _ i j x y hi]
  tauto

theorem exists_mem_cons_or {α : Type} (P : α → Prop) (a : α) (t : List α) :
    (∃ p ∈ a :: t, P p) ↔ P a ∨ ∃ p ∈ t, P p := by
  constructor
  · rintro ⟨p, hp, h⟩
    rcases List.mem_cons.1 hp with hp | hp
    · left; rw [← hp]; exact h
    · exact Or.inr ⟨p, hp, h⟩
  · rintro (h | ⟨p, hp, h⟩)
    · exact ⟨a, List.mem_cons_self _ _, h⟩
    · exact ⟨p, List.mem_cons_of_mem _ hp, h⟩

theorem adjacencyStep_spec (env : Env) (rr : RepeatResolver) (ei : EdgeInfo) (i : Nat)
    (st : List (List Nat) × FastDistanceCounter) (p : Nat × EdgeInfo)
    (hi : i < st.1.length) (hp : p.1 < st.1.length)
    (hs : SameAnswers env rr.old_graph env.cfg.rr_max_distance rr.distance_counter st.2) :
    (adjacencyStep env rr ei i st p).1.length = st.1.length
      ∧ SameAnswers env rr.old_graph env.cfg.rr_max_distance rr.distance_counter
          (adjacencyStep env rr ei i st p).2
      ∧ ∀ x y, y ∈ (adjacencyStep env rr ei i st p).1.getD x []
          ↔ y ∈ st.1.getD x []
            ∨ ((EdgeInfo.isAdjacent env ei p.2 rr.old_graph rr.new_graph
                  rr.distance_counter).1 = true
                ∧ ((x = i ∧ y = p.1) ∨ (x = p.1 ∧ y = i))) := by
  have ha := hs.same_trans (isAdjacent_cache env ei p.2 rr.old_graph rr.new_graph st.2)
  have hc1 : SameAnswers env rr.old_graph env.cfg.rr_max_distance rr.distance_counter
      (if (EdgeInfo.isAdjacent env ei p.2 rr.old_graph rr.new_graph st.2).1 = true then
        (EdgeInfo.isAdjacent env p.2 ei rr.old_graph rr.new_graph
          (EdgeInfo.isAdjacent env ei p.2 rr.old_graph rr.new_graph st.2).2).2
       else (EdgeInfo.isAdjacent env ei p.2 rr.old_graph rr.new_graph st.2).2) := by
    split_ifs
    · exact ha.same_trans (isAdjacent_cache env p.2 ei rr.old_graph rr.new_graph _)
    · exact ha
  have hc := hc1.same_trans (isAdjacent_cache env ei p.2 rr.old_graph rr.new_graph _)
  have hans := isAdjacent_same env ei p.2 rr.old_graph rr.new_graph rr.distance_counter _ hc1
  unfold adjacencyStep
  simp only
  rw [hans]
  by_cases hadj : (EdgeInfo.isAdjacent env ei p.2 rr.old_graph rr.new_graph
      rr.distance_counter).1 = true
  · rw [if_pos hadj]
    refine ⟨(addNeighbour_mem st.1 i p.1 0 0 hi hp).1, hc, ?_⟩
    intro x y
    rw [(addNeighbour_mem st.1 i p.1 x y hi hp).2]
    simp only [hadj, true_and]
  · rw [if_neg hadj]
    refine ⟨rfl, hc, ?_⟩
    intro x y
    constructor
    · exact Or.inl
    · rintro (h | ⟨h, _⟩)
      · exact h
      · exact absurd h hadj

theorem adjacencyStep_fold_spec (env : Env) (rr : RepeatResolver) (ei : EdgeInfo) (i : Nat)
    (l : List (Nat × EdgeInfo)) (st : List (List Nat) × FastDistanceCounter)
    (hi : i < st.1.length) (hl : ∀ p ∈ l, p.1 < st.1.length)
    (hs : SameAnswers env rr.old_graph env.cfg.rr_max_distance rr.distance_counter st.2) :
    (l.foldl (adjacencyStep env rr ei i) st).1.length = st.1.length
      ∧ SameAnswers env rr.old_graph env.cfg.rr_max_distance rr.distance_counter
          (l.foldl (adjacencyStep env rr ei i) st).2
      ∧ ∀ x y, y ∈ (l.foldl (adjacencyStep env rr ei i) st).1.getD x []
          ↔ y ∈ st.1.getD x []
            ∨ ∃ p ∈ l, (EdgeInfo.isAdjacent env ei p.2 rr.old_graph rr.new_graph
                  rr.distance_counter).1 = true
                ∧ ((x = i ∧ y = p.1) ∨ (x = p.1 ∧ y = i)) := by
  induction l generalizing st with
  | nil => exact ⟨rfl, hs, fun x y => by simp⟩
  | cons a t ih =>
    simp only [List.foldl_cons]
    obtain ⟨s1, s2, s3⟩ := adjacencyStep_spec env rr ei i st a hi
      (hl a (List.mem_cons_self _ _)) hs
    obtain ⟨t1, t2, t3⟩ := ih (adjacencyStep env rr ei i st a) (by rw [s1]; exact hi)
      (fun p hp => by rw [s1]; exact hl p (List.mem_cons_of_mem _ hp)) s2
    refine ⟨t1.trans s1, t2, ?_⟩
    intro x y
    rw [t3 x y, s3 x y, exists_mem_cons_or (fun p : Nat × EdgeInfo =>
      (EdgeInfo.isAdjacent env ei p.2 rr.old_graph rr.new_graph rr.distance_counter).1 = true
        ∧ ((x = i ∧ y = p.1) ∨ (x = p.1 ∧ y = i))) a t, or_assoc]

theorem adjacencyLoop_spec (env : Env) (rr : RepeatResolver)
    (indexed l : List (Nat × EdgeInfo)) (st : List (List Nat) × FastDistanceCounter)
    (hidx : ∀ p ∈ indexed, p.1 < st.1.length) (hl : ∀ p ∈ l, p.1 < st.1.length)
    (hs : SameAnswers env rr.old_graph env.cfg.rr_max_distance rr.distance_counter st.2) :
    (l.foldl (fun st iei => indexed.foldl (adjacencyStep env rr iei.2 iei.1) st) st).1.length
        = st.1.length
      ∧ ∀ x y, y ∈ (l.foldl (fun st iei =>
            indexed.foldl (adjacencyStep env rr iei.2 iei.1) st) st).1.getD x []
          ↔ y ∈ st.1.getD x []
            ∨ ∃ p ∈ l, ∃ q ∈ indexed,
                (EdgeInfo.isAdjacent env p.2 q.2 rr.old_graph rr.new_graph
                  rr.distance_counter).1 = true
                ∧ ((x = p.1 ∧ y = q.1) ∨ (x = q.1 ∧ y = p.1)) := by
  induction l generalizing st with
  | nil => exact ⟨rfl, fun x y => by simp⟩
  | cons a t ih =>
    simp only [List.foldl_cons]
    obtain ⟨s1, s2, s3⟩ := adjacencyStep_fold_spec env rr a.2 a.1 indexed st
      (hl a (List.mem_cons_self _ _)) hidx hs
    obtain ⟨t1, t3⟩ := ih (indexed.foldl (adjacencyStep env rr a.2 a.1) st)
      (fun p hp => by rw [s1]; exact hidx p hp)
      (fun p hp => by rw [s1]; exact hl p (List.mem_cons_of_mem _ hp)) s2
    refine ⟨t1.trans s1, ?_⟩
    intro x y
    rw [t3 x y, s3 x y, exists_mem_cons_or (fun p : Nat × EdgeInfo => ∃ q ∈ indexed,
      (EdgeInfo.isAdjacent env p.2 q.2 rr.old_graph rr.new_graph rr.distance_counter).1 = true
        ∧ ((x = p.1 ∧ y = q.1) ∨ (x = q.1 ∧ y = p.1))) a t, or_assoc]

theorem mem_indexed (l : List EdgeInfo) (p : Nat × EdgeInfo) :
    p ∈ (List.range l.length).zip l ↔ l[p.1]? = some p.2 := by
  rw [← List.enum_eq_zip_range]
  exact List.mem_enum_iff_getElem?

/-- The adjacency lists built by lines 1499-1517: `y` is listed under `x` exactly when
`isAdjacent` holds for the pair in one of the two orders. -/
theorem buildNeighbours_mem (env : Env) (rr : RepeatResolver) (x y : Nat) :
    y ∈ (buildNeighbours env rr).1.getD x []
      ↔ occAdjacent env rr x y = true ∨ occAdjacent env rr y x = true := by
  have hlt : ∀ p ∈ (List.range rr.edge_infos.length).zip rr.edge_infos,
      p.1 < (List.replicate rr.edge_infos.length ([] : List Nat)).length := by
    intro p hp
    rw [List.length_replicate]
    exact List.mem_range.1 (List.of_mem_zip hp).1
  obtain ⟨_, h⟩ := adjacencyLoop_spec env rr
    ((List.range rr.edge_infos.length).zip rr.edge_infos)
    ((List.range rr.edge_infos.length).zip rr.edge_infos)
    (List.replicate rr.edge_infos.length [], rr.distance_counter) hlt hlt
    (SameAnswers.same_refl _ _ _ _)
  unfold buildNeighbours
  simp only
  rw [h x y]
  have hempty : ¬ y ∈ (List.replicate rr.edge_infos.length ([] : List Nat)).getD x [] := by
    simp [List.getD_eq_getElem?_getD, List.getElem?_replicate]
    split_ifs <;> simp
  unfold occAdjacent
  constructor
  · rintro (h0 | ⟨p, hp, q, hq, hadj, hxy⟩)
    · exact absurd h0 hempty
    · rw [mem_indexed] at hp hq
      rcases hxy with ⟨h1, h2⟩ | ⟨h1, h2⟩
      · left
        rw [h1, h2, hp, hq]
        exact hadj
      · right
        rw [h1, h2, hp, hq]
        exact hadj
  · intro h0
    right
    rcases h0 with h0 | h0
    · cases hx : rr.edge_infos[x]? with
      | none => rw [hx] at h0; simp at h0
      | some ex =>
        cases hy : rr.edge_infos[y]? with
        | none => rw [hx, hy] at h0; simp at h0
        | some ey =>
          rw [hx, hy] at h0
          exact ⟨(x, ex), (mem_indexed _ _).2 hx, (y, ey), (mem_indexed _ _).2 hy, h0,
            Or.inl ⟨rfl, rfl⟩⟩
    · cases hy : rr.edge_infos[y]? with
      | none => rw [hy] at h0; simp at h0
      | some ey =>
        cases hx : rr.edge_infos[x]? with
        | none => rw [hy, hx] at h0; simp at h0
        | some ex =>
          rw [hy, hx] at h0
          exact ⟨(y, ey), (mem_indexed _ _).2 hy, (x, ex), (mem_indexed _ _).2 hx, h0,
            Or.inr ⟨rfl, rfl⟩⟩

theorem occAdjacent_lt (env : Env) (rr : RepeatResolver) (i j : Nat)
    (h : occAdjacent env rr i j = true) :
    i < rr.edge_infos.length ∧ j < rr.edge_infos.length := by
  unfold occAdjacent at h
  cases hi : rr.edge_infos[i]? with
  | none => rw [hi] at h; simp at h
  | some ei =>
    cases hj : rr.edge_infos[j]? with
    | none => rw [hi, hj] at h; simp at h
    | some ej =>
      exact ⟨(List.getElem?_eq_some_iff.1 hi).1, (List.getElem?_eq_some_iff.1 hj).1⟩

theorem Reach.reach_symm {edge_list : List (List Nat)}
    (hsym : ∀ i j, j ∈ edge_list.getD i [] → i ∈ edge_list.getD j []) {x y : Nat}
    (h : Reach edge_list x y) : Reach edge_list y x := by
  unfold Reach at h ⊢
  induction h with
  | refl => exact Relation.ReflTransGen.refl
  | tail _ hbc ih => exact Relation.ReflTransGen.head (hsym _ _ hbc) ih

theorem Reach.iff_eqvGen {edge_list : List (List Nat)} {R : Nat → Nat → Prop}
    (hE : ∀ a b, b ∈ edge_list.getD a [] ↔ R a b ∨ R b a) (x y : Nat) :
    Reach edge_list x y ↔ Relation.EqvGen R x y := by
  have hsym : ∀ i j, j ∈ edge_list.getD i [] → i ∈ edge_list.getD j [] :=
    fun i j h => (hE j i).2 (((hE i j).1 h).symm)
  constructor
  · intro h
    unfold Reach at h
    induction h with
    | refl => exact Relation.EqvGen.refl _
    | tail _ hbc ih =>
      refine Relation.EqvGen.trans _ _ _ ih ?_
      rcases (hE _ _).1 hbc with h1 | h1
      · exact Relation.EqvGen.rel _ _ h1
      · exact Relation.EqvGen.symm _ _ (Relation.EqvGen.rel _ _ h1)
  · intro h
    induction h with
    | rel a b h => exact Relation.ReflTransGen.single ((hE a b).2 (Or.inl h))
    | refl => exact Relation.ReflTransGen.refl
    | symm a b _ ih => exact Reach.reach_symm hsym ih
    | trans a b c _ _ h1 h2 => exact Relation.ReflTransGen.trans h1 h2

theorem Labelled.reach_colour {edge_list : List (List Nat)} {n : Nat} {col : List Int}
    {c : Int} (h : Labelled edge_list n col c)
    (hrange : ∀ i j, j ∈ edge_list.getD i [] → j < n) {x y : Nat} (hx : x < n)
    (hcx : col.getD x 0 ≠ -1) (hr : Reach edge_list x y) :
    col.getD y 0 = col.getD x 0 ∧ y < n := by
  unfold Reach at hr
  induction hr with
  | refl => exact ⟨rfl, hx⟩
  | tail _ hbc ih =>
    refine ⟨?_, hrange _ _ hbc⟩
    rw [h.closed _ _ ih.2 hbc (by rw [ih.1]; exact hcx), ih.1]

/-- A colouring with values in `0..c-1`, every value taken, whose colour classes are the
classes of `s`: the number of classes is `c`. -/
theorem card_components (n : Nat) (s : Setoid (Fin n)) (col : List Int) (c : Int)
    (hc : 0 ≤ c)
    (hr : ∀ i, i < n → 0 ≤ col.getD i 0 ∧ col.getD i 0 < c)
    (hs : ∀ a b : Fin n, s.r a b ↔ col.getD a.1 0 = col.getD b.1 0)
    (hsurj : ∀ k, 0 ≤ k → k < c → ∃ i, i < n ∧ col.getD i 0 = k) :
    (Nat.card (Quotient s) : Int) = c := by
  have hlt : ∀ a : Fin n, (col.getD a.1 0).toNat < c.toNat := by
    intro a
    have := hr a.1 a.2
    omega
  have hcard : Nat.card (Quotient s) = Nat.card (Fin c.toNat) := by
    apply Nat.card_eq_of_bijective
      (Quotient.lift (fun a : Fin n => (⟨(col.getD a.1 0).toNat, hlt a⟩ : Fin c.toNat))
        (fun a b hab => by
          have := (hs a b).1 hab
          exact Fin.ext (by simp only; rw [this])))
    constructor
    · intro qa qb
      refine Quotient.inductionOn₂ qa qb ?_
      intro a b hab
      apply Quotient.sound
      apply (hs a b).2
      have h1 := congrArg Fin.val hab
      simp only [Quotient.lift_mk] at h1
      have ha := hr a.1 a.2
      have hb := hr b.1 b.2
      omega
    · intro k
      obtain ⟨i, hi, hk⟩ := hsurj (k.1 : Int) (by omega) (by have := k.2; omega)
      refine ⟨Quotient.mk s ⟨i, hi⟩, ?_⟩
      apply Fin.ext
      simp only [Quotient.lift_mk]
      rw [hk]
      omega
  rw [hcard, Nat.card_eq_fintype_card, Fintype.card_fin]
  omega

theorem Graph.shape_congr (g g2 : Graph) (h : g2.edges = g.edges) (x : EdgeId) :
    g2.shape x = g.shape x := by
  unfold Graph.shape
  rw [Graph.edge_congr g g2 h]

theorem Graph.EdgeStart_of_shape (g G : Graph) (e : EdgeId) (h : g.shape e = G.shape e) :
    g.EdgeStart e = G.EdgeStart e ∧ g.EdgeEnd e = G.EdgeEnd e
      ∧ g.EdgeNucls e = G.EdgeNucls e := by
  unfold Graph.shape at h
  unfold Graph.EdgeStart Graph.EdgeEnd Graph.EdgeNucls
  cases h1 : g.edge e with
  | none =>
    rw [h1] at h
    cases h2 : G.edge e with
    | none => exact ⟨rfl, rfl, rfl⟩
    | some r => rw [h2] at h; simp at h
  | some r1 =>
    rw [h1] at h
    cases h2 : G.edge e with
    | none => rw [h2] at h; simp at h
    | some r =>
      rw [h2] at h
      simp only [Option.map_some', Option.some.injEq, Prod.mk.injEq] at h
      simp only [Option.map_some', Option.getD_some]
      exact ⟨h.1, h.2.1, h.2.2.1⟩

theorem Graph.edge_append_lt (g g2 : Graph) (l : List EdgeRec) (x : EdgeId)
    (h2 : g2.edges = g.edges ++ l) (hl : ∀ r ∈ l, x < r.id) : g2.edge x = g.edge x := by
  unfold Graph.edge
  rw [h2, List.find?_append]
  have hn : l.find? (fun r => decide (r.id = x)) = none := by
    rw [List.find?_eq_none]
    intro r hr
    simp only [decide_eq_true_eq]
    exact Nat.ne_of_gt (hl r hr)
  rw [hn]
  simp

theorem Graph.vertex_append_lt (g g2 : Graph) (l : List VertexRec) (x : VertexId)
    (h2 : g2.vertices = g.vertices ++ l) (hl : ∀ r ∈ l, x < r.id) :
    g2.vertex x = g.vertex x := by
  unfold Graph.vertex
  rw [h2, List.find?_append]
  have hn : l.find? (fun r => decide (r.id = x)) = none := by
    rw [List.find?_eq_none]
    intro r hr
    simp only [decide_eq_true_eq]
    exact Nat.ne_of_gt (hl r hr)
  rw [hn]
  simp

theorem CleanInv.clean_init (G : Graph) (v : VertexId) (h : AllocatedBelow G)
    (hv : ∀ r ∈ G.vertices, r.id < G.fresh) : CleanInv G v G :=
  ⟨rfl, Nat.le_refl _, hv, fun _ _ => rfl, fun _ _ => rfl,
    fun r hr _ => ⟨(h.ends r hr).1, (h.ends r hr).2, h.conjs r hr⟩, h.ids, h.ends,
    fun r hr hge => absurd (h.ids r hr) (Nat.not_lt.2 hge)⟩

/-- Appending records created after `G` that are not incident to `v` keeps the
invariant. -/
theorem CleanInv.clean_append {G : Graph} {v : VertexId} {g g2 : Graph} (h : CleanInv G v g)
    (news : List EdgeRec) (he : g2.edges = g.edges ++ news) (hvx : g2.vertices = g.vertices)
    (ht : g2.conjugate_typed = g.conjugate_typed) (hf : g.fresh ≤ g2.fresh)
    (hn : ∀ r ∈ news, g.fresh ≤ r.id ∧ r.id < g2.fresh ∧ r.start < g2.fresh
      ∧ r.finish < g2.fresh ∧ r.start ≠ v ∧ r.finish ≠ v) : CleanInv G v g2 := by
  refine ⟨ht.trans h.typed, le_trans h.fresh_ge hf, ?_, ?_, ?_, ?_, ?_, ?_, ?_⟩
  · intro r hr
    rw [hvx] at hr
    exact lt_of_lt_of_le (h.vids r hr) hf
  · intro x hx
    unfold Graph.vertex
    rw [hvx]
    exact h.vold x hx
  · intro e hlt
    rw [← h.old e hlt]
    unfold Graph.shape
    rw [Graph.edge_append_lt g g2 news e he
      (fun r hr => lt_of_lt_of_le hlt (le_trans h.fresh_ge (hn r hr).1))]
  · intro r hr hlt
    rw [he] at hr
    rcases List.mem_append.1 hr with h1 | h1
    · exact h.oldrec r h1 hlt
    · exact absurd hlt (Nat.not_lt.2 (le_trans h.fresh_ge (hn r h1).1))
  · intro r hr
    rw [he] at hr
    rcases List.mem_append.1 hr with h1 | h1
    · exact lt_of_lt_of_le (h.ids r h1) hf
    · exact (hn r h1).2.1
  · intro r hr
    rw [he] at hr
    rcases List.mem_append.1 hr with h1 | h1
    · exact ⟨lt_of_lt_of_le (h.ends r h1).1 hf, lt_of_lt_of_le (h.ends r h1).2 hf⟩
    · exact ⟨(hn r h1).2.2.1, (hn r h1).2.2.2.1⟩
  · intro r hr hge
    rw [he] at hr
    rcases List.mem_append.1 hr with h1 | h1
    · exact h.newrec r h1 hge
    · exact ⟨(hn r h1).2.2.2.2.1, (hn r h1).2.2.2.2.2⟩

theorem OutCopy.out_append {G g g2 : Graph} {nv : VertexId} {X a : EdgeId}
    (h : OutCopy G g nv X a) (news : List EdgeRec) (he : g2.edges = g.edges ++ news)
    (hn : ∀ r ∈ news, r.start ≠ nv) : OutCopy G g2 nv X a := by
  obtain ⟨r, hr, h1, h2, h3⟩ := h.copy
  refine ⟨h.created, ⟨r, ?_, h1, h2, h3⟩, ?_⟩
  · rw [Graph.edge_append_of_mem g g2 news a he, hr]
    obtain ⟨hm, hid⟩ := Graph.edge_some g a r hr
    unfold Graph.edgeIds
    exact List.mem_map.2 ⟨r, hm, hid⟩
  · intro r2 hr2 hs
    rw [he] at hr2
    rcases List.mem_append.1 hr2 with h4 | h4
    · exact h.only r2 h4 hs
    · exact absurd hs (hn r2 h4)

theorem InCopy.in_append {G g g2 : Graph} {nv : VertexId} {Y c : EdgeId}
    (h : InCopy G g nv Y c) (news : List EdgeRec) (he : g2.edges = g.edges ++ news)
    (hn : ∀ r ∈ news, r.finish ≠ nv) : InCopy G g2 nv Y c := by
  obtain ⟨r, hr, h1, h2, h3⟩ := h.copy
  refine ⟨h.created, ⟨r, ?_, h1, h2, h3⟩, ?_⟩
  · rw [Graph.edge_append_of_mem g g2 news c he, hr]
    obtain ⟨hm, hid⟩ := Graph.edge_some g c r hr
    unfold Graph.edgeIds
    exact List.mem_map.2 ⟨r, hm, hid⟩
  · intro r2 hr2 hs
    rw [he] at hr2
    rcases List.mem_append.1 hr2 with h4 | h4
    · exact h.only r2 h4 hs
    · exact absurd hs (hn r2 h4)

/-- The coverage counter is not part of the invariant. -/
theorem CleanInv.clean_setCoverage {G : Graph} {v : VertexId} {g : Graph} (h : CleanInv G v g)
    (e : EdgeId) (c : Int) : CleanInv G v (g.SetCoverage e c) := by
  have hmem : ∀ r ∈ (g.SetCoverage e c).edges, ∃ r0 ∈ g.edges, r.id = r0.id
      ∧ r.start = r0.start ∧ r.finish = r0.finish ∧ r.conj = r0.conj := by
    intro r hr
    unfold Graph.SetCoverage at hr
    simp only at hr
    obtain ⟨r0, hr0, hf⟩ := List.mem_map.1 hr
    refine ⟨r0, hr0, ?_⟩
    rw [← hf]
    split_ifs <;> exact ⟨rfl, rfl, rfl, rfl⟩
  refine ⟨h.typed, h.fresh_ge, h.vids, h.vold, ?_, ?_, ?_, ?_, ?_⟩
  · intro x hx
    rw [← h.old x hx]
    unfold Graph.shape
    rw [Graph.edge_SetCoverage]
    cases g.edge x with
    | none => rfl
    | some r => simp only [Option.map_some']; split_ifs <;> rfl
  · intro r hr hlt
    obtain ⟨r0, hr0, e1, e2, e3, e4⟩ := hmem r hr
    rw [e1] at hlt
    rw [e2, e3, e4]
    exact h.oldrec r0 hr0 hlt
  · intro r hr
    obtain ⟨r0, hr0, e1, _⟩ := hmem r hr
    rw [e1]
    exact h.ids r0 hr0
  · intro r hr
    obtain ⟨r0, hr0, _, e2, e3, _⟩ := hmem r hr
    rw [e2, e3]
    exact h.ends r0 hr0
  · intro r hr hge
    obtain ⟨r0, hr0, e1, e2, e3, _⟩ := hmem r hr
    rw [e1] at hge
    rw [e2, e3]
    exact h.newrec r0 hr0 hge

theorem OutCopy.out_setCoverage {G g : Graph} {nv : VertexId} {X a : EdgeId}
    (h : OutCopy G g nv X a) (e : EdgeId) (c : Int) : OutCopy G (g.SetCoverage e c) nv X a := by
  obtain ⟨r, hr, h1, h2, h3⟩ := h.copy
  refine ⟨h.created, ⟨if r.id = e then { r with cov := c } else r, ?_, ?_, ?_, ?_⟩, ?_⟩
  · rw [Graph.edge_SetCoverage, hr]
    rfl
  · split_ifs <;> exact h1
  · split_ifs <;> exact h2
  · split_ifs <;> exact h3
  · intro r2 hr2 hs
    unfold Graph.SetCoverage at hr2
    simp only at hr2
    obtain ⟨r0, hr0, hf⟩ := List.mem_map.1 hr2
    have e1 : r2.id = r0.id ∧ r2.start = r0.start := by
      rw [← hf]; split_ifs <;> exact ⟨rfl, rfl⟩
    rw [e1.1]
    exact h.only r0 hr0 (e1.2 ▸ hs)

theorem InCopy.in_setCoverage {G g : Graph} {nv : VertexId} {Y a : EdgeId}
    (h : InCopy G g nv Y a) (e : EdgeId) (c : Int) : InCopy G (g.SetCoverage e c) nv Y a := by
  obtain ⟨r, hr, h1, h2, h3⟩ := h.copy
  refine ⟨h.created, ⟨if r.id = e then { r with cov := c } else r, ?_, ?_, ?_, ?_⟩, ?_⟩
  · rw [Graph.edge_SetCoverage, hr]
    rfl
  · split_ifs <;> exact h1
  · split_ifs <;> exact h2
  · split_ifs <;> exact h3
  · intro r2 hr2 hs
    unfold Graph.SetCoverage at hr2
    simp only at hr2
    obtain ⟨r0, hr0, hf⟩ := List.mem_map.1 hr2
    have e1 : r2.id = r0.id ∧ r2.finish = r0.finish := by
      rw [← hf]; split_ifs <;> exact ⟨rfl, rfl⟩
    rw [e1.1]
    exact h.only r0 hr0 (e1.2 ▸ hs)

/-- The mirror loop of lines 813-817 changes coverage counters only. -/
theorem mirrorCoverage_fold_clean {G : Graph} {v : VertexId} (l : List (EdgeId × EdgeId))
    (st : Graph × Bool) (h : CleanInv G v st.1) :
    CleanInv G v (l.foldl mirrorCoverageStep st).1
      ∧ (∀ nv X a, OutCopy G st.1 nv X a → OutCopy G (l.foldl mirrorCoverageStep st).1 nv X a)
      ∧ (∀ nv Y c, InCopy G st.1 nv Y c → InCopy G (l.foldl mirrorCoverageStep st).1 nv Y c) := by
  induction l generalizing st with
  | nil => exact ⟨h, fun _ _ _ ho => ho, fun _ _ _ hi => hi⟩
  | cons a t ih =>
    simp only [List.foldl_cons]
    have hstep : CleanInv G v (mirrorCoverageStep st a).1
        ∧ (∀ nv X a2, OutCopy G st.1 nv X a2 → OutCopy G (mirrorCoverageStep st a).1 nv X a2)
        ∧ (∀ nv Y c, InCopy G st.1 nv Y c → InCopy G (mirrorCoverageStep st a).1 nv Y c) := by
      unfold mirrorCoverageStep WrappedSetCoverage
      simp only [Bool.true_eq_false, if_false]
      exact ⟨(h.clean_setCoverage _ _).clean_setCoverage _ _,
        fun _ _ _ ho => (ho.out_setCoverage _ _).out_setCoverage _ _,
        fun _ _ _ hi => (hi.in_setCoverage _ _).in_setCoverage _ _⟩
    obtain ⟨s1, s2, s3⟩ := hstep
    obtain ⟨i1, i2, i3⟩ := ih _ s1
    exact ⟨i1, fun nv X a2 ho => i2 nv X a2 (s2 nv X a2 ho),
      fun nv Y c hi => i3 nv Y c (s3 nv Y c hi)⟩

theorem CleanInv.conjugateV_old {G : Graph} {v : VertexId} {g : Graph} (h : CleanInv G v g)
    (hG : AllocatedBelow G) (x : VertexId) (hx : x < G.fresh) :
    g.conjugateV x = G.conjugateV x ∧ G.conjugateV x < G.fresh := by
  constructor
  · unfold Graph.conjugateV
    rw [h.vold x hx]
  · unfold Graph.conjugateV Graph.vertex
    cases hf : G.vertices.find? (fun r => decide (r.id = x)) with
    | none => exact hx
    | some r => exact hG.vconj r (List.mem_of_find?_eq_some hf)

/-- The step `AddVertex` of `splitVertex`: the invariant is kept, the edges are untouched
and in a conjugate graph the new vertex `g.fresh` has the conjugate `g.fresh + 1`. -/
theorem CleanInv.clean_addVertex {G : Graph} {v : VertexId} {g : Graph} (h : CleanInv G v g) :
    CleanInv G v g.AddVertex.1
      ∧ g.AddVertex.1.edges = g.edges
      ∧ g.fresh < g.AddVertex.1.fresh
      ∧ (g.AddVertex.1.conjugate_typed = true →
          g.AddVertex.1.conjugateV g.fresh = g.fresh + 1
            ∧ g.fresh + 1 < g.AddVertex.1.fresh) := by
  have hnone : g.vertices.find? (fun r => decide (r.id = g.fresh)) = none := by
    rw [List.find?_eq_none]
    intro r hr
    simp only [decide_eq_true_eq]
    exact Nat.ne_of_lt (h.vids r hr)
  unfold Graph.AddVertex
  by_cases ht : g.conjugate_typed = true
  · rw [if_pos ht]
    simp only
    refine ⟨⟨h.typed, Nat.le_succ_of_le (Nat.le_succ_of_le h.fresh_ge), ?_, ?_, ?_, h.oldrec,
      fun r hr => Nat.lt_succ_of_lt (Nat.lt_succ_of_lt (h.ids r hr)),
      fun r hr => ⟨Nat.lt_succ_of_lt (Nat.lt_succ_of_lt (h.ends r hr).1),
        Nat.lt_succ_of_lt (Nat.lt_succ_of_lt (h.ends r hr).2)⟩, h.newrec⟩, trivial,
      by omega, ?_⟩
    · intro r hr
      rcases List.mem_append.1 hr with h1 | h1
      · exact Nat.lt_succ_of_lt (Nat.lt_succ_of_lt (h.vids r h1))
      · simp only [List.mem_cons, List.mem_singleton, List.not_mem_nil, or_false] at h1
        rcases h1 with h1 | h1 <;> rw [h1] <;> simp
    · intro x hx
      rw [← h.vold x hx]
      apply Graph.vertex_append_lt g _ [⟨g.fresh, g.fresh + 1⟩, ⟨g.fresh + 1, g.fresh⟩] x rfl
      intro r hr
      simp only [List.mem_cons, List.mem_singleton, List.not_mem_nil, or_false] at hr
      have hxg : x < g.fresh := lt_of_lt_of_le hx h.fresh_ge
      rcases hr with h1 | h1 <;> rw [h1]
      · exact hxg
      · exact Nat.lt_succ_of_lt hxg
    · intro e he
      rw [← h.old e he]
      exact Graph.shape_congr g _ rfl e
    · intro _
      refine ⟨?_, by omega⟩
      unfold Graph.conjugateV Graph.vertex
      simp only
      rw [List.find?_append, hnone]
      simp
  · rw [if_neg ht]
    simp only
    refine ⟨⟨h.typed, Nat.le_succ_of_le h.fresh_ge, ?_, ?_, ?_, h.oldrec,
      fun r hr => Nat.lt_succ_of_lt (h.ids r hr),
      fun r hr => ⟨Nat.lt_succ_of_lt (h.ends r hr).1, Nat.lt_succ_of_lt (h.ends r hr).2⟩,
      h.newrec⟩, trivial, by omega, ?_⟩
    · intro r hr
      rcases List.mem_append.1 hr with h1 | h1
      · exact Nat.lt_succ_of_lt (h.vids r h1)
      · simp only [List.mem_singleton] at h1
        rw [h1]
        simp
    · intro x hx
      rw [← h.vold x hx]
      apply Graph.vertex_append_lt g _ [⟨g.fresh, g.fresh⟩] x rfl
      intro r hr
      simp only [List.mem_singleton] at hr
      rw [hr]
      exact lt_of_lt_of_le hx h.fresh_ge
    · intro e he
      rw [← h.old e he]
      exact Graph.shape_congr g _ rfl e
    · intro h2
      exact absurd h2 ht

/-- One step of `splitVertex` on an edge `e` of `G`: the new records are the copy `P` of
`e`, redirected from `v` to `nv`, and in a conjugate graph its mirror, which touches only
vertices of `G` or the conjugate `nv + 1` of `nv`. -/
theorem Graph.cloneEdge_clean {G : Graph} {v : VertexId} (nv : VertexId)
    (acc : Graph × List (EdgeId × EdgeId)) (e : EdgeId) (c : ℚ)
    (h : CleanInv G v acc.1) (hG : AllocatedBelow G) (hv : v < G.fresh)
    (hnv : G.fresh ≤ nv) (hnvlt : nv < acc.1.fresh)
    (hcnv : acc.1.conjugate_typed = true →
      acc.1.conjugateV nv = nv + 1 ∧ nv + 1 < acc.1.fresh)
    (he : e < G.fresh) (hs0 : G.EdgeStart e < G.fresh) (ht0 : G.EdgeEnd e < G.fresh)
    (hcs : G.conjugate_typed = true → G.EdgeStart e ≠ v → G.conjugateV (G.EdgeStart e) ≠ v)
    (hct : G.conjugate_typed = true → G.EdgeEnd e ≠ v → G.conjugateV (G.EdgeEnd e) ≠ v) :
    CleanInv G v (Graph.cloneEdge v nv acc (e, c)).1
      ∧ (Graph.cloneEdge v nv acc (e, c)).1.vertices = acc.1.vertices
      ∧ acc.1.fresh < (Graph.cloneEdge v nv acc (e, c)).1.fresh
      ∧ ∃ P rest, (Graph.cloneEdge v nv acc (e, c)).1.edges = acc.1.edges ++ P :: rest
          ∧ P.id = acc.1.fresh
          ∧ P.start = (if G.EdgeStart e = v then nv else G.EdgeStart e)
          ∧ P.finish = (if G.EdgeEnd e = v then nv else G.EdgeEnd e)
          ∧ P.nucls = G.EdgeNucls e
          ∧ ∀ r ∈ rest, (r.start < G.fresh ∨ r.start = nv + 1)
              ∧ (r.finish < G.fresh ∨ r.finish = nv + 1) := by
  obtain ⟨e1, e2, e3⟩ := Graph.EdgeStart_of_shape acc.1 G e (h.old e he)
  have hsv : (if G.EdgeStart e = v then nv else G.EdgeStart e) ≠ v := by
    split_ifs with hc
    · exact Nat.ne_of_gt (lt_of_lt_of_le hv hnv)
    · exact hc
  have htv : (if G.EdgeEnd e = v then nv else G.EdgeEnd e) ≠ v := by
    split_ifs with hc
    · exact Nat.ne_of_gt (lt_of_lt_of_le hv hnv)
    · exact hc
  have hsl : (if G.EdgeStart e = v then nv else G.EdgeStart e) < acc.1.fresh := by
    split_ifs
    · exact hnvlt
    · exact lt_of_lt_of_le hs0 h.fresh_ge
  have htl : (if G.EdgeEnd e = v then nv else G.EdgeEnd e) < acc.1.fresh := by
    split_ifs
    · exact hnvlt
    · exact lt_of_lt_of_le ht0 h.fresh_ge
  have hmir : ∀ x : VertexId, (x = nv ∨ (x < G.fresh ∧ x ≠ v
        ∧ (G.conjugate_typed = true → G.conjugateV x ≠ v))) →
      acc.1.conjugate_typed = true →
      (acc.1.conjugateV x < G.fresh ∨ acc.1.conjugateV x = nv + 1)
        ∧ acc.1.conjugateV x < acc.1.fresh ∧ acc.1.conjugateV x ≠ v := by
    intro x hx hty
    rcases hx with hx | ⟨hx1, _, hx3⟩
    · rw [hx, (hcnv hty).1]
      exact ⟨Or.inr rfl, (hcnv hty).2,
        Nat.ne_of_gt (Nat.lt_succ_of_lt (lt_of_lt_of_le hv hnv))⟩
    · obtain ⟨c1, c2⟩ := h.conjugateV_old hG x hx1
      rw [c1]
      exact ⟨Or.inl c2, lt_of_lt_of_le c2 h.fresh_ge, hx3 (h.typed ▸ hty)⟩
  have hsx : (if G.EdgeStart e = v then nv else G.EdgeStart e) = nv
      ∨ ((if G.EdgeStart e = v then nv else G.EdgeStart e) < G.fresh
        ∧ (if G.EdgeStart e = v then nv else G.EdgeStart e) ≠ v
        ∧ (G.conjugate_typed = true →
            G.conjugateV (if G.EdgeStart e = v then nv else G.EdgeStart e) ≠ v)) := by
    by_cases hc : G.EdgeStart e = v
    · rw [if_pos hc]; exact Or.inl rfl
    · rw [if_neg hc]; exact Or.inr ⟨hs0, hc, fun ht => hcs ht hc⟩
  have htx : (if G.EdgeEnd e = v then nv else G.EdgeEnd e) = nv
      ∨ ((if G.EdgeEnd e = v then nv else G.EdgeEnd e) < G.fresh
        ∧ (if G.EdgeEnd e = v then nv else G.EdgeEnd e) ≠ v
        ∧ (G.conjugate_typed = true →
            G.conjugateV (if G.EdgeEnd e = v then nv else G.EdgeEnd e) ≠ v)) := by
    by_cases hc : G.EdgeEnd e = v
    · rw [if_pos hc]; exact Or.inl rfl
    · rw [if_neg hc]; exact Or.inr ⟨ht0, hc, fun ht => hct ht hc⟩
  unfold Graph.cloneEdge Graph.addEdgeCov
  simp only
  rw [e1, e2, e3]
  by_cases hty : acc.1.conjugate_typed = true
  · rw [if_pos hty]
    simp only
    obtain ⟨m1, m2, m3⟩ := hmir _ hsx hty
    obtain ⟨n1, n2, n3⟩ := hmir _ htx hty
    refine ⟨?_, trivial, by omega, _, _, rfl, rfl, rfl, rfl, rfl, ?_⟩
    · refine CleanInv.clean_append h _ rfl rfl rfl (Nat.le_add_right _ _) ?_
      intro r hr
      simp only [List.mem_cons, List.mem_singleton, List.not_mem_nil, or_false] at hr
      rcases hr with h1 | h1
      · rw [h1]
        simp only
        exact ⟨Nat.le_refl _, Nat.lt_add_of_pos_right (by decide), Nat.lt_add_right 2 hsl,
          Nat.lt_add_right 2 htl, hsv, htv⟩
      · rw [h1]
        simp only
        exact ⟨Nat.le_succ _, Nat.lt_succ_self _, Nat.lt_add_right 2 n2,
          Nat.lt_add_right 2 m2, n3, m3⟩
    · intro r hr
      simp only [List.mem_singleton] at hr
      rw [hr]
      exact ⟨n1, m1⟩
  · rw [if_neg hty]
    simp only
    refine ⟨?_, trivial, by omega, _, _, rfl, rfl, rfl, rfl, rfl, ?_⟩
    · refine CleanInv.clean_append h _ rfl rfl rfl (Nat.le_add_right _ _) ?_
      intro r hr
      simp only [List.mem_singleton] at hr
      rw [hr]
      simp only
      exact ⟨Nat.le_refl _, Nat.lt_succ_self _, Nat.lt_add_right 1 hsl,
        Nat.lt_add_right 1 htl, hsv, htv⟩
    · intro r hr
      exact absurd hr (List.not_mem_nil _)

/-- Two steps of `splitVertex` behind `AddVertex`: the working graph gains the copies `P1`
of `e1` and `P2` of `e2` and, in a conjugate graph, their mirrors. -/
theorem Graph.SplitVertex_pair {G : Graph} {v : VertexId} {g : Graph} (e1 e2 : EdgeId)
    (c1 c2 : ℚ) (h : CleanInv G v g) (hG : AllocatedBelow G) (hv : v < G.fresh)
    (he1 : e1 < G.fresh) (hs1 : G.EdgeStart e1 < G.fresh) (ht1 : G.EdgeEnd e1 < G.fresh)
    (hcs1 : G.conjugate_typed = true → G.EdgeStart e1 ≠ v → G.conjugateV (G.EdgeStart e1) ≠ v)
    (hct1 : G.conjugate_typed = true → G.EdgeEnd e1 ≠ v → G.conjugateV (G.EdgeEnd e1) ≠ v)
    (he2 : e2 < G.fresh) (hs2 : G.EdgeStart e2 < G.fresh) (ht2 : G.EdgeEnd e2 < G.fresh)
    (hcs2 : G.conjugate_typed = true → G.EdgeStart e2 ≠ v → G.conjugateV (G.EdgeStart e2) ≠ v)
    (hct2 : G.conjugate_typed = true → G.EdgeEnd e2 ≠ v → G.conjugateV (G.EdgeEnd e2) ≠ v) :
    CleanInv G v (g.SplitVertex v [e1, e2] [c1, c2]).1
      ∧ (g.SplitVertex v [e1, e2] [c1, c2]).1.vertices = g.AddVertex.1.vertices
      ∧ g.fresh < (g.SplitVertex v [e1, e2] [c1, c2]).1.fresh
      ∧ ∃ P1 P2 news, (g.SplitVertex v [e1, e2] [c1, c2]).1.edges = g.edges ++ news
          ∧ g.fresh ≤ P1.id ∧ g.fresh ≤ P2.id
          ∧ (g.SplitVertex v [e1, e2] [c1, c2]).1.edge P1.id = some P1
          ∧ (g.SplitVertex v [e1, e2] [c1, c2]).1.edge P2.id = some P2
          ∧ P1.start = (if G.EdgeStart e1 = v then g.fresh else G.EdgeStart e1)
          ∧ P1.finish = (if G.EdgeEnd e1 = v then g.fresh else G.EdgeEnd e1)
          ∧ P1.nucls = G.EdgeNucls e1
          ∧ P2.start = (if G.EdgeStart e2 = v then g.fresh else G.EdgeStart e2)
          ∧ P2.finish = (if G.EdgeEnd e2 = v then g.fresh else G.EdgeEnd e2)
          ∧ P2.nucls = G.EdgeNucls e2
          ∧ ∀ r ∈ news, r = P1 ∨ r = P2 ∨ ((r.start < G.fresh ∨ r.start = g.fresh + 1)
              ∧ (r.finish < G.fresh ∨ r.finish = g.fresh + 1)) := by
  obtain ⟨a1, a2, a3, a4⟩ := h.clean_addVertex
  have hstep1 := Graph.cloneEdge_clean g.fresh (g.AddVertex.1, []) e1 c1 a1 hG hv h.fresh_ge a3
    a4 he1 hs1 ht1 hcs1 hct1
  obtain ⟨b1, b2, b3, P1, rest1, b4, b5, b6, b7, b8, b9⟩ := hstep1
  have hcnv2 : (Graph.cloneEdge v g.fresh (g.AddVertex.1, []) (e1, c1)).1.conjugate_typed
      = true →
      (Graph.cloneEdge v g.fresh (g.AddVertex.1, []) (e1, c1)).1.conjugateV g.fresh
          = g.fresh + 1
        ∧ g.fresh + 1 < (Graph.cloneEdge v g.fresh (g.AddVertex.1, []) (e1, c1)).1.fresh := by
    intro hty
    have hty1 : g.AddVertex.1.conjugate_typed = true := by
      rw [a1.typed, ← b1.typed]; exact hty
    obtain ⟨c1, c2⟩ := a4 hty1
    constructor
    · unfold Graph.conjugateV Graph.vertex
      rw [b2]
      exact c1
    · exact lt_trans c2 b3
  have hstep2 := Graph.cloneEdge_clean g.fresh
    (Graph.cloneEdge v g.fresh (g.AddVertex.1, []) (e1, c1)) e2 c2 b1 hG hv h.fresh_ge
    (lt_trans a3 b3) hcnv2 he2 hs2 ht2 hcs2 hct2
  obtain ⟨d1, d2, d3, P2, rest2, d4, d5, d6, d7, d8, d9⟩ := hstep2
  have hsv : g.SplitVertex v [e1, e2] [c1, c2]
      = ((Graph.cloneEdge v g.fresh
            (Graph.cloneEdge v g.fresh (g.AddVertex.1, []) (e1, c1)) (e2, c2)).1, g.fresh,
          (Graph.cloneEdge v g.fresh
            (Graph.cloneEdge v g.fresh (g.AddVertex.1, []) (e1, c1)) (e2, c2)).2) := by
    unfold Graph.SplitVertex
    simp only [List.zip_cons_cons, List.zip_nil_right, List.foldl_cons, List.foldl_nil,
      Graph.AddVertex_snd]
  rw [hsv]
  simp only
  generalize Graph.cloneEdge v g.fresh (g.AddVertex.1, []) (e1, c1) = acc1 at *
  generalize Graph.cloneEdge v g.fresh acc1 (e2, c2) = acc2 at *
  have hid1 : ∀ id ∈ g.AddVertex.1.edgeIds, id < P1.id := by
    intro id hid
    unfold Graph.edgeIds at hid
    obtain ⟨r, hr, hri⟩ := List.mem_map.1 hid
    rw [← hri, b5]
    exact a1.ids r hr
  have hl1 : acc1.1.edge P1.id = some P1 :=
    Graph.edge_append_fresh g.AddVertex.1 acc1.1 P1 rest1 b4 hid1
  have hid2 : ∀ id ∈ acc1.1.edgeIds, id < P2.id := by
    intro id hid
    unfold Graph.edgeIds at hid
    obtain ⟨r, hr, hri⟩ := List.mem_map.1 hid
    rw [← hri, d5]
    exact b1.ids r hr
  have hl2 : acc2.1.edge P2.id = some P2 :=
    Graph.edge_append_fresh acc1.1 acc2.1 P2 rest2 d4 hid2
  have hl1b : acc2.1.edge P1.id = some P1 := by
    rw [Graph.edge_append_of_mem acc1.1 acc2.1 (P2 :: rest2) P1.id d4, hl1]
    obtain ⟨hm, hi⟩ := Graph.edge_some acc1.1 P1.id P1 hl1
    unfold Graph.edgeIds
    exact List.mem_map.2 ⟨P1, hm, hi⟩
  refine ⟨d1, d2.trans b2, lt_trans a3 (lt_trans b3 d3), P1, P2, (P1 :: rest1) ++ (P2 :: rest2),
    ?_, ?_, ?_, hl1b, hl2, b6, b7, b8, d6, d7, d8, ?_⟩
  · rw [d4, b4, a2, List.append_assoc]
  · rw [b5]; exact le_of_lt a3
  · rw [d5]; exact le_of_lt (lt_trans a3 b3)
  · intro r hr
    rcases List.mem_append.1 hr with h1 | h1
    · rcases List.mem_cons.1 h1 with h2 | h2
      · exact Or.inl h2
      · exact Or.inr (Or.inr (b9 r h2))
    · rcases List.mem_cons.1 h1 with h2 | h2
      · exact Or.inr (Or.inl h2)
      · exact Or.inr (Or.inr (d9 r h2))

/-- The call `SplitVertex(v, {X, Y})` for an outgoing edge `X` and an incoming edge `Y` of
`v` in `G`, neither a loop: the new vertex `g.fresh` gets exactly the copy of `X` as
outgoing and the copy of `Y` as incoming edge, and the copies at the vertices created
before stay what they are. -/
theorem Graph.SplitVertex_clean {G : Graph} {v : VertexId} {g : Graph} (X Y : EdgeId)
    (es : List EdgeId) (cs : List ℚ) (h : CleanInv G v g) (hG : AllocatedBelow G)
    (hv : v < G.fresh) (hes : es = [X, Y] ∨ es = [Y, X]) (hcs : cs.length = 2)
    (hX : X < G.fresh) (hXs : G.EdgeStart X = v) (hXt : G.EdgeEnd X ≠ v)
    (hXl : G.EdgeEnd X < G.fresh)
    (hY : Y < G.fresh) (hYt : G.EdgeEnd Y = v) (hYs : G.EdgeStart Y ≠ v)
    (hYl : G.EdgeStart Y < G.fresh)
    (hcX : G.conjugate_typed = true → G.conjugateV (G.EdgeEnd X) ≠ v)
    (hcY : G.conjugate_typed = true → G.conjugateV (G.EdgeStart Y) ≠ v) :
    CleanInv G v (g.SplitVertex v es cs).1
      ∧ (g.SplitVertex v es cs).1.vertices = g.AddVertex.1.vertices
      ∧ g.fresh < (g.SplitVertex v es cs).1.fresh
      ∧ (∃ a c, OutCopy G (g.SplitVertex v es cs).1 g.fresh X a
          ∧ InCopy G (g.SplitVertex v es cs).1 g.fresh Y c)
      ∧ (∀ w X2 a2, G.fresh ≤ w → w < g.fresh → OutCopy G g w X2 a2 →
          OutCopy G (g.SplitVertex v es cs).1 w X2 a2)
      ∧ (∀ w Y2 c2, G.fresh ≤ w → w < g.fresh → InCopy G g w Y2 c2 →
          InCopy G (g.SplitVertex v es cs).1 w Y2 c2) := by
  obtain ⟨c1, c2, hcs2⟩ : ∃ c1 c2, cs = [c1, c2] := by
    match cs, hcs with
    | [x, y], _ => exact ⟨x, y, rfl⟩
  have hvs : v < g.fresh := lt_of_lt_of_le hv h.fresh_ge
  have hXv : (if G.EdgeStart X = v then g.fresh else G.EdgeStart X) = g.fresh := if_pos hXs
  have hXe : (if G.EdgeEnd X = v then g.fresh else G.EdgeEnd X) = G.EdgeEnd X := if_neg hXt
  have hYv : (if G.EdgeEnd Y = v then g.fresh else G.EdgeEnd Y) = g.fresh := if_pos hYt
  have hYe : (if G.EdgeStart Y = v then g.fresh else G.EdgeStart Y) = G.EdgeStart Y :=
    if_neg hYs
  have key : ∀ e1 e2 : EdgeId, ((e1 = X ∧ e2 = Y) ∨ (e1 = Y ∧ e2 = X)) →
      CleanInv G v (g.SplitVertex v [e1, e2] [c1, c2]).1
      ∧ (g.SplitVertex v [e1, e2] [c1, c2]).1.vertices = g.AddVertex.1.vertices
      ∧ g.fresh < (g.SplitVertex v [e1, e2] [c1, c2]).1.fresh
      ∧ (∃ a c, OutCopy G (g.SplitVertex v [e1, e2] [c1, c2]).1 g.fresh X a
          ∧ InCopy G (g.SplitVertex v [e1, e2] [c1, c2]).1 g.fresh Y c)
      ∧ (∀ w X2 a2, G.fresh ≤ w → w < g.fresh → OutCopy G g w X2 a2 →
          OutCopy G (g.SplitVertex v [e1, e2] [c1, c2]).1 w X2 a2)
      ∧ (∀ w Y2 c3, G.fresh ≤ w → w < g.fresh → InCopy G g w Y2 c3 →
          InCopy G (g.SplitVertex v [e1, e2] [c1, c2]).1 w Y2 c3) := by
    intro e1 e2 hord
    have hXall : X < G.fresh ∧ G.EdgeStart X < G.fresh ∧ G.EdgeEnd X < G.fresh
        ∧ (G.conjugate_typed = true → G.EdgeStart X ≠ v → G.conjugateV (G.EdgeStart X) ≠ v)
        ∧ (G.conjugate_typed = true → G.EdgeEnd X ≠ v → G.conjugateV (G.EdgeEnd X) ≠ v) :=
      ⟨hX, hXs ▸ hv, hXl, fun _ hn => absurd hXs hn, fun ht _ => hcX ht⟩
    have hYall : Y < G.fresh ∧ G.EdgeStart Y < G.fresh ∧ G.EdgeEnd Y < G.fresh
        ∧ (G.conjugate_typed = true → G.EdgeStart Y ≠ v → G.conjugateV (G.EdgeStart Y) ≠ v)
        ∧ (G.conjugate_typed = true → G.EdgeEnd Y ≠ v → G.conjugateV (G.EdgeEnd Y) ≠ v) :=
      ⟨hY, hYl, hYt ▸ hv, fun ht _ => hcY ht, fun _ hn => absurd hYt hn⟩
    have h1all : e1 < G.fresh ∧ G.EdgeStart e1 < G.fresh ∧ G.EdgeEnd e1 < G.fresh
        ∧ (G.conjugate_typed = true → G.EdgeStart e1 ≠ v → G.conjugateV (G.EdgeStart e1) ≠ v)
        ∧ (G.conjugate_typed = true → G.EdgeEnd e1 ≠ v → G.conjugateV (G.EdgeEnd e1) ≠ v) := by
      rcases hord with ⟨h1, _⟩ | ⟨h1, _⟩ <;> rw [h1]
      · exact hXall
      · exact hYall
    have h2all : e2 < G.fresh ∧ G.EdgeStart e2 < G.fresh ∧ G.EdgeEnd e2 < G.fresh
        ∧ (G.conjugate_typed = true → G.EdgeStart e2 ≠ v → G.conjugateV (G.EdgeStart e2) ≠ v)
        ∧ (G.conjugate_typed = true → G.EdgeEnd e2 ≠ v → G.conjugateV (G.EdgeEnd e2) ≠ v) := by
      rcases hord with ⟨_, h2⟩ | ⟨_, h2⟩ <;> rw [h2]
      · exact hYall
      · exact hXall
    obtain ⟨p1, p2, p3, P1, P2, news, q1, q2, q3, q4, q5, q6, q7, q8, q9, q10, q11, q12⟩ :=
      Graph.SplitVertex_pair e1 e2 c1 c2 h hG hv h1all.1 h1all.2.1 h1all.2.2.1 h1all.2.2.2.1
        h1all.2.2.2.2 h2all.1 h2all.2.1 h2all.2.2.1 h2all.2.2.2.1 h2all.2.2.2.2
    generalize g.SplitVertex v [e1, e2] [c1, c2] = sp at *
    have hgf : G.fresh ≤ g.fresh := h.fresh_ge
    -- the other records touch neither `g.fresh` nor an earlier new vertex
    have hother : ∀ r : EdgeRec, ((r.start < G.fresh ∨ r.start = g.fresh + 1)
          ∧ (r.finish < G.fresh ∨ r.finish = g.fresh + 1)) →
        ∀ w, G.fresh ≤ w → w ≤ g.fresh → r.start ≠ w ∧ r.finish ≠ w := by
      intro r hr w hw1 hw2
      constructor
      · rcases hr.1 with h3 | h3
        · exact Nat.ne_of_lt (lt_of_lt_of_le h3 hw1)
        · rw [h3]; exact Nat.ne_of_gt (Nat.lt_succ_of_le hw2)
      · rcases hr.2 with h3 | h3
        · exact Nat.ne_of_lt (lt_of_lt_of_le h3 hw1)
        · rw [h3]; exact Nat.ne_of_gt (Nat.lt_succ_of_le hw2)
    have hPX : ∀ P : EdgeRec, P.start = (if G.EdgeStart X = v then g.fresh else G.EdgeStart X) →
        P.finish = (if G.EdgeEnd X = v then g.fresh else G.EdgeEnd X) →
        P.start = g.fresh ∧ P.finish = G.EdgeEnd X
          ∧ (∀ w, G.fresh ≤ w → w < g.fresh → P.start ≠ w ∧ P.finish ≠ w)
          ∧ P.finish ≠ g.fresh := by
      intro P hs hf
      rw [hXv] at hs
      rw [hXe] at hf
      refine ⟨hs, hf, ?_, ?_⟩
      · intro w hw1 hw2
        rw [hs, hf]
        exact ⟨Nat.ne_of_gt hw2, Nat.ne_of_lt (lt_of_lt_of_le hXl hw1)⟩
      · rw [hf]; exact Nat.ne_of_lt (lt_of_lt_of_le hXl hgf)
    have hPY : ∀ P : EdgeRec, P.start = (if G.EdgeStart Y = v then g.fresh else G.EdgeStart Y) →
        P.finish = (if G.EdgeEnd Y = v then g.fresh else G.EdgeEnd Y) →
        P.finish = g.fresh ∧ P.start = G.EdgeStart Y
          ∧ (∀ w, G.fresh ≤ w → w < g.fresh → P.start ≠ w ∧ P.finish ≠ w)
          ∧ P.start ≠ g.fresh := by
      intro P hs hf
      rw [hYe] at hs
      rw [hYv] at hf
      refine ⟨hf, hs, ?_, ?_⟩
      · intro w hw1 hw2
        rw [hs, hf]
        exact ⟨Nat.ne_of_lt (lt_of_lt_of_le hYl hw1), Nat.ne_of_gt hw2⟩
      · rw [hs]; exact Nat.ne_of_lt (lt_of_lt_of_le hYl hgf)
    -- the copy `PX` of `X` and the copy `PY` of `Y` among `P1`, `P2`
    obtain ⟨PX, PY, hPXl, hPYl, hPXg, hPYg, hPXs, hPXf, hPXn, hPYs, hPYf, hPYn, hnews⟩ :
        ∃ PX PY : EdgeRec, sp.1.edge PX.id = some PX ∧ sp.1.edge PY.id = some PY
          ∧ g.fresh ≤ PX.id ∧ g.fresh ≤ PY.id
          ∧ PX.start = (if G.EdgeStart X = v then g.fresh else G.EdgeStart X)
          ∧ PX.finish = (if G.EdgeEnd X = v then g.fresh else G.EdgeEnd X)
          ∧ PX.nucls = G.EdgeNucls X
          ∧ PY.start = (if G.EdgeStart Y = v then g.fresh else G.EdgeStart Y)
          ∧ PY.finish = (if G.EdgeEnd Y = v then g.fresh else G.EdgeEnd Y)
          ∧ PY.nucls = G.EdgeNucls Y
          ∧ ∀ r ∈ news, r = PX ∨ r = PY ∨ ((r.start < G.fresh ∨ r.start = g.fresh + 1)
              ∧ (r.finish < G.fresh ∨ r.finish = g.fresh + 1)) := by
      rcases hord with ⟨h1, h2⟩ | ⟨h1, h2⟩
      · rw [h1] at q6 q7 q8
        rw [h2] at q9 q10 q11
        exact ⟨P1, P2, q4, q5, q2, q3, q6, q7, q8, q9, q10, q11, q12⟩
      · rw [h1] at q6 q7 q8
        rw [h2] at q9 q10 q11
        refine ⟨P2, P1, q5, q4, q3, q2, q9, q10, q11, q6, q7, q8, ?_⟩
        intro r hr
        rcases q12 r hr with h3 | h3 | h3
        · exact Or.inr (Or.inl h3)
        · exact Or.inl h3
        · exact Or.inr (Or.inr h3)
    obtain ⟨x1, x2, x3, x4⟩ := hPX PX hPXs hPXf
    obtain ⟨y1, y2, y3, y4⟩ := hPY PY hPYs hPYf
    refine ⟨p1, p2, p3, ⟨PX.id, PY.id, ⟨le_trans hgf hPXg, ⟨PX, hPXl, x1, x2, hPXn⟩, ?_⟩,
      ⟨le_trans hgf hPYg, ⟨PY, hPYl, y1, y2, hPYn⟩, ?_⟩⟩, ?_, ?_⟩
    · intro r hr hs
      rw [q1] at hr
      rcases List.mem_append.1 hr with h3 | h3
      · exact absurd hs (Nat.ne_of_lt (h.ends r h3).1)
      · rcases hnews r h3 with h4 | h4 | h4
        · rw [h4]
        · rw [h4] at hs; exact absurd hs y4
        · exact absurd hs (hother r h4 g.fresh hgf (Nat.le_refl _)).1
    · intro r hr hs
      rw [q1] at hr
      rcases List.mem_append.1 hr with h3 | h3
      · exact absurd hs (Nat.ne_of_lt (h.ends r h3).2)
      · rcases hnews r h3 with h4 | h4 | h4
        · rw [h4] at hs; exact absurd hs x4
        · rw [h4]
        · exact absurd hs (hother r h4 g.fresh hgf (Nat.le_refl _)).2
    · intro w X2 a2 hw1 hw2 ho
      apply ho.out_append news q1
      intro r hr
      rcases hnews r hr with h4 | h4 | h4
      · rw [h4]; exact (x3 w hw1 hw2).1
      · rw [h4]; exact (y3 w hw1 hw2).1
      · exact (hother r h4 w hw1 (le_of_lt hw2)).1
    · intro w Y2 c3 hw1 hw2 hi
      apply hi.in_append news q1
      intro r hr
      rcases hnews r hr with h4 | h4 | h4
      · rw [h4]; exact (x3 w hw1 hw2).2
      · rw [h4]; exact (y3 w hw1 hw2).2
      · exact (hother r h4 w hw1 (le_of_lt hw2)).2
  rw [hcs2]
  rcases hes with h1 | h1 <;> rw [h1]
  · exact key X Y (Or.inl ⟨rfl, rfl⟩)
  · exact key Y X (Or.inr ⟨rfl, rfl⟩)

theorem Graph.DeleteEdge_fold_filter (F : Nat) (l : List EdgeId) (g : Graph)
    (hl : ∀ e ∈ l, e < F) (hold : ∀ r ∈ g.edges, r.id < F → r.conj < F) :
    ∃ p : EdgeRec → Bool, (l.foldl Graph.DeleteEdge g).edges = g.edges.filter p
      ∧ (∀ r, F ≤ r.id → p r = true)
      ∧ (l.foldl Graph.DeleteEdge g).vertices = g.vertices
      ∧ (l.foldl Graph.DeleteEdge g).conjugate_typed = g.conjugate_typed := by
  induction l generalizing g with
  | nil => exact ⟨fun _ => true, by simp, fun _ _ => rfl, rfl, rfl⟩
  | cons e t ih =>
    simp only [List.foldl_cons]
    have he : e < F := hl e (List.mem_cons_self _ _)
    have hce : g.conjugateE e < F := by
      unfold Graph.conjugateE
      cases hf : g.edge e with
      | none => exact he
      | some r0 =>
        obtain ⟨hm, hi⟩ := Graph.edge_some g e r0 hf
        exact hold r0 hm (hi ▸ he)
    obtain ⟨q, hq1, hq2, hq3, hq4⟩ : ∃ q : EdgeRec → Bool,
        (g.DeleteEdge e).edges = g.edges.filter q ∧ (∀ r, F ≤ r.id → q r = true)
          ∧ (g.DeleteEdge e).vertices = g.vertices
          ∧ (g.DeleteEdge e).conjugate_typed = g.conjugate_typed := by
      unfold Graph.DeleteEdge
      split_ifs
      · refine ⟨fun r => decide (r.id ≠ e ∧ r.id ≠ g.conjugateE e), rfl, ?_, rfl, rfl⟩
        intro r hr
        exact decide_eq_true ⟨Nat.ne_of_gt (lt_of_lt_of_le he hr),
          Nat.ne_of_gt (lt_of_lt_of_le hce hr)⟩
      · refine ⟨fun r => decide (r.id ≠ e), rfl, ?_, rfl, rfl⟩
        intro r hr
        exact decide_eq_true (Nat.ne_of_gt (lt_of_lt_of_le he hr))
    obtain ⟨p, hp1, hp2, hp3, hp4⟩ := ih (g.DeleteEdge e)
      (fun x hx => hl x (List.mem_cons_of_mem _ hx))
      (fun r hr hlt => hold r (by rw [hq1] at hr; exact (List.mem_filter.1 hr).1) hlt)
    refine ⟨fun r => q r && p r, ?_, ?_, hp3.trans hq3, hp4.trans hq4⟩
    · rw [hp1, hq1, List.filter_filter]
      congr 1
      funext r
      exact Bool.and_comm _ _
    · intro r hr
      simp only [hq2 r hr, hp2 r hr, Bool.and_self]

theorem OutCopy.out_filter {G g g2 : Graph} {nv : VertexId} {X a : EdgeId}
    (h : OutCopy G g nv X a) (p : EdgeRec → Bool) (he : g2.edges = g.edges.filter p)
    (hp : ∀ r, G.fresh ≤ r.id → p r = true) : OutCopy G g2 nv X a := by
  obtain ⟨r, hr, h1, h2, h3⟩ := h.copy
  refine ⟨h.created, ⟨r, ?_, h1, h2, h3⟩, ?_⟩
  · unfold Graph.edge at hr ⊢
    rw [he]
    apply List.find?_filter_of_kept _ _ _ _ hr
    apply hp
    have hid : r.id = a := by simpa using List.find?_some hr
    rw [hid]
    exact h.created
  · intro r2 hr2 hs
    rw [he] at hr2
    exact h.only r2 (List.mem_filter.1 hr2).1 hs

theorem InCopy.in_filter {G g g2 : Graph} {nv : VertexId} {Y c : EdgeId}
    (h : InCopy G g nv Y c) (p : EdgeRec → Bool) (he : g2.edges = g.edges.filter p)
    (hp : ∀ r, G.fresh ≤ r.id → p r = true) : InCopy G g2 nv Y c := by
  obtain ⟨r, hr, h1, h2, h3⟩ := h.copy
  refine ⟨h.created, ⟨r, ?_, h1, h2, h3⟩, ?_⟩
  · unfold Graph.edge at hr ⊢
    rw [he]
    apply List.find?_filter_of_kept _ _ _ _ hr
    apply hp
    have hid : r.id = c := by simpa using List.find?_some hr
    rw [hid]
    exact h.created
  · intro r2 hr2 hs
    rw [he] at hr2
    exact h.only r2 (List.mem_filter.1 hr2).1 hs

/-- The forced delete of `v` removes `v` and leaves the copies at the new vertices as they
are. -/
theorem Graph.ForceDeleteVertex_clean {G : Graph} {v : VertexId} {g : Graph}
    (h : CleanInv G v g) :
    (∀ nv X a, OutCopy G g nv X a → OutCopy G (g.ForceDeleteVertex v) nv X a)
      ∧ (∀ nv Y c, InCopy G g nv Y c → InCopy G (g.ForceDeleteVertex v) nv Y c)
      ∧ v ∉ (g.ForceDeleteVertex v).vertexIds := by
  have hl : ∀ e ∈ g.OutgoingEdges v ++ g.IncomingEdges v, e < G.fresh := by
    intro e he
    unfold Graph.OutgoingEdges Graph.IncomingEdges at he
    rcases List.mem_append.1 he with h1 | h1
    · obtain ⟨r, hr, hri⟩ := List.mem_map.1 h1
      obtain ⟨hm, hs⟩ := List.mem_filter.1 hr
      by_contra hn
      exact (h.newrec r hm (hri ▸ Nat.le_of_not_lt hn)).1 (by simpa using hs)
    · obtain ⟨r, hr, hri⟩ := List.mem_map.1 h1
      obtain ⟨hm, hs⟩ := List.mem_filter.1 hr
      by_contra hn
      exact (h.newrec r hm (hri ▸ Nat.le_of_not_lt hn)).2 (by simpa using hs)
  obtain ⟨p, hp1, hp2, _, _⟩ := Graph.DeleteEdge_fold_filter G.fresh
    (g.OutgoingEdges v ++ g.IncomingEdges v) g hl (fun r hr hlt => (h.oldrec r hr hlt).2.2)
  have hedges : (g.ForceDeleteVertex v).edges = g.edges.filter p := by
    unfold Graph.ForceDeleteVertex
    simp only
    rw [← hp1]
    unfold Graph.DeleteVertex
    split_ifs <;> rfl
  refine ⟨fun _ _ _ ho => ho.out_filter p hedges hp2, fun _ _ _ hi => hi.in_filter p hedges hp2, ?_⟩
  unfold Graph.ForceDeleteVertex Graph.DeleteVertex Graph.vertexIds
  simp only
  intro hm
  obtain ⟨r, hr, hri⟩ := List.mem_map.1 hm
  split_ifs at hr
  · have := (List.mem_filter.1 hr).2
    simp only [decide_eq_true_eq] at this
    exact this.1 hri
  · have := (List.mem_filter.1 hr).2
    simp only [decide_eq_true_eq] at this
    exact this hri

/-- What `OutCopy` says in terms of the graph queries. -/
theorem OutCopy.out_spec {G g : Graph} {nv : VertexId} {X a : EdgeId} (h : OutCopy G g nv X a) :
    (∀ e, e ∈ g.OutgoingEdges nv ↔ e = a) ∧ g.EdgeStart a = nv
      ∧ g.EdgeEnd a = G.EdgeEnd X ∧ g.EdgeNucls a = G.EdgeNucls X := by
  obtain ⟨r, hr, h1, h2, h3⟩ := h.copy
  obtain ⟨hm, hid⟩ := Graph.edge_some g a r hr
  refine ⟨?_, ?_, ?_, ?_⟩
  · intro e
    unfold Graph.OutgoingEdges
    constructor
    · intro he
      obtain ⟨r2, hr2, hri⟩ := List.mem_map.1 he
      obtain ⟨hm2, hs⟩ := List.mem_filter.1 hr2
      rw [← hri]
      exact h.only r2 hm2 (by simpa using hs)
    · intro he
      rw [he]
      exact List.mem_map.2 ⟨r, List.mem_filter.2 ⟨hm, by simpa using h1⟩, hid⟩
  · unfold Graph.EdgeStart; rw [hr]; exact h1
  · unfold Graph.EdgeEnd; rw [hr]; exact h2
  · unfold Graph.EdgeNucls; rw [hr]; exact h3

/-- What `InCopy` says in terms of the graph queries. -/
theorem InCopy.in_spec {G g : Graph} {nv : VertexId} {Y c : EdgeId} (h : InCopy G g nv Y c) :
    (∀ e, e ∈ g.IncomingEdges nv ↔ e = c) ∧ g.EdgeEnd c = nv
      ∧ g.EdgeStart c = G.EdgeStart Y ∧ g.EdgeNucls c = G.EdgeNucls Y := by
  obtain ⟨r, hr, h1, h2, h3⟩ := h.copy
  obtain ⟨hm, hid⟩ := Graph.edge_some g c r hr
  refine ⟨?_, ?_, ?_, ?_⟩
  · intro e
    unfold Graph.IncomingEdges
    constructor
    · intro he
      obtain ⟨r2, hr2, hri⟩ := List.mem_map.1 he
      obtain ⟨hm2, hs⟩ := List.mem_filter.1 hr2
      rw [← hri]
      exact h.only r2 hm2 (by simpa using hs)
    · intro he
      rw [he]
      exact List.mem_map.2 ⟨r, List.mem_filter.2 ⟨hm, by simpa using h1⟩, hid⟩
  · unfold Graph.EdgeEnd; rw [hr]; exact h1
  · unfold Graph.EdgeStart; rw [hr]; exact h2
  · unfold Graph.EdgeNucls; rw [hr]; exact h3

theorem pruneStep_keep (cutting : ℚ) (st : SplitLoop) (it : EdgeId × EdgeId) :
    st.low_coverage ≤ (pruneStep cutting st it).low_coverage
      ∧ ((pruneStep cutting st it).low_coverage = st.low_coverage →
          (pruneStep cutting st it).rr.new_graph = st.rr.new_graph) := by
  unfold pruneStep
  simp only
  by_cases hc : st.rr.new_graph.coverage it.2 < cutting
  · rw [if_pos hc]
    simp only
    exact ⟨Nat.le_succ _, fun h => absurd h (Nat.succ_ne_self _)⟩
  · rw [if_neg hc]
    exact ⟨Nat.le_refl _, fun _ => rfl⟩

theorem pruneStep_fold_keep (cutting : ℚ) (l : List (EdgeId × EdgeId)) (st : SplitLoop) :
    st.low_coverage ≤ (l.foldl (pruneStep cutting) st).low_coverage
      ∧ ((l.foldl (pruneStep cutting) st).low_coverage = st.low_coverage →
          (l.foldl (pruneStep cutting) st).rr.new_graph = st.rr.new_graph) := by
  induction l generalizing st with
  | nil => exact ⟨Nat.le_refl _, fun _ => rfl⟩
  | cons a t ih =>
    simp only [List.foldl_cons]
    obtain ⟨s1, s2⟩ := pruneStep_keep cutting st a
    obtain ⟨i1, i2⟩ := ih (pruneStep cutting st a)
    refine ⟨le_trans s1 i1, ?_⟩
    intro heq
    have h1 : (pruneStep cutting st a).low_coverage = st.low_coverage :=
      le_antisymm (heq ▸ i1) s1
    rw [i2 (heq.trans h1.symm), s2 h1]

theorem pruneEntry_low (env : Env) (v : VertexId) (old : StdMap ℚ)
    (cols : List (StdMap ℚ)) (st : SplitLoop) (i : Nat) :
    (pruneEntry env v old cols st i).low_coverage = st.low_coverage := by
  unfold pruneEntry
  simp only
  split_ifs <;> rfl

/-- The colour loop never lowers the counter `low_coverage`, and a colour that leaves it
as it was leaves the graph as `SplitVertex` and the mirror loop made it. -/
theorem splitColour_keep (env : Env) (v : VertexId) (old : StdMap ℚ)
    (cols : List (StdMap ℚ)) (st : SplitLoop) (i : Nat) :
    st.low_coverage ≤ (splitColour env v old cols st i).low_coverage
      ∧ ((splitColour env v old cols st i).low_coverage = st.low_coverage →
          (splitColour env v old cols st i).rr.new_graph
            = (pruneEntry env v old cols st i).rr.new_graph) := by
  rw [splitColour_eq_prune]
  obtain ⟨h1, h2⟩ := pruneStep_fold_keep (cutting_coverage env.cfg)
    (prunePairs env v old cols st i) (pruneEntry env v old cols st i)
  rw [pruneEntry_low] at h1 h2
  exact ⟨h1, h2⟩

theorem pruneEntry_new_graph (env : Env) (v : VertexId) (old : StdMap ℚ)
    (cols : List (StdMap ℚ)) (st : SplitLoop) (i : Nat)
    (hsc : ∀ g es, env.SplitCondition g v es = true)
    (hne : (splitEdges old (cols.getD i []) st.rr.local_cheating_edges).1 ≠ []) :
    (pruneEntry env v old cols st i).rr.new_graph
      = (if st.rr.rc_mode = true then
          ((st.rr.new_graph.SplitVertex v
              (splitEdges old (cols.getD i []) st.rr.local_cheating_edges).1
              (splitEdges old (cols.getD i []) st.rr.local_cheating_edges).2.1).2.2.foldl
            mirrorCoverageStep
            ((st.rr.new_graph.SplitVertex v
              (splitEdges old (cols.getD i []) st.rr.local_cheating_edges).1
              (splitEdges old (cols.getD i []) st.rr.local_cheating_edges).2.1).1, false)).1
         else (st.rr.new_graph.SplitVertex v
              (splitEdges old (cols.getD i []) st.rr.local_cheating_edges).1
              (splitEdges old (cols.getD i []) st.rr.local_cheating_edges).2.1).1) := by
  have hcond : (splitEdges old (cols.getD i []) st.rr.local_cheating_edges).1.length > 0
      ∧ env.SplitCondition st.rr.new_graph v
          (splitEdges old (cols.getD i []) st.rr.local_cheating_edges).1 = true :=
    ⟨List.length_pos.2 hne, hsc _ _⟩
  unfold pruneEntry
  simp only
  rw [if_pos hcond]
  simp only
  split_ifs <;> rfl

theorem splitLoopAt_succ (env : Env) (rr1 : RepeatResolver) (edgeCounts : StdMap Int)
    (k : Int) (v : VertexId) (i : Nat) :
    splitLoopAt env rr1 edgeCounts k v (i + 1)
      = splitColour env v (splitCoverage rr1 edgeCounts k).1 (splitCoverage rr1 edgeCounts k).2
          (splitLoopAt env rr1 edgeCounts k v i) i := by
  unfold splitLoopAt
  rw [List.range_succ, List.foldl_append]
  rfl

theorem sorted_pair (l : List Nat) (X Y : Nat) (hs : l.Pairwise (· < ·))
    (hm : ∀ e, e ∈ l ↔ e = X ∨ e = Y) (hne : X ≠ Y) : l = [X, Y] ∨ l = [Y, X] := by
  have hnd : l.Nodup := hs.imp (fun h => Nat.ne_of_lt h)
  rcases Nat.lt_or_gt_of_ne hne with hlt | hlt
  · left
    apply List.eq_of_perm_of_sorted (r := (· < ·)) _ hs
    · simp [List.Sorted, hlt]
    · rw [List.perm_ext_iff_of_nodup hnd (by simp [hne])]
      intro e
      rw [hm e]
      simp
  · right
    apply List.eq_of_perm_of_sorted (r := (· < ·)) _ hs
    · simp [List.Sorted, hlt]
    · rw [List.perm_ext_iff_of_nodup hnd (by simp [hne.symm])]
      intro e
      rw [hm e]
      simp [or_comm]

theorem splitEdges_sorted (old : StdMap ℚ) (m : StdMap ℚ) (lce : StdMap Int)
    (hs : (StdMap.keys m).Pairwise (· < ·)) :
    (splitEdges old m lce).1.Pairwise (· < ·) := by
  rw [(splitEdges_lists old m lce).1]
  unfold StdMap.keys at hs
  exact hs.sublist (List.Sublist.map _ (List.filter_sublist _))

theorem coverageLoop_sorted (occ : List (EdgeInfo × Int)) (k c : Nat) (hc : c < k)
    (lce : StdMap Int) :
    (splitEdges (coverageLoop occ k).1 ((coverageLoop occ k).2.getD c []) lce).1.Pairwise
      (· < ·) := by
  have hlen : (coverageLoop occ k).2.length = k := by
    have := (coverageLoop_get occ (([] : StdMap ℚ), List.replicate k ([] : StdMap ℚ)) 0).2.1
    simpa [coverageLoop] using this
  apply splitEdges_sorted
  apply coverageLoop_pairwise occ (([] : StdMap ℚ), List.replicate k ([] : StdMap ℚ))
  · intro m hm
    simp only [List.mem_replicate] at hm
    rw [hm.2]
    simp [StdMap.keys]
  · exact getD_mem_of_lt (coverageLoop occ k).2 c [] (by rw [hlen]; exact hc)

/-- One colour of the clean split: the colour loop body for a class `{X, Y}` of an outgoing
edge `X` and an incoming edge `Y`, when it prunes nothing. -/
theorem splitColour_clean {G : Graph} (env : Env) (v : VertexId) (old : StdMap ℚ)
    (cols : List (StdMap ℚ)) (st : SplitLoop) (i : Nat) (X Y : EdgeId)
    (hsc : ∀ g es, env.SplitCondition g v es = true)
    (h : CleanInv G v st.rr.new_graph) (hG : AllocatedBelow G) (hv : v < G.fresh)
    (hes : (splitEdges old (cols.getD i []) st.rr.local_cheating_edges).1 = [X, Y]
      ∨ (splitEdges old (cols.getD i []) st.rr.local_cheating_edges).1 = [Y, X])
    (hX : X < G.fresh) (hXs : G.EdgeStart X = v) (hXt : G.EdgeEnd X ≠ v)
    (hXl : G.EdgeEnd X < G.fresh)
    (hY : Y < G.fresh) (hYt : G.EdgeEnd Y = v) (hYs : G.EdgeStart Y ≠ v)
    (hYl : G.EdgeStart Y < G.fresh)
    (hcX : G.conjugate_typed = true → G.conjugateV (G.EdgeEnd X) ≠ v)
    (hcY : G.conjugate_typed = true → G.conjugateV (G.EdgeStart Y) ≠ v)
    (hlow : (splitColour env v old cols st i).low_coverage = st.low_coverage) :
    CleanInv G v (splitColour env v old cols st i).rr.new_graph
      ∧ st.rr.new_graph.fresh < (splitColour env v old cols st i).rr.new_graph.fresh
      ∧ (∃ a c, OutCopy G (splitColour env v old cols st i).rr.new_graph
            st.rr.new_graph.fresh X a
          ∧ InCopy G (splitColour env v old cols st i).rr.new_graph
            st.rr.new_graph.fresh Y c)
      ∧ (∀ w X2 a2, G.fresh ≤ w → w < st.rr.new_graph.fresh →
          OutCopy G st.rr.new_graph w X2 a2 →
          OutCopy G (splitColour env v old cols st i).rr.new_graph w X2 a2)
      ∧ (∀ w Y2 c2, G.fresh ≤ w → w < st.rr.new_graph.fresh →
          InCopy G st.rr.new_graph w Y2 c2 →
          InCopy G (splitColour env v old cols st i).rr.new_graph w Y2 c2) := by
  have hne : (splitEdges old (cols.getD i []) st.rr.local_cheating_edges).1 ≠ [] := by
    rcases hes with h1 | h1 <;> rw [h1] <;> simp
  have hcs : (splitEdges old (cols.getD i []) st.rr.local_cheating_edges).2.1.length = 2 := by
    rw [← splitEdges_length]
    rcases hes with h1 | h1 <;> rw [h1] <;> rfl
  obtain ⟨s1, s2, s3, ⟨a, c, s4, s5⟩, s6, s7⟩ := Graph.SplitVertex_clean X Y
    (splitEdges old (cols.getD i []) st.rr.local_cheating_edges).1
    (splitEdges old (cols.getD i []) st.rr.local_cheating_edges).2.1 h hG hv hes hcs hX hXs hXt
    hXl hY hYt hYs hYl hcX hcY
  rw [(splitColour_keep env v old cols st i).2 hlow, pruneEntry_new_graph env v old cols st i hsc hne]
  generalize st.rr.new_graph.SplitVertex v
    (splitEdges old (cols.getD i []) st.rr.local_cheating_edges).1
    (splitEdges old (cols.getD i []) st.rr.local_cheating_edges).2.1 = sp at *
  by_cases hrc : st.rr.rc_mode = true
  · rw [if_pos hrc]
    obtain ⟨m1, m2, m3⟩ := mirrorCoverage_fold_clean sp.2.2 (sp.1, false) s1
    refine ⟨m1, ?_, ⟨a, c, m2 _ _ _ s4, m3 _ _ _ s5⟩,
      fun w X2 a2 h1 h2 h3 => m2 _ _ _ (s6 w X2 a2 h1 h2 h3),
      fun w Y2 c2 h1 h2 h3 => m3 _ _ _ (s7 w Y2 c2 h1 h2 h3)⟩
    rw [mirrorCoverageStep_fold_fresh]
    exact s3
  · rw [if_neg hrc]
    exact ⟨s1, s3, ⟨a, c, s4, s5⟩, s6, s7⟩

/-- With clean classes `MultiSplit(v)` passes its guards with two colours and the
occurrences unchanged, and the recolouring loop keeps the classes clean. -/
theorem splitGuards_clean (env : Env) (rr : RepeatResolver) (v : VertexId)
    (A B C D : EdgeId) (hAB : A ≠ B) (hCB : C ≠ B)
    (hout : ∀ e, e ∈ rr.new_graph.OutgoingEdges v ↔ e = A ∨ e = B)
    (hin : ∀ e, e ∈ rr.new_graph.IncomingEdges v ↔ e = C ∨ e = D)
    (hlen : rr.edge_infos.length = rr.edge_info_colors.length)
    (hcl : CleanClasses A B C D (rr.edge_infos.zip rr.edge_info_colors))
    (hlink : ∀ ic ∈ rr.edge_infos.zip rr.edge_info_colors, ic.1.lp ∈ rr.paired_di_data)
    (hidx : ∀ p ∈ rr.paired_di_data,
      (p.first = A ∨ p.first = B ∨ p.first = C ∨ p.first = D) → 0 < p.weight)
    (hsc : ∀ g es, env.SplitCondition g v es = true) :
    splitGuards env rr v = some (rr,
        (countLoop rr.edge_infos rr.edge_info_colors
          (initEdgeCounts (rr.new_graph.OutgoingEdges v) (rr.new_graph.IncomingEdges v))).2, 2)
      ∧ CleanClasses A B C D
          ((recolourLoop (countLoop rr.edge_infos rr.edge_info_colors
              (initEdgeCounts (rr.new_graph.OutgoingEdges v)
                (rr.new_graph.IncomingEdges v))).2 rr).edge_infos.zip
            (recolourLoop (countLoop rr.edge_infos rr.edge_info_colors
              (initEdgeCounts (rr.new_graph.OutgoingEdges v)
                (rr.new_graph.IncomingEdges v))).2 rr).edge_info_colors)
      ∧ ∀ ic ∈ (recolourLoop (countLoop rr.edge_infos rr.edge_info_colors
              (initEdgeCounts (rr.new_graph.OutgoingEdges v)
                (rr.new_graph.IncomingEdges v))).2 rr).edge_infos.zip
            (recolourLoop (countLoop rr.edge_infos rr.edge_info_colors
              (initEdgeCounts (rr.new_graph.OutgoingEdges v)
                (rr.new_graph.IncomingEdges v))).2 rr).edge_info_colors,
          0 < ic.1.lp.weight := by
  have hocc : ∀ e ∈ rr.new_graph.OutgoingEdges v ++ rr.new_graph.IncomingEdges v,
      ∃ ic ∈ rr.edge_infos.zip rr.edge_info_colors, ic.1.lp.first = e := by
    intro e he
    apply hcl.2
    rcases List.mem_append.1 he with h | h
    · rcases (hout e).1 h with h | h <;> simp [h]
    · rcases (hin e).1 h with h | h <;> simp [h]
  have hfirst : ∀ ic ∈ rr.edge_infos.zip rr.edge_info_colors,
      ic.1.lp.first = A ∨ ic.1.lp.first = B ∨ ic.1.lp.first = C ∨ ic.1.lp.first = D := by
    intro ic hic
    rcases hcl.1 ic hic with ⟨_, h | h⟩ | ⟨_, h | h⟩ <;> simp [h]
  have hk : (countLoop rr.edge_infos rr.edge_info_colors
      (initEdgeCounts (rr.new_graph.OutgoingEdges v) (rr.new_graph.IncomingEdges v))).1 = 1 := by
    unfold countLoop
    apply le_antisymm
    · apply countLoop_k_le _ _ 1 (show (0 : Int) ≤ 1 by decide)
      intro ic hic
      rcases hcl.1 ic hic with ⟨h, _⟩ | ⟨h, _⟩ <;> rw [h] <;> decide
    · obtain ⟨ic, hic, hf⟩ := hcl.2 B (by simp)
      have h1 : ic.2 = 1 := by
        rcases hcl.1 ic hic with ⟨_, h | h⟩ | ⟨h, _⟩
        · rw [hf] at h; exact absurd h.symm hAB
        · rw [hf] at h; exact absurd h.symm hCB
        · exact h
      rw [← h1]
      exact (countLoop_k_ge _ _).2 ic hic
  have horph := orphanLoop_pass rr.cheating_mode rr.paired_di_data
    (countLoop rr.edge_infos rr.edge_info_colors
      (initEdgeCounts (rr.new_graph.OutgoingEdges v) (rr.new_graph.IncomingEdges v))).2
    rr.edge_infos rr.edge_info_colors
    (countLoop rr.edge_infos rr.edge_info_colors
      (initEdgeCounts (rr.new_graph.OutgoingEdges v) (rr.new_graph.IncomingEdges v))).1
    (fun ec hec => countLoop_entries_pos _ _ _ _ hocc ec hec)
  have hnd : ((countLoop rr.edge_infos rr.edge_info_colors
      (initEdgeCounts (rr.new_graph.OutgoingEdges v) (rr.new_graph.IncomingEdges v))).2.map
        Prod.fst).Nodup := by
    have hs : (StdMap.keys (countLoop rr.edge_infos rr.edge_info_colors
        (initEdgeCounts (rr.new_graph.OutgoingEdges v)
          (rr.new_graph.IncomingEdges v))).2).Pairwise (· < ·) := by
      unfold countLoop
      apply countLoop_keys_pairwise
      unfold initEdgeCounts
      apply initEdgeCounts_fold_pairwise
      simp [StdMap.keys]
    exact hs.imp (fun hab => Nat.ne_of_lt hab)
  have hinv := RecolourInv.recolour_fold A B C D _ hnd
    (rr.edge_infos, rr.edge_info_colors, rr.paired_di_data)
    ⟨hlen, hcl, fun ic hic => hidx _ (hlink ic hic) (hfirst ic hic), hidx,
      fun ic hic _ => hlink ic hic⟩
  refine ⟨?_, hinv.classes, hinv.pos⟩
  unfold splitGuards
  simp only
  rw [if_neg (not_not.2 ⟨hsc _ _, hsc _ _⟩), hk, if_neg (by decide), ← hk, horph]
  simp only
  rw [hk, if_neg (by decide)]
  rfl

theorem Graph.edge_of_mem_nodup (g : Graph) (r : EdgeRec) (hr : r ∈ g.edges)
    (hnd : g.edgeIds.Nodup) : g.edge r.id = some r := by
  unfold Graph.edge
  unfold Graph.edgeIds at hnd
  have key : ∀ l : List EdgeRec, r ∈ l → (l.map (fun r => r.id)).Nodup →
      l.find? (fun x => decide (x.id = r.id)) = some r := by
    intro l
    induction l with
    | nil => intro h1 _; exact absurd h1 (List.not_mem_nil _)
    | cons x t ih =>
      intro h1 h2
      simp only [List.map_cons, List.nodup_cons] at h2
      rw [List.find?_cons]
      by_cases hx : x.id = r.id
      · simp only [hx, decide_True]
        rcases List.mem_cons.1 h1 with h3 | h3
        · rw [h3]
        · exact absurd (hx ▸ List.mem_map_of_mem (fun r => r.id) h3) h2.1
      · simp only [hx, decide_False]
        rcases List.mem_cons.1 h1 with h3 | h3
        · exact absurd (h3 ▸ rfl) hx
        · exact ih h3 h2.2
  exact key g.edges hr hnd

/-- In a graph without repeated edge identifiers an edge is outgoing from (incoming to)
`v` exactly when it is an edge whose start (end) is `v`. -/
theorem Graph.incident_iff (g : Graph) (hnd : g.edgeIds.Nodup) (v : VertexId) (e : EdgeId) :
    (e ∈ g.OutgoingEdges v ↔ e ∈ g.edgeIds ∧ g.EdgeStart e = v)
      ∧ (e ∈ g.IncomingEdges v ↔ e ∈ g.edgeIds ∧ g.EdgeEnd e = v) := by
  unfold Graph.OutgoingEdges Graph.IncomingEdges Graph.EdgeStart Graph.EdgeEnd
  constructor
  · constructor
    · intro h
      obtain ⟨r, hr, hri⟩ := List.mem_map.1 h
      obtain ⟨hm, hs⟩ := List.mem_filter.1 hr
      have hl := Graph.edge_of_mem_nodup g r hm hnd
      rw [hri] at hl
      rw [hl]
      exact ⟨hri ▸ List.mem_map_of_mem (fun r => r.id) hm, by simpa using hs⟩
    · rintro ⟨h1, h2⟩
      obtain ⟨r, hl, hm, hid⟩ := Graph.edge_mem g e h1
      rw [hl] at h2
      exact List.mem_map.2 ⟨r, List.mem_filter.2 ⟨hm, by simpa using h2⟩, hid⟩
  · constructor
    · intro h
      obtain ⟨r, hr, hri⟩ := List.mem_map.1 h
      obtain ⟨hm, hs⟩ := List.mem_filter.1 hr
      have hl := Graph.edge_of_mem_nodup g r hm hnd
      rw [hri] at hl
      rw [hl]
      exact ⟨hri ▸ List.mem_map_of_mem (fun r => r.id) hm, by simpa using hs⟩
    · rintro ⟨h1, h2⟩
      obtain ⟨r, hl, hm, hid⟩ := Graph.edge_mem g e h1
      rw [hl] at h2
      exact List.mem_map.2 ⟨r, List.mem_filter.2 ⟨hm, by simpa using h2⟩, hid⟩

theorem Graph.edgeId_lt (g : Graph) (h : AllocatedBelow g) (e : EdgeId) (he : e ∈ g.edgeIds) :
    e < g.fresh := by
  unfold Graph.edgeIds at he
  obtain ⟨r, hr, hri⟩ := List.mem_map.1 he
  rw [← hri]
  exact h.ids r hr

/-- The graph that a clean split leaves: `MultiSplit(v)` returns two vertices created by
the split, both in the working graph, `v` is gone, the first new vertex carries exactly a
copy of `A` and a copy of `C`, the second exactly a copy of `B` and a copy of `D`. -/
theorem MultiSplit_clean_graph (env : Env) (rr : RepeatResolver) (v : VertexId)
    (A B C D : EdgeId) (hAB : A ≠ B) (hAD : A ≠ D) (hCB : C ≠ B) (hCD : C ≠ D)
    (hAC : A ≠ C) (hBD : B ≠ D)
    (halloc : AllocatedBelow rr.new_graph)
    (hvids : ∀ r ∈ rr.new_graph.vertices, r.id < rr.new_graph.fresh)
    (hnd : rr.new_graph.edgeIds.Nodup)
    (hconj : rr.new_graph.conjugate_typed = true →
      rr.new_graph.conjugateV (rr.new_graph.EdgeEnd A) ≠ v
        ∧ rr.new_graph.conjugateV (rr.new_graph.EdgeEnd B) ≠ v
        ∧ rr.new_graph.conjugateV (rr.new_graph.EdgeStart C) ≠ v
        ∧ rr.new_graph.conjugateV (rr.new_graph.EdgeStart D) ≠ v)
    (hout : ∀ e, e ∈ rr.new_graph.OutgoingEdges v ↔ e = A ∨ e = B)
    (hin : ∀ e, e ∈ rr.new_graph.IncomingEdges v ↔ e = C ∨ e = D)
    (hlen : rr.edge_infos.length = rr.edge_info_colors.length)
    (hcl : CleanClasses A B C D (rr.edge_infos.zip rr.edge_info_colors))
    (hlink : ∀ ic ∈ rr.edge_infos.zip rr.edge_info_colors, ic.1.lp ∈ rr.paired_di_data)
    (hidx : ∀ p ∈ rr.paired_di_data,
      (p.first = A ∨ p.first = B ∨ p.first = C ∨ p.first = D) → 0 < p.weight)
    (hsc : ∀ g es, env.SplitCondition g v es = true)
    (hcut : lowCoverageCount env rr v = 0) :
    ∃ nv1 nv2 a b c d, (MultiSplit env rr v).2 = [nv1, nv2]
      ∧ rr.new_graph.fresh ≤ nv1 ∧ rr.new_graph.fresh ≤ nv2
      ∧ nv1 ∈ (MultiSplit env rr v).1.new_graph.vertexIds
      ∧ nv2 ∈ (MultiSplit env rr v).1.new_graph.vertexIds
      ∧ v ∉ (MultiSplit env rr v).1.new_graph.vertexIds
      ∧ OutCopy rr.new_graph (MultiSplit env rr v).1.new_graph nv1 A a
      ∧ InCopy rr.new_graph (MultiSplit env rr v).1.new_graph nv1 C c
      ∧ OutCopy rr.new_graph (MultiSplit env rr v).1.new_graph nv2 B b
      ∧ InCopy rr.new_graph (MultiSplit env rr v).1.new_graph nv2 D d := by
  obtain ⟨hg, hclR, hposR⟩ := splitGuards_clean env rr v A B C D hAB hCB hout hin hlen hcl
    hlink hidx hsc
  generalize (countLoop rr.edge_infos rr.edge_info_colors
    (initEdgeCounts (rr.new_graph.OutgoingEdges v) (rr.new_graph.IncomingEdges v))).2 = ec
    at hg hclR hposR
  have hlow2 : (splitLoopAt env rr ec 2 v 2).low_coverage = 0 := by
    unfold lowCoverageCount at hcut
    rw [hg] at hcut
    exact hcut
  -- the edges of each colour
  have hw := CleanClasses.colourWeight_ne_zero A B C D _ hAB hAD hCB hCD hclR hposR
  have hcov : splitCoverage rr ec 2
      = coverageLoop ((recolourLoop ec rr).edge_infos.zip
          (recolourLoop ec rr).edge_info_colors) 2 := rfl
  have hes0 : ∀ lce, (splitEdges (splitCoverage rr ec 2).1
        ((splitCoverage rr ec 2).2.getD 0 []) lce).1 = [A, C]
      ∨ (splitEdges (splitCoverage rr ec 2).1
        ((splitCoverage rr ec 2).2.getD 0 []) lce).1 = [C, A] := by
    intro lce
    rw [hcov]
    apply sorted_pair _ A C (coverageLoop_sorted _ 2 0 (by decide) lce) _ hAC
    intro e
    rw [(splitEdges_lists _ _ lce).1, ← (splitEdges_lists _ _ []).1,
      (splitEdges_coverageLoop _ 2 0 (by decide)).2.1 e]
    exact (hw e).1
  have hes1 : ∀ lce, (splitEdges (splitCoverage rr ec 2).1
        ((splitCoverage rr ec 2).2.getD 1 []) lce).1 = [B, D]
      ∨ (splitEdges (splitCoverage rr ec 2).1
        ((splitCoverage rr ec 2).2.getD 1 []) lce).1 = [D, B] := by
    intro lce
    rw [hcov]
    apply sorted_pair _ B D (coverageLoop_sorted _ 2 1 (by decide) lce) _ hBD
    intro e
    rw [(splitEdges_lists _ _ lce).1, ← (splitEdges_lists _ _ []).1,
      (splitEdges_coverageLoop _ 2 1 (by decide)).2.1 e]
    exact (hw e).2
  -- the four edges in the graph
  have hsg := halloc.split_init
  have hA := ((Graph.incident_iff rr.new_graph hnd v A).1).1 ((hout A).2 (Or.inl rfl))
  have hB := ((Graph.incident_iff rr.new_graph hnd v B).1).1 ((hout B).2 (Or.inr rfl))
  have hC := ((Graph.incident_iff rr.new_graph hnd v C).2).1 ((hin C).2 (Or.inl rfl))
  have hD := ((Graph.incident_iff rr.new_graph hnd v D).2).1 ((hin D).2 (Or.inr rfl))
  have hAe : rr.new_graph.EdgeEnd A ≠ v := by
    intro h
    rcases (hin A).1 (((Graph.incident_iff rr.new_graph hnd v A).2).2 ⟨hA.1, h⟩) with h1 | h1
    · exact hAC h1
    · exact hAD h1
  have hBe : rr.new_graph.EdgeEnd B ≠ v := by
    intro h
    rcases (hin B).1 (((Graph.incident_iff rr.new_graph hnd v B).2).2 ⟨hB.1, h⟩) with h1 | h1
    · exact hCB h1.symm
    · exact hBD h1
  have hCs : rr.new_graph.EdgeStart C ≠ v := by
    intro h
    rcases (hout C).1 (((Graph.incident_iff rr.new_graph hnd v C).1).2 ⟨hC.1, h⟩) with h1 | h1
    · exact hAC h1.symm
    · exact hCB h1
  have hDs : rr.new_graph.EdgeStart D ≠ v := by
    intro h
    rcases (hout D).1 (((Graph.incident_iff rr.new_graph hnd v D).1).2 ⟨hD.1, h⟩) with h1 | h1
    · exact hAD h1.symm
    · exact hBD h1.symm
  have hv : v < rr.new_graph.fresh := hA.2 ▸ (Graph.EdgeStart_lt hsg A).1
  -- the two colours
  have hs1 := splitLoopAt_succ env rr ec 2 v 0
  have hs2 := splitLoopAt_succ env rr ec 2 v 1
  have hk1 := splitColour_keep env v (splitCoverage rr ec 2).1 (splitCoverage rr ec 2).2
    (splitLoopAt env rr ec 2 v 1) 1
  rw [← hs2] at hk1
  have hlow1 : (splitLoopAt env rr ec 2 v 1).low_coverage = 0 :=
    Nat.le_zero.1 (hlow2 ▸ hk1.1)
  have hg0 : (splitLoopAt env rr ec 2 v 0).rr.new_graph = rr.new_graph := rfl
  have hinit : CleanInv rr.new_graph v (splitLoopAt env rr ec 2 v 0).rr.new_graph := by
    rw [hg0]; exact CleanInv.clean_init rr.new_graph v halloc hvids
  obtain ⟨p1, p2, ⟨a, c, p3, p4⟩, _, _⟩ := splitColour_clean env v (splitCoverage rr ec 2).1
    (splitCoverage rr ec 2).2 (splitLoopAt env rr ec 2 v 0) 0 A C hsc hinit halloc hv
    (hes0 _) (Graph.edgeId_lt _ halloc A hA.1) hA.2 hAe (Graph.EdgeStart_lt hsg A).2
    (Graph.edgeId_lt _ halloc C hC.1) hC.2 hCs (Graph.EdgeStart_lt hsg C).1
    (fun ht => (hconj ht).1) (fun ht => (hconj ht).2.2.1)
    (by rw [← hs1, hlow1]; rfl)
  rw [← hs1] at p1 p2 p3 p4
  rw [hg0] at p2 p3 p4
  obtain ⟨q1, q2, ⟨b, d, q3, q4⟩, q5, q6⟩ := splitColour_clean env v (splitCoverage rr ec 2).1
    (splitCoverage rr ec 2).2 (splitLoopAt env rr ec 2 v 1) 1 B D hsc p1 halloc hv
    (hes1 _) (Graph.edgeId_lt _ halloc B hB.1) hB.2 hBe (Graph.EdgeStart_lt hsg B).2
    (Graph.edgeId_lt _ halloc D hD.1) hD.2 hDs (Graph.EdgeStart_lt hsg D).1
    (fun ht => (hconj ht).2.1) (fun ht => (hconj ht).2.2.2)
    (by rw [← hs2, hlow2, hlow1])
  rw [← hs2] at q1 q2 q3 q4 q5 q6
  have r3 := q5 _ _ _ (Nat.le_refl _) p2 p3
  have r4 := q6 _ _ _ (Nat.le_refl _) p2 p4
  -- the returned vertices
  have hne0 : (splitEdges (splitCoverage rr ec 2).1
      ((splitCoverage rr ec 2).2.getD 0 []) []).1 ≠ [] := by
    rcases hes0 [] with h1 | h1 <;> rw [h1] <;> simp
  have hne1 : (splitEdges (splitCoverage rr ec 2).1
      ((splitCoverage rr ec 2).2.getD 1 []) []).1 ≠ [] := by
    rcases hes1 [] with h1 | h1 <;> rw [h1] <;> simp
  obtain ⟨_, a2, _⟩ := splitColour_exact env v (splitCoverage rr ec 2).1
    (splitCoverage rr ec 2).2 (splitLoopAt env rr ec 2 v 0) 0 hsc hne0
  obtain ⟨_, b2, _⟩ := splitColour_exact env v (splitCoverage rr ec 2).1
    (splitCoverage rr ec 2).2 (splitLoopAt env rr ec 2 v 1) 1 hsc hne1
  rw [← hs1] at a2
  rw [← hs2, a2, hg0] at b2
  have hres : (splitLoopAt env rr ec 2 v 2).res
      = [rr.new_graph.fresh, (splitLoopAt env rr ec 2 v 1).rr.new_graph.fresh] := b2
  have hri := splitLoopAt_res env rr ec 2 v 2 halloc
  have hpi := splitLoopAt_inv env rr ec 2 v 2 halloc
  obtain ⟨f1, _⟩ := splitFinish_graph_calls v
    (rr.new_graph.OutgoingEdges v ++ rr.new_graph.IncomingEdges v)
    (splitLoopAt env rr ec 2 v 2)
  obtain ⟨d1, d2, d3⟩ := Graph.ForceDeleteVertex_clean q1
  have hpres : ∀ x ∈ (splitLoopAt env rr ec 2 v 2).res,
      x ∈ ((splitLoopAt env rr ec 2 v 2).rr.new_graph.ForceDeleteVertex v).vertexIds :=
    fun x hx => Graph.ForceDeleteVertex_keeps_new hpi.graph hri.vold v x hv
      (hri.created x hx) (hri.present hlow2 x hx)
  have hms : MultiSplit env rr v
      = (splitFinish v (rr.new_graph.OutgoingEdges v ++ rr.new_graph.IncomingEdges v)
          (splitLoopAt env rr ec 2 v 2), (splitLoopAt env rr ec 2 v 2).res) := by
    rw [MultiSplit_of_guards env rr v rr ec 2 hg, splitPhase_loopAt]
    rfl
  rw [hms]
  simp only
  rw [f1, hres]
  rw [hres] at hpres
  exact ⟨_, _, a, b, c, d, rfl, Nat.le_refl _, le_of_lt p2,
    hpres _ (List.mem_cons_self _ _), hpres _ (List.mem_cons_of_mem _ (List.mem_singleton.2 rfl)),
    d3, d1 _ _ _ r3, d2 _ _ _ r4, d1 _ _ _ q3, d2 _ _ _ q4⟩

theorem stdMax_some (x y : ℚ) : stdMax (some x) (some y) = some (max x y) := by
  unfold stdMax nanLt
  simp only
  by_cases h : x < y
  · simp [h, max_eq_right (le_of_lt h)]
  · simp [h, max_eq_left (not_lt.1 h)]

theorem isCloseNaN_some (a b m : ℚ) :
    EdgeInfo.isCloseNaN a b (some m) = EdgeInfo.isClose a b m := rfl

theorem isCloseNaN_none (a b : ℚ) : EdgeInfo.isCloseNaN a b none = false := rfl

theorem IsEdgesOnDistanceAdjacentNaN_some (env : Env) (depth : Int) (edge : EdgeId) (d : ℚ)
    (other_edge : EdgeId) (other_d : ℚ) (old_graph : Graph) (m : ℚ) (first_equal : Bool)
    (dc : FastDistanceCounter) :
    IsEdgesOnDistanceAdjacentNaN env depth edge d other_edge other_d old_graph (some m)
        first_equal dc
      = IsEdgesOnDistanceAdjacent env depth edge d other_edge other_d old_graph m
          first_equal dc := rfl

/-- On occurrences whose variances are numbers the method with NaN is the method
`EdgeInfo.isAdjacent`. -/
theorem isAdjacentNaN_some (env : Env) (A B : EdgeInfo) (old_graph new_graph : Graph)
    (dc : FastDistanceCounter) :
    EdgeInfo.isAdjacentNaN env A B (some A.lp.variance) (some B.lp.variance) old_graph
        new_graph dc
      = EdgeInfo.isAdjacent env A B old_graph new_graph dc := by
  unfold EdgeInfo.isAdjacentNaN EdgeInfo.isAdjacent
  simp only [stdMax_some, Option.map_some', IsEdgesOnDistanceAdjacentNaN_some]

/-- With a NaN variance on the side of the receiver no distance check of `isAdjacent`
succeeds. -/
theorem IsEdgesOnDistanceAdjacentNaN_none (env : Env) (depth : Int) (edge : EdgeId) (d : ℚ)
    (other_edge : EdgeId) (other_d : ℚ) (old_graph : Graph) (first_equal : Bool)
    (dc : FastDistanceCounter) :
    (IsEdgesOnDistanceAdjacentNaN env depth edge d other_edge other_d old_graph none
        first_equal dc).1 = false := by
  unfold IsEdgesOnDistanceAdjacentNaN
  simp [isCloseNaN_none]

theorem roundHalfEven_one (a : Nat) : roundHalfEven a 1 = a := by
  unfold roundHalfEven
  simp [Nat.mod_one]

theorem binScale_int (n : Nat) (hn : 0 < n) :
    binScale n 1 = 52 - (log2F n n : Int) := by
  obtain ⟨n1, _⟩ := log2F_spec n n (Nat.le_refl _) hn
  have h1 : log2F 1 1 = 0 := rfl
  unfold binScale
  rw [h1]
  simp only [pow_zero, mul_one, one_mul]
  rw [if_pos n1]
  simp

/-- An integer of fewer than 54 bits is a `double`. -/
theorem roundDouble_int (n : Int) (h : n.natAbs < 2 ^ 53) : roundDouble (n : ℚ) = n := by
  by_cases hn : n = 0
  · subst hn
    simp [roundDouble_zero]
  · have hpos : 0 < n.natAbs := Int.natAbs_pos.2 hn
    obtain ⟨n1, _⟩ := log2F_spec n.natAbs n.natAbs (Nat.le_refl _) hpos
    have hL : log2F n.natAbs n.natAbs < 53 :=
      (Nat.pow_lt_pow_iff_right (by decide)).1 (lt_of_le_of_lt n1 h)
    unfold roundDouble
    rw [Rat.num_intCast, Rat.den_intCast, if_neg hn]
    simp only
    rw [binScale_int _ hpos]
    generalize log2F n.natAbs n.natAbs = L at hL
    have hk1 : ((52 : Int) - (L : Int)).toNat = 52 - L := by omega
    have hk2 : (-((52 : Int) - (L : Int))).toNat = 0 := by omega
    rw [hk1, hk2]
    simp only [pow_zero, mul_one, one_mul, roundHalfEven_one]
    rw [Rat.mkRat_eq_div]
    push_cast
    have hs : (n.sign : ℚ) * |(n : ℚ)| = (n : ℚ) := by
      rw [← Int.cast_abs, ← Int.cast_mul, Int.sign_mul_abs]
    have hp : (2 : ℚ) ^ (52 - L) ≠ 0 := by positivity
    rw [← mul_assoc, hs]
    field_simp

theorem CleanClasses.colourWeight_eq_total (A B C D : EdgeId) (occ : List (EdgeInfo × Int))
    (hAB : A ≠ B) (hAD : A ≠ D) (hCB : C ≠ B) (hCD : C ≠ D)
    (hc : CleanClasses A B C D occ) (e : EdgeId) :
    ((e = A ∨ e = C) → colourWeight occ 0 e = totalWeight occ e)
      ∧ ((e = B ∨ e = D) → colourWeight occ 1 e = totalWeight occ e) := by
  constructor
  · intro he
    unfold colourWeight totalWeight
    congr 2
    apply List.filter_congr
    intro ic hic
    rcases hc.1 ic hic with ⟨h0, _⟩ | ⟨_, h1⟩
    · simp [h0]
    · have hne : ic.1.lp.first ≠ e := by
        intro hf
        rw [hf] at h1
        rcases he with he | he <;> rcases h1 with h1 | h1 <;> rw [he] at h1
        · exact hAB h1
        · exact hAD h1
        · exact hCB h1
        · exact hCD h1
      simp [hne]
  · intro he
    unfold colourWeight totalWeight
    congr 2
    apply List.filter_congr
    intro ic hic
    rcases hc.1 ic hic with ⟨_, h0⟩ | ⟨h1, _⟩
    · have hne : ic.1.lp.first ≠ e := by
        intro hf
        rw [hf] at h0
        rcases he with he | he <;> rcases h0 with h0 | h0 <;> rw [he] at h0
        · exact hAB h0.symm
        · exact hCB h0.symm
        · exact hAD h0.symm
        · exact hCD h0.symm
      simp [hne]
    · simp [h1]

/-- When no pair is below the cutoff the pruning loop leaves the counter `low_coverage`
and the graph as they are. -/
theorem pruneStep_fold_noprune (cutting : ℚ) (l : List (EdgeId × EdgeId)) (st : SplitLoop)
    (h : ∀ it ∈ l, cutting ≤ st.rr.new_graph.coverage it.2) :
    (l.foldl (pruneStep cutting) st).low_coverage = st.low_coverage
      ∧ (l.foldl (pruneStep cutting) st).rr.new_graph = st.rr.new_graph := by
  induction l generalizing st with
  | nil => exact ⟨rfl, rfl⟩
  | cons a t ih =>
    simp only [List.foldl_cons]
    have hstep : (pruneStep cutting st a).low_coverage = st.low_coverage
        ∧ (pruneStep cutting st a).rr.new_graph = st.rr.new_graph := by
      unfold pruneStep
      simp only
      rw [if_neg (not_lt.2 (h a (List.mem_cons_self _ _)))]
      exact ⟨rfl, rfl⟩
    obtain ⟨i1, i2⟩ := ih (pruneStep cutting st a) (by
      intro it hit
      rw [hstep.2]
      exact h it (List.mem_cons_of_mem _ hit))
    exact ⟨i1.trans hstep.1, i2.trans hstep.2⟩

theorem Graph.coverage_of_edge (g g0 : Graph) (x e : EdgeId) (R r0 : EdgeRec)
    (hx : g.edge x = some R) (he : g0.edge e = some r0) (hc : R.cov = r0.cov)
    (hn : R.nucls = r0.nucls) : g.coverage x = g0.coverage e := by
  unfold Graph.coverage Graph.rawCoverage Graph.length Graph.EdgeNucls
  rw [hx, he]
  simp only [Option.map_some', Option.getD_some]
  rw [hc, hn]

/-- In a non-conjugate graph a copy made by `splitVertex` with the share `1` of an edge
whose raw counter is a `double` has the coverage of that edge. -/
theorem Graph.cloneEdge_fold_coverage (g0 : Graph) (v nv : VertexId) (es : List EdgeId)
    (l : List (EdgeId × ℚ)) (acc : Graph × List (EdgeId × EdgeId))
    (hl : ∀ ec ∈ l, ec.2 = 1 ∧ ec.1 ∈ es)
    (hes : ∀ e ∈ es, e ∈ g0.edgeIds ∧ (g0.rawCoverage e).natAbs < 2 ^ 53)
    (hty : acc.1.conjugate_typed = false)
    (hids : ∀ id ∈ acc.1.edgeIds, id < acc.1.fresh)
    (hold : ∀ e ∈ g0.edgeIds, acc.1.edge e = g0.edge e)
    (hacc : ∀ it ∈ acc.2, it.1 ∈ es ∧ it.2 ∈ acc.1.edgeIds
      ∧ acc.1.coverage it.2 = g0.coverage it.1) :
    (l.foldl (Graph.cloneEdge v nv) acc).1.conjugate_typed = false
      ∧ (∀ id ∈ (l.foldl (Graph.cloneEdge v nv) acc).1.edgeIds,
          id < (l.foldl (Graph.cloneEdge v nv) acc).1.fresh)
      ∧ (∀ e ∈ g0.edgeIds, (l.foldl (Graph.cloneEdge v nv) acc).1.edge e = g0.edge e)
      ∧ (∀ it ∈ (l.foldl (Graph.cloneEdge v nv) acc).2, it.1 ∈ es
          ∧ it.2 ∈ (l.foldl (Graph.cloneEdge v nv) acc).1.edgeIds
          ∧ (l.foldl (Graph.cloneEdge v nv) acc).1.coverage it.2 = g0.coverage it.1) := by
  induction l generalizing acc with
  | nil => exact ⟨hty, hids, hold, hacc⟩
  | cons a t ih =>
    simp only [List.foldl_cons]
    obtain ⟨e, c⟩ := a
    obtain ⟨hc, he⟩ := hl (e, c) (List.mem_cons_self _ _)
    simp only at hc he
    obtain ⟨hem, hraw⟩ := hes e he
    obtain ⟨r0, hr0, _, hr0id⟩ := Graph.edge_mem g0 e hem
    have hacce : acc.1.edge e = some r0 := by rw [hold e hem, hr0]
    have hnucls : acc.1.EdgeNucls e = r0.nucls := by
      unfold Graph.EdgeNucls; rw [hacce]; rfl
    have hrawc : acc.1.rawCoverage e = r0.cov := by
      unfold Graph.rawCoverage; rw [hacce]; rfl
    have hraw0 : g0.rawCoverage e = r0.cov := by
      unfold Graph.rawCoverage; rw [hr0]; rfl
    have hcov : Int.floor (roundDouble ((acc.1.rawCoverage e : ℚ) * c)) = r0.cov := by
      rw [hc, mul_one, hrawc, roundDouble_int _ (hraw0 ▸ hraw), Int.floor_intCast]
    have hstep : ∃ R : EdgeRec, (Graph.cloneEdge v nv acc (e, c)).1.edges = acc.1.edges ++ [R]
        ∧ (Graph.cloneEdge v nv acc (e, c)).1.conjugate_typed = false
        ∧ (Graph.cloneEdge v nv acc (e, c)).1.fresh = acc.1.fresh + 1
        ∧ (Graph.cloneEdge v nv acc (e, c)).2 = acc.2 ++ [(e, acc.1.fresh)]
        ∧ R.id = acc.1.fresh ∧ R.cov = r0.cov ∧ R.nucls = r0.nucls := by
      unfold Graph.cloneEdge Graph.addEdgeCov
      simp only
      rw [if_neg (by rw [hty]; exact Bool.false_ne_true)]
      simp only
      rw [hcov, hnucls]
      refine ⟨_, rfl, ?_, ?_, ?_, ?_, ?_, ?_⟩
      all_goals first | rfl | trivial
    obtain ⟨R, s1, s2, s3, s4, s5, s6, s7⟩ := hstep
    have hlookR : (Graph.cloneEdge v nv acc (e, c)).1.edge R.id = some R :=
      Graph.edge_append_fresh acc.1 _ R [] s1 (by rw [s5]; exact hids)
    have hmemIds : ∀ id, id ∈ (Graph.cloneEdge v nv acc (e, c)).1.edgeIds ↔
        id ∈ acc.1.edgeIds ∨ id = acc.1.fresh := by
      intro id
      unfold Graph.edgeIds
      rw [s1, List.map_append, List.mem_append]
      simp [s5]
    apply ih (Graph.cloneEdge v nv acc (e, c))
      (fun ec hec => hl ec (List.mem_cons_of_mem _ hec)) s2
    · intro id hid
      rw [s3]
      rcases (hmemIds id).1 hid with h1 | h1
      · exact Nat.lt_succ_of_lt (hids id h1)
      · rw [h1]; exact Nat.lt_succ_self _
    · intro x hx
      rw [← hold x hx]
      apply Graph.edge_append_of_mem acc.1 _ [R] x s1
      unfold Graph.edgeIds
      obtain ⟨rx, hrx, _, hrxid⟩ := Graph.edge_mem g0 x hx
      rw [← hold x hx] at hrx
      obtain ⟨hm, hi⟩ := Graph.edge_some acc.1 x rx hrx
      exact List.mem_map.2 ⟨rx, hm, hi⟩
    · intro it hit
      rw [s4] at hit
      rcases List.mem_append.1 hit with h1 | h1
      · obtain ⟨a1, a2, a3⟩ := hacc it h1
        refine ⟨a1, (hmemIds _).2 (Or.inl a2), ?_⟩
        rw [← a3]
        unfold Graph.coverage Graph.rawCoverage Graph.length Graph.EdgeNucls
        rw [Graph.edge_append_of_mem acc.1 _ [R] it.2 s1 a2]
      · rw [List.mem_singleton.1 h1]
        refine ⟨he, (hmemIds _).2 (Or.inr rfl), ?_⟩
        simp only
        rw [← s5]
        exact Graph.coverage_of_edge _ g0 R.id e R r0 hlookR hr0 s6 s7

/-- One colour of the split loop in non-conjugate mode: when every edge of the colour has
the share `1`, a raw counter that is a `double` and a coverage at or above the cutoff, no
copy is pruned. -/
theorem splitColour_low_plain (env : Env) (v : VertexId) (old : StdMap ℚ)
    (cols : List (StdMap ℚ)) (st : SplitLoop) (i : Nat) (g0 : Graph)
    (hsc : ∀ g es, env.SplitCondition g v es = true)
    (hrc : st.rr.rc_mode = false) (hty : st.rr.new_graph.conjugate_typed = false)
    (hids : ∀ id ∈ st.rr.new_graph.edgeIds, id < st.rr.new_graph.fresh)
    (hold : ∀ e ∈ g0.edgeIds, st.rr.new_graph.edge e = g0.edge e)
    (hne : (splitEdges old (cols.getD i []) st.rr.local_cheating_edges).1 ≠ [])
    (hcs : ∀ c ∈ (splitEdges old (cols.getD i []) st.rr.local_cheating_edges).2.1, c = 1)
    (hes : ∀ e ∈ (splitEdges old (cols.getD i []) st.rr.local_cheating_edges).1,
      e ∈ g0.edgeIds ∧ (g0.rawCoverage e).natAbs < 2 ^ 53
        ∧ cutting_coverage env.cfg ≤ g0.coverage e) :
    (splitColour env v old cols st i).low_coverage = st.low_coverage
      ∧ (splitColour env v old cols st i).rr.new_graph.conjugate_typed = false
      ∧ (∀ id ∈ (splitColour env v old cols st i).rr.new_graph.edgeIds,
          id < (splitColour env v old cols st i).rr.new_graph.fresh)
      ∧ ∀ e ∈ g0.edgeIds, (splitColour env v old cols st i).rr.new_graph.edge e
          = g0.edge e := by
  have hfold := Graph.cloneEdge_fold_coverage g0 v st.rr.new_graph.AddVertex.2
    (splitEdges old (cols.getD i []) st.rr.local_cheating_edges).1
    ((splitEdges old (cols.getD i []) st.rr.local_cheating_edges).1.zip
      (splitEdges old (cols.getD i []) st.rr.local_cheating_edges).2.1)
    (st.rr.new_graph.AddVertex.1, [])
    (fun ec hec => ⟨hcs _ (List.of_mem_zip hec).2, (List.of_mem_zip hec).1⟩)
    (fun e he => ⟨(hes e he).1, (hes e he).2.1⟩)
    (by rw [Graph.AddVertex_typed]; exact hty)
    (by
      intro id hid
      unfold Graph.edgeIds at hid
      rw [Graph.AddVertex_edges] at hid
      exact lt_trans (hids id hid) (Graph.AddVertex_fresh _))
    (by
      intro e he
      rw [Graph.edge_congr st.rr.new_graph _ (Graph.AddVertex_edges _)]
      exact hold e he)
    (fun it hit => absurd hit (List.not_mem_nil _))
  have hsp1 : (st.rr.new_graph.SplitVertex v
      (splitEdges old (cols.getD i []) st.rr.local_cheating_edges).1
      (splitEdges old (cols.getD i []) st.rr.local_cheating_edges).2.1).1
      = (List.foldl (Graph.cloneEdge v st.rr.new_graph.AddVertex.2)
          (st.rr.new_graph.AddVertex.1, [])
          ((splitEdges old (cols.getD i []) st.rr.local_cheating_edges).1.zip
            (splitEdges old (cols.getD i []) st.rr.local_cheating_edges).2.1)).1 := rfl
  have hsp2 : (st.rr.new_graph.SplitVertex v
      (splitEdges old (cols.getD i []) st.rr.local_cheating_edges).1
      (splitEdges old (cols.getD i []) st.rr.local_cheating_edges).2.1).2.2
      = (List.foldl (Graph.cloneEdge v st.rr.new_graph.AddVertex.2)
          (st.rr.new_graph.AddVertex.1, [])
          ((splitEdges old (cols.getD i []) st.rr.local_cheating_edges).1.zip
            (splitEdges old (cols.getD i []) st.rr.local_cheating_edges).2.1)).2 := rfl
  have hentry := pruneEntry_new_graph env v old cols st i hsc hne
  rw [if_neg (by rw [hrc]; exact Bool.false_ne_true), hsp1] at hentry
  have hpairs : prunePairs env v old cols st i
      = (List.foldl (Graph.cloneEdge v st.rr.new_graph.AddVertex.2)
          (st.rr.new_graph.AddVertex.1, [])
          ((splitEdges old (cols.getD i []) st.rr.local_cheating_edges).1.zip
            (splitEdges old (cols.getD i []) st.rr.local_cheating_edges).2.1)).2 := by
    unfold prunePairs
    simp only
    rw [if_pos ⟨List.length_pos.2 hne, hsc _ _⟩, hsp2]
  obtain ⟨f1, f2, f3, f4⟩ := hfold
  obtain ⟨n1, n2⟩ := pruneStep_fold_noprune (cutting_coverage env.cfg)
    (prunePairs env v old cols st i) (pruneEntry env v old cols st i) (by
      intro it hit
      rw [hentry]
      rw [hpairs] at hit
      obtain ⟨a1, _, a3⟩ := f4 it hit
      rw [a3]
      exact (hes it.1 a1).2.2)
  rw [splitColour_eq_prune, n1, n2, pruneEntry_low, hentry]
  exact ⟨rfl, f1, f2, f3⟩

theorem splitEdges_coeff_mem (old : StdMap ℚ) (m : StdMap ℚ) (lce : StdMap Int) (c : ℚ)
    (hc : c ∈ (splitEdges old m lce).2.1) :
    ∃ e, e ∈ (splitEdges old m lce).1
      ∧ (e, c) ∈ (splitEdges old m []).1.zip (splitEdges old m []).2.1 := by
  rw [(splitEdges_lists old m lce).2] at hc
  obtain ⟨it, hit, hitc⟩ := List.mem_map.1 hc
  refine ⟨it.1, ?_, ?_⟩
  · rw [(splitEdges_lists old m lce).1]
    exact List.mem_map_of_mem _ hit
  · rw [(splitEdges_lists old m []).1, (splitEdges_lists old m []).2, List.zip_map']
    exact List.mem_map.2 ⟨it, hit, by rw [← hitc]⟩

/-- In non-conjugate mode the clean split prunes nothing when each of the four edges has a
coverage at or above the cutoff and a raw coverage counter that is a `double` (as every
`int` is): each copy gets the share `1` and with it the coverage of its original. -/
theorem lowCoverageCount_clean_plain (env : Env) (rr : RepeatResolver) (v : VertexId)
    (A B C D : EdgeId) (hAB : A ≠ B) (hAD : A ≠ D) (hCB : C ≠ B) (hCD : C ≠ D)
    (hrc : rr.rc_mode = false) (hty : rr.new_graph.conjugate_typed = false)
    (hids : ∀ id ∈ rr.new_graph.edgeIds, id < rr.new_graph.fresh)
    (hout : ∀ e, e ∈ rr.new_graph.OutgoingEdges v ↔ e = A ∨ e = B)
    (hin : ∀ e, e ∈ rr.new_graph.IncomingEdges v ↔ e = C ∨ e = D)
    (hlen : rr.edge_infos.length = rr.edge_info_colors.length)
    (hcl : CleanClasses A B C D (rr.edge_infos.zip rr.edge_info_colors))
    (hlink : ∀ ic ∈ rr.edge_infos.zip rr.edge_info_colors, ic.1.lp ∈ rr.paired_di_data)
    (hidx : ∀ p ∈ rr.paired_di_data,
      (p.first = A ∨ p.first = B ∨ p.first = C ∨ p.first = D) → 0 < p.weight)
    (hsc : ∀ g es, env.SplitCondition g v es = true)
    (hraw : ∀ e, (e = A ∨ e = B ∨ e = C ∨ e = D) →
      (rr.new_graph.rawCoverage e).natAbs < 2 ^ 53)
    (hcov : ∀ e, (e = A ∨ e = B ∨ e = C ∨ e = D) →
      cutting_coverage env.cfg ≤ rr.new_graph.coverage e) :
    lowCoverageCount env rr v = 0 := by
  obtain ⟨hg, hclR, hposR⟩ := splitGuards_clean env rr v A B C D hAB hCB hout hin hlen hcl
    hlink hidx hsc
  generalize (countLoop rr.edge_infos rr.edge_info_colors
    (initEdgeCounts (rr.new_graph.OutgoingEdges v) (rr.new_graph.IncomingEdges v))).2 = ec
    at hg hclR hposR
  have hgoal : lowCoverageCount env rr v = (splitLoopAt env rr ec 2 v 2).low_coverage := by
    unfold lowCoverageCount
    rw [hg]
    rfl
  rw [hgoal]
  have hw := CleanClasses.colourWeight_ne_zero A B C D _ hAB hAD hCB hCD hclR hposR
  have hwe := CleanClasses.colourWeight_eq_total A B C D _ hAB hAD hCB hCD hclR
  have hcov2 : splitCoverage rr ec 2
      = coverageLoop ((recolourLoop ec rr).edge_infos.zip
          (recolourLoop ec rr).edge_info_colors) 2 := rfl
  have hmem0 : ∀ lce e, e ∈ (splitEdges (splitCoverage rr ec 2).1
        ((splitCoverage rr ec 2).2.getD 0 []) lce).1 ↔ e = A ∨ e = C := by
    intro lce e
    rw [hcov2, (splitEdges_lists _ _ lce).1, ← (splitEdges_lists _ _ []).1,
      (splitEdges_coverageLoop _ 2 0 (by decide)).2.1 e]
    exact (hw e).1
  have hmem1 : ∀ lce e, e ∈ (splitEdges (splitCoverage rr ec 2).1
        ((splitCoverage rr ec 2).2.getD 1 []) lce).1 ↔ e = B ∨ e = D := by
    intro lce e
    rw [hcov2, (splitEdges_lists _ _ lce).1, ← (splitEdges_lists _ _ []).1,
      (splitEdges_coverageLoop _ 2 1 (by decide)).2.1 e]
    exact (hw e).2
  have hone0 : ∀ lce, ∀ c ∈ (splitEdges (splitCoverage rr ec 2).1
        ((splitCoverage rr ec 2).2.getD 0 []) lce).2.1, c = 1 := by
    intro lce c hc
    obtain ⟨e, he, hz⟩ := splitEdges_coeff_mem _ _ lce c hc
    have he2 := (hmem0 lce e).1 he
    rw [hcov2] at hz
    have := (splitEdges_coverageLoop _ 2 0 (by decide)).2.2 (e, c) hz
    simp only at this
    rw [this, Nat.cast_zero, (hwe e).1 he2]
    apply roundDouble_div_self
    rw [← (hwe e).1 he2]
    exact (hw e).1.2 he2
  have hone1 : ∀ lce, ∀ c ∈ (splitEdges (splitCoverage rr ec 2).1
        ((splitCoverage rr ec 2).2.getD 1 []) lce).2.1, c = 1 := by
    intro lce c hc
    obtain ⟨e, he, hz⟩ := splitEdges_coeff_mem _ _ lce c hc
    have he2 := (hmem1 lce e).1 he
    rw [hcov2] at hz
    have := (splitEdges_coverageLoop _ 2 1 (by decide)).2.2 (e, c) hz
    simp only at this
    rw [this, Nat.cast_one, (hwe e).2 he2]
    apply roundDouble_div_self
    rw [← (hwe e).2 he2]
    exact (hw e).2.2 he2
  have hedge : ∀ e, (e = A ∨ e = B ∨ e = C ∨ e = D) → e ∈ rr.new_graph.edgeIds := by
    intro e he
    apply Graph.mem_edgeIds_of_incident rr.new_graph v e
    rcases he with h | h | h | h
    · exact List.mem_append_left _ ((hout e).2 (Or.inl h))
    · exact List.mem_append_left _ ((hout e).2 (Or.inr h))
    · exact List.mem_append_right _ ((hin e).2 (Or.inl h))
    · exact List.mem_append_right _ ((hin e).2 (Or.inr h))
  have hs1 := splitLoopAt_succ env rr ec 2 v 0
  have hs2 := splitLoopAt_succ env rr ec 2 v 1
  obtain ⟨a1, a2, a3, a4⟩ := splitColour_low_plain env v (splitCoverage rr ec 2).1
    (splitCoverage rr ec 2).2 (splitLoopAt env rr ec 2 v 0) 0 rr.new_graph hsc hrc hty hids
    (fun _ _ => rfl)
    (List.ne_nil_of_mem ((hmem0 _ A).2 (Or.inl rfl)))
    (hone0 _)
    (fun e he => by
      have h := (hmem0 _ e).1 he
      have h4 : e = A ∨ e = B ∨ e = C ∨ e = D := by
        rcases h with h | h
        · exact Or.inl h
        · exact Or.inr (Or.inr (Or.inl h))
      exact ⟨hedge e h4, hraw e h4, hcov e h4⟩)
  rw [← hs1] at a1 a2 a3 a4
  obtain ⟨b1, _, _, _⟩ := splitColour_low_plain env v (splitCoverage rr ec 2).1
    (splitCoverage rr ec 2).2 (splitLoopAt env rr ec 2 v 1) 1 rr.new_graph hsc
    (by rw [hs1, splitColour_rc_mode]; exact hrc) a2 a3 a4
    (List.ne_nil_of_mem ((hmem1 _ B).2 (Or.inl rfl)))
    (hone1 _)
    (fun e he => by
      have h := (hmem1 _ e).1 he
      have h4 : e = A ∨ e = B ∨ e = C ∨ e = D := by
        rcases h with h | h
        · exact Or.inr (Or.inl h)
        · exact Or.inr (Or.inr (Or.inr h))
      exact ⟨hedge e h4, hraw e h4, hcov e h4⟩)
  rw [← hs2] at b1
  rw [b1, a1]
  rfl

/-! ## The claims -/

/-- Claim C2 (no-op without evidence): for every original graph and every paired index
without an observation of weight above `1e-8` and non-negative distance, every working
edge is a global cheating edge after construction, and `ResolveRepeats`, for any mode
count and any positive sweep bound, returns with the working graph, the paired index, the
provenance maps and the global cheater set as they were after construction and without a
single `SplitVertex` call. -/
theorem C2_noop_without_evidence (env : Env) (old_graph_ new_graph_ : Graph)
    (ind : List (List PairInfo)) (hpre : CtorPre env old_graph_ new_graph_)
    (hind : ∀ g ∈ ind, ∀ p ∈ g, ¬ usable p) (fuel : Nat) (hfuel : 0 < fuel) :
    (∀ e ∈ (RepeatResolver.ctor env old_graph_ ind new_graph_).new_graph.edgeIds,
      e ∈ (RepeatResolver.ctor env old_graph_ ind new_graph_).global_cheating_edges)
    ∧ ∃ rr1, ResolveRepeats env fuel (RepeatResolver.ctor env old_graph_ ind new_graph_) = some rr1
        ∧ Untouched (RepeatResolver.ctor env old_graph_ ind new_graph_) rr1
        ∧ rr1.split_calls = [] :=
  ⟨ctor_all_cheaters env old_graph_ new_graph_ ind hpre hind,
    (ResolveRepeats_allCheat env fuel hfuel _
      (ctor_all_cheaters env old_graph_ new_graph_ ind hpre hind)).imp
      (fun _ h => ⟨h.1, h.2, h.2.split_calls⟩)⟩

/-- The preconditions of the constructor hold for the example graphs. -/
theorem exCtorPre : CtorPre exEnv exOld exNew0 :=
  ⟨rfl, rfl, rfl, fun h => by cases h⟩

/-- No observation of `exIndUnusable` is usable. -/
theorem exIndUnusable_unusable : ∀ g ∈ exIndUnusable, ∀ p ∈ g, ¬ usable p := by
  intro g hg p hp
  simp only [exIndUnusable, List.mem_cons, List.mem_singleton, List.not_mem_nil, or_false] at hg
  rcases hg with hg | hg <;> subst hg <;>
    simp only [List.mem_cons, List.mem_singleton, List.not_mem_nil, or_false] at hp
  · subst hp; norm_num [usable]
  · rcases hp with hp | hp <;> subst hp <;> norm_num [usable]

/-- Witness for C2: the example graph with an index of unusable observations. -/
theorem C2_noop_without_evidence_witness :
    (∀ e ∈ (RepeatResolver.ctor exEnv exOld exIndUnusable exNew0).new_graph.edgeIds,
      e ∈ (RepeatResolver.ctor exEnv exOld exIndUnusable exNew0).global_cheating_edges)
    ∧ ∃ rr1, ResolveRepeats exEnv 1 (RepeatResolver.ctor exEnv exOld exIndUnusable exNew0)
          = some rr1
        ∧ Untouched (RepeatResolver.ctor exEnv exOld exIndUnusable exNew0) rr1
        ∧ rr1.split_calls = [] :=
  C2_noop_without_evidence exEnv exOld exNew0 exIndUnusable exCtorPre exIndUnusable_unusable 1
    (by decide)

/-- Claim C6 (split guard): if `SplitCondition` fails on the outgoing or on the incoming
edge set, or every occurrence colour is `0` (also when there is no occurrence), then
`MultiSplit(v)` returns the one-element vector `[v]` and leaves the whole resolver state,
in particular the working graph, the paired index, `edge_labels` and the global cheater
set, exactly as it was. -/
theorem C6_split_guard (env : Env) (rr : RepeatResolver) (v : VertexId)
    (h : env.SplitCondition rr.new_graph v (rr.new_graph.OutgoingEdges v) = false
       ∨ env.SplitCondition rr.new_graph v (rr.new_graph.IncomingEdges v) = false
       ∨ ∀ c ∈ rr.edge_info_colors, c = 0) :
    MultiSplit env rr v = (rr, [v]) :=
  MultiSplit_guard_unchanged env rr v h

/-- Witness for C6: all occurrences of `exRRSingle` have colour `0`. -/
theorem C6_split_guard_witness : MultiSplit exEnv exRRSingle 10 = (exRRSingle, [10]) :=
  C6_split_guard exEnv exRRSingle 10 (Or.inr (Or.inr (by decide)))

/-- Claim C7 (an orphan edge blocks a strict split): in strict mode (`cheating_mode = 0`),
if some edge incident to `v` has no coloured occurrence, `MultiSplit(v)` returns `[v]` and
leaves the whole resolver state, in particular the working graph, the paired index,
`edge_labels` and the global cheater set, unchanged, whatever the colours are. -/
theorem C7_orphan_blocks_strict (env : Env) (rr : RepeatResolver) (v : VertexId)
    (hmode : rr.cheating_mode = 0) (e : EdgeId)
    (he : e ∈ rr.new_graph.OutgoingEdges v ++ rr.new_graph.IncomingEdges v)
    (horphan : ∀ ic ∈ rr.edge_infos.zip rr.edge_info_colors, ic.1.lp.first ≠ e) :
    MultiSplit env rr v = (rr, [v]) :=
  MultiSplit_orphan_unchanged env rr v (by rw [hmode]; decide) e he horphan

/-- Witness for C7: edge `4` of `exRROrphan` is incident to vertex `10` and has no
occurrence, the other occurrences have two colours. -/
theorem C7_orphan_blocks_strict_witness :
    MultiSplit exEnv exRROrphan 10 = (exRROrphan, [10]) :=
  C7_orphan_blocks_strict exEnv exRROrphan 10 rfl 4 (by decide) (by decide)

/-- Claim C1 (clean split): let `v` have the outgoing edges `{A, B}` and the incoming edges
`{C, D}`, four distinct edges of a working graph whose identifiers are allocated and not
repeated (in a conjugate graph none of them joins `v` to its own conjugate), let the
occurrences be coloured into exactly two classes, colour `0` holding exactly the
occurrences of `C` and `A` and colour `1` exactly those of `D` and `B`, all observations of
the four edges having positive weight, let the split condition hold and let no new edge be
below the coverage cutoff (the counter `low_coverage` stays `0`; in non-conjugate mode it
does when the four edges are at or above the cutoff, `lowCoverageCount_clean_plain`). Then
`MultiSplit(v)` calls `SplitVertex` exactly twice, once with the edge set `{C, A}` and once
with `{D, B}`, and returns exactly two distinct vertices `nv1`, `nv2`; both were created by
the split and are in the working graph, from which `v` is gone; the only outgoing edge of
`nv1` is a new edge `a` with the end and the sequence of `A`, its only incoming edge a new
edge `c` with the start and the sequence of `C`, and likewise `nv2` carries exactly a copy
`b` of `B` and a copy `d` of `D`, so that no new vertex receives a copy of an edge of the
other class; and `RectangleResolveVertex`, when its colouring yields these colours, returns
`2`. -/
theorem C1_clean_split (env : Env) (rr : RepeatResolver) (v : VertexId)
    (A B C D : EdgeId) (hAB : A ≠ B) (hAD : A ≠ D) (hCB : C ≠ B) (hCD : C ≠ D)
    (hAC : A ≠ C) (hBD : B ≠ D)
    (halloc : AllocatedBelow rr.new_graph)
    (hvids : ∀ r ∈ rr.new_graph.vertices, r.id < rr.new_graph.fresh)
    (hnd : rr.new_graph.edgeIds.Nodup)
    (hconj : rr.new_graph.conjugate_typed = true →
      rr.new_graph.conjugateV (rr.new_graph.EdgeEnd A) ≠ v
        ∧ rr.new_graph.conjugateV (rr.new_graph.EdgeEnd B) ≠ v
        ∧ rr.new_graph.conjugateV (rr.new_graph.EdgeStart C) ≠ v
        ∧ rr.new_graph.conjugateV (rr.new_graph.EdgeStart D) ≠ v)
    (hout : ∀ e, e ∈ rr.new_graph.OutgoingEdges v ↔ e = A ∨ e = B)
    (hin : ∀ e, e ∈ rr.new_graph.IncomingEdges v ↔ e = C ∨ e = D)
    (hlen : rr.edge_infos.length = rr.edge_info_colors.length)
    (hcl : CleanClasses A B C D (rr.edge_infos.zip rr.edge_info_colors))
    (hlink : ∀ ic ∈ rr.edge_infos.zip rr.edge_info_colors, ic.1.lp ∈ rr.paired_di_data)
    (hidx : ∀ p ∈ rr.paired_di_data,
      (p.first = A ∨ p.first = B ∨ p.first = C ∨ p.first = D) → 0 < p.weight)
    (hsc : ∀ g es, env.SplitCondition g v es = true)
    (hcut : lowCoverageCount env rr v = 0) :
    (∃ nv1 nv2 es1 cs1 es2 cs2 a b c d, nv1 ≠ nv2
      ∧ (MultiSplit env rr v).2 = [nv1, nv2]
      ∧ (MultiSplit env rr v).1.split_calls = rr.split_calls ++ [(v, es1, cs1), (v, es2, cs2)]
      ∧ (∀ e, e ∈ es1 ↔ e = A ∨ e = C) ∧ (∀ e, e ∈ es2 ↔ e = B ∨ e = D)
      ∧ nv1 ∉ rr.new_graph.vertexIds ∧ nv2 ∉ rr.new_graph.vertexIds
      ∧ nv1 ∈ (MultiSplit env rr v).1.new_graph.vertexIds
      ∧ nv2 ∈ (MultiSplit env rr v).1.new_graph.vertexIds
      ∧ v ∉ (MultiSplit env rr v).1.new_graph.vertexIds
      ∧ a ∉ rr.new_graph.edgeIds ∧ b ∉ rr.new_graph.edgeIds
      ∧ c ∉ rr.new_graph.edgeIds ∧ d ∉ rr.new_graph.edgeIds
      ∧ (∀ e, e ∈ (MultiSplit env rr v).1.new_graph.OutgoingEdges nv1 ↔ e = a)
      ∧ (∀ e, e ∈ (MultiSplit env rr v).1.new_graph.IncomingEdges nv1 ↔ e = c)
      ∧ (∀ e, e ∈ (MultiSplit env rr v).1.new_graph.OutgoingEdges nv2 ↔ e = b)
      ∧ (∀ e, e ∈ (MultiSplit env rr v).1.new_graph.IncomingEdges nv2 ↔ e = d)
      ∧ (MultiSplit env rr v).1.new_graph.EdgeEnd a = rr.new_graph.EdgeEnd A
      ∧ (MultiSplit env rr v).1.new_graph.EdgeNucls a = rr.new_graph.EdgeNucls A
      ∧ (MultiSplit env rr v).1.new_graph.EdgeStart c = rr.new_graph.EdgeStart C
      ∧ (MultiSplit env rr v).1.new_graph.EdgeNucls c = rr.new_graph.EdgeNucls C
      ∧ (MultiSplit env rr v).1.new_graph.EdgeEnd b = rr.new_graph.EdgeEnd B
      ∧ (MultiSplit env rr v).1.new_graph.EdgeNucls b = rr.new_graph.EdgeNucls B
      ∧ (MultiSplit env rr v).1.new_graph.EdgeStart d = rr.new_graph.EdgeStart D
      ∧ (MultiSplit env rr v).1.new_graph.EdgeNucls d = rr.new_graph.EdgeNucls D)
    ∧ ∀ (rr0 : RepeatResolver) (b : Bool) (n : Int),
        rr = { rr0 with edge_info_colors := rr.edge_info_colors,
                        distance_counter := (buildNeighbours env rr0).2 } →
        ¬ (rr0.cheating_mode ≠ 0
            ∧ (rr0.new_graph.OutgoingEdges v ++ rr0.new_graph.IncomingEdges v).any
                (fun e => StdSet.contains rr0.global_cheating_edges e
                  || decide (rr0.edge_infos.length = 0)) = true) →
        colourLoop (rr0.edge_infos.length + 1) (buildNeighbours env rr0).1
            (List.range rr0.edge_infos.length)
            (List.replicate rr0.edge_infos.length (-1), false) 0
          = some ((rr.edge_info_colors, b), n) →
        RectangleResolveVertex env rr0 v = some ((MultiSplit env rr v).1, 2) := by
  have hms := MultiSplit_clean_split env rr v A B C D hAB hAD hCB hCD hout hin hlen hcl hlink
    hidx hsc
  have hgr := MultiSplit_clean_graph env rr v A B C D hAB hAD hCB hCD hAC hBD halloc hvids hnd
    hconj hout hin hlen hcl hlink hidx hsc hcut
  obtain ⟨nv1, nv2, es1, cs1, es2, cs2, hne, hres, hcalls, hes1, hes2⟩ := hms
  obtain ⟨w1, w2, a, b, c, d, gres, g1, g2, g3, g4, g5, ga, gc, gb, gd⟩ := hgr
  have hw : nv1 = w1 ∧ nv2 = w2 := by
    rw [hres] at gres
    simp only [List.cons.injEq, and_true] at gres
    exact gres
  rw [← hw.1] at g1 g3 ga gc
  rw [← hw.2] at g2 g4 gb gd
  have hnewv : ∀ x, rr.new_graph.fresh ≤ x → x ∉ rr.new_graph.vertexIds := by
    intro x hx hm
    unfold Graph.vertexIds at hm
    obtain ⟨r, hr, hri⟩ := List.mem_map.1 hm
    exact absurd (hri ▸ hvids r hr) (Nat.not_lt.2 hx)
  have hnewe : ∀ x, rr.new_graph.fresh ≤ x → x ∉ rr.new_graph.edgeIds :=
    fun x hx hm => absurd (Graph.edgeId_lt _ halloc x hm) (Nat.not_lt.2 hx)
  obtain ⟨a1, _, a3, a4⟩ := ga.out_spec
  obtain ⟨b1, _, b3, b4⟩ := gb.out_spec
  obtain ⟨c1, _, c3, c4⟩ := gc.in_spec
  obtain ⟨d1, _, d3, d4⟩ := gd.in_spec
  refine ⟨⟨nv1, nv2, es1, cs1, es2, cs2, a, b, c, d, hne, hres, hcalls, hes1, hes2,
    hnewv _ g1, hnewv _ g2, g3, g4, g5, hnewe _ ga.created, hnewe _ gb.created,
    hnewe _ gc.created, hnewe _ gd.created, a1, c1, b1, d1, a3, a4, c3, c4, b3, b4, d3, d4⟩, ?_⟩
  intro rr0 b n hrr hgate hcolour
  unfold RectangleResolveVertex
  simp only
  rw [if_neg hgate, hcolour]
  simp only
  rw [← hrr, hres]
  rfl

theorem exRRClean_out (e : EdgeId) :
    e ∈ exRRClean.new_graph.OutgoingEdges 10 ↔ e = 1 ∨ e = 2 := by
  have h : exRRClean.new_graph.OutgoingEdges 10 = [1, 2] := by decide
  rw [h]
  simp

theorem exRRClean_in (e : EdgeId) :
    e ∈ exRRClean.new_graph.IncomingEdges 10 ↔ e = 3 ∨ e = 4 := by
  have h : exRRClean.new_graph.IncomingEdges 10 = [3, 4] := by decide
  rw [h]
  simp

theorem exRRClean_zip : exRRClean.edge_infos.zip exRRClean.edge_info_colors
    = [(⟨⟨1, 3, 5, 7, 0⟩, 0, 3, 5⟩, 0), (⟨⟨2, 4, 5, 7, 0⟩, 0, 4, 5⟩, 1),
       (⟨⟨3, 3, 7, 7, 0⟩, 1, 3, 5⟩, 0), (⟨⟨4, 4, 7, 7, 0⟩, 1, 4, 5⟩, 1)] := rfl

theorem exRRClean_classes :
    CleanClasses 1 2 3 4 (exRRClean.edge_infos.zip exRRClean.edge_info_colors) := by
  rw [exRRClean_zip]
  constructor
  · intro ic hic
    simp only [List.mem_cons, List.mem_singleton, List.not_mem_nil, or_false] at hic
    rcases hic with h | h | h | h <;> subst h <;> simp
  · intro e he
    rcases he with h | h | h | h <;> subst h <;> simp

theorem exRRClean_link : ∀ ic ∈ exRRClean.edge_infos.zip exRRClean.edge_info_colors,
    ic.1.lp ∈ exRRClean.paired_di_data := by
  rw [exRRClean_zip]
  intro ic hic
  simp only [List.mem_cons, List.mem_singleton, List.not_mem_nil, or_false] at hic
  rcases hic with h | h | h | h <;> subst h <;> simp [exRRClean, exRRCleanInput]

theorem exRRClean_idx : ∀ p ∈ exRRClean.paired_di_data,
    (p.first = 1 ∨ p.first = 2 ∨ p.first = 3 ∨ p.first = 4) → 0 < p.weight := by
  intro p hp _
  simp only [exRRClean, exRRCleanInput, List.mem_cons, List.mem_singleton, List.not_mem_nil,
    or_false] at hp
  rcases hp with h | h | h | h <;> subst h <;> norm_num

theorem exRRClean_alloc : AllocatedBelow exRRClean.new_graph :=
  ⟨by decide!, by decide!, by decide!, by decide!, by decide!⟩

/-- Witness for C1: vertex `10` of the example graph with the clean colouring and no
coverage cutoff, the four edges having coverage `5`. The split returns the new vertices `20` and `23`; `20` carries the copies
`21` of edge `1` and `22` of edge `3`, `23` the copies `24` of edge `2` and `25` of edge
`4`; the colouring is the one `RectangleResolveVertex` computes for `exRRCleanInput`. With
the cutoff of `exEnvCut` the counter `low_coverage` is not `0`. -/
theorem C1_clean_split_witness :
    lowCoverageCount exEnv exRRClean 10 = 0
    ∧ lowCoverageCount exEnvCut exRRClean 10 = 4
    ∧ (MultiSplit exEnv exRRClean 10).2 = [20, 23]
    ∧ (MultiSplit exEnv exRRClean 10).1.new_graph.OutgoingEdges 20 = [21]
    ∧ (MultiSplit exEnv exRRClean 10).1.new_graph.IncomingEdges 20 = [22]
    ∧ (MultiSplit exEnv exRRClean 10).1.new_graph.OutgoingEdges 23 = [24]
    ∧ (MultiSplit exEnv exRRClean 10).1.new_graph.IncomingEdges 23 = [25]
    ∧ (∃ nv1 nv2 es1 cs1 es2 cs2 a b c d, nv1 ≠ nv2
      ∧ (MultiSplit exEnv exRRClean 10).2 = [nv1, nv2]
      ∧ (MultiSplit exEnv exRRClean 10).1.split_calls
          = exRRClean.split_calls ++ [(10, es1, cs1), (10, es2, cs2)]
      ∧ (∀ e, e ∈ es1 ↔ e = 1 ∨ e = 3) ∧ (∀ e, e ∈ es2 ↔ e = 2 ∨ e = 4)
      ∧ nv1 ∉ exRRClean.new_graph.vertexIds ∧ nv2 ∉ exRRClean.new_graph.vertexIds
      ∧ nv1 ∈ (MultiSplit exEnv exRRClean 10).1.new_graph.vertexIds
      ∧ nv2 ∈ (MultiSplit exEnv exRRClean 10).1.new_graph.vertexIds
      ∧ 10 ∉ (MultiSplit exEnv exRRClean 10).1.new_graph.vertexIds
      ∧ a ∉ exRRClean.new_graph.edgeIds ∧ b ∉ exRRClean.new_graph.edgeIds
      ∧ c ∉ exRRClean.new_graph.edgeIds ∧ d ∉ exRRClean.new_graph.edgeIds
      ∧ (∀ e, e ∈ (MultiSplit exEnv exRRClean 10).1.new_graph.OutgoingEdges nv1 ↔ e = a)
      ∧ (∀ e, e ∈ (MultiSplit exEnv exRRClean 10).1.new_graph.IncomingEdges nv1 ↔ e = c)
      ∧ (∀ e, e ∈ (MultiSplit exEnv exRRClean 10).1.new_graph.OutgoingEdges nv2 ↔ e = b)
      ∧ (∀ e, e ∈ (MultiSplit exEnv exRRClean 10).1.new_graph.IncomingEdges nv2 ↔ e = d)
      ∧ (MultiSplit exEnv exRRClean 10).1.new_graph.EdgeEnd a = exRRClean.new_graph.EdgeEnd 1
      ∧ (MultiSplit exEnv exRRClean 10).1.new_graph.EdgeNucls a
          = exRRClean.new_graph.EdgeNucls 1
      ∧ (MultiSplit exEnv exRRClean 10).1.new_graph.EdgeStart c
          = exRRClean.new_graph.EdgeStart 3
      ∧ (MultiSplit exEnv exRRClean 10).1.new_graph.EdgeNucls c
          = exRRClean.new_graph.EdgeNucls 3
      ∧ (MultiSplit exEnv exRRClean 10).1.new_graph.EdgeEnd b = exRRClean.new_graph.EdgeEnd 2
      ∧ (MultiSplit exEnv exRRClean 10).1.new_graph.EdgeNucls b
          = exRRClean.new_graph.EdgeNucls 2
      ∧ (MultiSplit exEnv exRRClean 10).1.new_graph.EdgeStart d
          = exRRClean.new_graph.EdgeStart 4
      ∧ (MultiSplit exEnv exRRClean 10).1.new_graph.EdgeNucls d
          = exRRClean.new_graph.EdgeNucls 4)
    ∧ RectangleResolveVertex exEnv exRRCleanInput 10
        = some ((MultiSplit exEnv exRRClean 10).1, 2) := by
  have hcut : lowCoverageCount exEnv exRRClean 10 = 0 :=
    lowCoverageCount_clean_plain exEnv exRRClean 10 1 2 3 4 (by decide) (by decide) (by decide)
      (by decide) rfl rfl (by decide!) exRRClean_out exRRClean_in rfl exRRClean_classes
      exRRClean_link exRRClean_idx (fun _ _ => rfl)
      (fun e he => by rcases he with h | h | h | h <;> subst h <;> decide!)
      (fun e he => by rcases he with h | h | h | h <;> subst h <;> decide!)
  have h := C1_clean_split exEnv exRRClean 10 1 2 3 4 (by decide) (by decide) (by decide)
    (by decide) (by decide) (by decide) exRRClean_alloc (by decide!) (by decide!)
    (fun ht => absurd ht (by decide)) exRRClean_out exRRClean_in rfl exRRClean_classes
    exRRClean_link exRRClean_idx (fun _ _ => rfl) hcut
  exact ⟨hcut, by decide!, by decide!, by decide!, by decide!, by decide!, by decide!, h.1,
    h.2 exRRCleanInput false 2 rfl (by decide) (by decide!)⟩

/-- Claim C5 (vertex provenance totality) fails: `MultiSplit` never writes `vertex_labels`,
so the vertices created by `SplitVertex` have no entry. In the example the clean split at
vertex `10` returns the new vertices `20` and `23`, both present in the working graph and
both absent from `vertex_labels`; the same holds after a whole `ResolveRepeats` run on the
constructed resolver for the new vertex `29`. -/
theorem C5_new_vertices_unlabelled :
    (∀ (env : Env) (rr : RepeatResolver) (v : VertexId),
      (MultiSplit env rr v).1.vertex_labels = rr.vertex_labels)
    ∧ (MultiSplit exEnv exRRClean 10).2 = [20, 23]
    ∧ 20 ∈ (MultiSplit exEnv exRRClean 10).1.new_graph.vertexIds
    ∧ 23 ∈ (MultiSplit exEnv exRRClean 10).1.new_graph.vertexIds
    ∧ StdMap.find (MultiSplit exEnv exRRClean 10).1.vertex_labels 20 = none
    ∧ StdMap.find (MultiSplit exEnv exRRClean 10).1.vertex_labels 23 = none
    ∧ (ResolveRepeats exEnv 3 (RepeatResolver.ctor exEnv exOld exIndClean exNew0)).map
        (fun r => (decide (29 ∈ r.new_graph.vertexIds), StdMap.find r.vertex_labels 29))
      = some (true, none) :=
  ⟨MultiSplit_vertex_labels, by decide!⟩

/-- Claim C8 (fresh colour for orphan edges) fails by one: in mode `2` the first orphan
edge receives the colour `k`, the largest colour assigned by the colouring engine, and only
the later ones receive fresh colours. In the example the engine coloured edge `1` with `0`
and edge `3` with `1`; the occurrences added for the orphan edge `2` get colour `1`, those
of the orphan edge `4` colour `2`, and `SplitVertex` is called with the orphan `2` and the
edge `3` together. -/
theorem C8_first_orphan_shares_colour :
    (exRROrphanRelaxed.edge_infos.zip exRROrphanRelaxed.edge_info_colors).map
        (fun ic => (ic.1.lp.first, ic.2)) = [(1, 0), (3, 1)]
    ∧ (splitOccurrences exRROrphanRelaxed 10).map (fun ic => (ic.1.lp.first, ic.2))
      = [(2, 1), (4, 2), (1, 0), (3, 1)]
    ∧ (MultiSplit exEnv exRROrphanRelaxed 10).1.split_calls
      = [(10, [1], [1]), (10, [2, 3], [1, 1]), (10, [4], [1])] := by
  decide!

/-- Counterexample to C3 (no-op on low-degree graphs): every vertex of `exOld` has at
most 2 incoming and at most 2 outgoing edges, yet with the index `exIndClean`
`ResolveRepeats` splits the copy of vertex `10`: the working graph has 5 vertices after
construction and 6 after the run. -/
theorem C3_counterexample :
    LowDegree exOld
    ∧ (RepeatResolver.ctor exEnv exOld exIndClean exNew0).new_graph.vertices.length = 5
    ∧ (ResolveRepeats exEnv 3 (RepeatResolver.ctor exEnv exOld exIndClean exNew0)).map
        (fun r => (r.new_graph.vertices.length, r.new_graph.edges.length)) = some (6, 4) := by
  exact ⟨exOld_lowDegree, by decide!⟩

/-- Claim C3 as amended (no-op on low-degree graphs with sparse evidence): for every
original graph in which every vertex has at most 2 incoming and at most 2 outgoing edges,
and for every paired index of which, after construction, at most one observation is keyed
by the edges incident to any one vertex, `ResolveRepeats` returns for every positive sweep
bound and leaves the number of vertices and the number of edges of the working graph
unchanged; the working graph is the one built by the constructor. -/
theorem C3_noop_sparse_evidence (env : Env) (old_graph_ new_graph_ : Graph)
    (ind : List (List PairInfo)) (fuel : Nat) (hfuel : 0 < fuel)
    (_hdeg : LowDegree old_graph_)
    (hev : ∀ v, evidenceCount (RepeatResolver.ctor env old_graph_ ind new_graph_) v ≤ 1) :
    ∃ rr1, ResolveRepeats env fuel (RepeatResolver.ctor env old_graph_ ind new_graph_) = some rr1
      ∧ rr1.new_graph.vertices.length
          = (RepeatResolver.ctor env old_graph_ ind new_graph_).new_graph.vertices.length
      ∧ rr1.new_graph.edges.length
          = (RepeatResolver.ctor env old_graph_ ind new_graph_).new_graph.edges.length
      ∧ rr1.new_graph = (RepeatResolver.ctor env old_graph_ ind new_graph_).new_graph :=
  (ResolveRepeats_sparse env fuel hfuel _ hev).imp
    (fun _ h => ⟨h.1, by rw [h.2.new_graph], by rw [h.2.new_graph], h.2.new_graph⟩)

/-- Witness for the amended C3: the example graph with an index of one usable
observation, keyed by the edge `10 → 11`. -/
theorem C3_noop_sparse_evidence_witness :
    ∃ rr1, ResolveRepeats exEnv 1 (RepeatResolver.ctor exEnv exOld exIndSparse exNew0) = some rr1
      ∧ rr1.new_graph.vertices.length
          = (RepeatResolver.ctor exEnv exOld exIndSparse exNew0).new_graph.vertices.length
      ∧ rr1.new_graph.edges.length
          = (RepeatResolver.ctor exEnv exOld exIndSparse exNew0).new_graph.edges.length
      ∧ rr1.new_graph = (RepeatResolver.ctor exEnv exOld exIndSparse exNew0).new_graph :=
  C3_noop_sparse_evidence exEnv exOld exNew0 exIndSparse 1 (by decide) exOld_lowDegree
    exIndSparse_sparse

/-- Claim C4 (edge provenance totality) fails in conjugate mode: the constructor labels
every working edge, also the conjugate ones, but after the `MultiSplit` call that
`ResolveRepeats` makes at the copy `204` of vertex `10` the conjugate `221` of the new edge
`220` is an edge of the working graph without entry in `edge_labels`; only the edges
returned by `SplitVertex`, such as `220` with label `1`, inherit a label. -/
theorem C4_conjugate_copies_unlabelled :
    (RepeatResolver.ctor exEnvRc exOldRc exIndClean exNew0Rc).new_graph.edgeIds
      = [210, 211, 212, 213, 214, 215, 216, 217]
    ∧ (RepeatResolver.ctor exEnvRc exOldRc exIndClean exNew0Rc).edge_labels
      = [(210, 1), (211, 51), (212, 2), (213, 52), (214, 3), (215, 53), (216, 4), (217, 54)]
    ∧ (RectangleResolveVertex exEnvRc
        (GenerateVertexPairedInfo exEnvRc
          (RepeatResolver.ctor exEnvRc exOldRc exIndClean exNew0Rc) 204).1 204).map
        (fun r => (r.2, r.1.split_calls))
      = some (2, [(204, [210, 214], [1, 1]), (204, [212, 216], [1, 1])])
    ∧ (RectangleResolveVertex exEnvRc
        (GenerateVertexPairedInfo exEnvRc
          (RepeatResolver.ctor exEnvRc exOldRc exIndClean exNew0Rc) 204).1 204).map
        (fun r => (decide (221 ∈ r.1.new_graph.edgeIds), StdMap.find r.1.edge_labels 221))
      = some (true, none)
    ∧ (ResolveRepeats exEnvRc 3 (RepeatResolver.ctor exEnvRc exOldRc exIndClean exNew0Rc)).map
        (fun r => (decide (221 ∈ r.new_graph.edgeIds), StdMap.find r.edge_labels 221))
      = some (true, none)
    ∧ (ResolveRepeats exEnvRc 3 (RepeatResolver.ctor exEnvRc exOldRc exIndClean exNew0Rc)).map
        (fun r => (r.new_graph.conjugateE 220, StdMap.find r.edge_labels 220))
      = some (221, some 1)
    ∧ (ResolveRepeats exEnvRc 3 (RepeatResolver.ctor exEnvRc exOldRc exIndClean exNew0Rc)).map
        (fun r => r.verify_failed)
      = some false := by
  refine ⟨?_, ?_, ?_, ?_, ?_, ?_, ?_⟩ <;> decide!

/-- Counterexample to C11 (cheater gating lifted in relaxed mode): in the relaxed mode `2`
the vertex `22` touches the global cheating edge `25`, and the loop body of the driver
returns the state as it found it: no evidence is generated (four occurrences would be) and
no resolver runs, although the same vertex is split in two as soon as the cheater set is
empty. -/
theorem C11_counterexample :
    exRRGated.cheating_mode = 2
    ∧ 25 ∈ exRRGated.new_graph.OutgoingEdges 22
    ∧ 25 ∈ exRRGated.global_cheating_edges
    ∧ resolveVertexStep exEnv (exRRGated, false) 22 = some (exRRGated, false)
    ∧ exRRGated.edge_infos.length = 0
    ∧ (GenerateVertexPairedInfo exEnv exRRGated 22).1.edge_infos.length = 4
    ∧ (resolveVertexStep exEnv ({ exRRGated with global_cheating_edges := [] }, false) 22).map
        (fun r => (r.1.split_calls, r.2))
      = some ([(22, [25, 27], [1, 1]), (22, [26, 28], [1, 1])], true) := by
  refine ⟨?_, ?_, ?_, ?_, ?_, ?_, ?_⟩ <;> decide!

/-- Claim C11 as amended (cheater gating holds in every mode): a vertex that touches a
global cheating edge is skipped by the driver whatever the value of `cheating_mode`: the
loop body returns the resolver state and the flag `changed` as they were, so the vertex is
passed neither to evidence generation nor to a resolver; and `RectangleResolveVertex`
itself, in every relaxed mode, returns `1` on an unchanged state for such a vertex. -/
theorem C11_cheater_gating_every_mode (env : Env) (rr : RepeatResolver) (changed : Bool)
    (v : VertexId) (e : EdgeId)
    (he : e ∈ rr.new_graph.OutgoingEdges v ++ rr.new_graph.IncomingEdges v)
    (hc : e ∈ rr.global_cheating_edges) :
    resolveVertexStep env (rr, changed) v = some (rr, changed)
    ∧ (rr.cheating_mode ≠ 0 → RectangleResolveVertex env rr v = some (rr, 1)) :=
  ⟨resolveVertexStep_cheater env rr changed v e he hc,
    fun hm => RectangleResolveVertex_cheater env rr v e hm he hc⟩

/-- Witness for the amended C11: the vertex `22` of `exRRGated` in mode `2`. -/
theorem C11_cheater_gating_every_mode_witness :
    resolveVertexStep exEnv (exRRGated, true) 22 = some (exRRGated, true)
    ∧ (exRRGated.cheating_mode ≠ 0 → RectangleResolveVertex exEnv exRRGated 22
        = some (exRRGated, 1)) :=
  C11_cheater_gating_every_mode exEnv exRRGated true 22 25 (by decide!) (by decide!)

/-- Claim C13 (distance oracle): after the constructor and any sequence of earlier
queries, `GetDistances(start, end)` returns the distance that the bounded search from
`start` assigns to `end`, the sentinel `1000000000` when the search does not reach `end`;
this is the answer of a counter whose cache is empty, so it does not depend on whether
`start` was cached; and when `start` is cached the query leaves the cache as it was and
its result is the same whatever the search would return, so no search is run. -/
theorem C13_distance_oracle (env : Env) (graph_ : Graph) (depth_ : Int)
    (queries : List (VertexId × VertexId)) (start finish : VertexId) :
    (FastDistanceCounter.GetDistances env graph_ depth_
        (cacheAfter env graph_ depth_ queries) start finish).1
      = searchDistance env graph_ depth_ start finish
    ∧ (FastDistanceCounter.GetDistances env graph_ depth_
        (cacheAfter env graph_ depth_ queries) start finish).1
      = (FastDistanceCounter.GetDistances env graph_ depth_ [] start finish).1
    ∧ ((StdMap.find (cacheAfter env graph_ depth_ queries) start).isSome →
        (FastDistanceCounter.GetDistances env graph_ depth_
          (cacheAfter env graph_ depth_ queries) start finish).2
          = cacheAfter env graph_ depth_ queries
        ∧ ∀ env2 : Env,
            FastDistanceCounter.GetDistances env2 graph_ depth_
              (cacheAfter env graph_ depth_ queries) start finish
            = FastDistanceCounter.GetDistances env graph_ depth_
              (cacheAfter env graph_ depth_ queries) start finish) := by
  have hv := cacheAfter_valid env graph_ depth_ queries
  refine ⟨(CacheValid.getDistances env graph_ depth_ _ hv start finish).1, ?_, ?_⟩
  · rw [(CacheValid.getDistances env graph_ depth_ _ hv start finish).1,
      GetDistances_fresh env graph_ depth_ [] start finish rfl]
  · intro hc
    refine ⟨?_, fun env2 => GetDistances_no_search env env2 graph_ depth_ _ start finish hc⟩
    cases hs : StdMap.find (cacheAfter env graph_ depth_ queries) start with
    | none => rw [hs] at hc; cases hc
    | some m => rw [GetDistances_cached env graph_ depth_ _ start finish m hs]

/-- Witness for C13: after the queries `(10, 11)` and `(12, 10)` the source `10` is cached;
the query `(10, 12)` is answered with the sentinel and `(10, 11)` with `2`. -/
theorem C13_distance_oracle_witness :
    ((FastDistanceCounter.GetDistances exEnvSearch exOld 5
        (cacheAfter exEnvSearch exOld 5 [(10, 11), (12, 10)]) 10 12).1
      = searchDistance exEnvSearch exOld 5 10 12
    ∧ (FastDistanceCounter.GetDistances exEnvSearch exOld 5
        (cacheAfter exEnvSearch exOld 5 [(10, 11), (12, 10)]) 10 12).1
      = (FastDistanceCounter.GetDistances exEnvSearch exOld 5 [] 10 12).1
    ∧ ((StdMap.find (cacheAfter exEnvSearch exOld 5 [(10, 11), (12, 10)]) 10).isSome →
        (FastDistanceCounter.GetDistances exEnvSearch exOld 5
          (cacheAfter exEnvSearch exOld 5 [(10, 11), (12, 10)]) 10 12).2
          = cacheAfter exEnvSearch exOld 5 [(10, 11), (12, 10)]
        ∧ ∀ env2 : Env,
            FastDistanceCounter.GetDistances env2 exOld 5
              (cacheAfter exEnvSearch exOld 5 [(10, 11), (12, 10)]) 10 12
            = FastDistanceCounter.GetDistances exEnvSearch exOld 5
              (cacheAfter exEnvSearch exOld 5 [(10, 11), (12, 10)]) 10 12))
    ∧ (StdMap.find (cacheAfter exEnvSearch exOld 5 [(10, 11), (12, 10)]) 10).isSome
    ∧ searchDistance exEnvSearch exOld 5 10 12 = 1000000000
    ∧ searchDistance exEnvSearch exOld 5 10 11 = 2 :=
  ⟨C13_distance_oracle exEnvSearch exOld 5 [(10, 11), (12, 10)] 10 12, by decide, by decide,
    by decide⟩

/-- Counterexample to C14 (too-close filter): with insert size `10` and read length `5` the
bound is `5 / 1.3`; the observation of distance `3` between the working edge `25` and the
original edge `3` (of length `2`) is not too far and its distance is below the bound, yet
`CorrectedAndNotFiltered` accepts it, because the test adds the length of the second edge:
`3 + 2` is not below the bound. -/
theorem C14_counterexample :
    ¬ ((3 : ℚ) - ((RepeatResolver.ctor exEnv exOld exIndClean exNew0).new_graph.length 25 : ℚ)
        > 13 / 10 * exEnv.cfg.ds_IS)
    ∧ (3 : ℚ) < (exEnv.cfg.ds_IS - exEnv.cfg.ds_RL) / (13 / 10)
    ∧ ((RepeatResolver.ctor exEnv exOld exIndClean exNew0).old_graph.length 3 : ℚ) = 2
    ∧ (CorrectedAndNotFiltered exEnv (RepeatResolver.ctor exEnv exOld exIndClean exNew0)
        ⟨25, 3, 3, 7, 0⟩).1 = true := by
  refine ⟨?_, ?_, ?_, ?_⟩ <;> decide!

/-- Claim C14 as amended (too-close filter): for every observation that is not rejected
as too far, `CorrectedAndNotFiltered` rejects it if and only if its distance `d` plus the
length of its second edge in the original graph is smaller than
`(insert_size - read_length) / 1.3`, and otherwise accepts it; the observation is handed
back as it came. -/
theorem C14_too_close_filter (env : Env) (rr : RepeatResolver) (pair_inf : PairInfo)
    (hfar : ¬ (pair_inf.d - (rr.new_graph.length pair_inf.first : ℚ)
      > 13 / 10 * env.cfg.ds_IS)) :
    ((CorrectedAndNotFiltered env rr pair_inf).1 = false
      ↔ pair_inf.d + (rr.old_graph.length pair_inf.second : ℚ)
          < (env.cfg.ds_IS - env.cfg.ds_RL) / (13 / 10))
    ∧ ((CorrectedAndNotFiltered env rr pair_inf).1 = true
      ↔ ¬ (pair_inf.d + (rr.old_graph.length pair_inf.second : ℚ)
          < (env.cfg.ds_IS - env.cfg.ds_RL) / (13 / 10)))
    ∧ (CorrectedAndNotFiltered env rr pair_inf).2 = pair_inf := by
  have hrw : (1 : ℚ) / (13 / 10) * (env.cfg.ds_IS - env.cfg.ds_RL)
      = (env.cfg.ds_IS - env.cfg.ds_RL) / (13 / 10) := by ring
  have hbig : ¬ (|pair_inf.d - pair_inf.d| > (10 : ℚ)) := by
    rw [sub_self, abs_zero]; norm_num
  unfold CorrectedAndNotFiltered
  simp only
  rw [if_neg hfar, if_neg hbig, hrw]
  by_cases hc : pair_inf.d + (rr.old_graph.length pair_inf.second : ℚ)
      < (env.cfg.ds_IS - env.cfg.ds_RL) / (13 / 10)
  · rw [if_pos hc]; simp [hc]
  · rw [if_neg hc]; simp [hc]

/-- Witness for the amended C14: the observation of the counterexample is accepted, one of
distance `1` on the same edges is rejected. -/
theorem C14_too_close_filter_witness :
    ((CorrectedAndNotFiltered exEnv (RepeatResolver.ctor exEnv exOld exIndClean exNew0)
        ⟨25, 3, 1, 7, 0⟩).1 = false
      ↔ (1 : ℚ) + ((RepeatResolver.ctor exEnv exOld exIndClean exNew0).old_graph.length 3 : ℚ)
          < (exEnv.cfg.ds_IS - exEnv.cfg.ds_RL) / (13 / 10))
    ∧ ((CorrectedAndNotFiltered exEnv (RepeatResolver.ctor exEnv exOld exIndClean exNew0)
        ⟨25, 3, 1, 7, 0⟩).1 = true
      ↔ ¬ ((1 : ℚ) + ((RepeatResolver.ctor exEnv exOld exIndClean exNew0).old_graph.length 3 : ℚ)
          < (exEnv.cfg.ds_IS - exEnv.cfg.ds_RL) / (13 / 10)))
    ∧ (CorrectedAndNotFiltered exEnv (RepeatResolver.ctor exEnv exOld exIndClean exNew0)
        ⟨25, 3, 1, 7, 0⟩).2 = ⟨25, 3, 1, 7, 0⟩ :=
  C14_too_close_filter exEnv (RepeatResolver.ctor exEnv exOld exIndClean exNew0)
    ⟨25, 3, 1, 7, 0⟩ (by decide!)

/-- Claim C15 (the evidence-adjacency predicate is not symmetric): there are an original
graph, a working graph, an oracle and a pair of occurrences `A`, `B` for which `isAdjacent`
called on `A` with `B` returns `true` while `isAdjacent` called on `B` with `A` returns
`false`, be the second call made on the oracle as it was before the first call or as the
first call left it, which is the test of `RectangleResolveVertex` that logs the ASSYMETRIC
warning. In the example `A` and `B` are occurrences of the working edges `1` and `3` with
the same original edge `3` at the same distance `5`; the variance of `A` is `0` and that of
`B` is NaN, so that `std::max` returns `0` in the call on `A` and NaN in the call on `B`.
On occurrences whose variances are numbers the method is `EdgeInfo.isAdjacent`, and there
the two calls always agree: the asymmetry needs a NaN. -/
theorem C15_adjacency_not_symmetric :
    (∃ (env : Env) (A B : EdgeInfo) (va vb : Option ℚ) (old_graph new_graph : Graph)
        (dc : FastDistanceCounter),
      (EdgeInfo.isAdjacentNaN env A B va vb old_graph new_graph dc).1 = true
      ∧ (EdgeInfo.isAdjacentNaN env B A vb va old_graph new_graph dc).1 = false
      ∧ ((EdgeInfo.isAdjacentNaN env A B va vb old_graph new_graph dc).1
          && !(EdgeInfo.isAdjacentNaN env B A vb va old_graph new_graph
            (EdgeInfo.isAdjacentNaN env A B va vb old_graph new_graph dc).2).1) = true)
    ∧ (EdgeInfo.isAdjacentNaN exEnv ⟨⟨1, 3, 5, 7, 0⟩, 0, 3, 5⟩ ⟨⟨3, 3, 7, 7, 0⟩, 1, 3, 5⟩
        (some 0) none exOld exRRClean.new_graph []).1 = true
    ∧ (EdgeInfo.isAdjacentNaN exEnv ⟨⟨3, 3, 7, 7, 0⟩, 1, 3, 5⟩ ⟨⟨1, 3, 5, 7, 0⟩, 0, 3, 5⟩
        none (some 0) exOld exRRClean.new_graph []).1 = false
    ∧ stdMax (some 0) none = some 0 ∧ stdMax none (some 0) = none
    ∧ (∀ (env : Env) (A B : EdgeInfo) (old_graph new_graph : Graph)
        (dc : FastDistanceCounter),
        EdgeInfo.isAdjacentNaN env A B (some A.lp.variance) (some B.lp.variance) old_graph
            new_graph dc
          = EdgeInfo.isAdjacent env A B old_graph new_graph dc)
    ∧ (∀ (env : Env) (A B : EdgeInfo) (old_graph new_graph : Graph)
        (dc : FastDistanceCounter),
        (EdgeInfo.isAdjacent env B A old_graph new_graph dc).1
            = (EdgeInfo.isAdjacent env A B old_graph new_graph dc).1
          ∧ (EdgeInfo.isAdjacent env B A old_graph new_graph
              (EdgeInfo.isAdjacent env A B old_graph new_graph dc).2).1
            = (EdgeInfo.isAdjacent env A B old_graph new_graph dc).1) := by
  refine ⟨⟨exEnv, ⟨⟨1, 3, 5, 7, 0⟩, 0, 3, 5⟩, ⟨⟨3, 3, 7, 7, 0⟩, 1, 3, 5⟩, some 0, none, exOld,
    exRRClean.new_graph, [], by decide!, by decide!, by decide!⟩, by decide!, by decide!, rfl,
    rfl, isAdjacentNaN_some, ?_⟩
  intro env A B old_graph new_graph dc
  exact ⟨isAdjacent_symm env A B old_graph new_graph dc dc (SameAnswers.same_refl _ _ _ _),
    isAdjacent_symm env A B old_graph new_graph dc _
      (isAdjacent_cache env A B old_graph new_graph dc)⟩

/-- Claim C20 (adjacency by distance): for occurrences `A` and `B` to which neither the
topological veto nor the long-edge shortcut applies, and an oracle that has answered any
sequence of earlier queries, `isAdjacent(A, B)` is true if and only if, with
`max_diff = max(varA, varB) + 0.5 + 1e-9`, the forward check, the backward check, the
same-edge check or, for occurrences of the same first edge, one of the two direct-contact
checks holds; the oracle distances are those of the bounded search. -/
theorem C20_adjacency_by_distance (env : Env) (A B : EdgeInfo) (old_graph new_graph : Graph)
    (queries : List (VertexId × VertexId))
    (hveto : ¬ topologicalVeto A B new_graph)
    (hlong : ¬ longEdgeShortcut env A B new_graph) :
    (EdgeInfo.isAdjacent env A B old_graph new_graph
        (cacheAfter env old_graph env.cfg.rr_max_distance queries)).1 = true
      ↔ (|A.d + (old_graph.length A.edge : ℚ)
            + (searchDistance env old_graph env.cfg.rr_max_distance
                (old_graph.EdgeEnd A.edge) (old_graph.EdgeStart B.edge) : ℚ) - B.d|
            < max A.lp.variance B.lp.variance + 1 / 2 + 1 / 1000000000
        ∨ |B.d + (old_graph.length B.edge : ℚ)
            + (searchDistance env old_graph env.cfg.rr_max_distance
                (old_graph.EdgeEnd B.edge) (old_graph.EdgeStart A.edge) : ℚ) - A.d|
            < max A.lp.variance B.lp.variance + 1 / 2 + 1 / 1000000000
        ∨ (A.edge = B.edge
            ∧ |A.d - B.d| < max A.lp.variance B.lp.variance + 1 / 2 + 1 / 1000000000)
        ∨ (A.lp.first = B.lp.first
            ∧ ((old_graph.EdgeEnd A.edge = old_graph.EdgeStart B.edge
                  ∧ |A.d + (old_graph.length A.edge : ℚ) - B.d|
                      < max A.lp.variance B.lp.variance + 1 / 2 + 1 / 1000000000)
              ∨ (old_graph.EdgeStart A.edge = old_graph.EdgeEnd B.edge
                  ∧ |A.d - B.d - (old_graph.length B.edge : ℚ)|
                      < max A.lp.variance B.lp.variance + 1 / 2 + 1 / 1000000000)))) := by
  have hv := cacheAfter_valid env old_graph env.cfg.rr_max_distance queries
  have q1 := CacheValid.getDistances env old_graph env.cfg.rr_max_distance _ hv
    (old_graph.EdgeEnd A.edge) (old_graph.EdgeStart B.edge)
  have q2 := CacheValid.getDistances env old_graph env.cfg.rr_max_distance _ q1.2
    (old_graph.EdgeEnd B.edge) (old_graph.EdgeStart A.edge)
  rw [isAdjacent_iff, IsEdgesOnDistanceAdjacent_iff, q1.1, q2.1]
  simp only [hveto, hlong, not_false_eq_true, true_and, false_or, decide_eq_true_eq]
  have e1 : (B.edge = A.edge) = (A.edge = B.edge) := propext eq_comm
  have e2 : A.d - (B.d + (old_graph.length B.edge : ℚ))
      = A.d - B.d - (old_graph.length B.edge : ℚ) := by ring
  rw [e1, e2]

/-- Witness for C20: two occurrences of the working edge `25` whose paired edges `3`
(`1 → 10`) and `1` (`10 → 11`) touch directly, at distances `7` and `9`. -/
theorem C20_adjacency_by_distance_witness :
    ((EdgeInfo.isAdjacent exEnvSearch exInfoA exInfoB exOld
        (RepeatResolver.ctor exEnv exOld exIndClean exNew0).new_graph
        (cacheAfter exEnvSearch exOld exEnvSearch.cfg.rr_max_distance [(10, 11)])).1 = true
      ↔ (|exInfoA.d + (exOld.length exInfoA.edge : ℚ)
            + (searchDistance exEnvSearch exOld exEnvSearch.cfg.rr_max_distance
                (exOld.EdgeEnd exInfoA.edge) (exOld.EdgeStart exInfoB.edge) : ℚ) - exInfoB.d|
            < max exInfoA.lp.variance exInfoB.lp.variance + 1 / 2 + 1 / 1000000000
        ∨ |exInfoB.d + (exOld.length exInfoB.edge : ℚ)
            + (searchDistance exEnvSearch exOld exEnvSearch.cfg.rr_max_distance
                (exOld.EdgeEnd exInfoB.edge) (exOld.EdgeStart exInfoA.edge) : ℚ) - exInfoA.d|
            < max exInfoA.lp.variance exInfoB.lp.variance + 1 / 2 + 1 / 1000000000
        ∨ (exInfoA.edge = exInfoB.edge
            ∧ |exInfoA.d - exInfoB.d|
                < max exInfoA.lp.variance exInfoB.lp.variance + 1 / 2 + 1 / 1000000000)
        ∨ (exInfoA.lp.first = exInfoB.lp.first
            ∧ ((exOld.EdgeEnd exInfoA.edge = exOld.EdgeStart exInfoB.edge
                  ∧ |exInfoA.d + (exOld.length exInfoA.edge : ℚ) - exInfoB.d|
                      < max exInfoA.lp.variance exInfoB.lp.variance + 1 / 2 + 1 / 1000000000)
              ∨ (exOld.EdgeStart exInfoA.edge = exOld.EdgeEnd exInfoB.edge
                  ∧ |exInfoA.d - exInfoB.d - (exOld.length exInfoB.edge : ℚ)|
                      < max exInfoA.lp.variance exInfoB.lp.variance + 1 / 2
                        + 1 / 1000000000)))))
    ∧ (EdgeInfo.isAdjacent exEnvSearch exInfoA exInfoB exOld
        (RepeatResolver.ctor exEnv exOld exIndClean exNew0).new_graph
        (cacheAfter exEnvSearch exOld exEnvSearch.cfg.rr_max_distance [(10, 11)])).1 = true :=
  ⟨C20_adjacency_by_distance exEnvSearch exInfoA exInfoB exOld
      (RepeatResolver.ctor exEnv exOld exIndClean exNew0).new_graph [(10, 11)]
      (fun h => h.1 rfl) (fun h => absurd h.2 (by decide!)),
    by decide!⟩

/-- Counterexample to C16 (the fallback resolver requires a perfect matching): at vertex
`10` of `exRRMatch` the matching graph joins the outgoing edge `1` (node `3`) with the
incoming edges `3` and `4` (nodes `0` and `1`), a component of three nodes, and the
outgoing edge `2` with the incoming edge `5`; `CheatingResolveVertex` nevertheless goes on
to `MultiSplit`, which splits the vertex in two, and returns `2`. -/
theorem C16_counterexample :
    matchingNeighbours exRRMatch 10 = [[3], [3], [4], [0, 1], [2]]
    ∧ colourLoop 6 (matchingNeighbours exRRMatch 10) (List.range 5)
        (List.replicate 5 (-1), false) 0 = some (([0, 0, 1, 0, 1], false), 2)
    ∧ (CheatingResolveVertex exEnv exRRMatch 10).map (fun r => (r.2, r.1.split_calls))
      = some (2, [(10, [1, 3, 4], [1, 1, 1]), (10, [2, 5], [1, 1])])
    ∧ exRRMatch.new_graph.vertexIds = [1, 2, 3, 10, 11, 12]
    ∧ (CheatingResolveVertex exEnv exRRMatch 10).map (fun r => r.1.new_graph.vertexIds)
      = some [1, 2, 3, 11, 12, 20, 24] := by
  refine ⟨?_, ?_, ?_, ?_, ?_⟩ <;> decide!

/-- Claim C16 as amended (the fallback resolver requires that no node is left alone):
`CheatingResolveVertex` always colours the matching graph over the incident edges of the
vertex; it goes on to `MultiSplit` if and only if the vertex has an incident edge and every
node shares its colour with another node, that is every component of the matching graph,
as the colouring labels it, has at least two nodes; otherwise (a node is unmatched, or the
vertex has no edge) it returns `1` and leaves the working graph, the paired index, the
provenance maps and the global cheater set unchanged. -/
theorem C16_fallback_needs_partners (env : Env) (rr : RepeatResolver) (vid : VertexId) :
    ∃ (cheater_colors : List Int) (b : Bool) (n : Int),
      colourLoop ((rr.new_graph.OutgoingEdges vid).length
          + (rr.new_graph.IncomingEdges vid).length + 1) (matchingNeighbours rr vid)
        (List.range ((rr.new_graph.OutgoingEdges vid).length
          + (rr.new_graph.IncomingEdges vid).length))
        (List.replicate ((rr.new_graph.OutgoingEdges vid).length
          + (rr.new_graph.IncomingEdges vid).length) (-1), false) 0
        = some ((cheater_colors, b), n)
      ∧ (AllMatched cheater_colors →
          CheatingResolveVertex env rr vid
            = some ((MultiSplit env (cheatRecoloured rr vid cheater_colors) vid).1,
                (MultiSplit env (cheatRecoloured rr vid cheater_colors) vid).2.length))
      ∧ (¬ AllMatched cheater_colors →
          ∃ rr1, CheatingResolveVertex env rr vid = some (rr1, 1) ∧ Untouched rr rr1) := by
  obtain ⟨r, hr, _⟩ := colourLoop_total ((rr.new_graph.OutgoingEdges vid).length
      + (rr.new_graph.IncomingEdges vid).length + 1) (matchingNeighbours rr vid)
    (List.range ((rr.new_graph.OutgoingEdges vid).length
      + (rr.new_graph.IncomingEdges vid).length))
    (List.replicate ((rr.new_graph.OutgoingEdges vid).length
      + (rr.new_graph.IncomingEdges vid).length) (-1), false) 0 (by decide) (by simp)
  refine ⟨r.1.1, r.1.2, r.2, hr, ?_, ?_⟩
  · intro hall
    have hb : cheatBad r.1.1 = false := (cheatBad_iff r.1.1).2 hall
    rw [CheatingResolveVertex_eq, hr]
    simp only [hb, Bool.false_eq_true, if_false]
  · intro hall
    have hb : cheatBad r.1.1 = true := by
      cases h : cheatBad r.1.1 with
      | true => rfl
      | false => exact absurd ((cheatBad_iff r.1.1).1 h) hall
    rw [CheatingResolveVertex_eq, hr]
    simp only [hb, if_true]
    exact ⟨_, rfl, ⟨rfl, rfl, rfl, rfl, rfl, rfl, rfl, rfl⟩⟩

/-- Claim C17 (fixpoint per mode): `ResolveRepeats` returns a state exactly when that
state is reached by running the modes `0, 1, ..., mode_count - 1` in increasing order, each
mode repeating full sweeps in which every sweep that reported a change is followed by
another sweep of the same mode and the mode is left after the first sweep that reported
none (within the sweep bound); every sweep returns, and it reports a change if and only if
the resolution of some vertex of its worklist returned more than one vertex. -/
theorem C17_fixpoint_per_mode (env : Env) (fuel : Nat) (rr : RepeatResolver) :
    (∀ result, ResolveRepeats env fuel rr = some result
      ↔ ModeRun env fuel (List.range env.cfg.rr_mode.toNat) { rr with sum_count := 0 } result)
    ∧ (List.range env.cfg.rr_mode.toNat).Pairwise (· < ·)
    ∧ (∀ m, m ∈ List.range env.cfg.rr_mode.toNat ↔ (m : Int) < env.cfg.rr_mode)
    ∧ ∀ rr0, ∃ r, sweep env rr0 = some r
        ∧ (r.2 = true ↔ ∃ pre v post s, sweepWorklist env rr0 = pre ++ v :: post
            ∧ pre.foldlM (resolveVertexStep env) (rr0, false) = some s
            ∧ returnedSeveral env s.1 v) := by
  refine ⟨fun result => modeLoop_iff env fuel _ _ result, List.pairwise_lt_range _, ?_,
    fun rr0 => sweep_flag env rr0⟩
  intro m
  rw [List.mem_range]
  omega

/-- Witness for C17: on the example a bound of one sweep per mode does not suffice, because
the first sweep of mode `0` splits the copy of vertex `10` and has to be followed by a
second one; with a bound of two sweeps the run returns, and it is a run of the modes
`0, 1, 2`. -/
theorem C17_fixpoint_per_mode_witness :
    ResolveRepeats exEnv 1 (RepeatResolver.ctor exEnv exOld exIndClean exNew0) = none
    ∧ ∃ result, ResolveRepeats exEnv 2 (RepeatResolver.ctor exEnv exOld exIndClean exNew0)
          = some result
        ∧ ModeRun exEnv 2 [0, 1, 2]
            { RepeatResolver.ctor exEnv exOld exIndClean exNew0 with sum_count := 0 } result := by
  refine ⟨by decide!, ?_⟩
  cases h : ResolveRepeats exEnv 2 (RepeatResolver.ctor exEnv exOld exIndClean exNew0) with
  | none => exact absurd h (by decide!)
  | some result =>
    exact ⟨result, rfl,
      ((C17_fixpoint_per_mode exEnv 2
        (RepeatResolver.ctor exEnv exOld exIndClean exNew0)).1 result).1 h⟩

/-- Claim C12 (construction copies the graph 1:1): in non-conjugate mode, for an empty
working graph and an original graph whose edges start and end at its vertices, after
construction `vertex_labels` maps the vertices of the working graph one-to-one onto the
original vertices of degree above `0`, `edge_labels` maps the edges of the working graph
one-to-one onto the original edges, neither map has a key outside the working graph, and
every working edge runs from the copy of its original's start vertex to the copy of its
original's end vertex. -/
theorem C12_construction_copies (env : Env) (old_graph_ new_graph_ : Graph)
    (ind : List (List PairInfo)) (hpre : PlainCtorPre env old_graph_ new_graph_) :
    ((∀ nv ∈ (RepeatResolver.ctor env old_graph_ ind new_graph_).new_graph.vertexIds,
        ∃ v ∈ old_graph_.vertexIds,
          0 < old_graph_.IncomingEdgeCount v + old_graph_.OutgoingEdgeCount v
          ∧ StdMap.find (RepeatResolver.ctor env old_graph_ ind new_graph_).vertex_labels nv
              = some v)
      ∧ (∀ nv1 ∈ (RepeatResolver.ctor env old_graph_ ind new_graph_).new_graph.vertexIds,
          ∀ nv2 ∈ (RepeatResolver.ctor env old_graph_ ind new_graph_).new_graph.vertexIds,
          StdMap.find (RepeatResolver.ctor env old_graph_ ind new_graph_).vertex_labels nv1
            = StdMap.find (RepeatResolver.ctor env old_graph_ ind new_graph_).vertex_labels nv2
          → nv1 = nv2)
      ∧ (∀ v ∈ old_graph_.vertexIds,
          0 < old_graph_.IncomingEdgeCount v + old_graph_.OutgoingEdgeCount v →
          ∃ nv ∈ (RepeatResolver.ctor env old_graph_ ind new_graph_).new_graph.vertexIds,
            StdMap.find (RepeatResolver.ctor env old_graph_ ind new_graph_).vertex_labels nv
              = some v)
      ∧ (∀ nv,
          (StdMap.find (RepeatResolver.ctor env old_graph_ ind new_graph_).vertex_labels
            nv).isSome →
          nv ∈ (RepeatResolver.ctor env old_graph_ ind new_graph_).new_graph.vertexIds))
    ∧ ((∀ ne ∈ (RepeatResolver.ctor env old_graph_ ind new_graph_).new_graph.edgeIds,
        ∃ e ∈ old_graph_.edgeIds,
          StdMap.find (RepeatResolver.ctor env old_graph_ ind new_graph_).edge_labels ne
            = some e)
      ∧ (∀ ne1 ∈ (RepeatResolver.ctor env old_graph_ ind new_graph_).new_graph.edgeIds,
          ∀ ne2 ∈ (RepeatResolver.ctor env old_graph_ ind new_graph_).new_graph.edgeIds,
          StdMap.find (RepeatResolver.ctor env old_graph_ ind new_graph_).edge_labels ne1
            = StdMap.find (RepeatResolver.ctor env old_graph_ ind new_graph_).edge_labels ne2
          → ne1 = ne2)
      ∧ (∀ e ∈ old_graph_.edgeIds,
          ∃ ne ∈ (RepeatResolver.ctor env old_graph_ ind new_graph_).new_graph.edgeIds,
            StdMap.find (RepeatResolver.ctor env old_graph_ ind new_graph_).edge_labels ne
              = some e)
      ∧ (∀ ne,
          (StdMap.find (RepeatResolver.ctor env old_graph_ ind new_graph_).edge_labels
            ne).isSome →
          ne ∈ (RepeatResolver.ctor env old_graph_ ind new_graph_).new_graph.edgeIds))
    ∧ (∀ ne ∈ (RepeatResolver.ctor env old_graph_ ind new_graph_).new_graph.edgeIds,
        ∀ e, StdMap.find (RepeatResolver.ctor env old_graph_ ind new_graph_).edge_labels ne
            = some e →
          StdMap.find (RepeatResolver.ctor env old_graph_ ind new_graph_).vertex_labels
              ((RepeatResolver.ctor env old_graph_ ind new_graph_).new_graph.EdgeStart ne)
            = some (old_graph_.EdgeStart e)
          ∧ StdMap.find (RepeatResolver.ctor env old_graph_ ind new_graph_).vertex_labels
              ((RepeatResolver.ctor env old_graph_ ind new_graph_).new_graph.EdgeEnd ne)
            = some (old_graph_.EdgeEnd e)) := by
  have hv := ctorVertexCopy_plain old_graph_ new_graph_ hpre.new_vertices hpre.new_edges
    hpre.new_typed
  have he := ctorEdgeCopy_plain env old_graph_ new_graph_ hpre
  have hvids : (RepeatResolver.ctor env old_graph_ ind new_graph_).new_graph.vertexIds
      = (ctorVertexCopy false old_graph_ new_graph_).new_graph.vertexIds := by
    simp only [RepeatResolver.ctor, hpre.plain, Graph.vertexIds, he.vertices]
  have hvl : (RepeatResolver.ctor env old_graph_ ind new_graph_).vertex_labels
      = (ctorVertexCopy false old_graph_ new_graph_).vertex_labels := by
    simp only [RepeatResolver.ctor, hpre.plain]
  have hg : (RepeatResolver.ctor env old_graph_ ind new_graph_).new_graph
      = (ctorEdgeCopy false old_graph_ new_graph_).new_graph := by
    simp only [RepeatResolver.ctor, hpre.plain]
  have hel : (RepeatResolver.ctor env old_graph_ ind new_graph_).edge_labels
      = (ctorEdgeCopy false old_graph_ new_graph_).edge_labels := by
    simp only [RepeatResolver.ctor, hpre.plain]
  have vlab : ∀ nv ∈ (ctorVertexCopy false old_graph_ new_graph_).new_graph.vertexIds,
      ∃ v, StdMap.find (ctorVertexCopy false old_graph_ new_graph_).vertex_labels nv = some v :=
    fun nv hnv => Option.isSome_iff_exists.1 ((hv.dom nv).2 hnv)
  have elab_ : ∀ ne ∈ (ctorEdgeCopy false old_graph_ new_graph_).new_graph.edgeIds,
      ∃ e, StdMap.find (ctorEdgeCopy false old_graph_ new_graph_).edge_labels ne = some e :=
    fun ne hne => Option.isSome_iff_exists.1 ((he.dom ne).2 hne)
  rw [hvids, hvl, hg, hel]
  refine ⟨⟨?_, ?_, ?_, ?_⟩, ⟨?_, ?_, ?_, ?_⟩, ?_⟩
  · intro nv hnv
    obtain ⟨v, hl⟩ := vlab nv hnv
    have hk := (hv.keys v).1 (by rw [(hv.inv nv v).1 hl]; rfl)
    exact ⟨v, by simpa using (StdSet.mem_foldl_insert _ _ _).1 hk.1, hk.2, hl⟩
  · intro nv1 h1 nv2 _ heq
    obtain ⟨v, hl⟩ := vlab nv1 h1
    have h2 := (hv.inv nv2 v).1 (heq ▸ hl)
    rw [(hv.inv nv1 v).1 hl] at h2
    exact Option.some.inj h2
  · intro v hvm hd
    obtain ⟨nv, hnv⟩ := Option.isSome_iff_exists.1
      ((hv.keys v).2 ⟨(StdSet.mem_foldl_insert _ _ _).2 (Or.inl hvm), hd⟩)
    have hl := (hv.inv nv v).2 hnv
    exact ⟨nv, (hv.dom nv).1 (by rw [hl]; rfl), hl⟩
  · intro nv hs
    exact (hv.dom nv).1 hs
  · intro ne hne
    obtain ⟨e, hl⟩ := elab_ ne hne
    have hk := (he.keys e).1 (by rw [(he.inv ne e).1 hl]; rfl)
    exact ⟨e, by simpa using (StdSet.mem_foldl_insert _ _ _).1 hk, hl⟩
  · intro ne1 h1 ne2 _ heq
    obtain ⟨e, hl⟩ := elab_ ne1 h1
    have h2 := (he.inv ne2 e).1 (heq ▸ hl)
    rw [(he.inv ne1 e).1 hl] at h2
    exact Option.some.inj h2
  · intro e hem
    obtain ⟨ne, hne⟩ := Option.isSome_iff_exists.1
      ((he.keys e).2 ((StdSet.mem_foldl_insert _ _ _).2 (Or.inl hem)))
    have hl := (he.inv ne e).2 hne
    exact ⟨ne, (he.dom ne).1 (by rw [hl]; rfl), hl⟩
  · intro ne hs
    exact (he.dom ne).1 hs
  · intro ne _ e hl
    have hk := (he.keys e).1 (by rw [(he.inv ne e).1 hl]; rfl)
    have hem : e ∈ old_graph_.edgeIds := by simpa using (StdSet.mem_foldl_insert _ _ _).1 hk
    obtain ⟨⟨a1, a2⟩, ⟨b1, b2⟩⟩ := Graph.endpoints_degree old_graph_ e hem hpre.ends
    obtain ⟨ns, hns⟩ := Option.isSome_iff_exists.1
      ((hv.keys _).2 ⟨(StdSet.mem_foldl_insert _ _ _).2 (Or.inl a1), a2⟩)
    obtain ⟨nt, hnt⟩ := Option.isSome_iff_exists.1
      ((hv.keys _).2 ⟨(StdSet.mem_foldl_insert _ _ _).2 (Or.inl b1), b2⟩)
    rw [(he.ends ne e hl).1, (he.ends ne e hl).2]
    simp only [StdMap.get, hns, hnt, Option.getD_some]
    exact ⟨(hv.inv ns _).2 hns, (hv.inv nt _).2 hnt⟩

/-- Witness for C12: the constructor on the example graph; every original edge has a
working copy, and every working edge joins the copies of its original's end vertices. -/
theorem C12_construction_copies_witness :
    (∀ e ∈ exOld.edgeIds,
      ∃ ne ∈ (RepeatResolver.ctor exEnv exOld exIndClean exNew0).new_graph.edgeIds,
        StdMap.find (RepeatResolver.ctor exEnv exOld exIndClean exNew0).edge_labels ne = some e)
    ∧ (∀ ne ∈ (RepeatResolver.ctor exEnv exOld exIndClean exNew0).new_graph.edgeIds,
        ∀ e, StdMap.find (RepeatResolver.ctor exEnv exOld exIndClean exNew0).edge_labels ne
            = some e →
          StdMap.find (RepeatResolver.ctor exEnv exOld exIndClean exNew0).vertex_labels
              ((RepeatResolver.ctor exEnv exOld exIndClean exNew0).new_graph.EdgeStart ne)
            = some (exOld.EdgeStart e)
          ∧ StdMap.find (RepeatResolver.ctor exEnv exOld exIndClean exNew0).vertex_labels
              ((RepeatResolver.ctor exEnv exOld exIndClean exNew0).new_graph.EdgeEnd ne)
            = some (exOld.EdgeEnd e)) :=
  ⟨(C12_construction_copies exEnv exOld exNew0 exIndClean exPlainCtorPre).2.1.2.2.1,
    (C12_construction_copies exEnv exOld exNew0 exIndClean exPlainCtorPre).2.2⟩

/-- Claim C18 (deleted vertices are skipped within a sweep). Let the worklist of a sweep
started in state `rr` be `pre ++ v :: post` and let `s` be the state after the steps for
`pre`. If `v` is no longer a vertex of the working graph, the test of line 1196 fires and
the step for `v` returns state and flag as they are, before any edge of `v` is queried,
evidence generated or a resolver called (`vertexCount` is `none`). In non-conjugate mode,
where line 1196 tests nothing, the case does not arise: on a well-formed non-conjugate
working graph whose worklist map is iterated entry by entry, `v` is still a vertex of the
working graph when it is met, since `MultiSplit(u)` deletes no old vertex but `u`. -/
theorem C18_deleted_vertices_skipped (env : Env) (rr : RepeatResolver)
    (pre post : List VertexId) (v : VertexId) (s : RepeatResolver × Bool)
    (hg : rr.rc_mode = false → PlainGraphOk rr.new_graph)
    (hiter : rr.rc_mode = false →
      (env.unorderedIteration (fillVerticesAuto env rr)).Perm (fillVerticesAuto env rr))
    (hw : sweepWorklist env rr = pre ++ v :: post)
    (hs : pre.foldlM (resolveVertexStep env) (rr, false) = some s) :
    (rr.rc_mode = false → v ∈ s.1.new_graph.vertexIds)
    ∧ (v ∉ s.1.new_graph.vertexIds →
        skippedAsDeleted s.1 v ∧ resolveVertexStep env s v = some s
          ∧ vertexCount env s.1 v = none) := by
  have hrcs : s.1.rc_mode = rr.rc_mode := sweep_prefix_rc_mode env pre (rr, false) s hs
  have hplain : rr.rc_mode = false → v ∈ s.1.new_graph.vertexIds := by
    intro hrc
    obtain ⟨hnd, hsub⟩ := sweepWorklist_plain env rr hrc (hg hrc) (hiter hrc)
    rw [hw] at hnd hsub
    have hv : v ∈ rr.new_graph.vertexIds := hsub v (by simp)
    have hvp : v ∉ pre := by
      intro hvp
      have := (List.nodup_append.1 hnd).2.2
      exact this hvp (List.mem_cons_self _ _)
    exact (sweep_prefix_plain env pre (rr, false) s hrc (hg hrc) hs).2 v hv hvp
  refine ⟨hplain, fun hdel => ?_⟩
  have hrc : s.1.rc_mode = true := by
    cases hb : rr.rc_mode with
    | false => exact absurd (hplain hb) hdel
    | true => rw [hrcs, hb]
  have hskip : s.1.rc_mode = true ∧ ¬ (v ∈ s.1.new_graph.vertexIds) := ⟨hrc, hdel⟩
  refine ⟨hskip, ?_, ?_⟩
  · unfold resolveVertexStep
    simp only
    rw [if_pos hskip]
  · unfold vertexCount
    rw [if_pos hskip]

/-- Claim C18, instances. In conjugate mode on the example graph `exOldRc` the worklist
of the first sweep is `200 .. 209`; the step for `204` splits it and deletes its conjugate
`205`, and the step for `205` that follows is skipped. In non-conjugate mode on `exOld`
the worklist is `20 .. 24`; the step for `22` splits and deletes it, and the vertex `23`
met next is still a vertex of the working graph. -/
theorem C18_deleted_vertices_skipped_witness :
    (∃ s, [200, 201, 202, 203, 204].foldlM (resolveVertexStep exEnvRc)
          (RepeatResolver.ctor exEnvRc exOldRc exIndClean exNew0Rc, false) = some s
      ∧ 205 ∈ (RepeatResolver.ctor exEnvRc exOldRc exIndClean exNew0Rc).new_graph.vertexIds
      ∧ 205 ∉ s.1.new_graph.vertexIds
      ∧ skippedAsDeleted s.1 205 ∧ resolveVertexStep exEnvRc s 205 = some s
      ∧ vertexCount exEnvRc s.1 205 = none)
    ∧ (∃ s, [20, 21, 22].foldlM (resolveVertexStep exEnv)
          (RepeatResolver.ctor exEnv exOld exIndClean exNew0, false) = some s
      ∧ 22 ∉ s.1.new_graph.vertexIds
      ∧ 23 ∈ s.1.new_graph.vertexIds) := by
  constructor
  · cases hfold : [200, 201, 202, 203, 204].foldlM (resolveVertexStep exEnvRc)
        (RepeatResolver.ctor exEnvRc exOldRc exIndClean exNew0Rc, false) with
    | none =>
      have h : ([200, 201, 202, 203, 204].foldlM (resolveVertexStep exEnvRc)
        (RepeatResolver.ctor exEnvRc exOldRc exIndClean exNew0Rc, false)).isSome = true := by
        decide!
      rw [hfold] at h
      exact absurd h (by decide)
    | some s =>
      have hq : ([200, 201, 202, 203, 204].foldlM (resolveVertexStep exEnvRc)
          (RepeatResolver.ctor exEnvRc exOldRc exIndClean exNew0Rc, false)).map
            (fun s => decide (205 ∈ s.1.new_graph.vertexIds)) = some false := by
        decide!
      rw [hfold] at hq
      have hdel : 205 ∉ s.1.new_graph.vertexIds := by
        intro hin
        have h1 : decide (205 ∈ s.1.new_graph.vertexIds) = false := Option.some.inj hq
        exact (of_decide_eq_false h1) hin
      have hrc : (RepeatResolver.ctor exEnvRc exOldRc exIndClean exNew0Rc).rc_mode = true := by
        decide!
      exact ⟨s, rfl, by decide!, hdel,
        (C18_deleted_vertices_skipped exEnvRc
          (RepeatResolver.ctor exEnvRc exOldRc exIndClean exNew0Rc)
          [200, 201, 202, 203, 204] [206, 207, 208, 209] 205 s
          (fun h => absurd (hrc.symm.trans h) (by decide))
          (fun h => absurd (hrc.symm.trans h) (by decide))
          (by decide!) hfold).2 hdel⟩
  · cases hfold : [20, 21, 22].foldlM (resolveVertexStep exEnv)
        (RepeatResolver.ctor exEnv exOld exIndClean exNew0, false) with
    | none =>
      have h : ([20, 21, 22].foldlM (resolveVertexStep exEnv)
        (RepeatResolver.ctor exEnv exOld exIndClean exNew0, false)).isSome = true := by
        decide!
      rw [hfold] at h
      exact absurd h (by decide)
    | some s =>
      have hq : ([20, 21, 22].foldlM (resolveVertexStep exEnv)
          (RepeatResolver.ctor exEnv exOld exIndClean exNew0, false)).map
            (fun s => decide (22 ∈ s.1.new_graph.vertexIds)) = some false := by
        decide!
      rw [hfold] at hq
      have hdel : 22 ∉ s.1.new_graph.vertexIds := by
        intro hin
        have h1 : decide (22 ∈ s.1.new_graph.vertexIds) = false := Option.some.inj hq
        exact (of_decide_eq_false h1) hin
      have hrc : (RepeatResolver.ctor exEnv exOld exIndClean exNew0).rc_mode = false := by
        decide!
      exact ⟨s, rfl, hdel,
        (C18_deleted_vertices_skipped exEnv
          (RepeatResolver.ctor exEnv exOld exIndClean exNew0)
          [20, 21, 22] [24] 23 s
          (fun _ => ⟨by decide!, by decide!, by decide!, by decide!, by decide!⟩)
          (fun _ => List.Perm.refl _)
          (by decide!) hfold).1 hrc⟩

/-- Claim C19, counterexample: with the coverage cutoff `6` the call `MultiSplit(10)` on
`exRRClean` passes its guards and creates for colour `0` the edges `21` and `22`; the edge
`21`, from the new vertex `20` to the old vertex `11`, has coverage `5` at the test of
line 852 and is pruned. Its end vertex `11` still has the original edge `1` at that
moment and is kept; the forced delete of vertex `10` then removes edge `1`, so that when
`MultiSplit` returns the endpoint `11` of the pruned edge is in the working graph with
zero incident edges. -/
theorem C19_counterexample :
    splitGuards exEnvCut exRRClean 10
        = some (exRRClean, [(1, 1), (2, 1), (3, 1), (4, 1)], 2)
    ∧ prunePairs exEnvCut 10
        (splitCoverage exRRClean [(1, 1), (2, 1), (3, 1), (4, 1)] 2).1
        (splitCoverage exRRClean [(1, 1), (2, 1), (3, 1), (4, 1)] 2).2
        (splitLoopAt exEnvCut exRRClean [(1, 1), (2, 1), (3, 1), (4, 1)] 2 10 0) 0
        = [(1, 21), (3, 22)]
    ∧ cutting_coverage exEnvCut.cfg = 6
    ∧ (pruneStateAt exEnvCut exRRClean [(1, 1), (2, 1), (3, 1), (4, 1)] 2 10 0
        []).rr.new_graph.coverage 21 = 5
    ∧ (pruneStateAt exEnvCut exRRClean [(1, 1), (2, 1), (3, 1), (4, 1)] 2 10 0
        []).rr.new_graph.EdgeEnd 21 = 11
    ∧ 11 ∈ (MultiSplit exEnvCut exRRClean 10).1.new_graph.vertexIds
    ∧ (MultiSplit exEnvCut exRRClean 10).1.new_graph.IncomingEdgeCount 11
        + (MultiSplit exEnvCut exRRClean 10).1.new_graph.OutgoingEdgeCount 11 = 0 := by
  refine ⟨?_, ?_, ?_, ?_, ?_, ?_, ?_⟩ <;> decide!

/-- Claim C19 (low-coverage pruning), amended. Let the working graph hold only allocated
identifiers and let `MultiSplit(v)` pass its guards. If the pruning loop of a colour `i`
finds the coverage of an edge `e` returned by `SplitVertex` below `cutting_coverage`, then
when `MultiSplit` returns `e` is no edge of the working graph, no observation of the
paired index is keyed by `e` and `e` is no global cheater. The start vertex of `e` is no
vertex of the working graph at return if it had no incident edge right after `e` was
deleted, and so is the end vertex if the loop tests it (it is neither the start vertex
nor, in conjugate mode, its conjugate). An endpoint that loses its last edge only by the
forced delete of `v` at the end of `MultiSplit` is not covered. -/
theorem C19_pruned_edges_gone (env : Env) (rr : RepeatResolver) (v : VertexId)
    (rr1 : RepeatResolver) (edgeCounts : StdMap Int) (k : Int) (i : Nat)
    (p q : List (EdgeId × EdgeId)) (it : EdgeId × EdgeId)
    (halloc : AllocatedBelow rr.new_graph)
    (hpass : splitGuards env rr v = some (rr1, edgeCounts, k))
    (hi : i < k.toNat)
    (hpairs : prunePairs env v (splitCoverage rr1 edgeCounts k).1
        (splitCoverage rr1 edgeCounts k).2 (splitLoopAt env rr1 edgeCounts k v i) i
      = p ++ it :: q)
    (hlow : (pruneStateAt env rr1 edgeCounts k v i p).rr.new_graph.coverage it.2
      < cutting_coverage env.cfg) :
    it.2 ∉ (MultiSplit env rr v).1.new_graph.edgeIds
    ∧ MixedData.GetEdgeInfos (MultiSplit env rr v).1.paired_di_data it.2 = []
    ∧ it.2 ∉ (MultiSplit env rr v).1.global_cheating_edges
    ∧ (((pruneStateAt env rr1 edgeCounts k v i p).rr.new_graph.DeleteEdge it.2).IncomingEdgeCount
          ((pruneStateAt env rr1 edgeCounts k v i p).rr.new_graph.EdgeStart it.2)
        + ((pruneStateAt env rr1 edgeCounts k v i p).rr.new_graph.DeleteEdge
            it.2).OutgoingEdgeCount
          ((pruneStateAt env rr1 edgeCounts k v i p).rr.new_graph.EdgeStart it.2) = 0 →
        (pruneStateAt env rr1 edgeCounts k v i p).rr.new_graph.EdgeStart it.2
          ∉ (MultiSplit env rr v).1.new_graph.vertexIds)
    ∧ ((if (pruneStateAt env rr1 edgeCounts k v i p).rr.rc_mode then
            decide ((pruneStateAt env rr1 edgeCounts k v i p).rr.new_graph.EdgeStart it.2
              = (pruneStateAt env rr1 edgeCounts k v i p).rr.new_graph.EdgeEnd it.2)
            || decide ((pruneStateAt env rr1 edgeCounts k v i p).rr.new_graph.EdgeStart it.2
              = conj_wrap_vertex
                  ((pruneStateAt env rr1 edgeCounts k v i p).rr.new_graph.DeleteEdge it.2)
                  ((pruneStateAt env rr1 edgeCounts k v i p).rr.new_graph.EdgeEnd it.2))
          else decide ((pruneStateAt env rr1 edgeCounts k v i p).rr.new_graph.EdgeStart it.2
              = (pruneStateAt env rr1 edgeCounts k v i p).rr.new_graph.EdgeEnd it.2)) = false →
        ((pruneStateAt env rr1 edgeCounts k v i p).rr.new_graph.DeleteEdge it.2).IncomingEdgeCount
          ((pruneStateAt env rr1 edgeCounts k v i p).rr.new_graph.EdgeEnd it.2)
        + ((pruneStateAt env rr1 edgeCounts k v i p).rr.new_graph.DeleteEdge
            it.2).OutgoingEdgeCount
          ((pruneStateAt env rr1 edgeCounts k v i p).rr.new_graph.EdgeEnd it.2) = 0 →
        (pruneStateAt env rr1 edgeCounts k v i p).rr.new_graph.EdgeEnd it.2
          ∉ (MultiSplit env rr v).1.new_graph.vertexIds) := by
  have h0 : AllocatedBelow rr1.new_graph := by
    rw [splitGuards_new_graph env rr v rr1 edgeCounts k hpass]; exact halloc
  obtain ⟨hg, hs, ht⟩ := splitPhase_pruned env rr1 edgeCounts k v i p q it h0 hi hpairs hlow
  rw [MultiSplit_of_guards env rr v rr1 edgeCounts k hpass]
  have hv : ∀ x, VertexGone x (splitPhase env rr1 edgeCounts k v).1.new_graph →
      x ∉ (splitPhase env rr1 edgeCounts k v).1.new_graph.vertexIds := by
    intro x hx hin
    unfold Graph.vertexIds at hin
    obtain ⟨r, hr, hrx⟩ := List.mem_map.1 hin
    exact hx.vertex r hr hrx
  refine ⟨?_, ?_, hg.cheat, fun h => hv _ (hs h), fun h1 h2 => hv _ (ht h1 h2)⟩
  · intro hin
    unfold Graph.edgeIds at hin
    obtain ⟨r, hr, hre⟩ := List.mem_map.1 hin
    exact hg.edge r hr hre
  · unfold MixedData.GetEdgeInfos
    rw [List.filter_eq_nil_iff]
    intro p hp
    simp only [decide_eq_true_eq]
    exact hg.index p hp

/-- Claim C19, instance: in the example with cutoff `6` the second pruned edge `22` of
colour `0`, from the old vertex `1` to the new vertex `20`, is gone when `MultiSplit(10)`
returns, and so is its end vertex `20`, which had no edge left once `22` was deleted. -/
theorem C19_pruned_edges_gone_witness :
    22 ∉ (MultiSplit exEnvCut exRRClean 10).1.new_graph.edgeIds
    ∧ MixedData.GetEdgeInfos (MultiSplit exEnvCut exRRClean 10).1.paired_di_data 22 = []
    ∧ 22 ∉ (MultiSplit exEnvCut exRRClean 10).1.global_cheating_edges
    ∧ (pruneStateAt exEnvCut exRRClean [(1, 1), (2, 1), (3, 1), (4, 1)] 2 10 0
        [(1, 21)]).rr.new_graph.EdgeEnd 22 = 20
    ∧ 20 ∉ (MultiSplit exEnvCut exRRClean 10).1.new_graph.vertexIds := by
  have h := C19_pruned_edges_gone exEnvCut exRRClean 10 exRRClean
    [(1, 1), (2, 1), (3, 1), (4, 1)] 2 0 [(1, 21)] [] (3, 22)
    ⟨by decide, by decide, by decide, by decide, by decide⟩
    (by decide!) (by decide) (by decide!) (by decide!)
  have hend : (pruneStateAt exEnvCut exRRClean [(1, 1), (2, 1), (3, 1), (4, 1)] 2 10 0
        [(1, 21)]).rr.new_graph.EdgeEnd 22 = 20 := by decide!
  refine ⟨h.1, h.2.1, h.2.2.1, hend, ?_⟩
  have h5 := h.2.2.2.2 (by decide!) (by decide!)
  rw [hend] at h5
  exact h5

/-- Claim C21 (topological veto): for occurrences `A` and `B` with different first edges
(which is the case whenever the first edges have different provenance), if neither first
edge is a self-loop in the working graph and the two first edges have the same start vertex
or the same end vertex in the working graph, then `isAdjacent(A, B)` is false, whatever the
paired edges, offsets, variances and oracle distances are; the oracle is not asked. -/
theorem C21_topological_veto (env : Env) (A B : EdgeInfo) (old_graph new_graph : Graph)
    (dc : FastDistanceCounter)
    (hdiff : A.lp.first ≠ B.lp.first)
    (hA : new_graph.EdgeStart A.lp.first ≠ new_graph.EdgeEnd A.lp.first)
    (hB : new_graph.EdgeStart B.lp.first ≠ new_graph.EdgeEnd B.lp.first)
    (hshare : new_graph.EdgeStart A.lp.first = new_graph.EdgeStart B.lp.first
      ∨ new_graph.EdgeEnd A.lp.first = new_graph.EdgeEnd B.lp.first) :
    EdgeInfo.isAdjacent env A B old_graph new_graph dc = (false, dc) := by
  unfold EdgeInfo.isAdjacent
  simp only
  rw [if_pos ⟨hdiff, hA, hB, hshare⟩]

/-- Witness for C21: occurrences of the working edges `22` and `25` of `exRRCopies`, which
both start at vertex `1`; their offsets and variances are equal. -/
theorem C21_topological_veto_witness :
    EdgeInfo.isAdjacent exEnv ⟨⟨22, 1, 5, 7, 0⟩, 1, 1, 3⟩ ⟨⟨25, 1, 5, 7, 0⟩, 1, 1, 3⟩
      exRRCopies.old_graph exRRCopies.new_graph [] = (false, []) :=
  C21_topological_veto exEnv ⟨⟨22, 1, 5, 7, 0⟩, 1, 1, 3⟩ ⟨⟨25, 1, 5, 7, 0⟩, 1, 1, 3⟩
    exRRCopies.old_graph exRRCopies.new_graph [] (by decide) (by decide!) (by decide!)
    (Or.inl (by decide!))

/-- Counterexample to C22 (long-edge shortcut): in `exRRCopies` the working edges `22` and
`25` both trace back to the original edge `3` and have length `2`, above
`max_repeat_length = 1`; `isAdjacent` on occurrences of `22` and `25` is nevertheless false
(the two copies start at the same vertex, so the topological veto applies). -/
theorem C22_counterexample :
    StdMap.find exRRCopies.edge_labels 22 = some 3
    ∧ StdMap.find exRRCopies.edge_labels 25 = some 3
    ∧ exRRCopies.new_graph.length 22 = 2
    ∧ exRRCopies.new_graph.length 25 = 2
    ∧ exEnvShort.cfg.rr_max_repeat_length = 1
    ∧ (⟨22, 1, 5, 7, 0⟩ : PairInfo) ∈ exRRCopies.paired_di_data
    ∧ (⟨25, 2, 9, 3, 0⟩ : PairInfo) ∈ exRRCopies.paired_di_data
    ∧ (EdgeInfo.isAdjacent exEnvShort ⟨⟨22, 1, 5, 7, 0⟩, 1, 1, 3⟩ ⟨⟨25, 2, 9, 3, 0⟩, 1, 2, 7⟩
        exRRCopies.old_graph exRRCopies.new_graph []).1 = false := by
  refine ⟨?_, ?_, ?_, ?_, ?_, ?_, ?_, ?_⟩ <;> decide!

/-- Claim C22 as amended (long-edge shortcut): for occurrences `A` and `B` with the same
first edge, the same edge of the working graph and not only the same provenance, if the
length of that edge in the working graph exceeds `max_repeat_length` then `isAdjacent(A, B)`
is true, whatever the paired edges, offsets, variances and oracle distances are; the oracle
is not asked. -/
theorem C22_long_edge_shortcut (env : Env) (A B : EdgeInfo) (old_graph new_graph : Graph)
    (dc : FastDistanceCounter)
    (hsame : A.lp.first = B.lp.first)
    (hlong : new_graph.length A.lp.first > env.cfg.rr_max_repeat_length) :
    EdgeInfo.isAdjacent env A B old_graph new_graph dc = (true, dc) := by
  unfold EdgeInfo.isAdjacent
  simp only
  rw [if_neg (fun h => h.1 hsame), if_pos ⟨hsame, hlong⟩]

/-- Witness for the amended C22: two occurrences of the working edge `22` of `exRRCopies`
with offsets `3` and `300`. -/
theorem C22_long_edge_shortcut_witness :
    EdgeInfo.isAdjacent exEnvShort ⟨⟨22, 1, 5, 7, 0⟩, 1, 1, 3⟩ ⟨⟨22, 2, 305, 3, 0⟩, 1, 2, 300⟩
      exRRCopies.old_graph exRRCopies.new_graph [] = (true, []) :=
  C22_long_edge_shortcut exEnvShort ⟨⟨22, 1, 5, 7, 0⟩, 1, 1, 3⟩ ⟨⟨22, 2, 305, 3, 0⟩, 1, 2, 300⟩
    exRRCopies.old_graph exRRCopies.new_graph [] rfl (by decide!)

/-- Claim C28 (the same-first-edge branch is redundant): when the distance oracle gives
distance `0` from every vertex to itself, `IsEdgesOnDistanceAdjacent` returns the same
answer for `first_equal = true` and `first_equal = false`, all other arguments equal, and
that answer is true exactly when the forward check, the backward check or the identity
check holds. -/
theorem C28_first_equal_redundant (env : Env) (depth : Int) (edge : EdgeId) (d : ℚ)
    (other_edge : EdgeId) (other_d : ℚ) (old_graph : Graph) (max_diff : ℚ)
    (dc : FastDistanceCounter)
    (hself : ∀ x, (FastDistanceCounter.GetDistances env old_graph depth dc x x).1 = 0) :
    (IsEdgesOnDistanceAdjacent env depth edge d other_edge other_d old_graph max_diff true dc).1
      = (IsEdgesOnDistanceAdjacent env depth edge d other_edge other_d old_graph max_diff false
          dc).1
    ∧ ∀ first_equal,
        ((IsEdgesOnDistanceAdjacent env depth edge d other_edge other_d old_graph max_diff
            first_equal dc).1 = true
          ↔ (forwardCheck env depth edge d other_edge other_d old_graph max_diff dc
            ∨ backwardCheck env depth edge d other_edge other_d old_graph max_diff dc
            ∨ (other_edge = edge ∧ |d - other_d| < max_diff))) := by
  have hq := SameAnswers.query env old_graph depth dc (old_graph.EdgeEnd edge)
    (old_graph.EdgeStart other_edge)
  have hall : ∀ first_equal,
      ((IsEdgesOnDistanceAdjacent env depth edge d other_edge other_d old_graph max_diff
          first_equal dc).1 = true
        ↔ (forwardCheck env depth edge d other_edge other_d old_graph max_diff dc
          ∨ backwardCheck env depth edge d other_edge other_d old_graph max_diff dc
          ∨ (other_edge = edge ∧ |d - other_d| < max_diff))) := by
    intro first_equal
    rw [IsEdgesOnDistanceAdjacent_iff]
    unfold forwardCheck backwardCheck
    rw [hq (old_graph.EdgeEnd other_edge) (old_graph.EdgeStart edge)]
    constructor
    · rintro (h | h | h | ⟨_, h | h⟩)
      · exact Or.inl h
      · exact Or.inr (Or.inl h)
      · exact Or.inr (Or.inr h)
      · left
        rw [← h.1, hself]
        simpa using h.2
      · right; left
        rw [← h.1, hself]
        have h2 := h.2
        rw [abs_sub_comm] at h2
        simpa using h2
    · rintro (h | h | h)
      · exact Or.inl h
      · exact Or.inr (Or.inl h)
      · exact Or.inr (Or.inr (Or.inl h))
  refine ⟨?_, hall⟩
  cases h1 : (IsEdgesOnDistanceAdjacent env depth edge d other_edge other_d old_graph max_diff
      true dc).1 with
  | true => exact ((hall false).2 ((hall true).1 h1)).symm
  | false =>
    cases h2 : (IsEdgesOnDistanceAdjacent env depth edge d other_edge other_d old_graph
        max_diff false dc).1 with
    | false => rfl
    | true =>
      have := (hall true).2 ((hall false).1 h2)
      rw [h1] at this
      exact this

/-- Witness for C28: in `exEnvSearch` the bounded search from `s` reaches `s` at distance
`0`; the edges `3` (`1 → 10`) and `1` (`10 → 11`) of `exOld` touch directly, and the answer
for the offsets `7` and `9` is true with and without `first_equal`. -/
theorem C28_first_equal_redundant_witness :
    (IsEdgesOnDistanceAdjacent exEnvSearch 100 3 7 1 9 exOld (1 / 2) true []).1 = true
    ∧ (IsEdgesOnDistanceAdjacent exEnvSearch 100 3 7 1 9 exOld (1 / 2) false []).1 = true := by
  have h := C28_first_equal_redundant exEnvSearch 100 3 7 1 9 exOld (1 / 2) []
    (fun x => by
      rw [GetDistances_value]
      simp [StdMap.find, searchDistance, exEnvSearch])
  have ht : (IsEdgesOnDistanceAdjacent exEnvSearch 100 3 7 1 9 exOld (1 / 2) true []).1 = true := by
    decide!
  exact ⟨ht, h.1 ▸ ht⟩

/-- Claim C30 (the fatal conjugate branch is unreachable without conjugate mode). The
flag `verify_failed` of the embedding is raised by every call of `conj_wrap` on a graph
that is not conjugate-typed. With `rc_mode` off, whatever the flavour of the graphs, the
constructor leaves the flag down, `WrappedSetCoverage` reports no call, `MultiSplit` leaves
the flag as it found it, and so does every run of `ResolveRepeats` that returns: no
execution reaches the `VERIFY(0)` of `conj_wrap`. -/
theorem C30_no_conj_wrap_without_rc (env : Env) (rr : RepeatResolver)
    (hrc : rr.rc_mode = false) :
    (∀ old_graph_ new_graph_ ind, env.cfg.rr_symmetric_resolve = false →
        (RepeatResolver.ctor env old_graph_ ind new_graph_).verify_failed = false
        ∧ (RepeatResolver.ctor env old_graph_ ind new_graph_).rc_mode = false)
    ∧ (∀ g e cov, (WrappedSetCoverage false g e cov).2 = false)
    ∧ (∀ v, (MultiSplit env rr v).1.verify_failed = rr.verify_failed)
    ∧ (∀ fuel result, ResolveRepeats env fuel rr = some result →
        result.verify_failed = rr.verify_failed) := by
  refine ⟨?_, ?_, ?_, ?_⟩
  · intro old_graph_ new_graph_ ind hs
    unfold RepeatResolver.ctor
    simp only [hs]
    exact ⟨ctorEdgeCopy_verify old_graph_ new_graph_, trivial⟩
  · intro g e cov
    rfl
  · intro v
    exact MultiSplit_verify env rr v hrc
  · intro fuel result h
    unfold ResolveRepeats at h
    exact (modeLoop_verify env fuel _ { rr with sum_count := 0 } result hrc h).1

/-- Witness for C30: the run of the example in non-conjugate mode, on non-conjugate
graphs, returns with the flag down. -/
theorem C30_no_conj_wrap_without_rc_witness :
    (RepeatResolver.ctor exEnv exOld exIndClean exNew0).verify_failed = false
    ∧ (RepeatResolver.ctor exEnv exOld exIndClean exNew0).new_graph.conjugate_typed = false
    ∧ ∃ result, ResolveRepeats exEnv 3 (RepeatResolver.ctor exEnv exOld exIndClean exNew0)
          = some result
        ∧ result.verify_failed = false := by
  have hrc : (RepeatResolver.ctor exEnv exOld exIndClean exNew0).rc_mode = false := by decide!
  have h := C30_no_conj_wrap_without_rc exEnv
    (RepeatResolver.ctor exEnv exOld exIndClean exNew0) hrc
  have hc := (h.1 exOld exNew0 exIndClean rfl).1
  refine ⟨hc, by decide!, ?_⟩
  cases hrun : ResolveRepeats exEnv 3 (RepeatResolver.ctor exEnv exOld exIndClean exNew0) with
  | none =>
    have hs : (ResolveRepeats exEnv 3
        (RepeatResolver.ctor exEnv exOld exIndClean exNew0)).isSome = true := by decide!
    rw [hrun] at hs
    exact absurd hs (by decide)
  | some result =>
    exact ⟨result, rfl, (h.2.2.2 3 result hrun).trans hc⟩

/-- Claim C25 (uniform weight epsilon) fails in the orphan-edge handling of `MultiSplit`.
An observation of weight `0.5` is used by the pre-flagging test of the constructor (the
edge is no cheater) and by `GenerateVertexPairedInfo` (it becomes an occurrence), but the
orphan loop reads the weight through `int w = weight` and drops every observation whose
weight lies in `[0, 1)`. In the relaxed mode `2` the orphan edges `2` and `4` of
`exRROrphanHalf` therefore get no occurrence, `MultiSplit(10)` copies only the edges `1`
and `3`, and the edges `2` and `4` leave the working graph with the vertex, while with
weight `7` they are copied. At the weight `1e-8` itself the constructor treats the
observation as absent and `GenerateVertexPairedInfo` uses it. -/
theorem C25_orphan_truncates_weight :
    cheat_edge [⟨2, 4, 5, 1 / 2, 0⟩] = false
    ∧ (collectInfo exEnv exRROrphanHalf 0 ([], [], []) ⟨2, 4, 5, 1 / 2, 0⟩).1.length = 1
    ∧ (∀ (k : Int) (st : List EdgeInfo × List Int × Int) (p : PairInfo),
        0 ≤ p.weight → p.weight < 1 → addOrphanInfos k st p = st)
    ∧ addOrphanInfos 1 ([], [], 0) ⟨2, 4, 5, 1 / 2, 0⟩ = ([], [], 0)
    ∧ (addOrphanInfos 1 ([], [], 0) ⟨2, 4, 5, 7, 0⟩).1.length = 1
    ∧ (splitGuards exEnv exRROrphanHalf 10).map (fun x => x.1.edge_infos.length) = some 2
    ∧ (splitGuards exEnv exRROrphanRelaxed 10).map (fun x => x.1.edge_infos.length) = some 4
    ∧ (MultiSplit exEnv exRROrphanHalf 10).1.split_calls = [(10, [1], [1]), (10, [3], [1])]
    ∧ (MultiSplit exEnv exRROrphanHalf 10).1.new_graph.edgeIds = [21, 23]
    ∧ (MultiSplit exEnv exRROrphanRelaxed 10).1.split_calls
        = [(10, [1], [1]), (10, [2, 3], [1, 1]), (10, [4], [1])]
    ∧ cheat_edge [⟨2, 4, 5, 1 / 100000000, 0⟩] = true
    ∧ (collectInfo exEnv exRROrphanHalf 0 ([], [], []) ⟨2, 4, 5, 1 / 100000000, 0⟩).1.length
        = 1 := by
  refine ⟨?_, ?_, ?_, ?_, ?_, ?_, ?_, ?_, ?_, ?_, ?_, ?_⟩
  · decide!
  · decide!
  · intro k st p h0 h1
    have hz : truncToInt p.weight = 0 := by
      unfold truncToInt
      have hnum : 0 ≤ p.weight.num := Rat.num_nonneg.2 h0
      have hlt : p.weight.num < (p.weight.den : Int) := by
        have := Rat.lt_def.1 h1
        simpa using this
      exact Int.tdiv_eq_zero_of_lt hnum hlt
    unfold addOrphanInfos
    simp only [hz]
    rw [if_pos (by norm_num)]
  · decide!
  · decide!
  · decide!
  · decide!
  · decide!
  · decide!
  · decide!
  · decide!
  · decide!

/-- Counterexample to C24 (multiple copies become global cheaters). In non-conjugate mode
`MultiSplit(10)` on `exRRWeights` passes its guards and leaves the original edge `3` with
the two live copies `22` and `25` (`OldCopyCnt[3] = 2`), and the global cheater set is
empty at return. In conjugate mode `MultiSplit(204)` on `exRRWeightsRc` leaves the edge
`214` with the two live copies `222` and `228`; at return the set holds their conjugates
`223` and `229`, not the copies. -/
theorem C24_counterexample :
    (splitGuards exEnv exRRWeights 10).map Prod.snd = some ([(1, 1), (2, 1), (3, 2), (4, 1)], 2)
    ∧ (splitLoopAt exEnv exRRWeights [(1, 1), (2, 1), (3, 2), (4, 1)] 2 10 2).LiveNewEdges
        = [21, 22, 24, 25, 26]
    ∧ (splitLoopAt exEnv exRRWeights [(1, 1), (2, 1), (3, 2), (4, 1)] 2 10 2).LiveProtoEdges
        = [1, 3, 2, 3, 4]
    ∧ StdMap.get
        (splitLoopAt exEnv exRRWeights [(1, 1), (2, 1), (3, 2), (4, 1)] 2 10 2).OldCopyCnt 3 0
        = 2
    ∧ (MultiSplit exEnv exRRWeights 10).1.new_graph.edgeIds = [21, 22, 24, 25, 26]
    ∧ (MultiSplit exEnv exRRWeights 10).1.global_cheating_edges = []
    ∧ (splitLoopAt exEnvRc exRRWeightsRc [(210, 1), (212, 1), (214, 2), (216, 1)] 2 204
        2).LiveNewEdges = [220, 222, 226, 228, 230]
    ∧ (splitLoopAt exEnvRc exRRWeightsRc [(210, 1), (212, 1), (214, 2), (216, 1)] 2 204
        2).LiveProtoEdges = [210, 214, 212, 214, 216]
    ∧ (MultiSplit exEnvRc exRRWeightsRc 204).1.global_cheating_edges = [223, 229] := by
  refine ⟨?_, ?_, ?_, ?_, ?_, ?_, ?_, ?_, ?_⟩ <;> decide!

/-- Claim C24 as amended (conjugates of multiple copies become global cheaters in
conjugate mode). Let the working graph hold only allocated identifiers, let `rc_mode` be
on and let `MultiSplit(v)` pass its guards. For every live (not pruned) copy `l` of an
original incident edge `p` that the loop left with `OldCopyCnt[p] > 1`, the conjugate
`conj_wrap(l)` of the copy is in the global cheater set when `MultiSplit` returns. Nothing
is said about the copy itself, and in non-conjugate mode the loop of lines 927-948 is not
run. -/
theorem C24_conjugates_of_copies_marked (env : Env) (rr : RepeatResolver) (v : VertexId)
    (rr1 : RepeatResolver) (edgeCounts : StdMap Int) (k : Int) (l p : EdgeId)
    (halloc : AllocatedBelow rr.new_graph)
    (hrc : rr.rc_mode = true)
    (hpass : splitGuards env rr v = some (rr1, edgeCounts, k))
    (hlive : (l, p) ∈ (splitLoopAt env rr1 edgeCounts k v k.toNat).LiveNewEdges.zip
      (splitLoopAt env rr1 edgeCounts k v k.toNat).LiveProtoEdges)
    (hcnt : StdMap.get (splitLoopAt env rr1 edgeCounts k v k.toNat).OldCopyCnt p 0 > 1) :
    conj_wrap_edge (splitLoopAt env rr1 edgeCounts k v k.toNat).rr.new_graph l
      ∈ (MultiSplit env rr v).1.global_cheating_edges := by
  have hg1 := splitGuards_new_graph env rr v rr1 edgeCounts k hpass
  have h0 : AllocatedBelow rr1.new_graph := by rw [hg1]; exact halloc
  have hci := splitLoopAt_copy env rr1 edgeCounts k v k.toNat h0
  have hrc1 : rr1.rc_mode = true := by
    have := MultiSplit_rc_mode env rr v
    rw [MultiSplit_of_guards env rr v rr1 edgeCounts k hpass, splitPhase_rc_mode] at this
    exact this.trans hrc
  have hrcs : (splitLoopAt env rr1 edgeCounts k v k.toNat).rr.rc_mode = true := by
    unfold splitLoopAt
    rw [splitColour_fold_rc_mode]
    exact hrc1
  rw [MultiSplit_of_guards env rr v rr1 edgeCounts k hpass, splitPhase_loopAt]
  unfold splitFinish
  simp only [hrcs, if_true]
  have hmark := processCheaterStep_fold_marks
    (splitLoopAt env rr1 edgeCounts k v k.toNat).OldCopyCnt _
    (splitLoopAt env rr1 edgeCounts k v k.toNat).rr (l, p) hlive hcnt
  have hgr := (processCheaterStep_fold_gone_graph
    (splitLoopAt env rr1 edgeCounts k v k.toNat).OldCopyCnt
    ((splitLoopAt env rr1 edgeCounts k v k.toNat).LiveNewEdges.zip
      (splitLoopAt env rr1 edgeCounts k v k.toNat).LiveProtoEdges)
    (splitLoopAt env rr1 edgeCounts k v k.toNat).rr)
  apply cleanupStep_fold_keeps _ _ _ hmark
  intro e he
  rw [hgr]
  have hlF : rr1.new_graph.fresh ≤ l := hci.live l (List.of_mem_zip hlive).1
  have heF : e < rr1.new_graph.fresh := by
    have hmem := Graph.mem_edgeIds_of_incident rr1.new_graph v e he
    unfold Graph.edgeIds at hmem
    obtain ⟨r, hr, hre⟩ := List.mem_map.1 hmem
    rw [← hre]
    exact h0.ids r hr
  have hx := (hci.conj_wrap_side l).2 hlF
  have hy := (hci.conj_wrap_side e).1 heF
  constructor
  · intro heq
    rw [heq] at hx
    exact absurd heF (Nat.not_lt.2 hx)
  · intro heq
    rw [heq] at hx
    exact absurd hy (Nat.not_lt.2 hx)

/-- Witness for the amended C24: the copy `222` of edge `214` in the conjugate example;
its conjugate is `223`. -/
theorem C24_conjugates_of_copies_marked_witness :
    conj_wrap_edge (splitLoopAt exEnvRc exRRWeightsRc
        [(210, 1), (212, 1), (214, 2), (216, 1)] 2 204 2).rr.new_graph 222 = 223
    ∧ 223 ∈ (MultiSplit exEnvRc exRRWeightsRc 204).1.global_cheating_edges := by
  have hc : conj_wrap_edge (splitLoopAt exEnvRc exRRWeightsRc
      [(210, 1), (212, 1), (214, 2), (216, 1)] 2 204 2).rr.new_graph 222 = 223 := by decide!
  have h := C24_conjugates_of_copies_marked exEnvRc exRRWeightsRc 204 exRRWeightsRc
    [(210, 1), (212, 1), (214, 2), (216, 1)] 2 222 214
    ⟨by decide!, by decide!, by decide!, by decide!, by decide!⟩
    (by decide!) (by decide!) (by decide!) (by decide!)
  have h2 : conj_wrap_edge (splitLoopAt exEnvRc exRRWeightsRc
      [(210, 1), (212, 1), (214, 2), (216, 1)] 2 204 2).rr.new_graph 222
      ∈ (MultiSplit exEnvRc exRRWeightsRc 204).1.global_cheating_edges := h
  rw [hc] at h2
  exact ⟨hc, h2⟩

/-- Counterexample to C26 as stated: with the coverage cutoff `6`, `MultiSplit(10)` on the
clean example passes its guards, splits two colours and returns the vertices `20` and `23`,
but the pruning loop deletes every edge of both and with them the two vertices: the working
graph at return holds the vertices `1`, `2`, `11`, `12` only. -/
theorem C26_counterexample :
    (splitGuards exEnvCut exRRClean 10).isSome = true
    ∧ (MultiSplit exEnvCut exRRClean 10).2 = [20, 23]
    ∧ (MultiSplit exEnvCut exRRClean 10).1.new_graph.vertexIds = [1, 2, 11, 12]
    ∧ ¬ (∀ x ∈ (MultiSplit exEnvCut exRRClean 10).2,
          x ∈ (MultiSplit exEnvCut exRRClean 10).1.new_graph.vertexIds) := by
  refine ⟨?_, ?_, ?_, ?_⟩ <;> decide!

/-- Amended C26: when `MultiSplit(v)` passes its guards, the returned list holds exactly one
vertex per `SplitVertex` call made, every returned vertex was created by the split (its id
was not allocated before), and if the pruning loop deleted no edge and `v` is a vertex id
allocated before, every returned vertex is in the working graph at return. -/
theorem C26_returned_vertices (env : Env) (rr : RepeatResolver) (v : VertexId)
    (rr1 : RepeatResolver) (edgeCounts : StdMap Int) (k : Int)
    (halloc : AllocatedBelow rr.new_graph)
    (hpass : splitGuards env rr v = some (rr1, edgeCounts, k)) :
    (MultiSplit env rr v).2.length + rr.split_calls.length
        = (MultiSplit env rr v).1.split_calls.length
      ∧ (∀ x ∈ (MultiSplit env rr v).2, rr.new_graph.fresh ≤ x)
      ∧ (v < rr.new_graph.fresh →
          (splitLoopAt env rr1 edgeCounts k v k.toNat).low_coverage = 0 →
          ∀ x ∈ (MultiSplit env rr v).2, x ∈ (MultiSplit env rr v).1.new_graph.vertexIds) := by
  have hg1 := splitGuards_new_graph env rr v rr1 edgeCounts k hpass
  have hc1 := splitGuards_split_calls env rr v rr1 edgeCounts k hpass
  have h0 : AllocatedBelow rr1.new_graph := by rw [hg1]; exact halloc
  have hri := splitLoopAt_res env rr1 edgeCounts k v k.toNat h0
  have hpi := splitLoopAt_inv env rr1 edgeCounts k v k.toNat h0
  obtain ⟨f1, f2⟩ := splitFinish_graph_calls v
    (rr1.new_graph.OutgoingEdges v ++ rr1.new_graph.IncomingEdges v)
    (splitLoopAt env rr1 edgeCounts k v k.toNat)
  rw [MultiSplit_of_guards env rr v rr1 edgeCounts k hpass, splitPhase_loopAt]
  simp only
  rw [f1, f2, ← hg1, ← hc1]
  refine ⟨hri.calls, hri.created, ?_⟩
  intro hv hz x hx
  exact Graph.ForceDeleteVertex_keeps_new hpi.graph hri.vold v x hv (hri.created x hx)
    (hri.present hz x hx)

/-- Witness for the amended C26: without pruning (cutoff `0`), `MultiSplit(10)` on the clean
example returns `20` and `23`, one per `SplitVertex` call, both in the working graph. -/
theorem C26_returned_vertices_witness :
    (MultiSplit exEnv exRRClean 10).2 = [20, 23]
    ∧ (MultiSplit exEnv exRRClean 10).2.length + exRRClean.split_calls.length
        = (MultiSplit exEnv exRRClean 10).1.split_calls.length
    ∧ (∀ x ∈ (MultiSplit exEnv exRRClean 10).2, exRRClean.new_graph.fresh ≤ x)
    ∧ ∀ x ∈ (MultiSplit exEnv exRRClean 10).2,
        x ∈ (MultiSplit exEnv exRRClean 10).1.new_graph.vertexIds := by
  cases hs : splitGuards exEnv exRRClean 10 with
  | none =>
    have hsome : (splitGuards exEnv exRRClean 10).isSome = true := by decide!
    rw [hs] at hsome
    exact absurd hsome (by decide)
  | some t =>
    obtain ⟨rr1, edgeCounts, k⟩ := t
    have h := C26_returned_vertices exEnv exRRClean 10 rr1 edgeCounts k
      ⟨by decide!, by decide!, by decide!, by decide!, by decide!⟩ hs
    have hlow : (splitLoopAt exEnv rr1 edgeCounts k 10 k.toNat).low_coverage = 0 := by
      have hd : ((splitGuards exEnv exRRClean 10).map
          (fun t => (splitLoopAt exEnv t.1 t.2.1 t.2.2 10 t.2.2.toNat).low_coverage))
          = some 0 := by decide!
      rw [hs] at hd
      exact Option.some.inj hd
    exact ⟨by decide!, h.1, h.2.1, h.2.2 (by decide!) hlow⟩

/-- C29: on adjacency lists over the indices `0..n-1` in which `j` is listed under `i`
exactly when `i` is listed under `j`, the colouring loop (a `dfs` from each still
uncoloured index in increasing order, with a fresh colour each time) returns for every
recursion bound above `n`, the bound both callers use, and the flag of the branch that
logs a colour conflict is still unset. -/
theorem C29_no_colour_conflict (edge_list : List (List Nat)) (n fuel : Nat)
    (hfuel : n < fuel)
    (hrange : ∀ i j, j ∈ edge_list.getD i [] → j < n)
    (hsym : ∀ i j, j ∈ edge_list.getD i [] → i ∈ edge_list.getD j []) :
    ∃ colors c, colourLoop fuel edge_list (List.range n) (List.replicate n (-1), false) 0
      = some ((colors, false), c) := by
  obtain ⟨col2, c2, h, _⟩ := colourLoop_spec edge_list n fuel hfuel hrange hsym (List.range n)
    (List.replicate n (-1)) 0 (by decide) (Labelled.start edge_list n)
  exact ⟨col2, c2, h⟩

/-- Witness for C29: four indices, `0` and `2` adjacent, `1` with a self loop, `3` alone. -/
theorem C29_no_colour_conflict_witness :
    ∃ colors c, colourLoop 5 [[2], [1], [0], []] (List.range 4)
      (List.replicate 4 (-1), false) 0 = some ((colors, false), c) :=
  C29_no_colour_conflict [[2], [1], [0], []] 4 5 (by decide)
    (by
      intro i j hj
      match i, hj with
      | 0, hj => simp at hj; omega
      | 1, hj => simp at hj; omega
      | 2, hj => simp at hj; omega
      | 3, hj => simp at hj
      | (k + 4), hj => simp at hj)
    (by
      intro i j hj
      match i, hj with
      | 0, hj => simp at hj; subst hj; simp
      | 1, hj => simp at hj; subst hj; simp
      | 2, hj => simp at hj; subst hj; simp
      | 3, hj => simp at hj
      | (k + 4), hj => simp at hj)

/-- C23: the colouring loop of `RectangleResolveVertex` over the `n` occurrences returns
(without the conflict branch), and in its result every index `0..n-1` has a colour in
`0..c-1`, two indices have the same colour exactly when they lie in the same connected
component of the undirected graph whose edges are the pairs `(i, j)` with
`isAdjacent(occurrence i, occurrence j)`, every colour `0..c-1` is used, and `c` is the
number of components. -/
theorem C23_colouring_is_component_labelling (env : Env) (rr : RepeatResolver) :
    ∃ colors c,
      colourLoop (rr.edge_infos.length + 1) (buildNeighbours env rr).1
          (List.range rr.edge_infos.length)
          (List.replicate rr.edge_infos.length (-1), false) 0 = some ((colors, false), c)
      ∧ colors.length = rr.edge_infos.length
      ∧ (∀ i, i < rr.edge_infos.length → 0 ≤ colors.getD i 0 ∧ colors.getD i 0 < c)
      ∧ (∀ i j, i < rr.edge_infos.length → j < rr.edge_infos.length →
          (colors.getD i 0 = colors.getD j 0 ↔ sameComponent env rr i j))
      ∧ (∀ k, 0 ≤ k → k < c → ∃ i, i < rr.edge_infos.length ∧ colors.getD i 0 = k)
      ∧ (Nat.card (Quotient (componentSetoid env rr)) : Int) = c := by
  have hE := buildNeighbours_mem env rr
  have hrange : ∀ i j, j ∈ (buildNeighbours env rr).1.getD i [] → j < rr.edge_infos.length := by
    intro i j hj
    rcases (hE i j).1 hj with h | h
    · exact (occAdjacent_lt env rr i j h).2
    · exact (occAdjacent_lt env rr j i h).1
  have hsym : ∀ i j, j ∈ (buildNeighbours env rr).1.getD i [] →
      i ∈ (buildNeighbours env rr).1.getD j [] :=
    fun i j h => (hE j i).2 (((hE i j).1 h).symm)
  obtain ⟨col, c, h1, h2, h3, _, h5⟩ := colourLoop_spec (buildNeighbours env rr).1
    rr.edge_infos.length (rr.edge_infos.length + 1) (Nat.lt_succ_self _) hrange hsym
    (List.range rr.edge_infos.length) (List.replicate rr.edge_infos.length (-1)) 0
    (by decide) (Labelled.start _ _)
  have hcol : ∀ i, i < rr.edge_infos.length → 0 ≤ col.getD i 0 ∧ col.getD i 0 < c := by
    intro i hi
    rcases h3.range i hi with h | h
    · exact absurd h (h5 i (List.mem_range.2 hi))
    · exact h
  have hsame : ∀ i j, i < rr.edge_infos.length → j < rr.edge_infos.length →
      (col.getD i 0 = col.getD j 0 ↔ sameComponent env rr i j) := by
    intro i j hi hj
    unfold sameComponent
    rw [← Reach.iff_eqvGen hE i j]
    constructor
    · intro heq
      obtain ⟨r, _, _, hr3⟩ := h3.root (col.getD i 0) (hcol i hi).1 (hcol i hi).2
      exact Relation.ReflTransGen.trans (Reach.reach_symm hsym (hr3 i hi rfl))
        (hr3 j hj heq.symm)
    · intro hr
      exact (h3.reach_colour hrange hi (h5 i (List.mem_range.2 hi)) hr).1.symm
  have hroot : ∀ k, 0 ≤ k → k < c → ∃ i, i < rr.edge_infos.length ∧ col.getD i 0 = k := by
    intro k hk0 hk
    obtain ⟨r, hr1, hr2, _⟩ := h3.root k hk0 hk
    exact ⟨r, hr1, hr2⟩
  refine ⟨col, c, h1, h3.length, hcol, hsame, hroot, ?_⟩
  apply card_components rr.edge_infos.length (componentSetoid env rr) col c (by omega) hcol
    ?_ hroot
  intro a b
  exact (hsame a.1 b.1 a.2 b.2).symm

end debruijn_graph
